import Mathlib

/-!
# SearchServer: a shallow embedding of the TF-IDF search engine

The C++ containers are embedded as lists: `std::map<K, V>` is the list of its
entries in iteration order, `std::set<K>` the list of its members in iteration
order, `std::vector<T>` a list.  `std::string` / `std::string_view` values are
lists of characters.  `double` quantities are embedded in an arbitrary linearly
ordered field `α` (exact arithmetic); the natural logarithm is a parameter
`ln : α → α` of the functions that call `log`, so that the same definitions can be
run over `ℚ` and reasoned about over `ℝ` with `Real.log`.  Where the rounding of
`double` matters, which is the accumulation of term frequencies in `AddDocument`, the
embedding is repeated with the rounding as a parameter `fl` (`AddDocumentFl`), and
`roundBinary64` is the rounding of IEEE 754 binary64 on the rationals.
-/

/-! ## `std::map` and `std::set` -/

/-- Embedding of `std::string_view`: the characters of the string. -/
abbrev StringView := List Char

/-- Embedding of `std::map<K, V>`: the entries, in iteration order. -/
abbrev StdMap (K V : Type) := List (K × V)

/-- Embedding of `std::set<K>`: the members, in iteration order. -/
abbrev StdSet (K : Type) := List K

/-- Abnormal ends of a call: `std::invalid_argument` is thrown explicitly and
`std::out_of_range` by `std::map::at`, and a caller can catch both; `terminate` stands for
the call of `std::terminate`, which ends the process and which no caller can catch. -/
inductive Exception where
  | invalid_argument
  | out_of_range
  | terminate
  deriving DecidableEq, Repr

namespace StdMap

variable {K V : Type} [LinearOrder K]

/-- The keys of the map, in iteration order. -/
def keys (m : StdMap K V) : List K := m.map Prod.fst

/-- Embedding of `map::find(k)`: the mapped value when the key is present (`none` stands for `end()`). -/
def find : StdMap K V → K → Option V
  | [], _ => none
  | (k', v) :: t, k => if k = k' then some v else find t k

/-- Embedding of `map::count(k)`. -/
def count (m : StdMap K V) (k : K) : Nat := if (find m k).isSome then 1 else 0

/-- Embedding of `map::at(k)`: throws `std::out_of_range` when the key is absent. -/
def atKey (m : StdMap K V) (k : K) : Except Exception V :=
  match find m k with
  | some v => .ok v
  | none => .error .out_of_range

/-- Insertion of a new entry at its place in the key order. -/
def insertSorted (k : K) (v : V) : StdMap K V → StdMap K V
  | [] => [(k, v)]
  | (k', v') :: t => if k < k' then (k, v) :: (k', v') :: t else (k', v') :: insertSorted k v t

/-- Replacement of the value stored under a key that is present. -/
def mapAt (k : K) (f : V → V) : StdMap K V → StdMap K V
  | [] => []
  | (k', v) :: t => if k = k' then (k', f v) :: t else (k', v) :: mapAt k f t

/-- The compound `m[k] = f(m[k])`: `operator[]` value-initialises a missing entry with
`d` and returns a reference to the mapped value, through which `f` is applied. -/
def update (m : StdMap K V) (k : K) (d : V) (f : V → V) : StdMap K V :=
  match find m k with
  | some _ => mapAt k f m
  | none => insertSorted k (f d) m

/-- Embedding of `map::emplace(k, v)`: inserts only when the key is absent. -/
def emplace (m : StdMap K V) (k : K) (v : V) : StdMap K V := update m k v id

/-- Embedding of `map::erase(k)`. -/
def erase (m : StdMap K V) (k : K) : StdMap K V := m.filter (fun p => !decide (p.1 = k))

end StdMap

namespace StdSet

variable {K : Type} [LinearOrder K]

/-- Embedding of `set::count(k)`. -/
def count (s : StdSet K) (k : K) : Nat := if k ∈ s then 1 else 0

/-- Insertion of a new member at its place in the order. -/
def insertSorted (k : K) : StdSet K → StdSet K
  | [] => [k]
  | k' :: t => if k < k' then k :: k' :: t else k' :: insertSorted k t

/-- Embedding of `set::insert(k)`: no effect when the member is present. -/
def insert (s : StdSet K) (k : K) : StdSet K := if k ∈ s then s else insertSorted k s

/-- Embedding of `set::erase(k)`. -/
def erase (s : StdSet K) (k : K) : StdSet K := s.filter (fun x => !decide (x = k))

end StdSet

/-! ## string_processing -/

/-- Embedding of `text.substr(pos, n)`. -/
def substr (text : StringView) (pos n : Nat) : StringView := (text.drop pos).take n

/-- Loop state of `SplitIntoWords`. -/
structure SplitState where
  words : List StringView
  offset : Nat
  i : Nat
  word_begin : Bool

/-- One iteration of the `for (const char c : text)` loop of `SplitIntoWords`. -/
def SplitIntoWords.step (text : StringView) (st : SplitState) (c : Char) : SplitState :=
  if c ≠ ' ' ∧ st.word_begin = true then
    { st with offset := st.i, word_begin := false, i := st.i + 1 }
  else if c = ' ' ∧ st.word_begin = false then
    { st with words := st.words ++ [substr text st.offset (st.i - st.offset)],
              word_begin := true, i := st.i + 1 }
  else
    { st with i := st.i + 1 }

/-- Embedding of `SplitIntoWords(text)`. -/
def SplitIntoWords (text : StringView) : List StringView :=
  let st := text.foldl (SplitIntoWords.step text) ⟨[], 0, 0, true⟩
  if text ≠ [] ∧ text.getLast? ≠ some ' ' then
    st.words ++ [substr text st.offset (st.i - st.offset)]
  else
    st.words

/-- Embedding of `MakeUniqueNonEmptyStrings(strings)`. -/
def MakeUniqueNonEmptyStrings (strings : List StringView) : StdSet StringView :=
  strings.foldl (fun non_empty_strings str =>
    if str ≠ [] then StdSet.insert non_empty_strings str else non_empty_strings) []

/-! ## document.h -/

/-- Modelled from the spec: `document.h` is not among the sources; the spec lists the
document statuses ACTUAL, IRRELEVANT, BANNED, REMOVED. -/
inductive DocumentStatus where
  | ACTUAL
  | IRRELEVANT
  | BANNED
  | REMOVED
  deriving DecidableEq, Repr

/-- Modelled from the spec: `document.h` is not among the sources; a scored result is a
document id, a relevance and a rating (`{ document_id, relevance, rating }` in
`FindAllDocuments`). -/
structure Document (α : Type) where
  id : Int
  relevance : α
  rating : Int
  deriving DecidableEq, Repr

/-! ## search_server -/

/-- Embedding of `MAX_RESULT_DOCUMENT_COUNT`. -/
def MAX_RESULT_DOCUMENT_COUNT : Nat := 5

/-- Embedding of `SearchServer::DocumentData`. -/
structure DocumentData where
  rating : Int
  status : DocumentStatus
  deriving DecidableEq, Repr

/-- The data members of `class SearchServer`. -/
structure SearchServer (α : Type) where
  stop_words_ : StdSet StringView
  words_ : StdSet StringView
  word_to_document_freqs_ : StdMap StringView (StdMap Int α)
  document_to_word_freqs_ : StdMap Int (StdMap StringView α)
  documents_ : StdMap Int DocumentData
  document_ids_ : StdSet Int

/-- Embedding of `SearchServer::Query`. -/
structure Query where
  plus_words : StdSet StringView
  minus_words : StdSet StringView
  deriving DecidableEq, Repr

/-- Embedding of `SearchServer::QueryWord`. -/
structure QueryWord where
  data : StringView
  is_minus : Bool
  is_stop : Bool
  deriving DecidableEq, Repr

/-- Conversion to `int` on a two's-complement target: the representative of `x`
modulo `2^32` in `[-2^31, 2^31)`. -/
def wrapInt32 (x : Int) : Int := (x + 2147483648) % 4294967296 - 2147483648

namespace SearchServer

variable {α : Type} [LinearOrderedField α]

/-- Embedding of `SearchServer::IsValidWord`: no character `c` with `c >= '\0' && c < ' '`. -/
def IsValidWord (word : StringView) : Bool :=
  word.all (fun c => !(decide ('\x00'.toNat ≤ c.toNat) && decide (c.toNat < ' '.toNat)))

/-- The templated constructor `SearchServer(const StringContainer& stop_words)`. -/
def create (stop_words : List StringView) : Except Exception (SearchServer α) :=
  let stop_words_ := MakeUniqueNonEmptyStrings stop_words
  if ¬ stop_words_.all IsValidWord then .error .invalid_argument
  else .ok ⟨stop_words_, [], [], [], [], []⟩

/-- The constructors taking the stop words as one text. -/
def createFromText (stop_words_text : StringView) : Except Exception (SearchServer α) :=
  create (SplitIntoWords stop_words_text)

/-- Embedding of `SearchServer::IsStopWord`. -/
def IsStopWord (s : SearchServer α) (word : StringView) : Bool :=
  decide (StdSet.count s.stop_words_ word > 0)

/-- The loop of `SplitIntoWordsNoStopAndAddWords` over the remaining tokens: `pool` is
`words_`, `words` the vector built so far.  The pool keeps the terms interned before a
throw. -/
def SplitIntoWordsNoStopAndAddWords.loop (stop_words_ : StdSet StringView) :
    List StringView → StdSet StringView → List StringView →
      StdSet StringView × Except Exception (List StringView)
  | [], pool, words => (pool, .ok words)
  | word :: rest, pool, words =>
    if ¬ IsValidWord word then (pool, .error .invalid_argument)
    else if ¬ (decide (StdSet.count stop_words_ word > 0)) then
      SplitIntoWordsNoStopAndAddWords.loop stop_words_ rest (StdSet.insert pool word) (words ++ [word])
    else SplitIntoWordsNoStopAndAddWords.loop stop_words_ rest pool words

/-- Embedding of `SearchServer::SplitIntoWordsNoStopAndAddWords`: the server after the call and the
returned vector, or the exception thrown. -/
def SplitIntoWordsNoStopAndAddWords (s : SearchServer α) (text : StringView) :
    SearchServer α × Except Exception (List StringView) :=
  let r := SplitIntoWordsNoStopAndAddWords.loop s.stop_words_ (SplitIntoWords text) s.words_ []
  ({ s with words_ := r.1 }, r.2)

/-- Embedding of `SearchServer::ComputeAverageRating`, with `int` arithmetic wrapping modulo `2^32`. -/
def ComputeAverageRating (ratings : List Int) : Int :=
  if ratings.isEmpty then 0
  else
    let rating_sum := ratings.foldl (fun rating_sum rating => wrapInt32 (rating_sum + rating)) 0
    wrapInt32 (Int.tdiv rating_sum (wrapInt32 (ratings.length : Int)))

/-- One iteration of the `for (string_view word : words)` loop of `AddDocument`. -/
def AddDocument.step (document_id : Int) (inv_word_count : α) (s : SearchServer α)
    (word : StringView) : SearchServer α :=
  { s with
    word_to_document_freqs_ :=
      StdMap.update s.word_to_document_freqs_ word []
        (fun docs => StdMap.update docs document_id 0 (fun x => x + inv_word_count)),
    document_to_word_freqs_ :=
      StdMap.update s.document_to_word_freqs_ document_id []
        (fun ws => StdMap.update ws word 0 (fun x => x + inv_word_count)) }

/-- Embedding of `SearchServer::AddDocument`: the server after the call, and the exception when one is
thrown. -/
def AddDocument (s : SearchServer α) (document_id : Int) (document : StringView)
    (status : DocumentStatus) (ratings : List Int) : SearchServer α × Except Exception Unit :=
  if document_id < 0 ∨ StdMap.count s.documents_ document_id > 0 then
    (s, .error .invalid_argument)
  else
    match SplitIntoWordsNoStopAndAddWords s document with
    | (s1, .error e) => (s1, .error e)
    | (s1, .ok words) =>
      let inv_word_count : α := 1 / (words.length : α)
      let s2 := words.foldl (AddDocument.step document_id inv_word_count) s1
      ({ s2 with
          documents_ := StdMap.emplace s2.documents_ document_id
            ⟨ComputeAverageRating ratings, status⟩,
          document_ids_ := StdSet.insert s2.document_ids_ document_id }, .ok ())

/-- Embedding of `SearchServer::GetDocumentCount`. -/
def GetDocumentCount (s : SearchServer α) : Nat := s.documents_.length

/-- The range `begin() .. end()` of the server: the document ids in ascending order. -/
def documentIds (s : SearchServer α) : List Int := s.document_ids_

/-- Embedding of `SearchServer::GetWordFrequencies`. -/
def GetWordFrequencies (s : SearchServer α) (document_id : Int) : StdMap StringView α :=
  match StdMap.find s.document_to_word_freqs_ document_id with
  | none => []
  | some word_freqs => word_freqs

/-- Embedding of `SearchServer::RemoveDocument` (sequenced policy): the server after the call, and the
exception when one is thrown. -/
def RemoveDocument (s : SearchServer α) (document_id : Int) :
    SearchServer α × Except Exception Unit :=
  if document_id ∉ s.document_ids_ then (s, .error .invalid_argument)
  else
    let forward := StdMap.update s.document_to_word_freqs_ document_id [] id
    let document_words := (StdMap.find forward document_id).getD []
    let forward := StdMap.mapAt document_id (fun _ => []) forward
    let inverted := document_words.foldl
      (fun inverted word =>
        StdMap.update inverted word.1 [] (fun docs => StdMap.erase docs document_id))
      s.word_to_document_freqs_
    ({ s with
        word_to_document_freqs_ := inverted,
        document_to_word_freqs_ := StdMap.erase forward document_id,
        documents_ := StdMap.erase s.documents_ document_id,
        document_ids_ := StdSet.erase s.document_ids_ document_id }, .ok ())

/-- Embedding of `SearchServer::ParseQueryWord`. -/
def ParseQueryWord (s : SearchServer α) (text : StringView) : Except Exception QueryWord :=
  if text = [] then .error .invalid_argument
  else
    let is_minus : Bool := decide (text.head? = some '-')
    let text : StringView := if is_minus then substr text 1 (text.length - 1) else text
    if text = [] ∨ text.head? = some '-' ∨ ¬ IsValidWord text then .error .invalid_argument
    else .ok ⟨text, is_minus, IsStopWord s text⟩

/-- The `for (QueryWord& query_word : query_words)` loop body of `ParseQuery`. -/
def ParseQuery.step (result : Query) (query_word : QueryWord) : Query :=
  if ¬ query_word.is_stop then
    if query_word.is_minus then
      { result with minus_words := StdSet.insert result.minus_words query_word.data }
    else
      { result with plus_words := StdSet.insert result.plus_words query_word.data }
  else result

/-- The `std::transform(policy, ...)` of `ParseQuery`: `ParseQueryWord` applied to every
token, in order.  The algorithm is called with an execution policy, so an exception that
leaves `ParseQueryWord` does not reach the caller of `ParseQuery`: the library calls
`std::terminate` (for every standard policy, `seq` included), whatever was thrown. -/
def ParseQuery.transform (s : SearchServer α) : List StringView → Except Exception (List QueryWord)
  | [] => .ok []
  | word :: rest =>
    match ParseQueryWord s word with
    | .error _ => .error .terminate
    | .ok query_word =>
      match ParseQuery.transform s rest with
      | .error e => .error e
      | .ok query_words => .ok (query_word :: query_words)

/-- Embedding of `SearchServer::ParseQuery`. -/
def ParseQuery (s : SearchServer α) (text : StringView) : Except Exception Query :=
  match ParseQuery.transform s (SplitIntoWords text) with
  | .error e => .error e
  | .ok query_words => .ok (query_words.foldl ParseQuery.step ⟨[], []⟩)

/-- Embedding of `SearchServer::ComputeWordInverseDocumentFreq`: `log` is the parameter `ln`. -/
def ComputeWordInverseDocumentFreq (ln : α → α) (s : SearchServer α) (word : StringView) :
    Except Exception α :=
  match StdMap.atKey s.word_to_document_freqs_ word with
  | .error e => .error e
  | .ok docs => .ok (ln ((GetDocumentCount s : α) * 1 / (docs.length : α)))

end SearchServer

/-! ## concurrent_map -/

/-- Application of `f` to the element at position `n` of a vector. -/
def modifyNth {β : Type} (f : β → β) : Nat → List β → List β
  | _, [] => []
  | 0, x :: xs => f x :: xs
  | n + 1, x :: xs => x :: modifyNth f n xs

/-- Embedding of `ConcurrentMap<int, V>`: the vector `maps_` of shards (the mutexes guard the shards
and carry no data). -/
structure ConcurrentMap (V : Type) where
  maps_ : List (StdMap Int V)

namespace ConcurrentMap

variable {V : Type}

/-- The constructor `ConcurrentMap(bucket_count)`. -/
def create (bucket_count : Nat) : ConcurrentMap V := ⟨List.replicate bucket_count []⟩

/-- The shard of a key: `uint64_t ukey = key; ukey % maps_.size()`. -/
def index (cm : ConcurrentMap V) (key : Int) : Nat :=
  (key % 18446744073709551616).toNat % cm.maps_.length

/-- The compound `cm[key].ref_to_value = f(cm[key].ref_to_value)`: `operator[]` creates a
missing entry with the value-initialised `d` in the shard of the key. -/
def access (cm : ConcurrentMap V) (key : Int) (d : V) (f : V → V) : ConcurrentMap V :=
  ⟨modifyNth (fun m => StdMap.update m key d f) (index cm key) cm.maps_⟩

/-- Embedding of `ConcurrentMap::erase`. -/
def erase (cm : ConcurrentMap V) (key : Int) : ConcurrentMap V :=
  ⟨modifyNth (fun m => StdMap.erase m key) (index cm key) cm.maps_⟩

/-- The range `begin() .. end()`: the flattening iterator walks the shards in index
order and every shard in key order. -/
def toList (cm : ConcurrentMap V) : List (Int × V) := cm.maps_.flatten

end ConcurrentMap

/-! ## FindAllDocuments and FindTopDocuments -/

/-- The execution policies used by the callers: `std::execution::seq` and
`std::execution::par`. -/
inductive Policy where
  | seq
  | par
  deriving DecidableEq, Repr

/-- The type of a document predicate `(document_id, status, rating) -> bool`. -/
abbrev DocumentPredicate := Int → DocumentStatus → Int → Bool

namespace SearchServer

variable {α : Type} [LinearOrderedField α]

/-- The inner loop over the inverted entry of one plus word in `FindAllDocuments`. -/
def FindAllDocuments.scoreDocs (s : SearchServer α) (document_predicate : DocumentPredicate)
    (inverse_document_freq : α) :
    List (Int × α) → ConcurrentMap α → Except Exception (ConcurrentMap α)
  | [], acc => .ok acc
  | (document_id, term_freq) :: rest, acc =>
    match StdMap.atKey s.documents_ document_id with
    | .error e => .error e
    | .ok document_data =>
      if document_predicate document_id document_data.status document_data.rating then
        FindAllDocuments.scoreDocs s document_predicate inverse_document_freq rest
          (ConcurrentMap.access acc document_id 0
            (fun x => x + term_freq * inverse_document_freq))
      else
        FindAllDocuments.scoreDocs s document_predicate inverse_document_freq rest acc

/-- The body of the `for_each` over the plus words in `FindAllDocuments`. -/
def FindAllDocuments.plusWord (ln : α → α) (s : SearchServer α)
    (document_predicate : DocumentPredicate) (acc : ConcurrentMap α) (word : StringView) :
    Except Exception (ConcurrentMap α) :=
  match StdMap.find s.word_to_document_freqs_ word with
  | none => .ok acc
  | some docs =>
    match ComputeWordInverseDocumentFreq ln s word with
    | .error e => .error e
    | .ok inverse_document_freq =>
      FindAllDocuments.scoreDocs s document_predicate inverse_document_freq docs acc

/-- The `for_each` over the plus words, executed in the order of the set. -/
def FindAllDocuments.plusWords (ln : α → α) (s : SearchServer α)
    (document_predicate : DocumentPredicate) :
    List StringView → ConcurrentMap α → Except Exception (ConcurrentMap α)
  | [], acc => .ok acc
  | word :: rest, acc =>
    match FindAllDocuments.plusWord ln s document_predicate acc word with
    | .error e => .error e
    | .ok acc1 => FindAllDocuments.plusWords ln s document_predicate rest acc1

/-- The body of the loop over the minus words in `FindAllDocuments`. -/
def FindAllDocuments.minusWord (s : SearchServer α) (acc : ConcurrentMap α)
    (word : StringView) : ConcurrentMap α :=
  match StdMap.find s.word_to_document_freqs_ word with
  | none => acc
  | some docs => docs.foldl (fun acc p => ConcurrentMap.erase acc p.1) acc

/-- The loop that drains the accumulator into `matched_documents`. -/
def FindAllDocuments.drain (s : SearchServer α) :
    List (Int × α) → Except Exception (List (Document α))
  | [] => .ok []
  | (document_id, relevance) :: rest =>
    match StdMap.atKey s.documents_ document_id with
    | .error e => .error e
    | .ok document_data =>
      match FindAllDocuments.drain s rest with
      | .error e => .error e
      | .ok matched_documents =>
        .ok (⟨document_id, relevance, document_data.rating⟩ :: matched_documents)

/-- The overload `FindAllDocuments(document_to_relevance, policy, query, predicate)`. -/
def FindAllDocumentsWith (ln : α → α) (s : SearchServer α)
    (document_to_relevance : ConcurrentMap α) (query : Query)
    (document_predicate : DocumentPredicate) : Except Exception (List (Document α)) :=
  match FindAllDocuments.plusWords ln s document_predicate query.plus_words
      document_to_relevance with
  | .error e => .error e
  | .ok acc =>
    FindAllDocuments.drain s
      (ConcurrentMap.toList (query.minus_words.foldl (FindAllDocuments.minusWord s) acc))

/-- The number of shards of the accumulator under each policy. -/
def bucketCount : Policy → Nat
  | .seq => 1
  | .par => 240

/-- The overloads `FindAllDocuments(policy, query, predicate)`. -/
def FindAllDocuments (ln : α → α) (s : SearchServer α) (policy : Policy) (query : Query)
    (document_predicate : DocumentPredicate) : Except Exception (List (Document α)) :=
  FindAllDocumentsWith ln s (ConcurrentMap.create (bucketCount policy)) query
    document_predicate

/-- The comparator passed to `sort` in `FindTopDocuments`. -/
def FindTopDocuments.comp (lhs rhs : Document α) : Bool :=
  if |lhs.relevance - rhs.relevance| < 1 / 1000000 then decide (lhs.rating > rhs.rating)
  else decide (lhs.relevance > rhs.relevance)

end SearchServer

/-- The linear insertion of `std::sort`: `val` is moved towards the front past the
elements `x` at the back of the sorted part for which `comp val x` holds. -/
def linearInsert {β : Type} (comp : β → β → Bool) (val : β) (sorted : List β) : List β :=
  (sorted.reverse.dropWhile (fun x => comp val x)).reverse ++
    val :: (sorted.reverse.takeWhile (fun x => comp val x)).reverse

/-- One step of the insertion sort: an element that compares before the first one goes
to the front, any other is inserted linearly from the back. -/
def insertionStep {β : Type} (comp : β → β → Bool) (sorted : List β) (val : β) : List β :=
  match sorted with
  | [] => [val]
  | first :: _ => if comp val first then val :: sorted else linearInsert comp val sorted

/-- Embedding of `std::sort(first, last, comp)` as the insertion sort that the library runs
on a range of at most 16 elements.  On a longer range the library partitions the range first,
and elements that compare equivalent can come out in another order: what the library promises
for every range is the contract `SortContract`, and `FindTopDocumentsBy` takes the sort as a
parameter. -/
def stdSort {β : Type} (comp : β → β → Bool) (l : List β) : List β :=
  l.foldl (insertionStep comp) []

namespace SearchServer

variable {α : Type} [LinearOrderedField α]

/-- The ranking part of `FindTopDocuments`: `sort` with the comparator, then `resize` to
`MAX_RESULT_DOCUMENT_COUNT` when the vector is longer. -/
def FindTopDocuments.rank (matched_documents : List (Document α)) : List (Document α) :=
  let sorted := stdSort FindTopDocuments.comp matched_documents
  if sorted.length > MAX_RESULT_DOCUMENT_COUNT then sorted.take MAX_RESULT_DOCUMENT_COUNT
  else sorted

/-- Embedding of `SearchServer::FindTopDocuments(policy, raw_query, document_predicate)`. -/
def FindTopDocuments (ln : α → α) (s : SearchServer α) (policy : Policy)
    (raw_query : StringView) (document_predicate : DocumentPredicate) :
    Except Exception (List (Document α)) :=
  match ParseQuery s raw_query with
  | .error e => .error e
  | .ok query =>
    match FindAllDocuments ln s policy query document_predicate with
    | .error e => .error e
    | .ok matched_documents => .ok (FindTopDocuments.rank matched_documents)

end SearchServer

/-! ## search_server: the overloads of `FindTopDocuments` and `MatchDocument` -/

/-- Embedding of `vector::resize(n)`: the first `n` elements, filled up with value-initialised
elements `d` when the vector is shorter. -/
def resize {β : Type} (v : List β) (n : Nat) (d : β) : List β :=
  v.take n ++ List.replicate (n - v.length) d

namespace SearchServer

variable {α : Type} [LinearOrderedField α]

/-- Embedding of `SearchServer::FindTopDocuments(raw_query, document_predicate)`. -/
def FindTopDocumentsPredicate (ln : α → α) (s : SearchServer α) (raw_query : StringView)
    (document_predicate : DocumentPredicate) : Except Exception (List (Document α)) :=
  FindTopDocuments ln s .seq raw_query document_predicate

/-- Embedding of `SearchServer::FindTopDocuments(policy, raw_query, status)`: the predicate is the
lambda `document_status == status`. -/
def FindTopDocumentsPolicyStatus (ln : α → α) (s : SearchServer α) (policy : Policy)
    (raw_query : StringView) (status : DocumentStatus) : Except Exception (List (Document α)) :=
  FindTopDocuments ln s policy raw_query
    (fun _ document_status _ => decide (document_status = status))

/-- Embedding of `SearchServer::FindTopDocuments(policy, raw_query)`. -/
def FindTopDocumentsPolicy (ln : α → α) (s : SearchServer α) (policy : Policy)
    (raw_query : StringView) : Except Exception (List (Document α)) :=
  FindTopDocumentsPolicyStatus ln s policy raw_query .ACTUAL

/-- Embedding of `SearchServer::FindTopDocuments(raw_query, status)`. -/
def FindTopDocumentsStatus (ln : α → α) (s : SearchServer α) (raw_query : StringView)
    (status : DocumentStatus) : Except Exception (List (Document α)) :=
  FindTopDocumentsPolicyStatus ln s .seq raw_query status

/-- Embedding of `SearchServer::FindTopDocuments(raw_query)`. -/
def FindTopDocumentsQuery (ln : α → α) (s : SearchServer α) (raw_query : StringView) :
    Except Exception (List (Document α)) :=
  FindTopDocumentsPolicy ln s .seq raw_query

/-- The variables that the lambda of `copy_if` in `MatchDocument` captures or writes:
`no_minus_word`, `count`, and the elements copied so far to `matched_words_freqs.begin()`
onwards.  The counter `count` (an `atomic_int`) is a natural number: it counts copied
elements. -/
structure MatchState (α : Type) where
  no_minus_word : Bool
  count : Nat
  copied : List (StringView × α)

/-- One element of the `copy_if` of `MatchDocument` under the sequenced policy: the lambda
is applied to `word_freqs`, and the element is copied when the lambda returns `true`. -/
def MatchDocument.copyStep (query : Query) (st : MatchState α)
    (word_freqs : StringView × α) : MatchState α :=
  if st.no_minus_word then
    let no_minus_word :=
      decide (StdSet.count query.minus_words word_freqs.1 = 0) && st.no_minus_word
    if StdSet.count query.plus_words word_freqs.1 ≠ 0 then
      let count := st.count + 1
      if count ≠ 0 then ⟨no_minus_word, count, st.copied ++ [word_freqs]⟩
      else ⟨no_minus_word, count, st.copied⟩
    else ⟨no_minus_word, st.count, st.copied⟩
  else st

/-- Embedding of `SearchServer::MatchDocument(policy, raw_query, document_id)` under the sequenced
policy (`MatchDocument(raw_query, document_id)` calls it with `execution::seq`). -/
def MatchDocument (s : SearchServer α) (raw_query : StringView) (document_id : Int) :
    Except Exception (List StringView × DocumentStatus) :=
  if document_id ∉ s.document_ids_ then .error .invalid_argument
  else
    match ParseQuery s raw_query with
    | .error e => .error e
    | .ok query =>
      match StdMap.atKey s.document_to_word_freqs_ document_id with
      | .error e => .error e
      | .ok word_freqs =>
        let st := word_freqs.foldl (MatchDocument.copyStep query) ⟨true, 0, []⟩
        let matched_words_freqs : List (StringView × α) :=
          st.copied ++ List.replicate (query.plus_words.length - st.copied.length) ([], 0)
        let count := if !st.no_minus_word then 0 else st.count
        let matched_words_freqs := resize matched_words_freqs count ([], 0)
        let matched_words := matched_words_freqs.map (fun word_freqs => word_freqs.1)
        match StdMap.atKey s.documents_ document_id with
        | .error e => .error e
        | .ok data => .ok (matched_words, data.status)

end SearchServer

/-! ## request_queue -/

/-- Embedding of `class RequestQueue`: the deque `requests_` of the flags `empty_` and the counter
`no_result_request_count_` (a `size_t`).  The referenced server is an argument of the
operations. -/
structure RequestQueue where
  requests_ : List Bool
  no_result_request_count_ : Nat

namespace RequestQueue

variable {α : Type} [LinearOrderedField α]

/-- Embedding of `RequestQueue::sec_in_day_`. -/
def sec_in_day_ : Nat := 1440

/-- The queue after its constructor. -/
def create : RequestQueue := ⟨[], 0⟩

/-- Embedding of the private `RequestQueue::AddFindRequest(found_documents)`; the counter wraps modulo
`2^64`. -/
def AddFindRequest (q : RequestQueue) (found_documents : List (Document α)) : RequestQueue :=
  let q1 : RequestQueue :=
    if found_documents.isEmpty then
      ⟨q.requests_ ++ [true], (q.no_result_request_count_ + 1) % 2 ^ 64⟩
    else ⟨q.requests_ ++ [false], q.no_result_request_count_⟩
  if q1.requests_.length > sec_in_day_ then
    ⟨q1.requests_.tail,
      if q1.requests_.head? = some true then
        (q1.no_result_request_count_ + (2 ^ 64 - 1)) % 2 ^ 64
      else q1.no_result_request_count_⟩
  else q1

/-- Embedding of `RequestQueue::AddFindRequest(raw_query, document_predicate)`: the queue after the
call and the returned documents; when the search throws, nothing is recorded. -/
def AddFindRequestPredicate (ln : α → α) (search_server_ : SearchServer α) (q : RequestQueue)
    (raw_query : StringView) (document_predicate : DocumentPredicate) :
    RequestQueue × Except Exception (List (Document α)) :=
  match SearchServer.FindTopDocumentsPredicate ln search_server_ raw_query document_predicate with
  | .error e => (q, .error e)
  | .ok found_documents => (AddFindRequest q found_documents, .ok found_documents)

/-- Embedding of `RequestQueue::AddFindRequest(raw_query, status)`. -/
def AddFindRequestStatus (ln : α → α) (search_server_ : SearchServer α) (q : RequestQueue)
    (raw_query : StringView) (status : DocumentStatus) :
    RequestQueue × Except Exception (List (Document α)) :=
  match SearchServer.FindTopDocumentsStatus ln search_server_ raw_query status with
  | .error e => (q, .error e)
  | .ok found_documents => (AddFindRequest q found_documents, .ok found_documents)

/-- Embedding of `RequestQueue::AddFindRequest(raw_query)`. -/
def AddFindRequestQuery (ln : α → α) (search_server_ : SearchServer α) (q : RequestQueue)
    (raw_query : StringView) : RequestQueue × Except Exception (List (Document α)) :=
  match SearchServer.FindTopDocumentsQuery ln search_server_ raw_query with
  | .error e => (q, .error e)
  | .ok found_documents => (AddFindRequest q found_documents, .ok found_documents)

/-- Embedding of `RequestQueue::GetNoResultRequests`: the counter converted to `int`. -/
def GetNoResultRequests (q : RequestQueue) : Int :=
  wrapInt32 (q.no_result_request_count_ : Int)

end RequestQueue

/-! ## remove_duplicates -/

/-- The sets `duplicates` and `found_words` of `RemoveDuplicates`. -/
structure DuplicatesState where
  duplicates : StdSet Int
  found_words : StdSet (List Char)

namespace RemoveDuplicates

variable {α : Type} [LinearOrderedField α]

/-- The string `query` that `RemoveDuplicates` builds for a document: every term of
`word_freqs`, in key order, each followed by one space. -/
def query (word_freqs : StdMap StringView α) : List Char :=
  word_freqs.foldl (fun query p => query ++ (p.1 ++ [' '])) []

/-- One iteration of the loop `for (const int document_id : search_server)`. -/
def scan (search_server : SearchServer α) (st : DuplicatesState) (document_id : Int) :
    DuplicatesState :=
  let query := query (SearchServer.GetWordFrequencies search_server document_id)
  if StdSet.count st.found_words query ≠ 0 then
    { st with duplicates := StdSet.insert st.duplicates document_id }
  else
    { st with found_words := StdSet.insert st.found_words query }

/-- One iteration of the loop `for (auto id : duplicates)`; an exception of `RemoveDocument`
ends the loop. -/
def removeStep (r : SearchServer α × Except Exception Unit) (id : Int) :
    SearchServer α × Except Exception Unit :=
  match r.2 with
  | .error _ => r
  | .ok _ => SearchServer.RemoveDocument r.1 id

end RemoveDuplicates

/-- Embedding of `RemoveDuplicates(search_server)`: the server after the call, and the exception
when one is thrown. -/
def RemoveDuplicates {α : Type} [LinearOrderedField α] (search_server : SearchServer α) :
    SearchServer α × Except Exception Unit :=
  let st := (SearchServer.documentIds search_server).foldl
    (RemoveDuplicates.scan search_server) ⟨[], []⟩
  st.duplicates.foldl RemoveDuplicates.removeStep (search_server, .ok ())

/-! ## search_server: the calls of `ComputeWordInverseDocumentFreq` -/

namespace SearchServer

variable {α : Type} [LinearOrderedField α]

/-- The calls of `ComputeWordInverseDocumentFreq` that the `for_each` over the plus words of
`FindAllDocuments` makes: one for every plus word that passes the guard
`word_to_document_freqs_.find(word) != word_to_document_freqs_.end()`, listed with the
divisor `word_to_document_freqs_.at(word).size()` of the call. -/
def FindAllDocuments.idfCalls (s : SearchServer α) (query : Query) : List (StringView × Nat) :=
  query.plus_words.filterMap (fun word =>
    match StdMap.find s.word_to_document_freqs_ word with
    | none => none
    | some docs => some (word, docs.length))

end SearchServer

/-! ## basic_iterator -/

/-- Embedding of `BasicIterator`: an iterator is a position.  `external_it_` and `external_end_` are
positions in the outer vector; `internal_it_` is a position in an inner container, given
by the index of the container and the offset in it, and `none` is the value-initialised
iterator. -/
structure BasicIterator where
  external_it_ : Nat
  external_end_ : Nat
  internal_it_ : Option (Nat × Nat)
  deriving DecidableEq, Repr

namespace BasicIterator

variable {β : Type}

/-- The loop of `SetInternalItBegin`, at most `fuel` iterations.  The result is
`none` when the loop dereferences `external_it_` outside the outer vector or has iterations
left when the fuel is used up. -/
def SetInternalItBegin.loop (outer : List (List β)) : Nat → BasicIterator → Option BasicIterator
  | 0, it => if it.external_it_ ≠ it.external_end_ then none else some it
  | fuel + 1, it =>
    if it.external_it_ ≠ it.external_end_ then
      match outer.get? it.external_it_ with
      | none => none
      | some container =>
        let internal_it_ : Nat × Nat := (it.external_it_, 0)
        if internal_it_ = (it.external_it_, container.length) then
          SetInternalItBegin.loop outer fuel
            ⟨it.external_it_ + 1, it.external_end_, some internal_it_⟩
        else some ⟨it.external_it_, it.external_end_, some internal_it_⟩
    else some it

/-- Embedding of `BasicIterator::SetInternalItBegin`.  Every iteration but the last advances
`external_it_` and dereferences it inside the outer vector, so `outer.size() + 1`
iterations are enough. -/
def SetInternalItBegin (outer : List (List β)) (it : BasicIterator) : Option BasicIterator :=
  SetInternalItBegin.loop outer (outer.length + 1) it

/-- The constructor `BasicIterator(external_it, external_end)`. -/
def create (outer : List (List β)) (external_it external_end : Nat) : Option BasicIterator :=
  SetInternalItBegin outer ⟨external_it, external_end, none⟩

/-- Embedding of `BasicIterator::operator*`: `none` when `internal_it_` does not point to an element
(value-initialised, or at the end of its container). -/
def deref (outer : List (List β)) (it : BasicIterator) : Option β :=
  match it.internal_it_ with
  | none => none
  | some (i, j) =>
    match outer.get? i with
    | none => none
    | some container => container.get? j

/-- Embedding of `BasicIterator::operator==`. -/
def eq (lhs rhs : BasicIterator) : Bool :=
  if lhs.external_it_ = lhs.external_end_ then decide (lhs.external_end_ = rhs.external_it_)
  else decide (lhs.internal_it_ = rhs.internal_it_) &&
    decide (lhs.external_it_ = rhs.external_it_)

/-- Embedding of `BasicIterator::operator!=`. -/
def ne (lhs rhs : BasicIterator) : Bool := !(eq lhs rhs)

/-- Embedding of `BasicIterator::Plus` (the body of `operator++`): `none` when `internal_it_` is
incremented without pointing to an element, or `external_it_` is dereferenced outside the
outer vector. -/
def Plus (outer : List (List β)) (it : BasicIterator) : Option BasicIterator :=
  match it.internal_it_ with
  | none => none
  | some (i, j) =>
    match outer.get? i with
    | none => none
    | some pointed =>
      if pointed.length ≤ j then none
      else
        let internal_it_ : Nat × Nat := (i, j + 1)
        match outer.get? it.external_it_ with
        | none => none
        | some container =>
          if internal_it_ = (it.external_it_, container.length) then
            SetInternalItBegin outer ⟨it.external_it_ + 1, it.external_end_, some internal_it_⟩
          else some ⟨it.external_it_, it.external_end_, some internal_it_⟩

/-- The iterator that `begin()` of `Docs` and of `ConcurrentMap` returns:
`BasicIterator(outer.begin(), outer.end())`. -/
def beginOf (outer : List (List β)) : Option BasicIterator := create outer 0 outer.length

/-- The iterator that `end()` of `Docs` and of `ConcurrentMap` returns:
`BasicIterator(outer.end(), outer.end())`. -/
def endOf (outer : List (List β)) : Option BasicIterator :=
  create outer outer.length outer.length

/-- The loop `for (it = first; it != last; ++it)` that collects `*it`, with at most `fuel`
evaluations of the loop condition; `none` when an operation of the iterator is undefined
or the fuel is used up. -/
def collect (outer : List (List β)) : Nat → BasicIterator → BasicIterator → List β →
    Option (List β)
  | 0, _, _, _ => none
  | fuel + 1, it, last, acc =>
    if ne it last then
      match deref outer it with
      | none => none
      | some x =>
        match Plus outer it with
        | none => none
        | some next => collect outer fuel next last (acc ++ [x])
    else some acc

/-- The elements that a range-based `for` over `begin() .. end()` visits, in order. -/
def elements (outer : List (List β)) (fuel : Nat) : Option (List β) :=
  match beginOf outer, endOf outer with
  | some first, some last => collect outer fuel first last []
  | _, _ => none

end BasicIterator

/-! ## concurrent_map: `BuildOrdinaryMap` -/

namespace ConcurrentMap

variable {V : Type}

/-- Embedding of `ConcurrentMap::BuildOrdinaryMap`: `result.insert(first, last)` inserts every pair
of a shard whose key is not yet in `result`. -/
def BuildOrdinaryMap (cm : ConcurrentMap V) : StdMap Int V :=
  cm.maps_.foldl (fun result shard =>
    shard.foldl (fun result p => StdMap.emplace result p.1 p.2) result) []

end ConcurrentMap

/-! ## Library parts taken as parameters

`std::sort` and the arithmetic of `double` are not part of the program.  The definitions
below repeat `FindTopDocuments` with the sort as a parameter, and `AddDocument` with the
rounding of every operation on a `double` as a parameter. -/

namespace SearchServer

variable {α : Type} [LinearOrderedField α]

/-- The ranking part of `FindTopDocuments` with `std::sort` as the parameter `sort`: `sort`
with the comparator, then `resize` to `MAX_RESULT_DOCUMENT_COUNT` when the vector is
longer. -/
def FindTopDocuments.rankBy
    (sort : (Document α → Document α → Bool) → List (Document α) → List (Document α))
    (matched_documents : List (Document α)) : List (Document α) :=
  let sorted := sort FindTopDocuments.comp matched_documents
  if sorted.length > MAX_RESULT_DOCUMENT_COUNT then sorted.take MAX_RESULT_DOCUMENT_COUNT
  else sorted

/-- Embedding of `SearchServer::FindTopDocuments(policy, raw_query, document_predicate)` with
`std::sort` as the parameter `sort`. -/
def FindTopDocumentsBy
    (sort : (Document α → Document α → Bool) → List (Document α) → List (Document α))
    (ln : α → α) (s : SearchServer α) (policy : Policy)
    (raw_query : StringView) (document_predicate : DocumentPredicate) :
    Except Exception (List (Document α)) :=
  match ParseQuery s raw_query with
  | .error e => .error e
  | .ok query =>
    match FindAllDocuments ln s policy query document_predicate with
    | .error e => .error e
    | .ok matched_documents => .ok (FindTopDocuments.rankBy sort matched_documents)

/-- One iteration of the `for (string_view word : words)` loop of `AddDocument` in rounded
arithmetic: each `+=` stores the rounded sum `fl (x + inv_word_count)`. -/
def AddDocument.stepFl (fl : α → α) (document_id : Int) (inv_word_count : α)
    (s : SearchServer α) (word : StringView) : SearchServer α :=
  { s with
    word_to_document_freqs_ :=
      StdMap.update s.word_to_document_freqs_ word []
        (fun docs => StdMap.update docs document_id 0 (fun x => fl (x + inv_word_count))),
    document_to_word_freqs_ :=
      StdMap.update s.document_to_word_freqs_ document_id []
        (fun ws => StdMap.update ws word 0 (fun x => fl (x + inv_word_count))) }

/-- Embedding of `SearchServer::AddDocument` in rounded arithmetic: `fl` rounds the result of
every operation on a `double`, which are the conversion of `words.size()`, the division
`1.0 / words.size()` and each `+=` of the loop.  With the identity for `fl` this is
`AddDocument`. -/
def AddDocumentFl (fl : α → α) (s : SearchServer α) (document_id : Int)
    (document : StringView) (status : DocumentStatus) (ratings : List Int) :
    SearchServer α × Except Exception Unit :=
  if document_id < 0 ∨ StdMap.count s.documents_ document_id > 0 then
    (s, .error .invalid_argument)
  else
    match SplitIntoWordsNoStopAndAddWords s document with
    | (s1, .error e) => (s1, .error e)
    | (s1, .ok words) =>
      let inv_word_count : α := fl (1 / fl (words.length : α))
      let s2 := words.foldl (AddDocument.stepFl fl document_id inv_word_count) s1
      ({ s2 with
          documents_ :=
            StdMap.emplace s2.documents_ document_id ⟨ComputeAverageRating ratings, status⟩,
          document_ids_ := StdSet.insert s2.document_ids_ document_id }, .ok ())

end SearchServer

/-- Rounding of a non-negative rational to an integer, to the nearest one and to the even
one of two nearest. -/
def roundHalfEven (q : ℚ) : ℤ :=
  let n := ⌊q⌋
  let r := q - n
  if r < 1 / 2 then n else if 1 / 2 < r then n + 1 else if n % 2 = 0 then n else n + 1

/-- Rounding of a positive rational to a significand of 53 bits: with `2 ^ e ≤ x < 2 ^ (e + 1)`
the result is the multiple of `2 ^ (e - 52)` nearest to `x`. -/
def roundPositive (x : ℚ) : ℚ :=
  let e := Int.log 2 x
  (roundHalfEven (x / 2 ^ (e - 52)) : ℚ) * 2 ^ (e - 52)

/-- The rounding of IEEE 754 binary64 (`double`) in the default mode, to nearest and to even
on a tie, for the values in the normal range (overflow and subnormal numbers are not
embedded: the values of the index are sums of at most `n` terms `1.0 / n`). -/
def roundBinary64 (x : ℚ) : ℚ :=
  if x = 0 then 0 else if 0 < x then roundPositive x else - roundPositive (-x)

/-! # Specification vocabulary

Definitions used to state the properties of the embedded program: lookups, invariants,
reachable states and concrete servers. -/

namespace ConcurrentMap

variable {V : Type}

/-- The value stored under a key: the lookup in the shard of the key. -/
def get (cm : ConcurrentMap V) (key : Int) : Option V :=
  (cm.maps_[index cm key]?).bind (fun m => StdMap.find m key)

/-- Well-formedness of an accumulator: there is a shard, no shard repeats a key, and
every key is stored in the shard selected by `index`. -/
def WF (cm : ConcurrentMap V) : Prop :=
  0 < cm.maps_.length ∧
  ∀ i m, cm.maps_[i]? = some m → (StdMap.keys m).Nodup ∧ ∀ k ∈ StdMap.keys m, index cm k = i

end ConcurrentMap

namespace SearchServer

variable {α : Type} [LinearOrderedField α]

/-- The frequency stored for a document in the inverted entry of a term. -/
def tfInverted (s : SearchServer α) (word : StringView) (document_id : Int) : Option α :=
  (StdMap.find s.word_to_document_freqs_ word).bind (fun docs => StdMap.find docs document_id)

/-- The frequency stored for a term in the forward entry of a document. -/
def tfForward (s : SearchServer α) (document_id : Int) (word : StringView) : Option α :=
  (StdMap.find s.document_to_word_freqs_ document_id).bind (fun ws => StdMap.find ws word)

/-- The representation invariant of the index: no container repeats a key, the id
sequence and the metadata table hold the same ids, every document with a forward entry
is registered, and the forward and inverted indexes store the same frequencies. -/
structure Inv (s : SearchServer α) : Prop where
  ids_nodup : s.document_ids_.Nodup
  docs_nodup : (StdMap.keys s.documents_).Nodup
  ids_docs : ∀ d, d ∈ s.document_ids_ ↔ d ∈ StdMap.keys s.documents_
  ids_nonneg : ∀ d ∈ s.document_ids_, 0 ≤ d
  fwd_nodup : (StdMap.keys s.document_to_word_freqs_).Nodup
  fwd_entry_nodup : ∀ d ws, StdMap.find s.document_to_word_freqs_ d = some ws →
    (StdMap.keys ws).Nodup
  fwd_ids : ∀ d, d ∈ StdMap.keys s.document_to_word_freqs_ → d ∈ s.document_ids_
  inv_nodup : (StdMap.keys s.word_to_document_freqs_).Nodup
  inv_entry_nodup : ∀ w docs, StdMap.find s.word_to_document_freqs_ w = some docs →
    (StdMap.keys docs).Nodup
  mirror : ∀ w d, tfInverted s w d = tfForward s d w

/-- The part of the invariant that the loop of `AddDocument` maintains at every
iteration. -/
structure LoopInv (id : Int) (s : SearchServer α) : Prop where
  fwd_nodup : (StdMap.keys s.document_to_word_freqs_).Nodup
  fwd_entry_nodup : ∀ d ws, StdMap.find s.document_to_word_freqs_ d = some ws →
    (StdMap.keys ws).Nodup
  fwd_ids : ∀ d, d ∈ StdMap.keys s.document_to_word_freqs_ → d ∈ s.document_ids_ ∨ d = id
  inv_nodup : (StdMap.keys s.word_to_document_freqs_).Nodup
  inv_entry_nodup : ∀ w docs, StdMap.find s.word_to_document_freqs_ w = some docs →
    (StdMap.keys docs).Nodup
  mirror : ∀ w d, tfInverted s w d = tfForward s d w

/-- The states of the index that a program can reach: a freshly constructed server, and
the state left by any call of `AddDocument` or `RemoveDocument` (whether the call returns
or throws) on a reachable state.  The other member functions are `const`. -/
inductive Reachable : SearchServer α → Prop where
  | init (stop_words : List StringView) (s : SearchServer α)
      (h : create stop_words = .ok s) : Reachable s
  | add (s : SearchServer α) (document_id : Int) (document : StringView)
      (status : DocumentStatus) (ratings : List Int) (h : Reachable s) :
      Reachable (AddDocument s document_id document status ratings).1
  | remove (s : SearchServer α) (document_id : Int) (h : Reachable s) :
      Reachable (RemoveDocument s document_id).1

/-- A term occurs in a document: it is a key of the document's word frequencies. -/
def occursIn (s : SearchServer α) (word : StringView) (document_id : Int) : Prop :=
  word ∈ StdMap.keys (GetWordFrequencies s document_id)

instance (s : SearchServer α) (word : StringView) (document_id : Int) :
    Decidable (occursIn s word document_id) := by
  unfold occursIn
  infer_instance

end SearchServer

namespace SearchServer

variable {α : Type} [LinearOrderedField α]

/-- The predicate applied to the stored status and rating of a document (false for an id
without metadata). -/
def predAt (s : SearchServer α) (document_predicate : DocumentPredicate) (d : Int) : Bool :=
  match StdMap.find s.documents_ d with
  | some data => document_predicate d data.status data.rating
  | none => false

/-- The value that `ComputeWordInverseDocumentFreq` returns for a term of the index. -/
def idfOf (ln : α → α) (s : SearchServer α) (w : StringView) : α :=
  ln ((GetDocumentCount s : α) * 1 /
    ((((StdMap.find s.word_to_document_freqs_ w).getD []).length : Nat) : α))

/-- The effect of one plus word on the accumulated relevance of one document. -/
def scoreStep (ln : α → α) (s : SearchServer α) (document_predicate : DocumentPredicate)
    (d : Int) (r : Option α) (w : StringView) : Option α :=
  match tfInverted s w d with
  | some tf => if predAt s document_predicate d then some (r.getD 0 + tf * idfOf ln s w) else r
  | none => r

/-- The term frequency of a term in a document, read from `GetWordFrequencies`
(0 when the term does not occur). -/
def termFreq (s : SearchServer α) (document_id : Int) (word : StringView) : α :=
  (StdMap.find (GetWordFrequencies s document_id) word).getD 0

/-- The number of documents of the index in which a term occurs. -/
def documentFreq (s : SearchServer α) (word : StringView) : Nat :=
  (s.document_ids_.filter (fun d => decide (occursIn s word d))).length

/-- The relevance of a document for a list of plus words: the sum, over the plus words
that occur in the document, of term frequency times `ln (N / n_word)`. -/
def tfIdfSum (ln : α → α) (s : SearchServer α) (plus_words : List StringView)
    (document_id : Int) : α :=
  ((plus_words.filter (fun w => decide (occursIn s w document_id))).map
    (fun w => termFreq s document_id w *
      ln ((GetDocumentCount s : α) / (documentFreq s w : α)))).sum

end SearchServer

namespace SearchServer

variable {α : Type} [LinearOrderedField α]

/-- The entry that the accumulator holds for a document after the plus and the minus
phase of `FindAllDocuments`. -/
def relevanceOf (ln : α → α) (s : SearchServer α) (document_predicate : DocumentPredicate)
    (query : Query) (d : Int) : Option α :=
  if ∃ w ∈ query.minus_words, (tfInverted s w d).isSome = true then none
  else query.plus_words.foldl (scoreStep ln s document_predicate d) none

end SearchServer

/-! ## Concrete servers used in the examples -/

namespace SearchServer

variable {α : Type} [LinearOrderedField α]

/-- The server constructed with no stop words. -/
def emptyServer (α : Type) : SearchServer α := ⟨[], [], [], [], [], []⟩

/-- The predicate of the overloads that take a status: `document_status == status`. -/
def statusIs (status : DocumentStatus) : DocumentPredicate :=
  fun _ document_status _ => decide (document_status = status)

/-- The server of `TestExcludeMinusWordsFromFoundResult`: no stop words and the document
42, "cat in the city". -/
def catServer (α : Type) [LinearOrderedField α] : SearchServer α :=
  (AddDocument (emptyServer α) 42 "cat in the city".toList .ACTUAL [1, 2, 3]).1

/-- The server of `TestCalculateDocumentRelevance`: no stop words and three documents. -/
def relevanceServer (α : Type) [LinearOrderedField α] : SearchServer α :=
  (AddDocument
    (AddDocument
      (AddDocument (emptyServer α) 0 "white cat and a fashionable collar".toList .ACTUAL
        [1, 2, 3]).1
      1 "fluffy cat fluffy tail".toList .ACTUAL [1, 2, 3]).1
    2 "groomed dog expressive eyes".toList .ACTUAL [1, 2, 3]).1

end SearchServer

namespace SearchServer

variable {α : Type} [LinearOrderedField α]

/-- The term frequency accumulated by `k + 1` occurrences in a document of `n` words,
as `AddDocument` computes it. -/
def tfOf (α : Type) [LinearOrderedField α] (n : Nat) : Nat → α
  | 0 => 0 + 1 / (n : α)
  | k + 1 => tfOf α n k + 1 / (n : α)

/-- The state of `relevanceServer` after the first document. -/
def relevanceState1 (α : Type) [LinearOrderedField α] : SearchServer α :=
  ⟨[],
   ["a".toList, "and".toList, "cat".toList, "collar".toList, "fashionable".toList,
    "white".toList],
   [("a".toList, [(0, tfOf α 6 0)]), ("and".toList, [(0, tfOf α 6 0)]),
    ("cat".toList, [(0, tfOf α 6 0)]), ("collar".toList, [(0, tfOf α 6 0)]),
    ("fashionable".toList, [(0, tfOf α 6 0)]), ("white".toList, [(0, tfOf α 6 0)])],
   [(0, [("a".toList, tfOf α 6 0), ("and".toList, tfOf α 6 0), ("cat".toList, tfOf α 6 0),
         ("collar".toList, tfOf α 6 0), ("fashionable".toList, tfOf α 6 0),
         ("white".toList, tfOf α 6 0)])],
   [(0, ⟨2, .ACTUAL⟩)],
   [0]⟩

/-- The state of `relevanceServer` after the second document. -/
def relevanceState2 (α : Type) [LinearOrderedField α] : SearchServer α :=
  ⟨[],
   ["a".toList, "and".toList, "cat".toList, "collar".toList, "fashionable".toList,
    "fluffy".toList, "tail".toList, "white".toList],
   [("a".toList, [(0, tfOf α 6 0)]), ("and".toList, [(0, tfOf α 6 0)]),
    ("cat".toList, [(0, tfOf α 6 0), (1, tfOf α 4 0)]), ("collar".toList, [(0, tfOf α 6 0)]),
    ("fashionable".toList, [(0, tfOf α 6 0)]), ("fluffy".toList, [(1, tfOf α 4 1)]),
    ("tail".toList, [(1, tfOf α 4 0)]), ("white".toList, [(0, tfOf α 6 0)])],
   [(0, [("a".toList, tfOf α 6 0), ("and".toList, tfOf α 6 0), ("cat".toList, tfOf α 6 0),
         ("collar".toList, tfOf α 6 0), ("fashionable".toList, tfOf α 6 0),
         ("white".toList, tfOf α 6 0)]),
    (1, [("cat".toList, tfOf α 4 0), ("fluffy".toList, tfOf α 4 1),
         ("tail".toList, tfOf α 4 0)])],
   [(0, ⟨2, .ACTUAL⟩), (1, ⟨2, .ACTUAL⟩)],
   [0, 1]⟩

/-- The state of `relevanceServer` after the third document. -/
def relevanceState3 (α : Type) [LinearOrderedField α] : SearchServer α :=
  ⟨[],
   ["a".toList, "and".toList, "cat".toList, "collar".toList, "dog".toList,
    "expressive".toList, "eyes".toList, "fashionable".toList, "fluffy".toList,
    "groomed".toList, "tail".toList, "white".toList],
   [("a".toList, [(0, tfOf α 6 0)]), ("and".toList, [(0, tfOf α 6 0)]),
    ("cat".toList, [(0, tfOf α 6 0), (1, tfOf α 4 0)]), ("collar".toList, [(0, tfOf α 6 0)]),
    ("dog".toList, [(2, tfOf α 4 0)]), ("expressive".toList, [(2, tfOf α 4 0)]),
    ("eyes".toList, [(2, tfOf α 4 0)]), ("fashionable".toList, [(0, tfOf α 6 0)]),
    ("fluffy".toList, [(1, tfOf α 4 1)]), ("groomed".toList, [(2, tfOf α 4 0)]),
    ("tail".toList, [(1, tfOf α 4 0)]), ("white".toList, [(0, tfOf α 6 0)])],
   [(0, [("a".toList, tfOf α 6 0), ("and".toList, tfOf α 6 0), ("cat".toList, tfOf α 6 0),
         ("collar".toList, tfOf α 6 0), ("fashionable".toList, tfOf α 6 0),
         ("white".toList, tfOf α 6 0)]),
    (1, [("cat".toList, tfOf α 4 0), ("fluffy".toList, tfOf α 4 1),
         ("tail".toList, tfOf α 4 0)]),
    (2, [("dog".toList, tfOf α 4 0), ("expressive".toList, tfOf α 4 0),
         ("eyes".toList, tfOf α 4 0), ("groomed".toList, tfOf α 4 0)])],
   [(0, ⟨2, .ACTUAL⟩), (1, ⟨2, .ACTUAL⟩), (2, ⟨2, .ACTUAL⟩)],
   [0, 1, 2]⟩

end SearchServer

/-! ## Ranking vocabulary -/

namespace SearchServer

variable {α : Type} [LinearOrderedField α]

/-- Two relevances are tied: they differ by less than `1e-6`. -/
def tied (a b : Document α) : Prop := |a.relevance - b.relevance| < 1 / 1000000

instance (a b : Document α) : Decidable (tied a b) := by
  unfold tied
  infer_instance

/-- The ranking relation between an earlier and a later position of a ranked list:
either the relevances are tied and the earlier rating is not smaller, or the earlier
relevance is greater. -/
def rankedBefore (a b : Document α) : Prop :=
  (tied a b ∧ a.rating ≥ b.rating) ∨ a.relevance > b.relevance

instance (a b : Document α) : Decidable (rankedBefore a b) := by
  unfold rankedBefore
  infer_instance

/-- Being tied is transitive on the documents of a list. -/
def tiedTransitive (l : List (Document α)) : Prop :=
  ∀ a ∈ l, ∀ b ∈ l, ∀ c ∈ l, tied a b → tied b c → tied a c

instance (l : List (Document α)) : Decidable (tiedTransitive l) := by
  unfold tiedTransitive
  infer_instance

end SearchServer

/-- The strict-weak-ordering requirements of `std::sort`, on the elements that satisfy
`P`. -/
structure StrictWeakOn {β : Type} (comp : β → β → Bool) (P : β → Prop) : Prop where
  asymm : ∀ a b, P a → P b → comp a b = true → comp b a = false
  trans : ∀ a b c, P a → P b → P c → comp a b = true → comp b c = true → comp a c = true
  negTrans : ∀ a b c, P a → P b → P c → comp a b = false → comp b c = false →
    comp a c = false

namespace SearchServer

variable {α : Type} [LinearOrderedField α]

/-- A server with no stop words and the documents 1 and 240, both "cat" with the
ratings `{1}`. -/
def tieServer (α : Type) [LinearOrderedField α] : SearchServer α :=
  (AddDocument (AddDocument (emptyServer α) 1 "cat".toList .ACTUAL [1]).1
    240 "cat".toList .ACTUAL [1]).1

/-- The state of `tieServer` after the first document. -/
def tieState1 (α : Type) [LinearOrderedField α] : SearchServer α :=
  ⟨[], ["cat".toList], [("cat".toList, [(1, tfOf α 1 0)])], [(1, [("cat".toList, tfOf α 1 0)])],
   [(1, ⟨1, .ACTUAL⟩)], [1]⟩

/-- The state of `tieServer` after the second document. -/
def tieState2 (α : Type) [LinearOrderedField α] : SearchServer α :=
  ⟨[], ["cat".toList], [("cat".toList, [(1, tfOf α 1 0), (240, tfOf α 1 0)])],
   [(1, [("cat".toList, tfOf α 1 0)]), (240, [("cat".toList, tfOf α 1 0)])],
   [(1, ⟨1, .ACTUAL⟩), (240, ⟨1, .ACTUAL⟩)], [1, 240]⟩

end SearchServer

/-! ## Vocabulary for `SplitIntoWords` -/

/-- The maximal runs of non-space characters of a text, in order of appearance; `cur` is the
run that is open at the start of the text. -/
def nonSpaceRuns (cur : List Char) : List Char → List (List Char)
  | [] => if cur = [] then [] else [cur]
  | c :: t =>
    if c = ' ' then (if cur = [] then nonSpaceRuns [] t else cur :: nonSpaceRuns [] t)
    else nonSpaceRuns (cur ++ [c]) t

/-- The relation `IsSplit text ws`: `ws` lists, in order, the maximal runs of non-space
characters of `text`.  A text of spaces only has no run; otherwise the text is a block of
spaces, the first run, and a remainder that is empty or starts with a space and whose runs
are the other members. -/
inductive IsSplit : List Char → List (List Char) → Prop where
  | nil (s : List Char) (hs : ∀ c ∈ s, c = ' ') : IsSplit s []
  | cons (s w rest : List Char) (ws : List (List Char)) (hs : ∀ c ∈ s, c = ' ')
      (hne : w ≠ []) (hw : ∀ c ∈ w, c ≠ ' ') (hrest : rest = [] ∨ rest.head? = some ' ')
      (h : IsSplit rest ws) : IsSplit (s ++ w ++ rest) (w :: ws)

/-! ## Vocabulary for `ParseQuery` -/

/-- A query token that `ParseQueryWord` rejects: the token `-`, a token that begins with
`--`, or a token with a character whose code is below the code of the space character. -/
def invalidQueryToken (t : StringView) : Prop :=
  t = ['-'] ∨ t.take 2 = ['-', '-'] ∨ ∃ c ∈ t, c.toNat < 32

instance (t : StringView) : Decidable (invalidQueryToken t) := by
  unfold invalidQueryToken
  infer_instance

namespace SearchServer

variable {α : Type} [LinearOrderedField α]

/-- The order part of the representation invariant: the id set is in ascending order, and
every forward entry is non-empty, in ascending key order, and keyed by non-empty terms
without a space. -/
structure KeyOrder (s : SearchServer α) : Prop where
  ids_sorted : s.document_ids_.Sorted (· < ·)
  fwd_entry_sorted : ∀ d ws, StdMap.find s.document_to_word_freqs_ d = some ws →
    (StdMap.keys ws).Sorted (· < ·)
  fwd_entry_ne : ∀ d ws, StdMap.find s.document_to_word_freqs_ d = some ws → ws ≠ []
  fwd_word : ∀ d ws, StdMap.find s.document_to_word_freqs_ d = some ws →
    ∀ w ∈ StdMap.keys ws, w ≠ [] ∧ ∀ c ∈ w, c ≠ ' '

/-- Two documents have the same set of indexed terms (frequencies ignored). -/
def sameTerms (s : SearchServer α) (d d' : Int) : Prop :=
  ∀ w, occursIn s w d ↔ occursIn s w d'

/-- A document id of the index whose set of indexed terms is the term set of a document
with a smaller id. -/
def isDuplicate (s : SearchServer α) (d : Int) : Prop :=
  d ∈ documentIds s ∧ ∃ d' ∈ documentIds s, d' < d ∧ sameTerms s d' d

/-- The server constructed with the stop words `in` and `the`, before any document is
added. -/
def stopWordServer (α : Type) : SearchServer α :=
  ⟨["in".toList, "the".toList], [], [], [], [], []⟩

end SearchServer

namespace SearchServer

variable {α : Type} [LinearOrderedField α]

/-- The stop-word part of the representation invariant: no key of the inverted index and
no term of a forward entry is a stop word of the server. -/
structure StopInv (s : SearchServer α) : Prop where
  inv_keys : ∀ w ∈ StdMap.keys s.word_to_document_freqs_, w ∉ s.stop_words_
  fwd_words : ∀ d ws, StdMap.find s.document_to_word_freqs_ d = some ws →
    ∀ w ∈ StdMap.keys ws, w ∉ s.stop_words_

end SearchServer

namespace SearchServer

variable {α : Type} [LinearOrderedField α]

/-- The frequency part of the representation invariant: the term frequencies of every
forward entry add up to 1, and each of them lies in `(0, 1]`. -/
structure FreqInv (s : SearchServer α) : Prop where
  fwd_sum : ∀ d ws, StdMap.find s.document_to_word_freqs_ d = some ws →
    (ws.map Prod.snd).sum = 1
  fwd_pos : ∀ d ws, StdMap.find s.document_to_word_freqs_ d = some ws →
    ∀ p ∈ ws, 0 < p.2 ∧ p.2 ≤ 1

end SearchServer

namespace BasicIterator

variable {β : Type}

/-- The iterator `it` over `outer` has the elements `rest` still to visit: its end is the
end of the outer vector, and either nothing is left and it is at the end of the outer
vector, or it points to the first element of `rest`, which continues with the remainder of
the current inner container and then with the following containers. -/
def Remaining (outer : List (List β)) (it : BasicIterator) (rest : List β) : Prop :=
  it.external_end_ = outer.length ∧
  ((rest = [] ∧ it.external_it_ = outer.length) ∨
    ∃ pre cpre x cpost post, outer = pre ++ (cpre ++ x :: cpost) :: post ∧
      it.external_it_ = pre.length ∧ it.internal_it_ = some (pre.length, cpre.length) ∧
      rest = x :: cpost ++ post.flatten)

end BasicIterator

/-! ## Vocabulary for the sharded accumulator -/

/-- An operation on a map of accumulators: the accumulation `map[key] += value`, or
`map.erase(key)`. -/
inductive MapOp (V : Type) where
  | accumulate (key : Int) (value : V)
  | erase (key : Int)

/-- An operation applied to a `ConcurrentMap`: `cm[key].ref_to_value += value`, where
`operator[]` creates an absent key with the value 0, or `cm.erase(key)`. -/
def ConcurrentMap.applyOp {V : Type} [Zero V] [Add V] (cm : ConcurrentMap V) :
    MapOp V → ConcurrentMap V
  | .accumulate key value => ConcurrentMap.access cm key 0 (fun x => x + value)
  | .erase key => ConcurrentMap.erase cm key

/-- The same operation applied to one ordinary `std::map<int, V>`: `m[key] += value`, where
`operator[]` creates an absent key with the value 0, or `m.erase(key)`. -/
def StdMap.applyOp {V : Type} [Zero V] [Add V] (m : StdMap Int V) : MapOp V → StdMap Int V
  | .accumulate key value => StdMap.update m key 0 (fun x => x + value)
  | .erase key => StdMap.erase m key

namespace SearchServer

variable {α : Type} [LinearOrderedField α]

/-- The value of a `double` that holds `x` after `k` executions of `x += inv` in arithmetic
rounded by `fl`. -/
def addTimes (fl : α → α) (inv : α) : Nat → α → α
  | 0, x => x
  | k + 1, x => addTimes fl inv k (fl (x + inv))

/-- The states of the index that a program can reach when every operation on a `double` is
rounded by `fl`: a freshly constructed server, and the state left by any call of
`AddDocument` or `RemoveDocument` on such a state. -/
inductive ReachableFl (fl : α → α) : SearchServer α → Prop where
  | init (stop_words : List StringView) (s : SearchServer α)
      (h : create stop_words = .ok s) : ReachableFl fl s
  | add (s : SearchServer α) (document_id : Int) (document : StringView)
      (status : DocumentStatus) (ratings : List Int) (h : ReachableFl fl s) :
      ReachableFl fl (AddDocumentFl fl s document_id document status ratings).1
  | remove (s : SearchServer α) (document_id : Int) (h : ReachableFl fl s) :
      ReachableFl fl (RemoveDocument s document_id).1

end SearchServer

namespace SearchServer

variable {α : Type} [LinearOrderedField α]

/-- Every term frequency stored in a forward entry is positive. -/
def PosInv (s : SearchServer α) : Prop :=
  ∀ d ws, StdMap.find s.document_to_word_freqs_ d = some ws → ∀ p ∈ ws, 0 < p.2

end SearchServer

/-! # Lemmas and theorems -/

set_option linter.unusedSectionVars false

/-! ## Lemmas on `std::map` -/

namespace StdMap

variable {K V : Type} [LinearOrder K]

theorem find_nil (k : K) : find ([] : StdMap K V) k = none := rfl

theorem find_cons (k' : K) (v : V) (t : StdMap K V) (k : K) :
    find ((k', v) :: t) k = if k = k' then some v else find t k := rfl

theorem find_eq_none_iff (m : StdMap K V) (k : K) : find m k = none ↔ k ∉ keys m := by
  induction m with
  | nil => simp [find, keys]
  | cons p t ih =>
    obtain ⟨k', v⟩ := p
    by_cases h : k = k'
    · simp [find, keys, h]
    · simp only [keys] at ih
      simp [find, keys, h, ih]

theorem find_isSome_iff (m : StdMap K V) (k : K) : (find m k).isSome = true ↔ k ∈ keys m := by
  rw [← not_iff_not, ← find_eq_none_iff]
  cases find m k <;> simp

theorem mem_of_find (m : StdMap K V) (k : K) (v : V) (h : find m k = some v) : (k, v) ∈ m := by
  induction m with
  | nil => simp [find] at h
  | cons p t ih =>
    obtain ⟨k', v'⟩ := p
    by_cases hk : k = k'
    · simp [find, hk] at h
      simp [hk, h]
    · simp [find, hk] at h
      exact List.mem_cons_of_mem _ (ih h)

theorem find_of_mem (m : StdMap K V) (hm : (keys m).Nodup) (k : K) (v : V) (h : (k, v) ∈ m) :
    find m k = some v := by
  induction m with
  | nil => simp at h
  | cons p t ih =>
    obtain ⟨k', v'⟩ := p
    simp only [keys, List.map_cons, List.nodup_cons] at hm
    rcases List.mem_cons.1 h with h1 | h1
    · simp only [Prod.mk.injEq] at h1
      simp [find, h1.1, h1.2]
    · have hne : k ≠ k' := by
        rintro rfl
        exact hm.1 (List.mem_map_of_mem Prod.fst h1)
      simp only [find, hne, if_false]
      exact ih hm.2 h1

theorem find_iff_mem (m : StdMap K V) (hm : (keys m).Nodup) (k : K) (v : V) :
    find m k = some v ↔ (k, v) ∈ m :=
  ⟨mem_of_find m k v, find_of_mem m hm k v⟩

theorem find_mapAt (m : StdMap K V) (k : K) (f : V → V) (k' : K) :
    find (mapAt k f m) k' = if k' = k then (find m k).map f else find m k' := by
  induction m with
  | nil => simp [mapAt, find]
  | cons p t ih =>
    obtain ⟨k₀, v⟩ := p
    by_cases h : k = k₀
    · subst h
      by_cases h' : k' = k
      · simp [mapAt, find, h']
      · simp [mapAt, find, h']
    · by_cases h' : k' = k
      · subst h'
        simp [mapAt, find, h, ih]
      · by_cases h'' : k' = k₀
        · subst h''
          simp [mapAt, find, h, h']
        · simp [mapAt, find, h, h', h'', ih]

theorem keys_mapAt (m : StdMap K V) (k : K) (f : V → V) : keys (mapAt k f m) = keys m := by
  induction m with
  | nil => rfl
  | cons p t ih =>
    obtain ⟨k₀, v⟩ := p
    by_cases h : k = k₀
    · simp [mapAt, keys, h]
    · simp only [keys] at ih
      simp [mapAt, keys, h, ih]

theorem insertSorted_perm (k : K) (v : V) (m : StdMap K V) :
    (insertSorted k v m).Perm ((k, v) :: m) := by
  induction m with
  | nil => simp [insertSorted]
  | cons p t ih =>
    obtain ⟨k₀, v₀⟩ := p
    by_cases h : k < k₀
    · simp [insertSorted, h]
    · simp only [insertSorted, h, if_false]
      exact (List.Perm.cons _ ih).trans (List.Perm.swap _ _ _)

theorem find_insertSorted (m : StdMap K V) (k : K) (v : V) (k' : K) (h : find m k = none) :
    find (insertSorted k v m) k' = if k' = k then some v else find m k' := by
  induction m with
  | nil => simp [insertSorted, find]
  | cons p t ih =>
    obtain ⟨k₀, v₀⟩ := p
    have hk : k ≠ k₀ := by
      intro hk
      simp [find, hk] at h
    have ht : find t k = none := by simpa [find, hk] using h
    by_cases hlt : k < k₀
    · simp [insertSorted, hlt, find]
    · by_cases h' : k' = k₀
      · have : k₀ ≠ k := fun e => hk e.symm
        simp [insertSorted, hlt, find, h', this]
      · simp [insertSorted, hlt, find, h', ih ht]

theorem find_update (m : StdMap K V) (k : K) (d : V) (f : V → V) (k' : K) :
    find (update m k d f) k' = if k' = k then some (f ((find m k).getD d)) else find m k' := by
  unfold update
  cases h : find m k with
  | none => simp [find_insertSorted m k (f d) k' h]
  | some v =>
    simp only [find_mapAt, h, Option.map_some', Option.getD_some]

theorem find_erase (m : StdMap K V) (k k' : K) :
    find (erase m k) k' = if k' = k then none else find m k' := by
  induction m with
  | nil => simp [erase, find]
  | cons p t ih =>
    obtain ⟨k₀, v⟩ := p
    simp only [erase] at ih
    by_cases h : k₀ = k
    · subst h
      by_cases h' : k' = k₀
      · subst h'
        simpa [erase] using ih
      · simp [erase, find, h', ih]
    · by_cases h' : k' = k
      · subst h'
        have : k' ≠ k₀ := fun e => h e.symm
        simp [erase, find, h, this, ih]
      · simp [erase, find, h, h', ih]

theorem keys_update_perm (m : StdMap K V) (k : K) (d : V) (f : V → V) :
    (keys (update m k d f)).Perm (if k ∈ keys m then keys m else k :: keys m) := by
  unfold update
  cases h : find m k with
  | none =>
    have hk : k ∉ keys m := (find_eq_none_iff m k).1 h
    simp only [hk, if_false]
    exact (insertSorted_perm k (f d) m).map Prod.fst
  | some v =>
    have hk : k ∈ keys m := (find_isSome_iff m k).1 (by simp [h])
    simp [hk, keys_mapAt]

theorem mem_keys_update (m : StdMap K V) (k : K) (d : V) (f : V → V) (k' : K) :
    k' ∈ keys (update m k d f) ↔ k' = k ∨ k' ∈ keys m := by
  rw [(keys_update_perm m k d f).mem_iff]
  by_cases h : k ∈ keys m
  · simp only [h, if_true]
    constructor
    · exact Or.inr
    · rintro (rfl | h') <;> assumption
  · simp [h]

theorem nodup_keys_update (m : StdMap K V) (k : K) (d : V) (f : V → V)
    (hm : (keys m).Nodup) : (keys (update m k d f)).Nodup := by
  rw [(keys_update_perm m k d f).nodup_iff]
  by_cases h : k ∈ keys m
  · simpa [h] using hm
  · simp [h, hm]

theorem length_update (m : StdMap K V) (k : K) (d : V) (f : V → V) :
    (update m k d f).length = if k ∈ keys m then m.length else m.length + 1 := by
  have h := (keys_update_perm m k d f).length_eq
  by_cases hk : k ∈ keys m
  · rw [if_pos hk] at h
    rw [if_pos hk]
    simpa [keys] using h
  · rw [if_neg hk] at h
    rw [if_neg hk]
    simpa [keys] using h

theorem keys_erase (m : StdMap K V) (k : K) :
    keys (erase m k) = (keys m).filter (fun x => !decide (x = k)) := by
  induction m with
  | nil => rfl
  | cons p t ih =>
    obtain ⟨k₀, v⟩ := p
    simp only [keys, erase] at ih
    by_cases h : k₀ = k
    · simp [keys, erase, h, ih]
    · simp [keys, erase, h, ih]

theorem mem_keys_erase (m : StdMap K V) (k k' : K) :
    k' ∈ keys (erase m k) ↔ k' ≠ k ∧ k' ∈ keys m := by
  rw [keys_erase]
  simp [and_comm]

theorem nodup_keys_erase (m : StdMap K V) (k : K) (hm : (keys m).Nodup) :
    (keys (erase m k)).Nodup := by
  rw [keys_erase]
  exact hm.filter _

theorem erase_of_not_mem (m : StdMap K V) (k : K) (h : k ∉ keys m) : erase m k = m := by
  unfold erase
  rw [List.filter_eq_self]
  intro p hp
  have : p.1 ∈ keys m := List.mem_map_of_mem Prod.fst hp
  simp only [Bool.not_eq_true', decide_eq_false_iff_not]
  rintro rfl
  exact h this

theorem length_erase (m : StdMap K V) (k : K) (hm : (keys m).Nodup) (h : k ∈ keys m) :
    (erase m k).length + 1 = m.length := by
  induction m with
  | nil => simp [keys] at h
  | cons p t ih =>
    obtain ⟨k₀, v⟩ := p
    simp only [keys, List.map_cons, List.nodup_cons] at hm
    by_cases hk : k₀ = k
    · subst hk
      have : erase t k₀ = t := erase_of_not_mem t k₀ hm.1
      simp only [erase] at this
      simp [erase, this]
    · have hk' : k ∈ keys t := by
        simp only [keys, List.map_cons, List.mem_cons] at h
        rcases h with h | h
        · exact absurd h.symm hk
        · exact h
      have := ih hm.2 hk'
      simp only [erase] at this
      simp [erase, hk, this]

end StdMap

/-! ## Lemmas on `std::set` -/

namespace StdSet

variable {K : Type} [LinearOrder K]

theorem set_insertSorted_perm (k : K) (s : StdSet K) : (insertSorted k s).Perm (k :: s) := by
  induction s with
  | nil => simp [insertSorted]
  | cons x t ih =>
    by_cases h : k < x
    · simp [insertSorted, h]
    · simp only [insertSorted, h, if_false]
      exact (List.Perm.cons _ ih).trans (List.Perm.swap _ _ _)

theorem mem_insert (s : StdSet K) (k x : K) : x ∈ insert s k ↔ x = k ∨ x ∈ s := by
  unfold insert
  by_cases h : k ∈ s
  · simp only [h, if_true]
    constructor
    · exact Or.inr
    · rintro (rfl | h') <;> assumption
  · simp only [h, if_false, (set_insertSorted_perm k s).mem_iff, List.mem_cons]

theorem nodup_insert (s : StdSet K) (k : K) (hs : s.Nodup) : (insert s k).Nodup := by
  unfold insert
  by_cases h : k ∈ s
  · simpa [h] using hs
  · rw [if_neg h, (set_insertSorted_perm k s).nodup_iff, List.nodup_cons]
    exact ⟨h, hs⟩

theorem length_insert (s : StdSet K) (k : K) :
    (insert s k).length = if k ∈ s then s.length else s.length + 1 := by
  unfold insert
  by_cases h : k ∈ s
  · simp [h]
  · simp only [h, if_false, (set_insertSorted_perm k s).length_eq, List.length_cons]

theorem mem_erase (s : StdSet K) (k x : K) : x ∈ erase s k ↔ x ≠ k ∧ x ∈ s := by
  simp [erase, and_comm]

theorem nodup_erase (s : StdSet K) (k : K) (hs : s.Nodup) : (erase s k).Nodup :=
  hs.filter _

end StdSet

/-! ## Lemmas on the sharded accumulator -/

theorem length_modifyNth {β : Type} (f : β → β) (n : Nat) (l : List β) :
    (modifyNth f n l).length = l.length := by
  induction l generalizing n with
  | nil => cases n <;> rfl
  | cons x t ih =>
    cases n with
    | zero => rfl
    | succ n => simp [modifyNth, ih]

theorem getElem?_modifyNth {β : Type} (f : β → β) (n : Nat) (l : List β) (i : Nat) :
    (modifyNth f n l)[i]? = if i = n then (l[i]?).map f else l[i]? := by
  induction l generalizing n i with
  | nil => cases n <;> simp [modifyNth]
  | cons x t ih =>
    cases n with
    | zero =>
      cases i with
      | zero => simp [modifyNth]
      | succ i => simp [modifyNth]
    | succ n =>
      cases i with
      | zero => simp [modifyNth]
      | succ i => simp [modifyNth, ih]

namespace ConcurrentMap

variable {V : Type}

theorem index_access (cm : ConcurrentMap V) (key : Int) (d : V) (f : V → V) (k : Int) :
    index (access cm key d f) k = index cm k := by
  simp [index, access, length_modifyNth]

theorem index_erase (cm : ConcurrentMap V) (key : Int) (k : Int) :
    index (erase cm key) k = index cm k := by
  simp [index, erase, length_modifyNth]

theorem index_lt (cm : ConcurrentMap V) (h : 0 < cm.maps_.length) (k : Int) :
    index cm k < cm.maps_.length :=
  Nat.mod_lt _ h

theorem get_access (cm : ConcurrentMap V) (h : 0 < cm.maps_.length) (key : Int) (d : V)
    (f : V → V) (k : Int) :
    get (access cm key d f) k = if k = key then some (f ((get cm key).getD d)) else get cm k := by
  unfold get
  rw [index_access]
  simp only [access, getElem?_modifyNth]
  by_cases hk : k = key
  · subst hk
    have hlt := index_lt cm h k
    simp [List.getElem?_eq_getElem hlt, StdMap.find_update]
  · by_cases hi : index cm k = index cm key
    · have hlt := index_lt cm h key
      simp [hi, hk, List.getElem?_eq_getElem hlt, StdMap.find_update]
    · simp [hi, hk]

theorem get_erase (cm : ConcurrentMap V) (h : 0 < cm.maps_.length) (key : Int) (k : Int) :
    get (erase cm key) k = if k = key then none else get cm k := by
  unfold get
  rw [index_erase]
  simp only [erase, getElem?_modifyNth]
  by_cases hk : k = key
  · subst hk
    have hlt := index_lt cm h k
    simp [List.getElem?_eq_getElem hlt, StdMap.find_erase]
  · by_cases hi : index cm k = index cm key
    · have hlt := index_lt cm h key
      simp [hi, hk, List.getElem?_eq_getElem hlt, StdMap.find_erase]
    · simp [hi, hk]

theorem WF_create (n : Nat) (hn : 0 < n) : WF (create n : ConcurrentMap V) := by
  refine ⟨by simpa [create] using hn, ?_⟩
  intro i m hm
  have : m = [] := by
    have h2 := List.getElem?_mem hm
    simp only [create] at h2
    exact List.eq_of_mem_replicate h2
  subst this
  simp [StdMap.keys]

theorem get_create (n : Nat) (k : Int) : get (create n : ConcurrentMap V) k = none := by
  unfold get
  cases h : (create n : ConcurrentMap V).maps_[index (create n) k]? with
  | none => rfl
  | some m =>
    have h2 := List.getElem?_mem h
    simp only [create] at h2
    rw [List.eq_of_mem_replicate h2]
    rfl

theorem WF_access (cm : ConcurrentMap V) (h : WF cm) (key : Int) (d : V) (f : V → V) :
    WF (access cm key d f) := by
  refine ⟨by simpa [access, length_modifyNth] using h.1, ?_⟩
  intro i m hm
  simp only [access, getElem?_modifyNth] at hm
  by_cases hi : i = index cm key
  · simp only [hi, if_true, Option.map_eq_some'] at hm
    obtain ⟨m₀, hm₀, rfl⟩ := hm
    obtain ⟨hnd, hidx⟩ := h.2 _ _ hm₀
    refine ⟨StdMap.nodup_keys_update _ _ _ _ hnd, ?_⟩
    intro k hk
    rw [index_access]
    rcases (StdMap.mem_keys_update _ _ _ _ _).1 hk with rfl | hk
    · exact hi.symm
    · rw [hi]
      exact hidx k hk
  · simp only [hi, if_false] at hm
    obtain ⟨hnd, hidx⟩ := h.2 _ _ hm
    exact ⟨hnd, fun k hk => by rw [index_access]; exact hidx k hk⟩

theorem WF_erase (cm : ConcurrentMap V) (h : WF cm) (key : Int) : WF (erase cm key) := by
  refine ⟨by simpa [erase, length_modifyNth] using h.1, ?_⟩
  intro i m hm
  simp only [erase, getElem?_modifyNth] at hm
  by_cases hi : i = index cm key
  · simp only [hi, if_true, Option.map_eq_some'] at hm
    obtain ⟨m₀, hm₀, rfl⟩ := hm
    obtain ⟨hnd, hidx⟩ := h.2 _ _ hm₀
    refine ⟨StdMap.nodup_keys_erase _ _ hnd, ?_⟩
    intro k hk
    rw [index_erase, hi]
    exact hidx k ((StdMap.mem_keys_erase _ _ _).1 hk).2
  · simp only [hi, if_false] at hm
    obtain ⟨hnd, hidx⟩ := h.2 _ _ hm
    exact ⟨hnd, fun k hk => by rw [index_erase]; exact hidx k hk⟩

theorem mem_toList_iff (cm : ConcurrentMap V) (h : WF cm) (k : Int) (v : V) :
    (k, v) ∈ toList cm ↔ get cm k = some v := by
  unfold toList get
  constructor
  · intro hmem
    obtain ⟨m, hm, hkv⟩ := List.mem_flatten.1 hmem
    obtain ⟨i, hi⟩ := List.getElem?_of_mem hm
    obtain ⟨hnd, hidx⟩ := h.2 i m hi
    have hk : k ∈ StdMap.keys m := List.mem_map_of_mem Prod.fst hkv
    rw [hidx k hk, hi]
    exact StdMap.find_of_mem m hnd k v hkv
  · intro hget
    cases hm : cm.maps_[index cm k]? with
    | none => simp [hm] at hget
    | some m =>
      simp only [hm, Option.some_bind] at hget
      exact List.mem_flatten.2 ⟨m, List.getElem?_mem hm, StdMap.mem_of_find m k v hget⟩

theorem nodup_keys_flatten (g : Int → Nat) (L : List (StdMap Int V)) (off : Nat)
    (h : ∀ i m, L[i]? = some m → (StdMap.keys m).Nodup ∧ ∀ k ∈ StdMap.keys m, g k = off + i) :
    (StdMap.keys L.flatten).Nodup ∧ ∀ k ∈ StdMap.keys L.flatten, off ≤ g k := by
  induction L generalizing off with
  | nil => simp [StdMap.keys]
  | cons m L ih =>
    have h0 := h 0 m (by simp)
    have hrec := ih (off + 1) (fun i m' hm' => by
      have := h (i + 1) m' (by simpa using hm')
      refine ⟨this.1, fun k hk => ?_⟩
      rw [this.2 k hk]
      omega)
    simp only [StdMap.keys, List.flatten_cons, List.map_append] at *
    refine ⟨List.nodup_append.2 ⟨h0.1, hrec.1, ?_⟩, ?_⟩
    · intro k hk1 hk2
      have e1 := h0.2 k hk1
      have e2 := hrec.2 k hk2
      omega
    · intro k hk
      rcases List.mem_append.1 hk with hk | hk
      · have := h0.2 k hk
        omega
      · have := hrec.2 k hk
        omega

theorem nodup_keys_toList (cm : ConcurrentMap V) (h : WF cm) :
    (StdMap.keys (toList cm)).Nodup :=
  (nodup_keys_flatten (index cm) cm.maps_ 0 (fun i m hm => by simpa using h.2 i m hm)).1

end ConcurrentMap

/-! ## The representation invariant -/

namespace SearchServer

variable {α : Type} [LinearOrderedField α]

theorem tfForward_eq_find (s : SearchServer α) (d : Int) (w : StringView) :
    tfForward s d w = StdMap.find (GetWordFrequencies s d) w := by
  unfold tfForward GetWordFrequencies
  cases StdMap.find s.document_to_word_freqs_ d <;> rfl

theorem occursIn_iff (s : SearchServer α) (w : StringView) (d : Int) :
    occursIn s w d ↔ (tfForward s d w).isSome = true := by
  rw [tfForward_eq_find, StdMap.find_isSome_iff]
  rfl

/-! ### The loop of `AddDocument` -/

theorem tfInverted_step (id : Int) (inv : α) (s : SearchServer α) (word w : StringView)
    (d : Int) :
    tfInverted (AddDocument.step id inv s word) w d =
      if w = word ∧ d = id then some ((tfInverted s word id).getD 0 + inv)
      else tfInverted s w d := by
  unfold tfInverted AddDocument.step
  simp only [StdMap.find_update]
  by_cases hw : w = word
  · subst hw
    by_cases hd : d = id
    · subst hd
      cases StdMap.find s.word_to_document_freqs_ w <;> simp [StdMap.find_update, StdMap.find]
    · cases StdMap.find s.word_to_document_freqs_ w <;> simp [StdMap.find_update, StdMap.find, hd]
  · simp [hw]

theorem tfForward_step (id : Int) (inv : α) (s : SearchServer α) (word w : StringView)
    (d : Int) :
    tfForward (AddDocument.step id inv s word) d w =
      if w = word ∧ d = id then some ((tfForward s id word).getD 0 + inv)
      else tfForward s d w := by
  unfold tfForward AddDocument.step
  simp only [StdMap.find_update]
  by_cases hd : d = id
  · subst hd
    by_cases hw : w = word
    · subst hw
      cases StdMap.find s.document_to_word_freqs_ d <;> simp [StdMap.find_update, StdMap.find]
    · cases StdMap.find s.document_to_word_freqs_ d <;> simp [StdMap.find_update, StdMap.find, hw]
  · simp [hd]

theorem LoopInv_step (id : Int) (inv : α) (s : SearchServer α) (word : StringView)
    (h : LoopInv id s) : LoopInv id (AddDocument.step id inv s word) := by
  constructor
  · exact StdMap.nodup_keys_update _ _ _ _ h.fwd_nodup
  · intro d ws hws
    simp only [AddDocument.step, StdMap.find_update] at hws
    by_cases hd : d = id
    · simp only [hd, if_true, Option.some.injEq] at hws
      subst hws
      apply StdMap.nodup_keys_update
      cases hf : StdMap.find s.document_to_word_freqs_ id with
      | none => simp [StdMap.keys]
      | some ws₀ => exact h.fwd_entry_nodup id ws₀ hf
    · simp only [hd, if_false] at hws
      exact h.fwd_entry_nodup d ws hws
  · intro d hd
    simp only [AddDocument.step] at hd
    rcases (StdMap.mem_keys_update _ _ _ _ _).1 hd with rfl | hd
    · exact Or.inr rfl
    · exact h.fwd_ids d hd
  · exact StdMap.nodup_keys_update _ _ _ _ h.inv_nodup
  · intro w docs hdocs
    simp only [AddDocument.step, StdMap.find_update] at hdocs
    by_cases hw : w = word
    · simp only [hw, if_true, Option.some.injEq] at hdocs
      subst hdocs
      apply StdMap.nodup_keys_update
      cases hf : StdMap.find s.word_to_document_freqs_ word with
      | none => simp [StdMap.keys]
      | some docs₀ => exact h.inv_entry_nodup word docs₀ hf
    · simp only [hw, if_false] at hdocs
      exact h.inv_entry_nodup w docs hdocs
  · intro w d
    rw [tfInverted_step, tfForward_step, h.mirror, h.mirror]

theorem LoopInv_foldl (id : Int) (inv : α) (words : List StringView) (s : SearchServer α)
    (h : LoopInv id s) : LoopInv id (words.foldl (AddDocument.step id inv) s) := by
  induction words generalizing s with
  | nil => exact h
  | cons w t ih => exact ih _ (LoopInv_step id inv s w h)

theorem foldl_step_fields (id : Int) (inv : α) (words : List StringView) (s : SearchServer α) :
    (words.foldl (AddDocument.step id inv) s).stop_words_ = s.stop_words_ ∧
    (words.foldl (AddDocument.step id inv) s).words_ = s.words_ ∧
    (words.foldl (AddDocument.step id inv) s).documents_ = s.documents_ ∧
    (words.foldl (AddDocument.step id inv) s).document_ids_ = s.document_ids_ := by
  induction words generalizing s with
  | nil => exact ⟨rfl, rfl, rfl, rfl⟩
  | cons w t ih =>
    obtain ⟨h1, h2, h3, h4⟩ := ih (AddDocument.step id inv s w)
    exact ⟨h1, h2, h3, h4⟩

theorem tfForward_foldl (id : Int) (inv : α) (words : List StringView) (s : SearchServer α)
    (w : StringView) (d : Int) :
    tfForward (words.foldl (AddDocument.step id inv) s) d w =
      if w ∈ words ∧ d = id then
        some ((tfForward s id w).getD 0 + (words.count w : α) * inv)
      else tfForward s d w := by
  induction words generalizing s with
  | nil => simp
  | cons x t ih =>
    rw [List.foldl_cons, ih, tfForward_step, tfForward_step]
    by_cases hd : d = id
    · subst hd
      by_cases hx : w = x
      · subst hx
        by_cases ht : w ∈ t
        · simp [ht, List.count_cons_self]
          ring
        · simp [ht, List.count_eq_zero_of_not_mem ht]
      · have hx' : x ≠ w := fun e => hx e.symm
        by_cases ht : w ∈ t
        · simp [ht, hx, List.count_cons_of_ne hx']
        · simp [ht, hx]
    · simp [hd]

theorem keys_forward_foldl (id : Int) (inv : α) (words : List StringView) (s : SearchServer α)
    (d : Int) :
    d ∈ StdMap.keys (words.foldl (AddDocument.step id inv) s).document_to_word_freqs_ ↔
      (d = id ∧ words ≠ []) ∨ d ∈ StdMap.keys s.document_to_word_freqs_ := by
  induction words generalizing s with
  | nil => simp
  | cons x t ih =>
    rw [List.foldl_cons, ih]
    simp only [AddDocument.step, StdMap.mem_keys_update]
    constructor
    · rintro (⟨rfl, _⟩ | rfl | h)
      · exact Or.inl ⟨rfl, by simp⟩
      · exact Or.inl ⟨rfl, by simp⟩
      · exact Or.inr h
    · rintro (⟨rfl, _⟩ | h)
      · exact Or.inr (Or.inl rfl)
      · exact Or.inr (Or.inr h)

end SearchServer

namespace SearchServer

variable {α : Type} [LinearOrderedField α]

/-! ### `AddDocument` -/

theorem split_fields (s : SearchServer α) (text : StringView) :
    (SplitIntoWordsNoStopAndAddWords s text).1.stop_words_ = s.stop_words_ ∧
    (SplitIntoWordsNoStopAndAddWords s text).1.word_to_document_freqs_ =
      s.word_to_document_freqs_ ∧
    (SplitIntoWordsNoStopAndAddWords s text).1.document_to_word_freqs_ =
      s.document_to_word_freqs_ ∧
    (SplitIntoWordsNoStopAndAddWords s text).1.documents_ = s.documents_ ∧
    (SplitIntoWordsNoStopAndAddWords s text).1.document_ids_ = s.document_ids_ :=
  ⟨rfl, rfl, rfl, rfl, rfl⟩

theorem Inv_of_fields (s t : SearchServer α) (h : Inv s)
    (h1 : t.word_to_document_freqs_ = s.word_to_document_freqs_)
    (h2 : t.document_to_word_freqs_ = s.document_to_word_freqs_)
    (h3 : t.documents_ = s.documents_) (h4 : t.document_ids_ = s.document_ids_) : Inv t := by
  obtain ⟨a1, a2, a3, a4, a5, a6, a7, a8, a9, a10⟩ := h
  constructor
  · rw [h4]; exact a1
  · rw [h3]; exact a2
  · rw [h3, h4]; exact a3
  · rw [h4]; exact a4
  · rw [h2]; exact a5
  · rw [h2]; exact a6
  · rw [h2, h4]; exact a7
  · rw [h1]; exact a8
  · rw [h1]; exact a9
  · intro w d
    have := a10 w d
    simpa only [tfInverted, tfForward, h1, h2] using this

/-- The state left by a successful `AddDocument`, in terms of the returned word list. -/
theorem AddDocument_ok (s : SearchServer α) (id : Int) (text : StringView)
    (status : DocumentStatus) (ratings : List Int)
    (h : (AddDocument s id text status ratings).2 = .ok ()) :
    ¬ (id < 0) ∧ StdMap.find s.documents_ id = none ∧
    ∃ words, (SplitIntoWordsNoStopAndAddWords s text).2 = .ok words ∧
      (AddDocument s id text status ratings).1 =
        { (words.foldl (AddDocument.step id (1 / (words.length : α)))
            (SplitIntoWordsNoStopAndAddWords s text).1) with
          documents_ := StdMap.emplace s.documents_ id ⟨ComputeAverageRating ratings, status⟩,
          document_ids_ := StdSet.insert s.document_ids_ id } := by
  unfold AddDocument at h ⊢
  by_cases hc : id < 0 ∨ StdMap.count s.documents_ id > 0
  · simp [hc] at h
  · simp only [hc, if_false] at h ⊢
    have hc' := not_or.1 hc
    have hfind : StdMap.find s.documents_ id = none := by
      have := hc'.2
      unfold StdMap.count at this
      cases hf : StdMap.find s.documents_ id with
      | none => rfl
      | some v => simp [hf] at this
    refine ⟨hc'.1, hfind, ?_⟩
    rcases hsp : SplitIntoWordsNoStopAndAddWords s text with ⟨s1, r⟩
    cases r with
    | error e => simp [hsp] at h
    | ok words =>
      refine ⟨words, rfl, ?_⟩
      simp only
      have hf := foldl_step_fields id (1 / (words.length : α)) words s1
      have hs1 := split_fields s text
      rw [hsp] at hs1
      simp only at hs1
      rw [hf.2.2.1, hf.2.2.2, hs1.2.2.2.1, hs1.2.2.2.2]

/-- The state left by a failed `AddDocument` differs from the state before the call in
the pool `words_` at most. -/
theorem AddDocument_error (s : SearchServer α) (id : Int) (text : StringView)
    (status : DocumentStatus) (ratings : List Int)
    (h : (AddDocument s id text status ratings).2 ≠ .ok ()) :
    (AddDocument s id text status ratings).1.stop_words_ = s.stop_words_ ∧
    (AddDocument s id text status ratings).1.word_to_document_freqs_ =
      s.word_to_document_freqs_ ∧
    (AddDocument s id text status ratings).1.document_to_word_freqs_ =
      s.document_to_word_freqs_ ∧
    (AddDocument s id text status ratings).1.documents_ = s.documents_ ∧
    (AddDocument s id text status ratings).1.document_ids_ = s.document_ids_ := by
  unfold AddDocument at h ⊢
  by_cases hc : id < 0 ∨ StdMap.count s.documents_ id > 0
  · simp [hc]
  · simp only [hc, if_false] at h ⊢
    rcases hsp : SplitIntoWordsNoStopAndAddWords s text with ⟨s1, r⟩
    have hs1 := split_fields s text
    rw [hsp] at hs1
    cases r with
    | error e => exact hs1
    | ok words =>
      rw [hsp] at h
      exact absurd rfl h

theorem Inv_AddDocument (s : SearchServer α) (id : Int) (text : StringView)
    (status : DocumentStatus) (ratings : List Int) (h : Inv s) :
    Inv (AddDocument s id text status ratings).1 := by
  by_cases hok : (AddDocument s id text status ratings).2 = .ok ()
  · obtain ⟨hneg, hfind, words, hsp, hst⟩ := AddDocument_ok s id text status ratings hok
    rw [hst]
    have hs1 := split_fields s text
    have hL0 : LoopInv id (SplitIntoWordsNoStopAndAddWords s text).1 := by
      have h1 := Inv_of_fields s _ h hs1.2.1 hs1.2.2.1 hs1.2.2.2.1 hs1.2.2.2.2
      exact ⟨h1.fwd_nodup, h1.fwd_entry_nodup, fun d hd => Or.inl (h1.fwd_ids d hd),
        h1.inv_nodup, h1.inv_entry_nodup, h1.mirror⟩
    have hL := LoopInv_foldl id (1 / (words.length : α)) words _ hL0
    have hf := foldl_step_fields id (1 / (words.length : α)) words
      (SplitIntoWordsNoStopAndAddWords s text).1
    have hidnew : id ∉ StdMap.keys s.documents_ := (StdMap.find_eq_none_iff _ _).1 hfind
    constructor
    · exact StdSet.nodup_insert _ _ h.ids_nodup
    · exact StdMap.nodup_keys_update _ _ _ _ h.docs_nodup
    · intro d
      simp only [StdSet.mem_insert, StdMap.emplace, StdMap.mem_keys_update, h.ids_docs]
    · intro d hd
      rcases (StdSet.mem_insert _ _ _).1 hd with rfl | hd
      · exact not_lt.1 hneg
      · exact h.ids_nonneg d hd
    · exact hL.fwd_nodup
    · exact hL.fwd_entry_nodup
    · intro d hd
      simp only [StdSet.mem_insert]
      rcases hL.fwd_ids d hd with hd' | hd'
      · rw [hf.2.2.2, hs1.2.2.2.2] at hd'
        exact Or.inr hd'
      · exact Or.inl hd'
    · exact hL.inv_nodup
    · exact hL.inv_entry_nodup
    · exact hL.mirror
  · have he := AddDocument_error s id text status ratings hok
    exact Inv_of_fields s _ h he.2.1 he.2.2.1 he.2.2.2.1 he.2.2.2.2

end SearchServer

namespace SearchServer

variable {α : Type} [LinearOrderedField α]

/-! ### `RemoveDocument` -/

/-- The loop of `RemoveDocument` over the words of the removed document. -/
theorem find_remove_foldl (id : Int) (dw : List (StringView × α))
    (inverted : StdMap StringView (StdMap Int α)) (w : StringView) (d : Int) :
    (StdMap.find (dw.foldl (fun inverted word =>
        StdMap.update inverted word.1 [] (fun docs => StdMap.erase docs id)) inverted) w).bind
        (fun docs => StdMap.find docs d) =
      if d = id ∧ w ∈ StdMap.keys dw then none
      else (StdMap.find inverted w).bind (fun docs => StdMap.find docs d) := by
  induction dw generalizing inverted with
  | nil => simp [StdMap.keys]
  | cons p t ih =>
    rw [List.foldl_cons, ih]
    simp only [StdMap.find_update, StdMap.keys, List.map_cons, List.mem_cons]
    by_cases hd : d = id
    · subst hd
      by_cases hw : w = p.1
      · subst hw
        by_cases ht : p.1 ∈ List.map Prod.fst t
        · simp [ht]
        · simp [ht, StdMap.find_erase]
      · by_cases ht : w ∈ List.map Prod.fst t
        · simp [ht]
        · simp [ht, hw]
    · by_cases hw : w = p.1
      · subst hw
        cases StdMap.find inverted p.1 <;> simp [hd, StdMap.find_erase, StdMap.find]
      · simp [hd, hw]

theorem nodup_remove_foldl (id : Int) (dw : List (StringView × α))
    (inverted : StdMap StringView (StdMap Int α))
    (h1 : (StdMap.keys inverted).Nodup)
    (h2 : ∀ w docs, StdMap.find inverted w = some docs → (StdMap.keys docs).Nodup) :
    (StdMap.keys (dw.foldl (fun inverted word =>
        StdMap.update inverted word.1 [] (fun docs => StdMap.erase docs id)) inverted)).Nodup ∧
    ∀ w docs, StdMap.find (dw.foldl (fun inverted word =>
        StdMap.update inverted word.1 [] (fun docs => StdMap.erase docs id)) inverted) w =
          some docs → (StdMap.keys docs).Nodup := by
  induction dw generalizing inverted with
  | nil => exact ⟨h1, h2⟩
  | cons p t ih =>
    rw [List.foldl_cons]
    apply ih
    · exact StdMap.nodup_keys_update _ _ _ _ h1
    · intro w docs hdocs
      simp only [StdMap.find_update] at hdocs
      by_cases hw : w = p.1
      · simp only [hw, if_true, Option.some.injEq] at hdocs
        subst hdocs
        apply StdMap.nodup_keys_erase
        cases hf : StdMap.find inverted p.1 with
        | none => simp [StdMap.keys]
        | some docs₀ => exact h2 _ _ hf
      · simp only [hw, if_false] at hdocs
        exact h2 w docs hdocs

/-- The state left by a successful `RemoveDocument`. -/
theorem RemoveDocument_ok (s : SearchServer α) (id : Int) (h : id ∈ s.document_ids_) :
    (RemoveDocument s id).2 = .ok () ∧
    (RemoveDocument s id).1.stop_words_ = s.stop_words_ ∧
    (RemoveDocument s id).1.words_ = s.words_ ∧
    (RemoveDocument s id).1.documents_ = StdMap.erase s.documents_ id ∧
    (RemoveDocument s id).1.document_ids_ = StdSet.erase s.document_ids_ id ∧
    (∀ d, StdMap.find (RemoveDocument s id).1.document_to_word_freqs_ d =
      if d = id then none else StdMap.find s.document_to_word_freqs_ d) ∧
    (∀ w d, tfInverted (RemoveDocument s id).1 w d =
      if d = id ∧ w ∈ StdMap.keys (GetWordFrequencies s id) then none
      else tfInverted s w d) := by
  unfold RemoveDocument
  simp only [h, not_true_eq_false, if_false, true_and]
  refine ⟨?_, ?_⟩
  · intro d
    simp only [StdMap.find_erase, StdMap.find_mapAt, StdMap.find_update]
    by_cases hd : d = id <;> simp [hd]
  · intro w d
    unfold tfInverted GetWordFrequencies
    simp only [StdMap.find_update, if_true]
    rw [find_remove_foldl]
    cases StdMap.find s.document_to_word_freqs_ id <;> simp

theorem RemoveDocument_error (s : SearchServer α) (id : Int) (h : id ∉ s.document_ids_) :
    RemoveDocument s id = (s, .error .invalid_argument) := by
  unfold RemoveDocument
  simp [h]

theorem Inv_RemoveDocument (s : SearchServer α) (id : Int) (h : Inv s) :
    Inv (RemoveDocument s id).1 := by
  by_cases hid : id ∈ s.document_ids_
  · obtain ⟨-, -, -, hdocs, hids, hfwd, hinv⟩ := RemoveDocument_ok s id hid
    have hfk : ∀ d, d ∈ StdMap.keys (RemoveDocument s id).1.document_to_word_freqs_ ↔
        d ≠ id ∧ d ∈ StdMap.keys s.document_to_word_freqs_ := by
      intro d
      rw [← StdMap.find_isSome_iff, ← StdMap.find_isSome_iff, hfwd]
      by_cases hd : d = id <;> simp [hd]
    constructor
    · rw [hids]; exact StdSet.nodup_erase _ _ h.ids_nodup
    · rw [hdocs]; exact StdMap.nodup_keys_erase _ _ h.docs_nodup
    · intro d
      rw [hids, hdocs, StdSet.mem_erase, StdMap.mem_keys_erase, h.ids_docs]
    · intro d hd
      rw [hids] at hd
      exact h.ids_nonneg d ((StdSet.mem_erase _ _ _).1 hd).2
    · unfold RemoveDocument
      simp only [hid, not_true_eq_false, if_false]
      apply StdMap.nodup_keys_erase
      rw [StdMap.keys_mapAt]
      exact StdMap.nodup_keys_update _ _ _ _ h.fwd_nodup
    · intro d ws hws
      rw [hfwd] at hws
      by_cases hd : d = id
      · simp [hd] at hws
      · simp only [hd, if_false] at hws
        exact h.fwd_entry_nodup d ws hws
    · intro d hd
      rw [hids, StdSet.mem_erase]
      exact ⟨((hfk d).1 hd).1, h.fwd_ids d ((hfk d).1 hd).2⟩
    · unfold RemoveDocument
      simp only [hid, not_true_eq_false, if_false]
      exact (nodup_remove_foldl id _ _ h.inv_nodup h.inv_entry_nodup).1
    · unfold RemoveDocument
      simp only [hid, not_true_eq_false, if_false]
      exact (nodup_remove_foldl id _ _ h.inv_nodup h.inv_entry_nodup).2
    · intro w d
      rw [hinv]
      unfold tfForward
      rw [hfwd]
      by_cases hd : d = id
      · subst hd
        by_cases hw : w ∈ StdMap.keys (GetWordFrequencies s d)
        · simp [hw]
        · have h1 := h.mirror w d
          rw [tfForward_eq_find, (StdMap.find_eq_none_iff _ _).2 hw] at h1
          simp [hw, h1]
      · simp only [hd, false_and, if_false]
        exact h.mirror w d
  · rw [RemoveDocument_error s id hid]
    exact h

/-! ### Construction and reachable states -/

theorem Inv_create (stop_words : List StringView) (s : SearchServer α)
    (h : create stop_words = .ok s) : Inv s := by
  unfold create at h
  by_cases hv : ¬ (MakeUniqueNonEmptyStrings stop_words).all IsValidWord
  · simp [hv] at h
  · simp only [hv, if_false, Except.ok.injEq] at h
    subst h
    constructor <;> simp [StdMap.keys, StdMap.find, tfInverted, tfForward]

theorem Reachable.inv {s : SearchServer α} (h : Reachable s) : Inv s := by
  induction h with
  | init stop_words s h => exact Inv_create stop_words s h
  | add s id text status ratings _ ih => exact Inv_AddDocument s id text status ratings ih
  | remove s id _ ih => exact Inv_RemoveDocument s id ih

end SearchServer

namespace SearchServer

variable {α : Type} [LinearOrderedField α]

/-! ## `FindAllDocuments` -/

theorem atKey_of_find {K V : Type} [LinearOrder K] (m : StdMap K V) (k : K) (v : V)
    (h : StdMap.find m k = some v) : StdMap.atKey m k = .ok v := by
  simp [StdMap.atKey, h]

/-- In a state that satisfies the invariant every document of an inverted entry has
metadata. -/
theorem Inv.docs_of_inverted {s : SearchServer α} (h : Inv s) (w : StringView)
    (docs : StdMap Int α) (hd : StdMap.find s.word_to_document_freqs_ w = some docs)
    (d : Int) (hk : d ∈ StdMap.keys docs) : ∃ data, StdMap.find s.documents_ d = some data := by
  obtain ⟨tf, htf⟩ := Option.isSome_iff_exists.1 ((StdMap.find_isSome_iff docs d).2 hk)
  have h1 : tfInverted s w d = some tf := by simp [tfInverted, hd, htf]
  rw [h.mirror] at h1
  have h2 : d ∈ StdMap.keys s.document_to_word_freqs_ := by
    rw [← StdMap.find_isSome_iff]
    unfold tfForward at h1
    cases hf : StdMap.find s.document_to_word_freqs_ d with
    | none => simp [hf] at h1
    | some ws => rfl
  have h3 := (h.ids_docs d).1 (h.fwd_ids d h2)
  exact Option.isSome_iff_exists.1 ((StdMap.find_isSome_iff _ _).2 h3)

theorem scoreDocs_spec (s : SearchServer α) (pred : DocumentPredicate) (idf : α)
    (docs : List (Int × α)) (acc : ConcurrentMap α) (hacc : acc.WF)
    (hnd : (StdMap.keys docs).Nodup)
    (hdocs : ∀ d ∈ StdMap.keys docs, ∃ data, StdMap.find s.documents_ d = some data) :
    ∃ acc', FindAllDocuments.scoreDocs s pred idf docs acc = .ok acc' ∧ acc'.WF ∧
      ∀ d, acc'.get d =
        match StdMap.find docs d with
        | some tf => if predAt s pred d then some ((acc.get d).getD 0 + tf * idf) else acc.get d
        | none => acc.get d := by
  induction docs generalizing acc with
  | nil => exact ⟨acc, rfl, hacc, fun d => rfl⟩
  | cons p t ih =>
    obtain ⟨d₀, tf₀⟩ := p
    simp only [StdMap.keys, List.map_cons, List.nodup_cons, List.mem_cons] at hnd hdocs
    obtain ⟨data, hdata⟩ := hdocs d₀ (Or.inl rfl)
    have hfind_t : StdMap.find t d₀ = none := (StdMap.find_eq_none_iff t d₀).2 hnd.1
    unfold FindAllDocuments.scoreDocs
    rw [atKey_of_find _ _ _ hdata]
    simp only
    by_cases hp : pred d₀ data.status data.rating = true
    · simp only [hp, if_true]
      obtain ⟨acc', h1, h2, h3⟩ := ih (ConcurrentMap.access acc d₀ 0 (fun x => x + tf₀ * idf))
        (ConcurrentMap.WF_access acc hacc _ _ _) hnd.2 (fun d hd => hdocs d (Or.inr hd))
      refine ⟨acc', h1, h2, ?_⟩
      intro d
      rw [h3 d, ConcurrentMap.get_access acc hacc.1]
      by_cases hd : d = d₀
      · subst hd
        simp [StdMap.find, hfind_t, predAt, hdata, hp]
      · simp [StdMap.find, hd]
    · simp only [hp]
      obtain ⟨acc', h1, h2, h3⟩ := ih acc hacc hnd.2 (fun d hd => hdocs d (Or.inr hd))
      refine ⟨acc', h1, h2, ?_⟩
      intro d
      rw [h3 d]
      by_cases hd : d = d₀
      · subst hd
        simp [StdMap.find, hfind_t, predAt, hdata, hp]
      · simp [StdMap.find, hd]

theorem plusWord_spec (ln : α → α) (s : SearchServer α) (h : Inv s) (pred : DocumentPredicate)
    (acc : ConcurrentMap α) (hacc : acc.WF) (w : StringView) :
    ∃ acc', FindAllDocuments.plusWord ln s pred acc w = .ok acc' ∧ acc'.WF ∧
      ∀ d, acc'.get d = scoreStep ln s pred d (acc.get d) w := by
  unfold FindAllDocuments.plusWord
  cases hf : StdMap.find s.word_to_document_freqs_ w with
  | none =>
    refine ⟨acc, rfl, hacc, fun d => ?_⟩
    simp [scoreStep, tfInverted, hf]
  | some docs =>
    simp only [ComputeWordInverseDocumentFreq, atKey_of_find _ _ _ hf]
    obtain ⟨acc', h1, h2, h3⟩ := scoreDocs_spec s pred
      (ln ((GetDocumentCount s : α) * 1 / (docs.length : α))) docs acc hacc
      (h.inv_entry_nodup w docs hf) (fun d hd => h.docs_of_inverted w docs hf d hd)
    refine ⟨acc', h1, h2, fun d => ?_⟩
    rw [h3 d]
    cases hfd : StdMap.find docs d <;> simp [scoreStep, tfInverted, hf, idfOf, hfd]

theorem plusWords_spec (ln : α → α) (s : SearchServer α) (h : Inv s) (pred : DocumentPredicate)
    (ws : List StringView) (acc : ConcurrentMap α) (hacc : acc.WF) :
    ∃ acc', FindAllDocuments.plusWords ln s pred ws acc = .ok acc' ∧ acc'.WF ∧
      ∀ d, acc'.get d = ws.foldl (scoreStep ln s pred d) (acc.get d) := by
  induction ws generalizing acc with
  | nil => exact ⟨acc, rfl, hacc, fun d => rfl⟩
  | cons w t ih =>
    obtain ⟨acc1, h1, h2, h3⟩ := plusWord_spec ln s h pred acc hacc w
    obtain ⟨acc', h4, h5, h6⟩ := ih acc1 h2
    refine ⟨acc', ?_, h5, fun d => ?_⟩
    · unfold FindAllDocuments.plusWords
      rw [h1]
      exact h4
    · rw [h6 d, h3 d]
      rfl

theorem erase_foldl_spec (docs : List (Int × α)) (acc : ConcurrentMap α) (hacc : acc.WF) :
    (docs.foldl (fun acc p => ConcurrentMap.erase acc p.1) acc).WF ∧
    ∀ d, (docs.foldl (fun acc p => ConcurrentMap.erase acc p.1) acc).get d =
      if d ∈ StdMap.keys docs then none else acc.get d := by
  induction docs generalizing acc with
  | nil => exact ⟨hacc, fun d => by simp [StdMap.keys]⟩
  | cons p t ih =>
    obtain ⟨h1, h2⟩ := ih (ConcurrentMap.erase acc p.1) (ConcurrentMap.WF_erase acc hacc p.1)
    refine ⟨h1, fun d => ?_⟩
    rw [List.foldl_cons, h2 d, ConcurrentMap.get_erase acc hacc.1]
    simp only [StdMap.keys, List.map_cons, List.mem_cons]
    by_cases hd : d = p.1
    · simp [hd]
    · by_cases ht : d ∈ List.map Prod.fst t <;> simp [hd, ht]

theorem minusWord_spec (s : SearchServer α) (acc : ConcurrentMap α) (hacc : acc.WF)
    (w : StringView) :
    (FindAllDocuments.minusWord s acc w).WF ∧
    ∀ d, (FindAllDocuments.minusWord s acc w).get d =
      if (tfInverted s w d).isSome then none else acc.get d := by
  unfold FindAllDocuments.minusWord tfInverted
  cases hf : StdMap.find s.word_to_document_freqs_ w with
  | none => exact ⟨hacc, fun d => by simp⟩
  | some docs =>
    obtain ⟨h1, h2⟩ := erase_foldl_spec docs acc hacc
    refine ⟨h1, fun d => ?_⟩
    simp only [h2 d, Option.some_bind, StdMap.find_isSome_iff]

theorem minusWords_spec (s : SearchServer α) (ws : List StringView) (acc : ConcurrentMap α)
    (hacc : acc.WF) :
    (ws.foldl (FindAllDocuments.minusWord s) acc).WF ∧
    ∀ d, (ws.foldl (FindAllDocuments.minusWord s) acc).get d =
      if ∃ w ∈ ws, (tfInverted s w d).isSome = true then none else acc.get d := by
  induction ws generalizing acc with
  | nil => exact ⟨hacc, fun d => by simp⟩
  | cons w t ih =>
    obtain ⟨h1, h2⟩ := minusWord_spec s acc hacc w
    obtain ⟨h3, h4⟩ := ih _ h1
    refine ⟨h3, fun d => ?_⟩
    rw [List.foldl_cons, h4 d, h2 d]
    by_cases hw : (tfInverted s w d).isSome = true
    · simp [hw]
    · by_cases ht : ∃ w ∈ t, (tfInverted s w d).isSome = true
      · have : ∃ w' ∈ w :: t, (tfInverted s w' d).isSome = true := by
          obtain ⟨w', hw', hs⟩ := ht
          exact ⟨w', List.mem_cons_of_mem _ hw', hs⟩
        simp [ht, this]
      · have : ¬ ∃ w' ∈ w :: t, (tfInverted s w' d).isSome = true := by
          rintro ⟨w', hw', hs⟩
          rcases List.mem_cons.1 hw' with rfl | hw'
          · exact hw hs
          · exact ht ⟨w', hw', hs⟩
        simp [ht, this, hw]

theorem drain_spec (s : SearchServer α) (l : List (Int × α))
    (hl : ∀ p ∈ l, ∃ data, StdMap.find s.documents_ p.1 = some data) :
    ∃ res, FindAllDocuments.drain s l = .ok res ∧
      res.map (fun doc => (doc.id, doc.relevance)) = l ∧
      ∀ doc ∈ res, ∃ data, StdMap.find s.documents_ doc.id = some data ∧
        doc.rating = data.rating := by
  induction l with
  | nil => exact ⟨[], rfl, rfl, by simp⟩
  | cons p t ih =>
    obtain ⟨d, r⟩ := p
    obtain ⟨data, hdata⟩ := hl (d, r) (List.mem_cons_self _ _)
    obtain ⟨res, h1, h2, h3⟩ := ih (fun p hp => hl p (List.mem_cons_of_mem _ hp))
    refine ⟨⟨d, r, data.rating⟩ :: res, ?_, ?_, ?_⟩
    · unfold FindAllDocuments.drain
      rw [atKey_of_find _ _ _ hdata, h1]
    · simp [h2]
    · intro doc hdoc
      rcases List.mem_cons.1 hdoc with rfl | hdoc
      · exact ⟨data, hdata, rfl⟩
      · exact h3 doc hdoc

end SearchServer

/-! ## `std::sort` -/

theorem linearInsert_perm {β : Type} (comp : β → β → Bool) (val : β) (sorted : List β) :
    (linearInsert comp val sorted).Perm (val :: sorted) := by
  unfold linearInsert
  have h := List.takeWhile_append_dropWhile (fun x => comp val x) sorted.reverse
  have h2 : ((sorted.reverse.dropWhile (fun x => comp val x)).reverse ++
      (sorted.reverse.takeWhile (fun x => comp val x)).reverse).Perm sorted := by
    rw [← List.reverse_append, h]
    exact (List.reverse_perm _).trans (List.reverse_perm _)
  exact List.perm_middle.trans (List.Perm.cons _ h2)

theorem insertionStep_perm {β : Type} (comp : β → β → Bool) (sorted : List β) (val : β) :
    (insertionStep comp sorted val).Perm (val :: sorted) := by
  unfold insertionStep
  cases sorted with
  | nil => exact List.Perm.refl _
  | cons first rest =>
    by_cases h : comp val first = true
    · simp [h]
    · simp only [h]
      exact linearInsert_perm comp val (first :: rest)

theorem foldl_insertionStep_perm {β : Type} (comp : β → β → Bool) (l acc : List β) :
    (l.foldl (insertionStep comp) acc).Perm (l ++ acc) := by
  induction l generalizing acc with
  | nil => exact List.Perm.refl _
  | cons x t ih =>
    rw [List.foldl_cons]
    refine (ih _).trans ?_
    refine (List.Perm.append_left t (insertionStep_perm comp acc x)).trans ?_
    exact List.perm_middle

theorem stdSort_perm {β : Type} (comp : β → β → Bool) (l : List β) :
    (stdSort comp l).Perm l := by
  have h := foldl_insertionStep_perm comp l []
  simpa [stdSort] using h

namespace SearchServer

variable {α : Type} [LinearOrderedField α]

theorem foldl_scoreStep_of_not_pred (ln : α → α) (s : SearchServer α) (pred : DocumentPredicate)
    (d : Int) (hp : predAt s pred d = false) (ws : List StringView) (r : Option α) :
    ws.foldl (scoreStep ln s pred d) r = r := by
  induction ws generalizing r with
  | nil => rfl
  | cons w t ih =>
    rw [List.foldl_cons, ih]
    unfold scoreStep
    cases tfInverted s w d <;> simp [hp]

theorem foldl_scoreStep_of_pred (ln : α → α) (s : SearchServer α) (pred : DocumentPredicate)
    (d : Int) (hp : predAt s pred d = true) (ws : List StringView) (r : Option α) :
    ws.foldl (scoreStep ln s pred d) r =
      if ∃ w ∈ ws, (tfInverted s w d).isSome = true then
        some (r.getD 0 + ((ws.filter (fun w => (tfInverted s w d).isSome)).map
          (fun w => (tfInverted s w d).getD 0 * idfOf ln s w)).sum)
      else r := by
  induction ws generalizing r with
  | nil => simp
  | cons w t ih =>
    rw [List.foldl_cons, ih]
    unfold scoreStep
    cases hw : tfInverted s w d with
    | none =>
      simp only [hw, List.mem_cons, exists_eq_or_imp, Option.isSome_none, Bool.false_eq_true,
        false_or]
      simp [List.filter_cons, hw]
    | some tf =>
      simp only [hp, if_true, Option.getD_some]
      have hex : ∃ w' ∈ w :: t, (tfInverted s w' d).isSome = true :=
        ⟨w, List.mem_cons_self _ _, by simp [hw]⟩
      rw [if_pos hex]
      by_cases ht : ∃ w ∈ t, (tfInverted s w d).isSome = true
      · rw [if_pos ht]
        simp [List.filter_cons, hw, add_assoc]
      · rw [if_neg ht]
        have hnil : t.filter (fun w => (tfInverted s w d).isSome) = [] := by
          rw [List.filter_eq_nil_iff]
          intro w' hw' hs
          exact ht ⟨w', hw', hs⟩
        simp [List.filter_cons, hw, hnil]

theorem relevanceOf_isSome (ln : α → α) (s : SearchServer α) (pred : DocumentPredicate)
    (q : Query) (d : Int) :
    (relevanceOf ln s pred q d).isSome = true ↔
      (∃ w ∈ q.plus_words, (tfInverted s w d).isSome = true) ∧ predAt s pred d = true ∧
      ∀ w ∈ q.minus_words, (tfInverted s w d).isSome = false := by
  unfold relevanceOf
  by_cases hm : ∃ w ∈ q.minus_words, (tfInverted s w d).isSome = true
  · rw [if_pos hm]
    simp only [Option.isSome_none, Bool.false_eq_true, false_iff, not_and]
    intro _ _ hall
    obtain ⟨w, hw, hs⟩ := hm
    rw [hall w hw] at hs
    exact Bool.noConfusion hs
  · rw [if_neg hm]
    have hm' : ∀ w ∈ q.minus_words, (tfInverted s w d).isSome = false := by
      intro w hw
      cases hs : (tfInverted s w d).isSome
      · rfl
      · exact absurd ⟨w, hw, hs⟩ hm
    cases hp : predAt s pred d
    · rw [foldl_scoreStep_of_not_pred ln s pred d hp]
      simp
    · rw [foldl_scoreStep_of_pred ln s pred d hp]
      by_cases hpl : ∃ w ∈ q.plus_words, (tfInverted s w d).isSome = true
      · rw [if_pos hpl]
        simp only [Option.isSome_some, true_iff]
        exact ⟨hpl, trivial, hm'⟩
      · rw [if_neg hpl]
        simp only [Option.isSome_none, Bool.false_eq_true, false_iff]
        exact fun h => hpl h.1

theorem relevanceOf_value (ln : α → α) (s : SearchServer α) (pred : DocumentPredicate)
    (q : Query) (d : Int) (r : α) (h : relevanceOf ln s pred q d = some r) :
    r = ((q.plus_words.filter (fun w => (tfInverted s w d).isSome)).map
          (fun w => (tfInverted s w d).getD 0 * idfOf ln s w)).sum := by
  have hs : (relevanceOf ln s pred q d).isSome = true := by simp [h]
  obtain ⟨hpl, hp, -⟩ := (relevanceOf_isSome ln s pred q d).1 hs
  unfold relevanceOf at h
  by_cases hm : ∃ w ∈ q.minus_words, (tfInverted s w d).isSome = true
  · rw [if_pos hm] at h
    exact Option.noConfusion h
  · rw [if_neg hm, foldl_scoreStep_of_pred ln s pred d hp, if_pos hpl] at h
    simpa using h.symm

/-- The result of `FindAllDocuments` on an accumulator with at least one shard, in a
state that satisfies the invariant. -/
theorem FindAllDocumentsWith_spec (ln : α → α) (s : SearchServer α) (h : Inv s) (n : Nat)
    (hn : 0 < n) (q : Query) (pred : DocumentPredicate) :
    ∃ res, FindAllDocumentsWith ln s (ConcurrentMap.create n) q pred = .ok res ∧
      (res.map (fun doc => doc.id)).Nodup ∧
      ∀ doc : Document α, doc ∈ res ↔
        (relevanceOf ln s pred q doc.id = some doc.relevance ∧
          ∃ data, StdMap.find s.documents_ doc.id = some data ∧ doc.rating = data.rating) := by
  obtain ⟨acc1, h1, h2, h3⟩ := plusWords_spec ln s h pred q.plus_words
    (ConcurrentMap.create n) (ConcurrentMap.WF_create n hn)
  obtain ⟨h4, h5⟩ := minusWords_spec s q.minus_words acc1 h2
  have hget : ∀ d, (q.minus_words.foldl (FindAllDocuments.minusWord s) acc1).get d =
      relevanceOf ln s pred q d := by
    intro d
    rw [h5 d, h3 d, ConcurrentMap.get_create]
    rfl
  have hdata : ∀ d r, relevanceOf ln s pred q d = some r →
      ∃ data, StdMap.find s.documents_ d = some data := by
    intro d r hr
    have hs : (relevanceOf ln s pred q d).isSome = true := by simp [hr]
    have hp := ((relevanceOf_isSome ln s pred q d).1 hs).2.1
    unfold predAt at hp
    cases hf : StdMap.find s.documents_ d with
    | none => simp [hf] at hp
    | some data => exact ⟨data, rfl⟩
  obtain ⟨res, h6, h7, h8⟩ := drain_spec s
    (ConcurrentMap.toList (q.minus_words.foldl (FindAllDocuments.minusWord s) acc1))
    (fun p hp => by
      have := (ConcurrentMap.mem_toList_iff _ h4 p.1 p.2).1 hp
      rw [hget] at this
      exact hdata _ _ this)
  refine ⟨res, ?_, ?_, ?_⟩
  · unfold FindAllDocumentsWith
    rw [h1]
    exact h6
  · have hk := ConcurrentMap.nodup_keys_toList _ h4
    rw [← h7] at hk
    simpa [StdMap.keys, List.map_map, Function.comp] using hk
  · intro doc
    constructor
    · intro hdoc
      have hmem : (doc.id, doc.relevance) ∈
          ConcurrentMap.toList (q.minus_words.foldl (FindAllDocuments.minusWord s) acc1) := by
        rw [← h7]
        exact List.mem_map_of_mem (fun doc => (doc.id, doc.relevance)) hdoc
      have := (ConcurrentMap.mem_toList_iff _ h4 _ _).1 hmem
      rw [hget] at this
      exact ⟨this, h8 doc hdoc⟩
    · rintro ⟨hr, data, hdata', hrating⟩
      have hmem : (doc.id, doc.relevance) ∈
          ConcurrentMap.toList (q.minus_words.foldl (FindAllDocuments.minusWord s) acc1) := by
        rw [ConcurrentMap.mem_toList_iff _ h4, hget]
        exact hr
      rw [← h7] at hmem
      obtain ⟨doc', hdoc', heq⟩ := List.mem_map.1 hmem
      obtain ⟨data', hd1, hd2⟩ := h8 doc' hdoc'
      simp only [Prod.mk.injEq] at heq
      have : doc' = doc := by
        cases doc
        cases doc'
        simp only at heq hd1 hd2 hdata' hrating
        obtain ⟨e1, e2⟩ := heq
        subst e1 e2
        rw [hd1] at hdata'
        simp only [Option.some.injEq] at hdata'
        subst hdata'
        simp [hd2, hrating]
      rw [← this]
      exact hdoc'

theorem bucketCount_pos (policy : Policy) : 0 < bucketCount policy := by
  cases policy <;> decide

end SearchServer

namespace SearchServer

variable {α : Type} [LinearOrderedField α]

/-! ## Relevance in terms of the word frequencies -/

theorem Inv.isSome_tfInverted {s : SearchServer α} (h : Inv s) (w : StringView) (d : Int) :
    (tfInverted s w d).isSome = decide (occursIn s w d) := by
  rw [h.mirror]
  by_cases ho : occursIn s w d
  · simp [ho, (occursIn_iff s w d).1 ho]
  · have : ¬ (tfForward s d w).isSome = true := fun hh => ho ((occursIn_iff s w d).2 hh)
    simp [ho, this]

theorem Inv.getD_tfInverted {s : SearchServer α} (h : Inv s) (w : StringView) (d : Int) :
    (tfInverted s w d).getD 0 = termFreq s d w := by
  rw [h.mirror, tfForward_eq_find]
  rfl

theorem occursIn_mem_ids {s : SearchServer α} (h : Inv s) (w : StringView) (d : Int)
    (ho : occursIn s w d) : d ∈ s.document_ids_ := by
  apply h.fwd_ids
  rw [← StdMap.find_isSome_iff]
  unfold occursIn GetWordFrequencies at ho
  cases hf : StdMap.find s.document_to_word_freqs_ d with
  | none => simp [hf, StdMap.keys] at ho
  | some ws => rfl

theorem Inv.length_inverted {s : SearchServer α} (h : Inv s) (w : StringView) :
    ((StdMap.find s.word_to_document_freqs_ w).getD []).length = documentFreq s w := by
  unfold documentFreq
  have hnd : (StdMap.keys ((StdMap.find s.word_to_document_freqs_ w).getD [])).Nodup := by
    cases hf : StdMap.find s.word_to_document_freqs_ w with
    | none => simp [StdMap.keys]
    | some docs => exact h.inv_entry_nodup w docs hf
  have hnd2 : (s.document_ids_.filter (fun d => decide (occursIn s w d))).Nodup :=
    h.ids_nodup.filter _
  have hperm : (StdMap.keys ((StdMap.find s.word_to_document_freqs_ w).getD [])).Perm
      (s.document_ids_.filter (fun d => decide (occursIn s w d))) := by
    rw [List.perm_ext_iff_of_nodup hnd hnd2]
    intro d
    rw [← StdMap.find_isSome_iff, List.mem_filter]
    have h1 := h.isSome_tfInverted w d
    have h2 : (StdMap.find ((StdMap.find s.word_to_document_freqs_ w).getD []) d).isSome =
        (tfInverted s w d).isSome := by
      unfold tfInverted
      cases StdMap.find s.word_to_document_freqs_ w <;> simp [StdMap.find]
    rw [h2, h1]
    simp only [decide_eq_true_eq]
    exact ⟨fun ho => ⟨occursIn_mem_ids h w d ho, ho⟩, fun ho => ho.2⟩
  have := hperm.length_eq
  simpa [StdMap.keys] using this

theorem Inv.idfOf_eq {s : SearchServer α} (h : Inv s) (ln : α → α) (w : StringView) :
    idfOf ln s w = ln ((GetDocumentCount s : α) / (documentFreq s w : α)) := by
  unfold idfOf
  rw [h.length_inverted, mul_one]

theorem Inv.relevanceOf_eq_tfIdfSum {s : SearchServer α} (h : Inv s) (ln : α → α)
    (pred : DocumentPredicate) (q : Query) (d : Int) (r : α)
    (hr : relevanceOf ln s pred q d = some r) : r = tfIdfSum ln s q.plus_words d := by
  rw [relevanceOf_value ln s pred q d r hr]
  unfold tfIdfSum
  have e1 : (fun w => (tfInverted s w d).isSome) = (fun w => decide (occursIn s w d)) :=
    funext (fun w => h.isSome_tfInverted w d)
  have e2 : (fun w => (tfInverted s w d).getD 0 * idfOf ln s w) =
      (fun w => termFreq s d w * ln ((GetDocumentCount s : α) / (documentFreq s w : α))) :=
    funext (fun w => by rw [h.getD_tfInverted, h.idfOf_eq])
  rw [e1, e2]

/-- The result of `FindAllDocuments` in a state that satisfies the invariant. -/
theorem FindAllDocuments_spec (ln : α → α) (s : SearchServer α) (h : Inv s) (policy : Policy)
    (q : Query) (pred : DocumentPredicate) :
    ∃ res, FindAllDocuments ln s policy q pred = .ok res ∧
      (res.map (fun doc => doc.id)).Nodup ∧
      ∀ doc : Document α, doc ∈ res ↔
        (relevanceOf ln s pred q doc.id = some doc.relevance ∧
          ∃ data, StdMap.find s.documents_ doc.id = some data ∧ doc.rating = data.rating) :=
  FindAllDocumentsWith_spec ln s h (bucketCount policy) (bucketCount_pos policy) q pred

theorem rank_perm_take (l : List (Document α)) :
    ∃ sorted, sorted.Perm l ∧
      FindTopDocuments.rank l = sorted.take (min MAX_RESULT_DOCUMENT_COUNT l.length) ∧
      sorted = stdSort FindTopDocuments.comp l := by
  refine ⟨stdSort FindTopDocuments.comp l, stdSort_perm _ l, ?_, rfl⟩
  unfold FindTopDocuments.rank
  have hlen : (stdSort (FindTopDocuments.comp (α := α)) l).length = l.length :=
    (stdSort_perm _ l).length_eq
  simp only [hlen]
  by_cases h : l.length > MAX_RESULT_DOCUMENT_COUNT
  · rw [if_pos h, min_eq_left (le_of_lt h)]
  · rw [if_neg h, min_eq_right (not_lt.1 h), ← hlen, List.take_length]

theorem mem_rank (l : List (Document α)) (doc : Document α)
    (h : doc ∈ FindTopDocuments.rank l) : doc ∈ l := by
  obtain ⟨sorted, hp, hr, -⟩ := rank_perm_take l
  rw [hr] at h
  exact hp.mem_iff.1 (List.mem_of_mem_take h)

end SearchServer

/-! ## The characters of the tokens of `SplitIntoWords` -/

theorem substr_segment (pre0 cur rest : List Char) :
    substr (pre0 ++ cur ++ rest) pre0.length ((pre0 ++ cur).length - pre0.length) = cur := by
  unfold substr
  rw [List.append_assoc, List.drop_left, List.length_append, Nat.add_sub_cancel_left,
    List.take_left]

theorem SplitIntoWords.foldl_inv (text : StringView) (rest pre : List Char) (st : SplitState)
    (htext : text = pre ++ rest) (hi : st.i = pre.length)
    (hb : st.word_begin = true →
      (∀ c, (∃ w ∈ st.words, c ∈ w) ↔ (c ∈ pre ∧ c ≠ ' ')) ∧
      (pre = [] ∨ pre.getLast? = some ' '))
    (hw : st.word_begin = false →
      ∃ pre0 cur, pre = pre0 ++ cur ∧ pre0.length = st.offset ∧ cur ≠ [] ∧
        (∀ c ∈ cur, c ≠ ' ') ∧
        (∀ c, (∃ w ∈ st.words, c ∈ w) ↔ (c ∈ pre0 ∧ c ≠ ' '))) :
    ((rest.foldl (SplitIntoWords.step text) st).word_begin = true →
      (∀ c, (∃ w ∈ (rest.foldl (SplitIntoWords.step text) st).words, c ∈ w) ↔
        (c ∈ text ∧ c ≠ ' ')) ∧
      (text = [] ∨ text.getLast? = some ' ')) ∧
    ((rest.foldl (SplitIntoWords.step text) st).word_begin = false →
      ∃ pre0 cur, text = pre0 ++ cur ∧
        pre0.length = (rest.foldl (SplitIntoWords.step text) st).offset ∧
        (rest.foldl (SplitIntoWords.step text) st).i = text.length ∧ cur ≠ [] ∧
        (∀ c ∈ cur, c ≠ ' ') ∧
        (∀ c, (∃ w ∈ (rest.foldl (SplitIntoWords.step text) st).words, c ∈ w) ↔
          (c ∈ pre0 ∧ c ≠ ' '))) := by
  induction rest generalizing pre st with
  | nil =>
    simp only [List.append_nil] at htext
    subst htext
    refine ⟨hb, fun h => ?_⟩
    obtain ⟨pre0, cur, h1, h2, h3, h4, h5⟩ := hw h
    exact ⟨pre0, cur, h1, h2, hi, h3, h4, h5⟩
  | cons x rest ih =>
    rw [List.foldl_cons]
    have htext' : text = (pre ++ [x]) ++ rest := by simp [htext]
    apply ih (pre ++ [x]) _ htext'
    · unfold SplitIntoWords.step
      split_ifs <;> simp [hi]
    · intro hnb
      unfold SplitIntoWords.step at hnb ⊢
      by_cases h1 : x ≠ ' ' ∧ st.word_begin = true
      · simp [h1] at hnb
      · rw [if_neg h1] at hnb ⊢
        by_cases h2 : x = ' ' ∧ st.word_begin = false
        · rw [if_pos h2]
          obtain ⟨pre0, cur, e1, e2, e3, e4, e5⟩ := hw h2.2
          have hseg : substr text st.offset (st.i - st.offset) = cur := by
            rw [htext, e1, hi, ← e2, e1]
            exact substr_segment pre0 cur (x :: rest)
          refine ⟨fun c => ?_, Or.inr (by simp [h2.1])⟩
          simp only [hseg, List.mem_append, List.mem_singleton, e1]
          constructor
          · rintro ⟨w, hw' | hw', hc⟩
            · have := (e5 c).1 ⟨w, hw', hc⟩
              exact ⟨Or.inl (Or.inl this.1), this.2⟩
            · subst hw'
              exact ⟨Or.inl (Or.inr hc), e4 c hc⟩
          · rintro ⟨(hc | hc) | hc, hne⟩
            · obtain ⟨w, hw', hcw⟩ := (e5 c).2 ⟨hc, hne⟩
              exact ⟨w, Or.inl hw', hcw⟩
            · exact ⟨cur, Or.inr rfl, hc⟩
            · exact absurd (hc.trans h2.1) hne
        · rw [if_neg h2] at hnb ⊢
          simp only at hnb ⊢
          have hx : x = ' ' := by
            by_contra hx
            exact h1 ⟨hx, hnb⟩
          obtain ⟨e1, -⟩ := hb hnb
          refine ⟨fun c => ?_, Or.inr (by simp [hx])⟩
          rw [e1 c]
          simp only [List.mem_append, List.mem_singleton]
          constructor
          · rintro ⟨hc, hne⟩
            exact ⟨Or.inl hc, hne⟩
          · rintro ⟨hc | hc, hne⟩
            · exact ⟨hc, hne⟩
            · exact absurd (hc.trans hx) hne
    · intro hnb
      unfold SplitIntoWords.step at hnb ⊢
      by_cases h1 : x ≠ ' ' ∧ st.word_begin = true
      · rw [if_pos h1]
        obtain ⟨e1, -⟩ := hb h1.2
        refine ⟨pre, [x], rfl, hi.symm, by simp, ?_, e1⟩
        intro c hc
        rw [List.mem_singleton] at hc
        rw [hc]
        exact h1.1
      · rw [if_neg h1] at hnb ⊢
        by_cases h2 : x = ' ' ∧ st.word_begin = false
        · simp [h2] at hnb
        · rw [if_neg h2] at hnb ⊢
          simp only at hnb ⊢
          have hx : x ≠ ' ' := fun hx => h2 ⟨hx, hnb⟩
          obtain ⟨pre0, cur, e1, e2, e3, e4, e5⟩ := hw hnb
          refine ⟨pre0, cur ++ [x], by simp [e1], e2, by simp, ?_, e5⟩
          intro c hc
          rcases List.mem_append.1 hc with hc | hc
          · exact e4 c hc
          · rw [List.mem_singleton] at hc
            rw [hc]
            exact hx

/-- The characters of the tokens of a text are the characters of the text other than the
space. -/
theorem SplitIntoWords.mem_chars (text : StringView) (c : Char) :
    (∃ w ∈ SplitIntoWords text, c ∈ w) ↔ (c ∈ text ∧ c ≠ ' ') := by
  have h := SplitIntoWords.foldl_inv text text [] ⟨[], 0, 0, true⟩ rfl rfl
    (fun _ => ⟨fun c => by simp, Or.inl rfl⟩) (fun h => Bool.noConfusion h)
  unfold SplitIntoWords
  simp only
  cases hwb : (text.foldl (SplitIntoWords.step text) ⟨[], 0, 0, true⟩).word_begin with
  | true =>
    obtain ⟨h1, h2⟩ := h.1 hwb
    have hcond : ¬ (text ≠ [] ∧ text.getLast? ≠ some ' ') := by
      rintro ⟨a, b⟩
      rcases h2 with h2 | h2
      · exact a h2
      · exact b h2
    rw [if_neg hcond]
    exact h1 c
  | false =>
    obtain ⟨pre0, cur, e1, e2, e3, e4, e5, e6⟩ := h.2 hwb
    have hlast : text.getLast? = cur.getLast? := by
      rw [e1, List.getLast?_append_of_ne_nil _ e4]
    have hcond : text ≠ [] ∧ text.getLast? ≠ some ' ' := by
      constructor
      · rw [e1]
        simp [e4]
      · rw [hlast]
        intro hl
        exact e5 ' ' (List.mem_of_getLast?_eq_some hl) rfl
    have hseg : substr text (text.foldl (SplitIntoWords.step text) ⟨[], 0, 0, true⟩).offset
        ((text.foldl (SplitIntoWords.step text) ⟨[], 0, 0, true⟩).i -
          (text.foldl (SplitIntoWords.step text) ⟨[], 0, 0, true⟩).offset) = cur := by
      rw [e3, ← e2]
      have := substr_segment pre0 cur []
      simp only [List.append_nil] at this
      rw [e1]
      exact this
    rw [if_pos hcond, hseg]
    simp only [List.mem_append, List.mem_singleton]
    constructor
    · rintro ⟨w, hw | hw, hc⟩
      · have := (e6 c).1 ⟨w, hw, hc⟩
        rw [e1]
        exact ⟨List.mem_append_left _ this.1, this.2⟩
      · subst hw
        rw [e1]
        exact ⟨List.mem_append_right _ hc, e5 c hc⟩
    · rintro ⟨hc, hne⟩
      have hc' : c ∈ pre0 ++ cur := e1 ▸ hc
      rcases List.mem_append.1 hc' with hc | hc
      · obtain ⟨w, hw, hcw⟩ := (e6 c).2 ⟨hc, hne⟩
        exact ⟨w, Or.inl hw, hcw⟩
      · exact ⟨cur, Or.inr rfl, hc⟩

/-- Some token of a text holds a character with code below the space if and only if the
text does. -/
theorem SplitIntoWords.exists_control (text : StringView) :
    (∃ w ∈ SplitIntoWords text, ∃ c ∈ w, c.toNat < 32) ↔ ∃ c ∈ text, c.toNat < 32 := by
  constructor
  · rintro ⟨w, hw, c, hc, hlt⟩
    exact ⟨c, ((SplitIntoWords.mem_chars text c).1 ⟨w, hw, hc⟩).1, hlt⟩
  · rintro ⟨c, hc, hlt⟩
    have hne : c ≠ ' ' := by
      rintro rfl
      exact absurd hlt (by decide)
    obtain ⟨w, hw, hcw⟩ := (SplitIntoWords.mem_chars text c).2 ⟨hc, hne⟩
    exact ⟨w, hw, c, hcw, hlt⟩

namespace SearchServer

variable {α : Type} [LinearOrderedField α]

theorem reachable_emptyServer (α : Type) [LinearOrderedField α] :
    Reachable (emptyServer α) :=
  Reachable.init [] _ rfl

theorem reachable_catServer (α : Type) [LinearOrderedField α] : Reachable (catServer α) :=
  Reachable.add _ _ _ _ _ (reachable_emptyServer α)

theorem reachable_relevanceServer (α : Type) [LinearOrderedField α] :
    Reachable (relevanceServer α) :=
  Reachable.add _ _ _ _ _ (Reachable.add _ _ _ _ _ (Reachable.add _ _ _ _ _
    (reachable_emptyServer α)))

/-- C1: in every reachable index state, for every query (a set of plus words and a set of
minus words) and every predicate, `FindAllDocuments` returns, and a document id appears in
its result if and only if (a) at least one plus term occurs in the document, (b) the
predicate holds for the id, status and rating stored for the document, and (c) no minus
term occurs in the document; no id appears twice. -/
theorem C1_FindAllDocuments_membership (ln : α → α) (s : SearchServer α) (hs : Reachable s)
    (policy : Policy) (query : Query) (document_predicate : DocumentPredicate) :
    ∃ res, FindAllDocuments ln s policy query document_predicate = .ok res ∧
      (res.map (fun doc => doc.id)).Nodup ∧
      ∀ id : Int, id ∈ res.map (fun doc => doc.id) ↔
        ((∃ w ∈ query.plus_words, occursIn s w id) ∧
         (∃ data, StdMap.find s.documents_ id = some data ∧
            document_predicate id data.status data.rating = true) ∧
         (∀ w ∈ query.minus_words, ¬ occursIn s w id)) := by
  have hinv := hs.inv
  obtain ⟨res, h1, h2, h3⟩ := FindAllDocuments_spec ln s hinv policy query document_predicate
  refine ⟨res, h1, h2, fun id => ?_⟩
  have hsome := relevanceOf_isSome ln s document_predicate query id
  have hpred : predAt s document_predicate id = true ↔
      ∃ data, StdMap.find s.documents_ id = some data ∧
        document_predicate id data.status data.rating = true := by
    unfold predAt
    cases StdMap.find s.documents_ id <;> simp
  constructor
  · intro hid
    obtain ⟨doc, hdoc, rfl⟩ := List.mem_map.1 hid
    have hr := ((h3 doc).1 hdoc).1
    obtain ⟨ha, hb, hc⟩ := hsome.1 (by simp [hr])
    refine ⟨?_, hpred.1 hb, ?_⟩
    · obtain ⟨w, hw, hws⟩ := ha
      rw [hinv.isSome_tfInverted] at hws
      exact ⟨w, hw, of_decide_eq_true hws⟩
    · intro w hw ho
      have := hc w hw
      rw [hinv.isSome_tfInverted, decide_eq_false_iff_not] at this
      exact this ho
  · rintro ⟨⟨w, hw, ho⟩, hb, hc⟩
    have : (relevanceOf ln s document_predicate query id).isSome = true := by
      rw [hsome]
      refine ⟨⟨w, hw, ?_⟩, hpred.2 hb, fun w' hw' => ?_⟩
      · rw [hinv.isSome_tfInverted]
        exact decide_eq_true ho
      · rw [hinv.isSome_tfInverted]
        exact decide_eq_false (hc w' hw')
    obtain ⟨r, hr⟩ := Option.isSome_iff_exists.1 this
    obtain ⟨data, hdata, -⟩ := hb
    exact List.mem_map.2 ⟨⟨id, r, data.rating⟩, (h3 _).2 ⟨hr, data, hdata, rfl⟩, rfl⟩

/-- C1, witness: the statement at the server holding the document "cat in the city" and
the query with plus word "cat" and minus word "dog", under the status predicate. -/
theorem C1_FindAllDocuments_membership_witness :
    Reachable (catServer ℚ) ∧
    ∃ res, FindAllDocuments (fun x => x) (catServer ℚ) Policy.seq
        ⟨["cat".toList], ["dog".toList]⟩ (statusIs .ACTUAL) = .ok res ∧
      (res.map (fun doc => doc.id)).Nodup ∧
      ∀ id : Int, id ∈ res.map (fun doc => doc.id) ↔
        ((∃ w ∈ ["cat".toList], occursIn (catServer ℚ) w id) ∧
         (∃ data, StdMap.find (catServer ℚ).documents_ id = some data ∧
            statusIs .ACTUAL id data.status data.rating = true) ∧
         (∀ w ∈ ["dog".toList], ¬ occursIn (catServer ℚ) w id)) :=
  ⟨reachable_catServer ℚ,
    C1_FindAllDocuments_membership (fun x => x) (catServer ℚ) (reachable_catServer ℚ)
      Policy.seq ⟨["cat".toList], ["dog".toList]⟩ (statusIs .ACTUAL)⟩

end SearchServer

namespace SearchServer

variable {α : Type} [LinearOrderedField α]

theorem FindTopDocuments_eq (ln : α → α) (s : SearchServer α) (policy : Policy)
    (raw_query : StringView) (pred : DocumentPredicate) (q : Query)
    (all : List (Document α)) (hq : ParseQuery s raw_query = .ok q)
    (hall : FindAllDocuments ln s policy q pred = .ok all) :
    FindTopDocuments ln s policy raw_query pred = .ok (FindTopDocuments.rank all) := by
  unfold FindTopDocuments
  rw [hq]
  simp only
  rw [hall]

theorem parseQuery_cat :
    ParseQuery (catServer ℚ) "cat".toList = .ok ⟨["cat".toList], []⟩ := by
  rfl

end SearchServer

/-! ## Numerical bounds on the logarithms of the relevance example -/

theorem log_three_halves_bounds :
    (0.40546509 : ℝ) < Real.log (3 / 2) ∧ Real.log (3 / 2) < 0.40546512 := by
  have h := Real.abs_log_sub_add_sum_range_le (x := 1 / 3)
    (by rw [abs_of_pos] <;> norm_num) 16
  have e : Real.log (1 - 1 / 3) = - Real.log (3 / 2) := by
    rw [← Real.log_inv]
    norm_num
  rw [e, abs_of_pos (by norm_num : (0 : ℝ) < 1 / 3)] at h
  norm_num [Finset.sum_range_succ] at h
  obtain ⟨h1, h2⟩ := abs_le.1 h
  constructor <;> linarith

theorem log_three_eq : Real.log 3 = Real.log 2 + Real.log (3 / 2) := by
  rw [← Real.log_mul (by norm_num) (by norm_num)]
  norm_num

theorem relevance_value_near :
    |1 / 2 * Real.log 3 + 1 / 4 * Real.log (3 / 2) - 0.65067242136109593| < 1 / 10 ^ 7 := by
  have h2a := Real.log_two_gt_d9
  have h2b := Real.log_two_lt_d9
  obtain ⟨h3a, h3b⟩ := log_three_halves_bounds
  rw [log_three_eq, abs_lt]
  constructor <;> norm_num at * <;> linarith

namespace SearchServer

variable {α : Type} [LinearOrderedField α]

/-! ## The relevance example -/

set_option maxRecDepth 100000 in
theorem relevanceState1_eq (α : Type) [LinearOrderedField α] :
    (AddDocument (emptyServer α) 0 "white cat and a fashionable collar".toList .ACTUAL
      [1, 2, 3]).1 = relevanceState1 α := rfl

set_option maxRecDepth 100000 in
theorem relevanceState2_eq (α : Type) [LinearOrderedField α] :
    (AddDocument (relevanceState1 α) 1 "fluffy cat fluffy tail".toList .ACTUAL
      [1, 2, 3]).1 = relevanceState2 α := rfl

set_option maxRecDepth 100000 in
theorem relevanceState3_eq (α : Type) [LinearOrderedField α] :
    (AddDocument (relevanceState2 α) 2 "groomed dog expressive eyes".toList .ACTUAL
      [1, 2, 3]).1 = relevanceState3 α := rfl

theorem relevanceServer_eq (α : Type) [LinearOrderedField α] :
    relevanceServer α = relevanceState3 α := by
  unfold relevanceServer
  rw [relevanceState1_eq, relevanceState2_eq, relevanceState3_eq]

set_option maxRecDepth 100000 in
theorem parseQuery_relevance (α : Type) [LinearOrderedField α] :
    ParseQuery (relevanceState3 α) "fluffy groomed cat".toList =
      .ok ⟨["cat".toList, "fluffy".toList, "groomed".toList], []⟩ := rfl

set_option maxRecDepth 100000 in
theorem findAll_relevance :
    FindAllDocuments Real.log (relevanceState3 ℝ) Policy.seq
      ⟨["cat".toList, "fluffy".toList, "groomed".toList], []⟩ (statusIs .ACTUAL) =
    .ok [⟨0, 0 + tfOf ℝ 6 0 * Real.log (((3 : ℕ) : ℝ) * 1 / ((2 : ℕ) : ℝ)), 2⟩,
         ⟨1, 0 + tfOf ℝ 4 0 * Real.log (((3 : ℕ) : ℝ) * 1 / ((2 : ℕ) : ℝ)) +
              tfOf ℝ 4 1 * Real.log (((3 : ℕ) : ℝ) * 1 / ((1 : ℕ) : ℝ)), 2⟩,
         ⟨2, 0 + tfOf ℝ 4 0 * Real.log (((3 : ℕ) : ℝ) * 1 / ((1 : ℕ) : ℝ)), 2⟩] := by rfl

theorem relevance_doc0 :
    0 + tfOf ℝ 6 0 * Real.log (((3 : ℕ) : ℝ) * 1 / ((2 : ℕ) : ℝ)) =
      1 / 6 * Real.log (3 / 2) := by
  simp only [tfOf]
  norm_num

theorem relevance_doc1 :
    0 + tfOf ℝ 4 0 * Real.log (((3 : ℕ) : ℝ) * 1 / ((2 : ℕ) : ℝ)) +
      tfOf ℝ 4 1 * Real.log (((3 : ℕ) : ℝ) * 1 / ((1 : ℕ) : ℝ)) =
      1 / 2 * Real.log 3 + 1 / 4 * Real.log (3 / 2) := by
  simp only [tfOf]
  norm_num
  ring

theorem relevance_doc2 :
    0 + tfOf ℝ 4 0 * Real.log (((3 : ℕ) : ℝ) * 1 / ((1 : ℕ) : ℝ)) = 1 / 4 * Real.log 3 := by
  simp only [tfOf]
  norm_num

theorem stdSort_three {β : Type} (comp : β → β → Bool) (a b c : β) (h1 : comp b a = true)
    (h2 : comp c b = false) (h3 : comp c a = true) : stdSort comp [a, b, c] = [b, c, a] := by
  simp [stdSort, insertionStep, linearInsert, h1, h2, h3, List.takeWhile, List.dropWhile]

theorem rank_three (a b c : Document α) (h1 : FindTopDocuments.comp b a = true)
    (h2 : FindTopDocuments.comp c b = false) (h3 : FindTopDocuments.comp c a = true) :
    FindTopDocuments.rank [a, b, c] = [b, c, a] := by
  unfold FindTopDocuments.rank
  rw [stdSort_three _ a b c h1 h2 h3]
  simp [MAX_RESULT_DOCUMENT_COUNT]

theorem rank_relevance :
    FindTopDocuments.rank
      [(⟨0, 1 / 6 * Real.log (3 / 2), 2⟩ : Document ℝ),
       ⟨1, 1 / 2 * Real.log 3 + 1 / 4 * Real.log (3 / 2), 2⟩,
       ⟨2, 1 / 4 * Real.log 3, 2⟩] =
      [⟨1, 1 / 2 * Real.log 3 + 1 / 4 * Real.log (3 / 2), 2⟩,
       ⟨2, 1 / 4 * Real.log 3, 2⟩,
       ⟨0, 1 / 6 * Real.log (3 / 2), 2⟩] := by
  have h2a := Real.log_two_gt_d9
  have h2b := Real.log_two_lt_d9
  obtain ⟨h3a, h3b⟩ := log_three_halves_bounds
  have e3 := log_three_eq
  have c10 : FindTopDocuments.comp
      (⟨1, 1 / 2 * Real.log 3 + 1 / 4 * Real.log (3 / 2), 2⟩ : Document ℝ)
      ⟨0, 1 / 6 * Real.log (3 / 2), 2⟩ = true := by
    unfold FindTopDocuments.comp
    simp only
    rw [if_neg (by rw [abs_lt]; norm_num at *; intro _; linarith)]
    simp only [gt_iff_lt, decide_eq_true_eq]
    norm_num at *
    linarith
  have c21 : FindTopDocuments.comp (⟨2, 1 / 4 * Real.log 3, 2⟩ : Document ℝ)
      ⟨1, 1 / 2 * Real.log 3 + 1 / 4 * Real.log (3 / 2), 2⟩ = false := by
    unfold FindTopDocuments.comp
    simp only
    rw [if_neg (by rw [abs_lt]; norm_num at *; intro h; linarith)]
    simp only [gt_iff_lt, decide_eq_false_iff_not, not_lt]
    norm_num at *
    linarith
  have c20 : FindTopDocuments.comp (⟨2, 1 / 4 * Real.log 3, 2⟩ : Document ℝ)
      ⟨0, 1 / 6 * Real.log (3 / 2), 2⟩ = true := by
    unfold FindTopDocuments.comp
    simp only
    rw [if_neg (by rw [abs_lt]; norm_num at *; intro _; linarith)]
    simp only [gt_iff_lt, decide_eq_true_eq]
    norm_num at *
    linarith
  exact rank_three _ _ _ c10 c21 c20

theorem findTop_relevance :
    FindTopDocuments Real.log (relevanceServer ℝ) Policy.seq "fluffy groomed cat".toList
      (statusIs .ACTUAL) =
    .ok [⟨1, 1 / 2 * Real.log 3 + 1 / 4 * Real.log (3 / 2), 2⟩,
         ⟨2, 1 / 4 * Real.log 3, 2⟩,
         ⟨0, 1 / 6 * Real.log (3 / 2), 2⟩] := by
  rw [relevanceServer_eq,
    FindTopDocuments_eq Real.log _ Policy.seq _ _ _ _ (parseQuery_relevance ℝ) findAll_relevance,
    relevance_doc0, relevance_doc1, relevance_doc2, rank_relevance]

end SearchServer

namespace SearchServer

variable {α : Type} [LinearOrderedField α]

theorem ParseQuery_step_nodup (qs : List QueryWord) (q : Query)
    (h : q.plus_words.Nodup ∧ q.minus_words.Nodup) :
    (qs.foldl ParseQuery.step q).plus_words.Nodup ∧
      (qs.foldl ParseQuery.step q).minus_words.Nodup := by
  induction qs generalizing q with
  | nil => exact h
  | cons x t ih =>
    rw [List.foldl_cons]
    apply ih
    unfold ParseQuery.step
    by_cases h1 : x.is_stop = true
    · simpa [h1] using h
    · by_cases h2 : x.is_minus = true
      · simp only [h1, h2, not_false_eq_true, if_true]
        exact ⟨h.1, StdSet.nodup_insert _ _ h.2⟩
      · simp only [h1, h2, not_false_eq_true, if_true, if_false]
        exact ⟨StdSet.nodup_insert _ _ h.1, h.2⟩

theorem ParseQuery_nodup (s : SearchServer α) (raw_query : StringView) (q : Query)
    (h : ParseQuery s raw_query = .ok q) : q.plus_words.Nodup ∧ q.minus_words.Nodup := by
  unfold ParseQuery at h
  cases hm : ParseQuery.transform s (SplitIntoWords raw_query) with
  | error e =>
    rw [hm] at h
    exact Except.noConfusion h
  | ok qs =>
    rw [hm] at h
    simp only [Except.ok.injEq] at h
    rw [← h]
    exact ParseQuery_step_nodup qs ⟨[], []⟩ ⟨List.nodup_nil, List.nodup_nil⟩

/-- C2: in every reachable index state, for every query that parses and every predicate,
`FindTopDocuments` returns, the plus terms of the query are pairwise distinct, and the
relevance of every returned document is the sum, over the plus terms that occur in the
document, of the term frequency of the term in the document times
`ln (document count / number of documents containing the term)`.  For the documents "white
cat and a fashionable collar", "fluffy cat fluffy tail", "groomed dog expressive eyes" and
the query "fluffy groomed cat", with the real logarithm, the top result is document 1 with
relevance `0.5 ln 3 + 0.25 ln (3/2)`, which is within `1e-7` of `0.65067242136109593`. -/
theorem C2_relevance_is_tf_idf (ln : α → α) (s : SearchServer α) (hs : Reachable s)
    (policy : Policy) (raw_query : StringView) (query : Query)
    (document_predicate : DocumentPredicate) (hq : ParseQuery s raw_query = .ok query) :
    (∃ out, FindTopDocuments ln s policy raw_query document_predicate = .ok out ∧
      query.plus_words.Nodup ∧
      ∀ doc ∈ out, doc.relevance =
        ((query.plus_words.filter (fun w => decide (occursIn s w doc.id))).map
          (fun w => termFreq s doc.id w *
            ln ((GetDocumentCount s : α) / (documentFreq s w : α)))).sum) ∧
    (∃ top rest, FindTopDocuments Real.log (relevanceServer ℝ) Policy.seq
        "fluffy groomed cat".toList (statusIs .ACTUAL) = .ok (top :: rest) ∧
      top.id = 1 ∧ top.relevance = 1 / 2 * Real.log 3 + 1 / 4 * Real.log (3 / 2) ∧
      |top.relevance - 0.65067242136109593| < 1 / 10 ^ 7) := by
  constructor
  · obtain ⟨all, h1, -, h3⟩ := FindAllDocuments_spec ln s hs.inv policy query document_predicate
    refine ⟨FindTopDocuments.rank all,
      FindTopDocuments_eq ln s policy raw_query document_predicate query all hq h1,
      (ParseQuery_nodup s raw_query query hq).1, ?_⟩
    intro doc hdoc
    have hmem := mem_rank all doc hdoc
    exact hs.inv.relevanceOf_eq_tfIdfSum ln document_predicate query doc.id doc.relevance
      ((h3 doc).1 hmem).1
  · exact ⟨_, _, findTop_relevance, rfl, rfl, relevance_value_near⟩

/-- C2, witness: the statement at the server of the three documents and the query "fluffy
groomed cat". -/
theorem C2_relevance_is_tf_idf_witness :
    Reachable (relevanceServer ℝ) ∧
    ParseQuery (relevanceServer ℝ) "fluffy groomed cat".toList =
      .ok ⟨["cat".toList, "fluffy".toList, "groomed".toList], []⟩ ∧
    ∃ out, FindTopDocuments Real.log (relevanceServer ℝ) Policy.seq "fluffy groomed cat".toList
        (statusIs .ACTUAL) = .ok out ∧
      ["cat".toList, "fluffy".toList, "groomed".toList].Nodup ∧
      ∀ doc ∈ out, doc.relevance =
        ((["cat".toList, "fluffy".toList, "groomed".toList].filter
            (fun w => decide (occursIn (relevanceServer ℝ) w doc.id))).map
          (fun w => termFreq (relevanceServer ℝ) doc.id w *
            Real.log ((GetDocumentCount (relevanceServer ℝ) : ℝ) /
              (documentFreq (relevanceServer ℝ) w : ℝ)))).sum :=
  ⟨reachable_relevanceServer ℝ,
    (relevanceServer_eq ℝ).symm ▸ parseQuery_relevance ℝ,
    (C2_relevance_is_tf_idf Real.log (relevanceServer ℝ) (reachable_relevanceServer ℝ)
      Policy.seq "fluffy groomed cat".toList
      ⟨["cat".toList, "fluffy".toList, "groomed".toList], []⟩ (statusIs .ACTUAL)
      ((relevanceServer_eq ℝ).symm ▸ parseQuery_relevance ℝ)).1⟩

end SearchServer

/-! ## Sortedness of `std::sort` for a strict weak ordering -/

theorem dropWhile_head_false {β : Type} (p : β → Bool) (l : List β) (x : β) (t : List β)
    (h : l.dropWhile p = x :: t) : p x = false := by
  induction l with
  | nil => simp at h
  | cons y ys ih =>
    by_cases hy : p y = true
    · rw [List.dropWhile_cons_of_pos hy] at h
      exact ih h
    · rw [List.dropWhile_cons_of_neg hy] at h
      simp only [List.cons.injEq] at h
      rw [← h.1]
      simpa using hy

theorem linearInsert_sorted {β : Type} (comp : β → β → Bool) (P : β → Prop)
    (hc : StrictWeakOn comp P) (val : β) (sorted : List β) (hval : P val)
    (hP : ∀ x ∈ sorted, P x)
    (hs : sorted.Pairwise (fun a b => comp b a = false)) :
    (linearInsert comp val sorted).Pairwise (fun a b => comp b a = false) := by
  unfold linearInsert
  have hr : sorted.reverse.Pairwise (fun a b => comp a b = false) := by
    rw [List.pairwise_reverse]
    exact hs
  have hsplit := List.takeWhile_append_dropWhile (fun x => comp val x) sorted.reverse
  have hPr : ∀ x ∈ sorted.reverse, P x := fun x hx => hP x (List.mem_reverse.1 hx)
  generalize sorted.reverse = r at hr hsplit hPr
  generalize htw : r.takeWhile (fun x => comp val x) = tw at hsplit
  generalize hdw : r.dropWhile (fun x => comp val x) = dw at hsplit
  subst hsplit
  have htwP : ∀ x ∈ tw, comp val x = true := by
    intro x hx
    rw [← htw] at hx
    exact List.mem_takeWhile_imp hx
  obtain ⟨h1, h2, h3⟩ := List.pairwise_append.1 hr
  have hdwF : ∀ x ∈ dw, comp val x = false := by
    cases dw with
    | nil => intro x hx; simp at hx
    | cons p dw' =>
      have hp : comp val p = false := dropWhile_head_false _ _ _ _ hdw
      intro x hx
      rcases List.mem_cons.1 hx with rfl | hx'
      · exact hp
      · have hpx : comp p x = false := (List.pairwise_cons.1 h2).1 x hx'
        exact hc.negTrans val p x hval (hPr p (by simp)) (hPr x (by simp [hx'])) hp hpx
  have hgoal : (tw ++ val :: dw).Pairwise (fun a b => comp a b = false) := by
    refine List.pairwise_append.2 ⟨h1, List.pairwise_cons.2 ⟨hdwF, h2⟩, ?_⟩
    intro a ha b hb
    rcases List.mem_cons.1 hb with rfl | hb'
    · exact hc.asymm b a hval (hPr a (by simp [ha])) (htwP a ha)
    · exact h3 a ha b hb'
  have := List.pairwise_reverse.2 hgoal
  simpa [List.reverse_append] using this

theorem insertionStep_sorted {β : Type} (comp : β → β → Bool) (P : β → Prop)
    (hc : StrictWeakOn comp P) (val : β) (sorted : List β) (hval : P val)
    (hP : ∀ x ∈ sorted, P x)
    (hs : sorted.Pairwise (fun a b => comp b a = false)) :
    (insertionStep comp sorted val).Pairwise (fun a b => comp b a = false) := by
  unfold insertionStep
  cases sorted with
  | nil => simp
  | cons first rest =>
    by_cases h : comp val first = true
    · simp only [h, if_true]
      refine List.pairwise_cons.2 ⟨?_, hs⟩
      intro x hx
      rcases List.mem_cons.1 hx with rfl | hx'
      · exact hc.asymm val x hval (hP x (by simp)) h
      · have hxf : comp x first = false := (List.pairwise_cons.1 hs).1 x hx'
        cases hxv : comp x val with
        | false => rfl
        | true =>
          have := hc.trans x val first (hP x (by simp [hx'])) hval (hP first (by simp)) hxv h
          rw [hxf] at this
          exact Bool.noConfusion this
    · simp only [h]
      exact linearInsert_sorted comp P hc val (first :: rest) hval hP hs

theorem foldl_insertionStep_sorted {β : Type} (comp : β → β → Bool) (P : β → Prop)
    (hc : StrictWeakOn comp P) (l acc : List β) (hl : ∀ x ∈ l, P x) (hP : ∀ x ∈ acc, P x)
    (hs : acc.Pairwise (fun a b => comp b a = false)) :
    (l.foldl (insertionStep comp) acc).Pairwise (fun a b => comp b a = false) := by
  induction l generalizing acc with
  | nil => exact hs
  | cons x t ih =>
    rw [List.foldl_cons]
    apply ih
    · exact fun y hy => hl y (List.mem_cons_of_mem _ hy)
    · intro y hy
      rcases List.mem_cons.1 ((insertionStep_perm comp acc x).mem_iff.1 hy) with rfl | hy'
      · exact hl y (List.mem_cons_self _ _)
      · exact hP y hy'
    · exact insertionStep_sorted comp P hc x acc (hl x (List.mem_cons_self _ _)) hP hs

theorem stdSort_sorted {β : Type} (comp : β → β → Bool) (P : β → Prop)
    (hc : StrictWeakOn comp P) (l : List β) (hl : ∀ x ∈ l, P x) :
    (stdSort comp l).Pairwise (fun a b => comp b a = false) :=
  foldl_insertionStep_sorted comp P hc l [] hl (by simp) List.Pairwise.nil

namespace SearchServer

variable {α : Type} [LinearOrderedField α]

theorem tied_symm (a b : Document α) (h : tied a b) : tied b a := by
  unfold tied at *
  rwa [abs_sub_comm]

theorem comp_eq_true_iff (a b : Document α) :
    FindTopDocuments.comp a b = true ↔
      (tied a b ∧ a.rating > b.rating) ∨ (¬ tied a b ∧ a.relevance > b.relevance) := by
  unfold FindTopDocuments.comp tied
  by_cases h : |a.relevance - b.relevance| < 1 / 1000000
  · rw [if_pos h, decide_eq_true_eq]
    exact ⟨fun h2 => Or.inl ⟨h, h2⟩, fun h2 => h2.elim (fun h3 => h3.2) (fun h3 => absurd h h3.1)⟩
  · rw [if_neg h, decide_eq_true_eq]
    exact ⟨fun h2 => Or.inr ⟨h, h2⟩, fun h2 => h2.elim (fun h3 => absurd h3.1 h) (fun h3 => h3.2)⟩

theorem comp_eq_false_iff (a b : Document α) :
    FindTopDocuments.comp a b = false ↔
      (tied a b ∧ a.rating ≤ b.rating) ∨ (¬ tied a b ∧ a.relevance ≤ b.relevance) := by
  unfold FindTopDocuments.comp tied
  by_cases h : |a.relevance - b.relevance| < 1 / 1000000
  · rw [if_pos h, decide_eq_false_iff_not, not_lt]
    exact ⟨fun h2 => Or.inl ⟨h, h2⟩, fun h2 => h2.elim (fun h3 => h3.2) (fun h3 => absurd h h3.1)⟩
  · rw [if_neg h, decide_eq_false_iff_not, not_lt]
    exact ⟨fun h2 => Or.inr ⟨h, h2⟩, fun h2 => h2.elim (fun h3 => absurd h3.1 h) (fun h3 => h3.2)⟩

theorem not_tied_iff (a b : Document α) :
    ¬ tied a b ↔ 1 / 1000000 ≤ a.relevance - b.relevance ∨
      1 / 1000000 ≤ b.relevance - a.relevance := by
  unfold tied
  rw [not_lt, le_abs']
  constructor
  · rintro (h | h)
    · right; linarith
    · left; exact h
  · rintro (h | h)
    · right; exact h
    · left; linarith

theorem tied_iff (a b : Document α) :
    tied a b ↔ a.relevance - b.relevance < 1 / 1000000 ∧
      b.relevance - a.relevance < 1 / 1000000 := by
  unfold tied
  rw [abs_lt]
  constructor
  · rintro ⟨h1, h2⟩
    exact ⟨h2, by linarith⟩
  · rintro ⟨h1, h2⟩
    exact ⟨by linarith, h1⟩

/-- On a list on which being tied is transitive the comparator of `FindTopDocuments` is a
strict weak ordering. -/
theorem comp_strictWeakOn (l : List (Document α)) (hl : tiedTransitive l) :
    StrictWeakOn (FindTopDocuments.comp (α := α)) (fun x => x ∈ l) := by
  constructor
  · intro a b _ _ h
    rw [comp_eq_true_iff] at h
    rw [comp_eq_false_iff]
    rcases h with ⟨h1, h2⟩ | ⟨h1, h2⟩
    · exact Or.inl ⟨tied_symm a b h1, le_of_lt h2⟩
    · exact Or.inr ⟨fun h => h1 (tied_symm b a h), le_of_lt h2⟩
  · intro a b c ha hb hc hab hbc
    rw [comp_eq_true_iff] at hab hbc ⊢
    rcases hab with ⟨h1, h2⟩ | ⟨h1, h2⟩ <;> rcases hbc with ⟨h3, h4⟩ | ⟨h3, h4⟩
    · exact Or.inl ⟨hl a ha b hb c hc h1 h3, lt_trans h4 h2⟩
    · have hac : ¬ tied a c := fun h => h3 (hl b hb a ha c hc (tied_symm a b h1) h)
      refine Or.inr ⟨hac, ?_⟩
      rw [tied_iff] at h1
      rw [not_tied_iff] at h3
      rcases h3 with h3 | h3 <;> linarith [h1.1, h1.2]
    · have hac : ¬ tied a c := fun h => h1 (hl a ha c hc b hb h (tied_symm b c h3))
      refine Or.inr ⟨hac, ?_⟩
      rw [tied_iff] at h3
      rw [not_tied_iff] at h1
      rcases h1 with h1 | h1 <;> linarith [h3.1, h3.2]
    · have h5 : a.relevance > c.relevance := lt_trans h4 h2
      refine Or.inr ⟨?_, h5⟩
      rw [not_tied_iff] at h1 h3 ⊢
      rcases h1 with h1 | h1 <;> rcases h3 with h3 | h3
      · left; linarith
      · linarith
      · linarith
      · linarith
  · intro a b c ha hb hc hab hbc
    rw [comp_eq_false_iff] at hab hbc ⊢
    rcases hab with ⟨h1, h2⟩ | ⟨h1, h2⟩ <;> rcases hbc with ⟨h3, h4⟩ | ⟨h3, h4⟩
    · exact Or.inl ⟨hl a ha b hb c hc h1 h3, le_trans h2 h4⟩
    · have hac : ¬ tied a c := fun h => h3 (hl b hb a ha c hc (tied_symm a b h1) h)
      refine Or.inr ⟨hac, ?_⟩
      rw [tied_iff] at h1
      rw [not_tied_iff] at h3
      rcases h3 with h3 | h3 <;> linarith [h1.1, h1.2]
    · have hac : ¬ tied a c := fun h => h1 (hl a ha c hc b hb h (tied_symm b c h3))
      refine Or.inr ⟨hac, ?_⟩
      rw [tied_iff] at h3
      rw [not_tied_iff] at h1
      rcases h1 with h1 | h1 <;> linarith [h3.1, h3.2]
    · have h5 : a.relevance ≤ c.relevance := le_trans h2 h4
      refine Or.inr ⟨?_, h5⟩
      rw [not_tied_iff] at h1 h3 ⊢
      rcases h1 with h1 | h1 <;> rcases h3 with h3 | h3
      · linarith
      · linarith
      · linarith
      · right; linarith

theorem rankedBefore_of_comp_false (a b : Document α)
    (h : FindTopDocuments.comp b a = false) : rankedBefore a b := by
  rw [comp_eq_false_iff] at h
  unfold rankedBefore
  rcases h with ⟨h1, h2⟩ | ⟨h1, h2⟩
  · exact Or.inl ⟨tied_symm b a h1, h2⟩
  · right
    rw [not_tied_iff] at h1
    rcases h1 with h1 | h1 <;> linarith

/-- C3, counterexample: for the matched documents with relevances `6e-7`, `1.2e-6`, `0` and
ratings 2, 1, 3 the output of the ranking is not ranked: the document of relevance 0 comes
first and the document of relevance `1.2e-6` last, although they are not tied. -/
theorem C3_ranked_counterexample :
    FindTopDocuments.rank
        [(⟨0, 6 / 10000000, 2⟩ : Document ℚ), ⟨1, 12 / 10000000, 1⟩, ⟨2, 0, 3⟩] =
      [⟨2, 0, 3⟩, ⟨0, 6 / 10000000, 2⟩, ⟨1, 12 / 10000000, 1⟩] ∧
    ¬ List.Pairwise rankedBefore
      (FindTopDocuments.rank
        [(⟨0, 6 / 10000000, 2⟩ : Document ℚ), ⟨1, 12 / 10000000, 1⟩, ⟨2, 0, 3⟩]) := by
  decide!

/-- C3, amended: for every list of matched documents on which being tied (relevances
differing by less than `1e-6`) is transitive, the output of the ranking of
`FindTopDocuments` is ranked: for any two positions `i < j` of the output, either the
relevances are tied and `rating[i] >= rating[j]`, or `relevance[i] > relevance[j]`. -/
theorem C3_ranked_when_ties_transitive (matched_documents : List (Document α))
    (h : tiedTransitive matched_documents) :
    List.Pairwise rankedBefore (FindTopDocuments.rank matched_documents) := by
  have hsorted := stdSort_sorted FindTopDocuments.comp (fun x => x ∈ matched_documents)
    (comp_strictWeakOn matched_documents h) matched_documents (fun x hx => hx)
  have hranked : List.Pairwise rankedBefore (stdSort FindTopDocuments.comp matched_documents) :=
    hsorted.imp (fun {a b} hab => rankedBefore_of_comp_false a b hab)
  obtain ⟨sorted, -, hr, rfl⟩ := rank_perm_take matched_documents
  rw [hr]
  exact hranked.sublist (List.take_sublist _ _)

/-- C3, witness: three documents of which two are tied; being tied is transitive on the
list. -/
theorem C3_ranked_when_ties_transitive_witness :
    tiedTransitive [(⟨0, 0, 3⟩ : Document ℚ), ⟨1, 1 / 2, 1⟩, ⟨2, 0, 4⟩] ∧
    List.Pairwise rankedBefore
      (FindTopDocuments.rank [(⟨0, 0, 3⟩ : Document ℚ), ⟨1, 1 / 2, 1⟩, ⟨2, 0, 4⟩]) :=
  ⟨by decide!, C3_ranked_when_ties_transitive _ (by decide!)⟩

end SearchServer

namespace SearchServer

variable {α : Type} [LinearOrderedField α]

/-! ## Sequential and parallel policy -/

theorem reachable_tieServer (α : Type) [LinearOrderedField α] : Reachable (tieServer α) :=
  Reachable.add _ _ _ _ _ (Reachable.add _ _ _ _ _ (reachable_emptyServer α))

set_option maxRecDepth 100000 in
theorem tieState1_eq (α : Type) [LinearOrderedField α] :
    (AddDocument (emptyServer α) 1 "cat".toList .ACTUAL [1]).1 = tieState1 α := rfl

set_option maxRecDepth 100000 in
theorem tieState2_eq (α : Type) [LinearOrderedField α] :
    (AddDocument (tieState1 α) 240 "cat".toList .ACTUAL [1]).1 = tieState2 α := rfl

theorem tieServer_eq (α : Type) [LinearOrderedField α] : tieServer α = tieState2 α := by
  unfold tieServer
  rw [tieState1_eq, tieState2_eq]

set_option maxRecDepth 100000 in
theorem parseQuery_tie (α : Type) [LinearOrderedField α] :
    ParseQuery (tieState2 α) "cat".toList = .ok ⟨["cat".toList], []⟩ := rfl

set_option maxRecDepth 100000 in
theorem findAll_tie_seq :
    FindAllDocuments Real.log (tieState2 ℝ) Policy.seq ⟨["cat".toList], []⟩ (statusIs .ACTUAL) =
    .ok [⟨1, 0 + tfOf ℝ 1 0 * Real.log (((2 : ℕ) : ℝ) * 1 / ((2 : ℕ) : ℝ)), 1⟩,
         ⟨240, 0 + tfOf ℝ 1 0 * Real.log (((2 : ℕ) : ℝ) * 1 / ((2 : ℕ) : ℝ)), 1⟩] := by rfl

set_option maxRecDepth 100000 in
theorem findAll_tie_par :
    FindAllDocuments Real.log (tieState2 ℝ) Policy.par ⟨["cat".toList], []⟩ (statusIs .ACTUAL) =
    .ok [⟨240, 0 + tfOf ℝ 1 0 * Real.log (((2 : ℕ) : ℝ) * 1 / ((2 : ℕ) : ℝ)), 1⟩,
         ⟨1, 0 + tfOf ℝ 1 0 * Real.log (((2 : ℕ) : ℝ) * 1 / ((2 : ℕ) : ℝ)), 1⟩] := by rfl

theorem comp_self_tie (a b : Document α) (h1 : a.relevance = b.relevance)
    (h2 : a.rating = b.rating) : FindTopDocuments.comp a b = false := by
  rw [comp_eq_false_iff]
  left
  refine ⟨?_, le_of_eq h2⟩
  unfold tied
  rw [h1, sub_self, abs_zero]
  norm_num

theorem rank_two_tie (a b : Document α) (h1 : b.relevance = a.relevance)
    (h2 : b.rating = a.rating) : FindTopDocuments.rank [a, b] = [a, b] := by
  have hc := comp_self_tie b a h1 h2
  simp [FindTopDocuments.rank, stdSort, insertionStep, linearInsert, hc,
    MAX_RESULT_DOCUMENT_COUNT, List.takeWhile, List.dropWhile]

theorem tie_relevance :
    0 + tfOf ℝ 1 0 * Real.log (((2 : ℕ) : ℝ) * 1 / ((2 : ℕ) : ℝ)) = 0 := by
  simp [tfOf]

/-- C5, counterexample: with the documents 1 and 240, both "cat" with equal ratings, the
query "cat" returns the ids in the order 1, 240 under the sequential policy and in the
order 240, 1 under the parallel policy. -/
theorem C5_same_rank_order_counterexample :
    FindTopDocuments Real.log (tieServer ℝ) Policy.seq "cat".toList (statusIs .ACTUAL) =
      .ok [⟨1, 0, 1⟩, ⟨240, 0, 1⟩] ∧
    FindTopDocuments Real.log (tieServer ℝ) Policy.par "cat".toList (statusIs .ACTUAL) =
      .ok [⟨240, 0, 1⟩, ⟨1, 0, 1⟩] := by
  constructor
  · rw [tieServer_eq, FindTopDocuments_eq Real.log _ Policy.seq _ _ _ _ (parseQuery_tie ℝ)
      findAll_tie_seq, tie_relevance, rank_two_tie ⟨1, 0, 1⟩ ⟨240, 0, 1⟩ rfl rfl]
  · rw [tieServer_eq, FindTopDocuments_eq Real.log _ Policy.par _ _ _ _ (parseQuery_tie ℝ)
      findAll_tie_par, tie_relevance, rank_two_tie ⟨240, 0, 1⟩ ⟨1, 0, 1⟩ rfl rfl]

theorem nodup_of_nodup_ids (l : List (Document α))
    (h : (l.map (fun doc => doc.id)).Nodup) : l.Nodup :=
  List.Nodup.of_map _ h

/-- The two policies produce the same matched documents, up to their order. -/
theorem FindAllDocuments_policy_perm (ln : α → α) (s : SearchServer α) (h : Inv s) (q : Query)
    (pred : DocumentPredicate) :
    ∃ allSeq allPar, FindAllDocuments ln s Policy.seq q pred = .ok allSeq ∧
      FindAllDocuments ln s Policy.par q pred = .ok allPar ∧ allSeq.Perm allPar := by
  obtain ⟨a1, h1, h2, h3⟩ := FindAllDocuments_spec ln s h Policy.seq q pred
  obtain ⟨a2, h4, h5, h6⟩ := FindAllDocuments_spec ln s h Policy.par q pred
  refine ⟨a1, a2, h1, h4, ?_⟩
  rw [List.perm_ext_iff_of_nodup (nodup_of_nodup_ids a1 h2) (nodup_of_nodup_ids a2 h5)]
  intro doc
  rw [h3 doc, h6 doc]

theorem stdSort_eq_of_perm (l₁ l₂ : List (Document α)) (hp : l₁.Perm l₂)
    (ht : tiedTransitive l₁)
    (hd : ∀ a ∈ l₁, ∀ b ∈ l₁, a ≠ b → ¬ (tied a b ∧ a.rating = b.rating)) :
    stdSort FindTopDocuments.comp l₁ = stdSort FindTopDocuments.comp l₂ := by
  have hsw := comp_strictWeakOn l₁ ht
  have s1 := stdSort_sorted FindTopDocuments.comp (fun x => x ∈ l₁) hsw l₁ (fun x hx => hx)
  have s2 := stdSort_sorted FindTopDocuments.comp (fun x => x ∈ l₁) hsw l₂
    (fun x hx => hp.mem_iff.2 hx)
  refine List.Perm.eq_of_sorted ?_ s1 s2
    ((stdSort_perm _ l₁).trans (hp.trans (stdSort_perm _ l₂).symm))
  intro a b ha hb hab hba
  by_contra hne
  have ha' : a ∈ l₁ := (stdSort_perm _ l₁).mem_iff.1 ha
  have hb' : b ∈ l₁ := hp.mem_iff.2 ((stdSort_perm _ l₂).mem_iff.1 hb)
  have hnt := hd a ha' b hb' hne
  rw [comp_eq_false_iff] at hab hba
  rcases hab with ⟨t1, r1⟩ | ⟨t1, r1⟩
  · rcases hba with ⟨t2, r2⟩ | ⟨t2, r2⟩
    · exact hnt ⟨t2, le_antisymm r2 r1⟩
    · exact t2 (tied_symm b a t1)
  · rcases hba with ⟨t2, r2⟩ | ⟨t2, r2⟩
    · exact t1 (tied_symm a b t2)
    · apply t2
      unfold tied
      rw [le_antisymm r2 r1, sub_self, abs_zero]
      norm_num

/-- C5, amended: in every reachable index state and for every query that parses, the
sequential and the parallel policy produce the same matched documents (same id, same
relevance, same rating), up to their order; whenever being tied is transitive on the
matched documents and no two of them are tied with equal ratings, `FindTopDocuments`
returns the same list under both policies, with equal relevances. -/
theorem C5_policies_agree (ln : α → α) (s : SearchServer α) (hs : Reachable s)
    (raw_query : StringView) (query : Query) (document_predicate : DocumentPredicate)
    (hq : ParseQuery s raw_query = .ok query) :
    ∃ allSeq allPar,
      FindAllDocuments ln s Policy.seq query document_predicate = .ok allSeq ∧
      FindAllDocuments ln s Policy.par query document_predicate = .ok allPar ∧
      allSeq.Perm allPar ∧
      (tiedTransitive allSeq →
        (∀ a ∈ allSeq, ∀ b ∈ allSeq, a ≠ b → ¬ (tied a b ∧ a.rating = b.rating)) →
        ∃ out, FindTopDocuments ln s Policy.seq raw_query document_predicate = .ok out ∧
          FindTopDocuments ln s Policy.par raw_query document_predicate = .ok out) := by
  obtain ⟨a1, a2, h1, h2, hp⟩ := FindAllDocuments_policy_perm ln s hs.inv query
    document_predicate
  refine ⟨a1, a2, h1, h2, hp, fun ht hd => ⟨FindTopDocuments.rank a1,
    FindTopDocuments_eq ln s Policy.seq raw_query document_predicate query a1 hq h1, ?_⟩⟩
  rw [FindTopDocuments_eq ln s Policy.par raw_query document_predicate query a2 hq h2]
  unfold FindTopDocuments.rank
  rw [stdSort_eq_of_perm a1 a2 hp ht hd]

set_option maxRecDepth 100000 in
theorem findAll_relevance_par :
    FindAllDocuments Real.log (relevanceState3 ℝ) Policy.par
      ⟨["cat".toList, "fluffy".toList, "groomed".toList], []⟩ (statusIs .ACTUAL) =
    .ok [⟨0, 0 + tfOf ℝ 6 0 * Real.log (((3 : ℕ) : ℝ) * 1 / ((2 : ℕ) : ℝ)), 2⟩,
         ⟨1, 0 + tfOf ℝ 4 0 * Real.log (((3 : ℕ) : ℝ) * 1 / ((2 : ℕ) : ℝ)) +
              tfOf ℝ 4 1 * Real.log (((3 : ℕ) : ℝ) * 1 / ((1 : ℕ) : ℝ)), 2⟩,
         ⟨2, 0 + tfOf ℝ 4 0 * Real.log (((3 : ℕ) : ℝ) * 1 / ((1 : ℕ) : ℝ)), 2⟩] := by rfl

theorem findTop_relevance_par :
    FindTopDocuments Real.log (relevanceServer ℝ) Policy.par "fluffy groomed cat".toList
      (statusIs .ACTUAL) =
    .ok [⟨1, 1 / 2 * Real.log 3 + 1 / 4 * Real.log (3 / 2), 2⟩,
         ⟨2, 1 / 4 * Real.log 3, 2⟩,
         ⟨0, 1 / 6 * Real.log (3 / 2), 2⟩] := by
  rw [relevanceServer_eq,
    FindTopDocuments_eq Real.log _ Policy.par _ _ _ _ (parseQuery_relevance ℝ)
      findAll_relevance_par,
    relevance_doc0, relevance_doc1, relevance_doc2, rank_relevance]

/-- C5, witness: the statement at the server of the three documents and the query "fluffy
groomed cat", for which both policies return the documents 1, 2, 0 in this order. -/
theorem C5_policies_agree_witness :
    Reachable (relevanceServer ℝ) ∧
    ParseQuery (relevanceServer ℝ) "fluffy groomed cat".toList =
      .ok ⟨["cat".toList, "fluffy".toList, "groomed".toList], []⟩ ∧
    (∃ allSeq allPar,
      FindAllDocuments Real.log (relevanceServer ℝ) Policy.seq
        ⟨["cat".toList, "fluffy".toList, "groomed".toList], []⟩ (statusIs .ACTUAL) =
          .ok allSeq ∧
      FindAllDocuments Real.log (relevanceServer ℝ) Policy.par
        ⟨["cat".toList, "fluffy".toList, "groomed".toList], []⟩ (statusIs .ACTUAL) =
          .ok allPar ∧
      allSeq.Perm allPar ∧
      (tiedTransitive allSeq →
        (∀ a ∈ allSeq, ∀ b ∈ allSeq, a ≠ b → ¬ (tied a b ∧ a.rating = b.rating)) →
        ∃ out, FindTopDocuments Real.log (relevanceServer ℝ) Policy.seq
            "fluffy groomed cat".toList (statusIs .ACTUAL) = .ok out ∧
          FindTopDocuments Real.log (relevanceServer ℝ) Policy.par
            "fluffy groomed cat".toList (statusIs .ACTUAL) = .ok out)) ∧
    FindTopDocuments Real.log (relevanceServer ℝ) Policy.seq "fluffy groomed cat".toList
        (statusIs .ACTUAL) =
      .ok [⟨1, 1 / 2 * Real.log 3 + 1 / 4 * Real.log (3 / 2), 2⟩,
           ⟨2, 1 / 4 * Real.log 3, 2⟩, ⟨0, 1 / 6 * Real.log (3 / 2), 2⟩] ∧
    FindTopDocuments Real.log (relevanceServer ℝ) Policy.par "fluffy groomed cat".toList
        (statusIs .ACTUAL) =
      .ok [⟨1, 1 / 2 * Real.log 3 + 1 / 4 * Real.log (3 / 2), 2⟩,
           ⟨2, 1 / 4 * Real.log 3, 2⟩, ⟨0, 1 / 6 * Real.log (3 / 2), 2⟩] :=
  ⟨reachable_relevanceServer ℝ,
    (relevanceServer_eq ℝ).symm ▸ parseQuery_relevance ℝ,
    C5_policies_agree Real.log (relevanceServer ℝ) (reachable_relevanceServer ℝ)
      "fluffy groomed cat".toList ⟨["cat".toList, "fluffy".toList, "groomed".toList], []⟩
      (statusIs .ACTUAL) ((relevanceServer_eq ℝ).symm ▸ parseQuery_relevance ℝ),
    findTop_relevance, findTop_relevance_par⟩

end SearchServer

/-! ## The five best documents, for every sort that meets the contract of `std::sort` -/

namespace SearchServer

variable {α : Type} [LinearOrderedField α]

theorem FindTopDocumentsBy_stdSort (ln : α → α) (s : SearchServer α) (policy : Policy)
    (raw_query : StringView) (pred : DocumentPredicate) :
    FindTopDocumentsBy stdSort ln s policy raw_query pred =
      FindTopDocuments ln s policy raw_query pred := rfl

end SearchServer

namespace SearchServer

variable {α : Type} [LinearOrderedField α]

/-! ## `AddDocument`: failure and success -/

theorem IsValidWord_eq_false_iff (w : StringView) :
    IsValidWord w = false ↔ ∃ c ∈ w, c.toNat < 32 := by
  unfold IsValidWord
  rw [← Bool.not_eq_true, List.all_eq_true]
  simp only [not_forall]
  constructor
  · rintro ⟨c, hc, h⟩
    refine ⟨c, hc, ?_⟩
    by_contra hlt
    apply h
    have h32 : ' '.toNat = 32 := rfl
    simp [h32, hlt]
  · rintro ⟨c, hc, h⟩
    refine ⟨c, hc, ?_⟩
    have h32 : ' '.toNat = 32 := rfl
    have h0 : '\x00'.toNat = 0 := rfl
    simp [h32, h0, h]

theorem loop_spec (stop_words_ : StdSet StringView) (tokens : List StringView)
    (pool : StdSet StringView) (words : List StringView) :
    (SplitIntoWordsNoStopAndAddWords.loop stop_words_ tokens pool words).2 =
      if ∃ w ∈ tokens, IsValidWord w = false then .error .invalid_argument
      else .ok (words ++ tokens.filter
        (fun w => !decide (StdSet.count stop_words_ w > 0))) := by
  induction tokens generalizing pool words with
  | nil => simp [SplitIntoWordsNoStopAndAddWords.loop]
  | cons w t ih =>
    unfold SplitIntoWordsNoStopAndAddWords.loop
    by_cases hv : IsValidWord w = true
    · have hv' : ¬ IsValidWord w = false := by simp [hv]
      by_cases hst : StdSet.count stop_words_ w > 0
      · simp only [hv, not_true_eq_false, if_false, hst, decide_True, ih]
        by_cases hex : ∃ w' ∈ t, IsValidWord w' = false
        · have : ∃ w' ∈ w :: t, IsValidWord w' = false := by
            obtain ⟨w', h1, h2⟩ := hex
            exact ⟨w', List.mem_cons_of_mem _ h1, h2⟩
          rw [if_pos hex, if_pos this]
        · have : ¬ ∃ w' ∈ w :: t, IsValidWord w' = false := by
            rintro ⟨w', h1, h2⟩
            rcases List.mem_cons.1 h1 with rfl | h1
            · exact hv' h2
            · exact hex ⟨w', h1, h2⟩
          rw [if_neg hex, if_neg this]
          simp [List.filter_cons, hst]
      · simp only [hv, not_true_eq_false, if_false, hst, decide_False, Bool.false_eq_true,
          not_false_eq_true, if_true, ih]
        by_cases hex : ∃ w' ∈ t, IsValidWord w' = false
        · have : ∃ w' ∈ w :: t, IsValidWord w' = false := by
            obtain ⟨w', h1, h2⟩ := hex
            exact ⟨w', List.mem_cons_of_mem _ h1, h2⟩
          rw [if_pos hex, if_pos this]
        · have : ¬ ∃ w' ∈ w :: t, IsValidWord w' = false := by
            rintro ⟨w', h1, h2⟩
            rcases List.mem_cons.1 h1 with rfl | h1
            · exact hv' h2
            · exact hex ⟨w', h1, h2⟩
          rw [if_neg hex, if_neg this]
          simp [List.filter_cons, hst]
    · have hv' : IsValidWord w = false := by simpa using hv
      have : ∃ w' ∈ w :: t, IsValidWord w' = false := ⟨w, List.mem_cons_self _ _, hv'⟩
      rw [if_pos this]
      simp [hv']

/-- The tokens of a text that are not stop words. -/
theorem split_result (s : SearchServer α) (text : StringView) :
    (SplitIntoWordsNoStopAndAddWords s text).2 =
      if ∃ w ∈ SplitIntoWords text, IsValidWord w = false then .error .invalid_argument
      else .ok ((SplitIntoWords text).filter (fun w => !IsStopWord s w)) := by
  unfold SplitIntoWordsNoStopAndAddWords
  simp only [loop_spec, List.nil_append]
  rfl

theorem AddDocument_result (s : SearchServer α) (id : Int) (text : StringView)
    (status : DocumentStatus) (ratings : List Int) :
    (AddDocument s id text status ratings).2 =
      if id < 0 ∨ StdMap.count s.documents_ id > 0 then .error .invalid_argument
      else if ∃ w ∈ SplitIntoWords text, IsValidWord w = false then .error .invalid_argument
      else .ok () := by
  unfold AddDocument
  by_cases hc : id < 0 ∨ StdMap.count s.documents_ id > 0
  · simp [hc]
  · simp only [hc, if_false]
    have hsp := split_result s text
    rcases hr : SplitIntoWordsNoStopAndAddWords s text with ⟨s1, r⟩
    rw [hr] at hsp
    simp only at hsp
    by_cases hex : ∃ w ∈ SplitIntoWords text, IsValidWord w = false
    · rw [if_pos hex] at hsp ⊢
      rw [hsp]
    · rw [if_neg hex] at hsp ⊢
      rw [hsp]

theorem count_pos_iff {K V : Type} [LinearOrder K] (m : StdMap K V) (k : K) :
    StdMap.count m k > 0 ↔ k ∈ StdMap.keys m := by
  unfold StdMap.count
  rw [← StdMap.find_isSome_iff]
  cases StdMap.find m k <;> simp

/-- C6: in every reachable index state `AddDocument(id, text, status, ratings)` fails if and
only if `id < 0`, or `id` is present in the index, or some token of `text` contains a
character with code below the space character (which is the case exactly when the text
contains such a character); in every other case it succeeds, after which `id` is visible
to the document iteration and counted by `GetDocumentCount`. -/
theorem C6_AddDocument_fails_iff (s : SearchServer α) (hs : Reachable s) (id : Int)
    (text : StringView) (status : DocumentStatus) (ratings : List Int) :
    ((∃ e, (AddDocument s id text status ratings).2 = .error e) ↔
      (id < 0 ∨ id ∈ documentIds s ∨ ∃ w ∈ SplitIntoWords text, ∃ c ∈ w, c.toNat < 32)) ∧
    ((∃ w ∈ SplitIntoWords text, ∃ c ∈ w, c.toNat < 32) ↔ ∃ c ∈ text, c.toNat < 32) ∧
    (¬ (id < 0 ∨ id ∈ documentIds s ∨ ∃ w ∈ SplitIntoWords text, ∃ c ∈ w, c.toNat < 32) →
      (AddDocument s id text status ratings).2 = .ok () ∧
      id ∈ documentIds (AddDocument s id text status ratings).1 ∧
      GetDocumentCount (AddDocument s id text status ratings).1 = GetDocumentCount s + 1) := by
  have hinv := hs.inv
  have hres := AddDocument_result s id text status ratings
  have hpres : StdMap.count s.documents_ id > 0 ↔ id ∈ documentIds s := by
    rw [count_pos_iff]
    exact (hinv.ids_docs id).symm
  have hinvalid : (∃ w ∈ SplitIntoWords text, IsValidWord w = false) ↔
      ∃ w ∈ SplitIntoWords text, ∃ c ∈ w, c.toNat < 32 := by
    constructor
    · rintro ⟨w, h1, h2⟩
      exact ⟨w, h1, (IsValidWord_eq_false_iff w).1 h2⟩
    · rintro ⟨w, h1, h2⟩
      exact ⟨w, h1, (IsValidWord_eq_false_iff w).2 h2⟩
  have hok : ¬ (id < 0 ∨ id ∈ documentIds s ∨
      ∃ w ∈ SplitIntoWords text, ∃ c ∈ w, c.toNat < 32) →
      (AddDocument s id text status ratings).2 = .ok () := by
    intro hn
    rw [hres]
    have h1 : ¬ (id < 0 ∨ StdMap.count s.documents_ id > 0) := by
      rw [hpres]
      exact fun h => hn (h.elim Or.inl (fun h' => Or.inr (Or.inl h')))
    have h2 : ¬ ∃ w ∈ SplitIntoWords text, IsValidWord w = false := by
      rw [hinvalid]
      exact fun h => hn (Or.inr (Or.inr h))
    rw [if_neg h1, if_neg h2]
  refine ⟨⟨?_, ?_⟩, SplitIntoWords.exists_control text, ?_⟩
  · rintro ⟨e, he⟩
    by_contra hn
    rw [hok hn] at he
    exact Except.noConfusion he
  · intro h
    refine ⟨.invalid_argument, ?_⟩
    rw [hres]
    by_cases h1 : id < 0 ∨ StdMap.count s.documents_ id > 0
    · rw [if_pos h1]
    · rw [if_neg h1]
      have h2 : ∃ w ∈ SplitIntoWords text, IsValidWord w = false := by
        rw [hinvalid]
        rcases h with h | h | h
        · exact absurd (Or.inl h) h1
        · exact absurd (Or.inr (hpres.2 h)) h1
        · exact h
      rw [if_pos h2]
  · intro hn
    have hok' := hok hn
    obtain ⟨-, hfind, words, -, hst⟩ := AddDocument_ok s id text status ratings hok'
    refine ⟨hok', ?_, ?_⟩
    · rw [hst]
      exact (StdSet.mem_insert _ _ _).2 (Or.inl rfl)
    · rw [hst]
      unfold GetDocumentCount
      simp only [StdMap.emplace]
      rw [StdMap.length_update, if_neg ((StdMap.find_eq_none_iff _ _).1 hfind)]

/-- C6, witness: the statement at the server holding the document 42 and a call that adds
the document 7. -/
theorem C6_AddDocument_fails_iff_witness :
    Reachable (catServer ℚ) ∧
    ((∃ e, (AddDocument (catServer ℚ) 7 "big dog".toList .ACTUAL [5]).2 = .error e) ↔
      (7 < (0 : Int) ∨ 7 ∈ documentIds (catServer ℚ) ∨
        ∃ w ∈ SplitIntoWords "big dog".toList, ∃ c ∈ w, c.toNat < 32)) ∧
    ((∃ w ∈ SplitIntoWords "big dog".toList, ∃ c ∈ w, c.toNat < 32) ↔
      ∃ c ∈ "big dog".toList, c.toNat < 32) ∧
    (¬ (7 < (0 : Int) ∨ 7 ∈ documentIds (catServer ℚ) ∨
        ∃ w ∈ SplitIntoWords "big dog".toList, ∃ c ∈ w, c.toNat < 32) →
      (AddDocument (catServer ℚ) 7 "big dog".toList .ACTUAL [5]).2 = .ok () ∧
      7 ∈ documentIds (AddDocument (catServer ℚ) 7 "big dog".toList .ACTUAL [5]).1 ∧
      GetDocumentCount (AddDocument (catServer ℚ) 7 "big dog".toList .ACTUAL [5]).1 =
        GetDocumentCount (catServer ℚ) + 1) :=
  ⟨reachable_catServer ℚ,
    C6_AddDocument_fails_iff (catServer ℚ) (reachable_catServer ℚ) 7 "big dog".toList
      .ACTUAL [5]⟩

/-- C7: whenever `AddDocument` fails, the forward entries, the inverted entries, the
document metadata, the id sequence and the document count are what they were before the
call. -/
theorem C7_AddDocument_failure_leaves_index (s : SearchServer α) (id : Int)
    (text : StringView) (status : DocumentStatus) (ratings : List Int) (e : Exception)
    (h : (AddDocument s id text status ratings).2 = .error e) :
    (AddDocument s id text status ratings).1.document_to_word_freqs_ =
      s.document_to_word_freqs_ ∧
    (AddDocument s id text status ratings).1.word_to_document_freqs_ =
      s.word_to_document_freqs_ ∧
    (AddDocument s id text status ratings).1.documents_ = s.documents_ ∧
    documentIds (AddDocument s id text status ratings).1 = documentIds s ∧
    GetDocumentCount (AddDocument s id text status ratings).1 = GetDocumentCount s := by
  have hne : (AddDocument s id text status ratings).2 ≠ .ok () := by
    rw [h]
    exact fun h' => Except.noConfusion h'
  obtain ⟨-, h1, h2, h3, h4⟩ := AddDocument_error s id text status ratings hne
  refine ⟨h2, h1, h3, h4, ?_⟩
  unfold GetDocumentCount
  rw [h3]

set_option maxRecDepth 100000 in
theorem addDocument_invalid_term :
    (AddDocument (catServer ℚ) 7 "big dog \x01bad".toList .ACTUAL [5]).2 =
      .error .invalid_argument := rfl

set_option maxRecDepth 100000 in
theorem addDocument_invalid_term_pool :
    (AddDocument (catServer ℚ) 7 "big dog \x01bad".toList .ACTUAL [5]).1.words_ =
      ["big".toList, "cat".toList, "city".toList, "dog".toList, "in".toList,
        "the".toList] := rfl

/-- C7, witness: a call that fails on an invalid term after two valid terms; the two valid
terms stay in the term pool `words_`, which the statement does not list. -/
theorem C7_AddDocument_failure_leaves_index_witness :
    (AddDocument (catServer ℚ) 7 "big dog \x01bad".toList .ACTUAL [5]).2 =
      .error .invalid_argument ∧
    ((AddDocument (catServer ℚ) 7 "big dog \x01bad".toList .ACTUAL [5]).1.document_to_word_freqs_ =
      (catServer ℚ).document_to_word_freqs_ ∧
    (AddDocument (catServer ℚ) 7 "big dog \x01bad".toList .ACTUAL [5]).1.word_to_document_freqs_ =
      (catServer ℚ).word_to_document_freqs_ ∧
    (AddDocument (catServer ℚ) 7 "big dog \x01bad".toList .ACTUAL [5]).1.documents_ =
      (catServer ℚ).documents_ ∧
    documentIds (AddDocument (catServer ℚ) 7 "big dog \x01bad".toList .ACTUAL [5]).1 =
      documentIds (catServer ℚ) ∧
    GetDocumentCount (AddDocument (catServer ℚ) 7 "big dog \x01bad".toList .ACTUAL [5]).1 =
      GetDocumentCount (catServer ℚ)) ∧
    (AddDocument (catServer ℚ) 7 "big dog \x01bad".toList .ACTUAL [5]).1.words_ =
      ["big".toList, "cat".toList, "city".toList, "dog".toList, "in".toList,
        "the".toList] :=
  ⟨addDocument_invalid_term,
    C7_AddDocument_failure_leaves_index (catServer ℚ) 7 "big dog \x01bad".toList .ACTUAL [5]
      .invalid_argument addDocument_invalid_term,
    addDocument_invalid_term_pool⟩

end SearchServer

/-! ## `AddDocument` in rounded arithmetic -/

namespace SearchServer

variable {α : Type} [LinearOrderedField α]

theorem AddDocumentFl_id (s : SearchServer α) (id : Int) (text : StringView)
    (status : DocumentStatus) (ratings : List Int) :
    AddDocumentFl (fun x => x) s id text status ratings =
      AddDocument s id text status ratings := rfl

theorem tfInverted_stepFl (fl : α → α) (id : Int) (inv : α) (s : SearchServer α)
    (word w : StringView) (d : Int) :
    tfInverted (AddDocument.stepFl fl id inv s word) w d =
      if w = word ∧ d = id then some (fl ((tfInverted s word id).getD 0 + inv))
      else tfInverted s w d := by
  unfold tfInverted AddDocument.stepFl
  simp only [StdMap.find_update]
  by_cases hw : w = word
  · subst hw
    by_cases hd : d = id
    · subst hd
      cases StdMap.find s.word_to_document_freqs_ w <;> simp [StdMap.find_update, StdMap.find]
    · cases StdMap.find s.word_to_document_freqs_ w <;> simp [StdMap.find_update, StdMap.find, hd]
  · simp [hw]

theorem tfForward_stepFl (fl : α → α) (id : Int) (inv : α) (s : SearchServer α)
    (word w : StringView) (d : Int) :
    tfForward (AddDocument.stepFl fl id inv s word) d w =
      if w = word ∧ d = id then some (fl ((tfForward s id word).getD 0 + inv))
      else tfForward s d w := by
  unfold tfForward AddDocument.stepFl
  simp only [StdMap.find_update]
  by_cases hd : d = id
  · subst hd
    by_cases hw : w = word
    · subst hw
      cases StdMap.find s.document_to_word_freqs_ d <;> simp [StdMap.find_update, StdMap.find]
    · cases StdMap.find s.document_to_word_freqs_ d <;> simp [StdMap.find_update, StdMap.find, hw]
  · simp [hd]

theorem LoopInv_stepFl (fl : α → α) (id : Int) (inv : α) (s : SearchServer α)
    (word : StringView) (h : LoopInv id s) : LoopInv id (AddDocument.stepFl fl id inv s word) := by
  constructor
  · exact StdMap.nodup_keys_update _ _ _ _ h.fwd_nodup
  · intro d ws hws
    simp only [AddDocument.stepFl, StdMap.find_update] at hws
    by_cases hd : d = id
    · simp only [hd, if_true, Option.some.injEq] at hws
      subst hws
      apply StdMap.nodup_keys_update
      cases hf : StdMap.find s.document_to_word_freqs_ id with
      | none => simp [StdMap.keys]
      | some ws₀ => exact h.fwd_entry_nodup id ws₀ hf
    · simp only [hd, if_false] at hws
      exact h.fwd_entry_nodup d ws hws
  · intro d hd
    simp only [AddDocument.stepFl] at hd
    rcases (StdMap.mem_keys_update _ _ _ _ _).1 hd with rfl | hd
    · exact Or.inr rfl
    · exact h.fwd_ids d hd
  · exact StdMap.nodup_keys_update _ _ _ _ h.inv_nodup
  · intro w docs hdocs
    simp only [AddDocument.stepFl, StdMap.find_update] at hdocs
    by_cases hw : w = word
    · simp only [hw, if_true, Option.some.injEq] at hdocs
      subst hdocs
      apply StdMap.nodup_keys_update
      cases hf : StdMap.find s.word_to_document_freqs_ word with
      | none => simp [StdMap.keys]
      | some docs₀ => exact h.inv_entry_nodup word docs₀ hf
    · simp only [hw, if_false] at hdocs
      exact h.inv_entry_nodup w docs hdocs
  · intro w d
    rw [tfInverted_stepFl, tfForward_stepFl, h.mirror, h.mirror]

theorem LoopInv_foldlFl (fl : α → α) (id : Int) (inv : α) (words : List StringView)
    (s : SearchServer α) (h : LoopInv id s) :
    LoopInv id (words.foldl (AddDocument.stepFl fl id inv) s) := by
  induction words generalizing s with
  | nil => exact h
  | cons w t ih => exact ih _ (LoopInv_stepFl fl id inv s w h)

theorem foldl_stepFl_fields (fl : α → α) (id : Int) (inv : α) (words : List StringView)
    (s : SearchServer α) :
    (words.foldl (AddDocument.stepFl fl id inv) s).stop_words_ = s.stop_words_ ∧
    (words.foldl (AddDocument.stepFl fl id inv) s).words_ = s.words_ ∧
    (words.foldl (AddDocument.stepFl fl id inv) s).documents_ = s.documents_ ∧
    (words.foldl (AddDocument.stepFl fl id inv) s).document_ids_ = s.document_ids_ := by
  induction words generalizing s with
  | nil => exact ⟨rfl, rfl, rfl, rfl⟩
  | cons w t ih =>
    obtain ⟨h1, h2, h3, h4⟩ := ih (AddDocument.stepFl fl id inv s w)
    exact ⟨h1, h2, h3, h4⟩

/-- The forward frequencies after the loop of `AddDocument` in rounded arithmetic: the term
`w` of the new document holds the value left by one `+=` per occurrence of `w`. -/
theorem tfForward_foldlFl (fl : α → α) (id : Int) (inv : α) (words : List StringView)
    (s : SearchServer α) (w : StringView) (d : Int) :
    tfForward (words.foldl (AddDocument.stepFl fl id inv) s) d w =
      if w ∈ words ∧ d = id then
        some (addTimes fl inv (words.count w) ((tfForward s id w).getD 0))
      else tfForward s d w := by
  induction words generalizing s with
  | nil => simp
  | cons x t ih =>
    rw [List.foldl_cons, ih, tfForward_stepFl, tfForward_stepFl]
    by_cases hd : d = id
    · subst hd
      by_cases hx : w = x
      · subst hx
        by_cases ht : w ∈ t
        · simp [ht, List.count_cons_self, addTimes]
        · simp [ht, List.count_eq_zero_of_not_mem ht, addTimes]
      · have hx' : x ≠ w := fun e => hx e.symm
        by_cases ht : w ∈ t
        · simp [ht, hx, List.count_cons_of_ne hx']
        · simp [ht, hx]
    · simp [hd]

theorem find_forward_foldlFl_ne (fl : α → α) (id : Int) (inv : α) (words : List StringView)
    (s : SearchServer α) (d : Int) (hd : d ≠ id) :
    StdMap.find (words.foldl (AddDocument.stepFl fl id inv) s).document_to_word_freqs_ d =
      StdMap.find s.document_to_word_freqs_ d := by
  induction words generalizing s with
  | nil => rfl
  | cons x t ih =>
    rw [List.foldl_cons, ih]
    simp only [AddDocument.stepFl, StdMap.find_update, if_neg hd]

/-- The state left by a successful `AddDocument` in rounded arithmetic, in terms of the
returned word list. -/
theorem AddDocumentFl_ok (fl : α → α) (s : SearchServer α) (id : Int) (text : StringView)
    (status : DocumentStatus) (ratings : List Int)
    (h : (AddDocumentFl fl s id text status ratings).2 = .ok ()) :
    ¬ (id < 0) ∧ StdMap.find s.documents_ id = none ∧
    ∃ words, (SplitIntoWordsNoStopAndAddWords s text).2 = .ok words ∧
      (AddDocumentFl fl s id text status ratings).1 =
        { (words.foldl (AddDocument.stepFl fl id (fl (1 / fl (words.length : α))))
            (SplitIntoWordsNoStopAndAddWords s text).1) with
          documents_ := StdMap.emplace s.documents_ id ⟨ComputeAverageRating ratings, status⟩,
          document_ids_ := StdSet.insert s.document_ids_ id } := by
  unfold AddDocumentFl at h ⊢
  by_cases hc : id < 0 ∨ StdMap.count s.documents_ id > 0
  · simp [hc] at h
  · simp only [hc, if_false] at h ⊢
    have hc' := not_or.1 hc
    have hfind : StdMap.find s.documents_ id = none := by
      have := hc'.2
      unfold StdMap.count at this
      cases hf : StdMap.find s.documents_ id with
      | none => rfl
      | some v => simp [hf] at this
    refine ⟨hc'.1, hfind, ?_⟩
    rcases hsp : SplitIntoWordsNoStopAndAddWords s text with ⟨s1, r⟩
    cases r with
    | error e => simp [hsp] at h
    | ok words =>
      refine ⟨words, rfl, ?_⟩
      simp only
      have hf := foldl_stepFl_fields fl id (fl (1 / fl (words.length : α))) words s1
      have hs1 := split_fields s text
      rw [hsp] at hs1
      simp only at hs1
      rw [hf.2.2.1, hf.2.2.2, hs1.2.2.2.1, hs1.2.2.2.2]

theorem AddDocumentFl_error (fl : α → α) (s : SearchServer α) (id : Int) (text : StringView)
    (status : DocumentStatus) (ratings : List Int)
    (h : (AddDocumentFl fl s id text status ratings).2 ≠ .ok ()) :
    (AddDocumentFl fl s id text status ratings).1.stop_words_ = s.stop_words_ ∧
    (AddDocumentFl fl s id text status ratings).1.word_to_document_freqs_ =
      s.word_to_document_freqs_ ∧
    (AddDocumentFl fl s id text status ratings).1.document_to_word_freqs_ =
      s.document_to_word_freqs_ ∧
    (AddDocumentFl fl s id text status ratings).1.documents_ = s.documents_ ∧
    (AddDocumentFl fl s id text status ratings).1.document_ids_ = s.document_ids_ := by
  unfold AddDocumentFl at h ⊢
  by_cases hc : id < 0 ∨ StdMap.count s.documents_ id > 0
  · simp [hc]
  · simp only [hc, if_false] at h ⊢
    rcases hsp : SplitIntoWordsNoStopAndAddWords s text with ⟨s1, r⟩
    have hs1 := split_fields s text
    rw [hsp] at hs1
    cases r with
    | error e => exact hs1
    | ok words =>
      rw [hsp] at h
      exact absurd rfl h

/-- Whether `AddDocument` succeeds does not depend on the rounding. -/
theorem AddDocumentFl_result (fl : α → α) (s : SearchServer α) (id : Int) (text : StringView)
    (status : DocumentStatus) (ratings : List Int) :
    (AddDocumentFl fl s id text status ratings).2 =
      (AddDocument s id text status ratings).2 := by
  unfold AddDocumentFl AddDocument
  by_cases hc : id < 0 ∨ StdMap.count s.documents_ id > 0
  · simp [hc]
  · simp only [hc, if_false]
    rcases hsp : SplitIntoWordsNoStopAndAddWords s text with ⟨s1, r⟩
    cases r <;> rfl

theorem Inv_AddDocumentFl (fl : α → α) (s : SearchServer α) (id : Int) (text : StringView)
    (status : DocumentStatus) (ratings : List Int) (h : Inv s) :
    Inv (AddDocumentFl fl s id text status ratings).1 := by
  by_cases hok : (AddDocumentFl fl s id text status ratings).2 = .ok ()
  · obtain ⟨hneg, hfind, words, hsp, hst⟩ := AddDocumentFl_ok fl s id text status ratings hok
    rw [hst]
    have hs1 := split_fields s text
    have hL0 : LoopInv id (SplitIntoWordsNoStopAndAddWords s text).1 := by
      have h1 := Inv_of_fields s _ h hs1.2.1 hs1.2.2.1 hs1.2.2.2.1 hs1.2.2.2.2
      exact ⟨h1.fwd_nodup, h1.fwd_entry_nodup, fun d hd => Or.inl (h1.fwd_ids d hd),
        h1.inv_nodup, h1.inv_entry_nodup, h1.mirror⟩
    have hL := LoopInv_foldlFl fl id (fl (1 / fl (words.length : α))) words _ hL0
    have hf := foldl_stepFl_fields fl id (fl (1 / fl (words.length : α))) words
      (SplitIntoWordsNoStopAndAddWords s text).1
    constructor
    · exact StdSet.nodup_insert _ _ h.ids_nodup
    · exact StdMap.nodup_keys_update _ _ _ _ h.docs_nodup
    · intro d
      simp only [StdSet.mem_insert, StdMap.emplace, StdMap.mem_keys_update, h.ids_docs]
    · intro d hd
      rcases (StdSet.mem_insert _ _ _).1 hd with rfl | hd
      · exact not_lt.1 hneg
      · exact h.ids_nonneg d hd
    · exact hL.fwd_nodup
    · exact hL.fwd_entry_nodup
    · intro d hd
      simp only [StdSet.mem_insert]
      rcases hL.fwd_ids d hd with hd' | hd'
      · rw [hf.2.2.2, hs1.2.2.2.2] at hd'
        exact Or.inr hd'
      · exact Or.inl hd'
    · exact hL.inv_nodup
    · exact hL.inv_entry_nodup
    · exact hL.mirror
  · have he := AddDocumentFl_error fl s id text status ratings hok
    exact Inv_of_fields s _ h he.2.1 he.2.2.1 he.2.2.2.1 he.2.2.2.2

theorem ReachableFl.invFl {fl : α → α} {s : SearchServer α} (h : ReachableFl fl s) : Inv s := by
  induction h with
  | init stop_words s h => exact Inv_create stop_words s h
  | add s id text status ratings _ ih => exact Inv_AddDocumentFl fl s id text status ratings ih
  | remove s id _ ih => exact Inv_RemoveDocument s id ih

/-- With a rounding that changes no value, the reachable states are the states reachable in
exact arithmetic. -/
theorem ReachableFl.exact {fl : α → α} {s : SearchServer α} (hfl : ∀ x, fl x = x)
    (h : ReachableFl fl s) : Reachable s := by
  have hfun : fl = fun x => x := funext hfl
  subst hfun
  induction h with
  | init stop_words s h => exact Reachable.init stop_words s h
  | add s id text status ratings _ ih =>
    rw [AddDocumentFl_id]
    exact Reachable.add s id text status ratings ih
  | remove s id _ ih => exact Reachable.remove s id ih

/-- The frequencies stored for the new document after a successful `AddDocument` in rounded
arithmetic. -/
theorem AddDocumentFl_tf (fl : α → α) (s : SearchServer α) (hinv : Inv s) (id : Int)
    (text : StringView) (status : DocumentStatus) (ratings : List Int)
    (hok : (AddDocumentFl fl s id text status ratings).2 = .ok ()) (w : StringView) :
    tfForward (AddDocumentFl fl s id text status ratings).1 id w =
      (if w ∈ (SplitIntoWords text).filter (fun w => !IsStopWord s w) then
        some (addTimes fl
          (fl (1 / fl ((((SplitIntoWords text).filter (fun w => !IsStopWord s w)).length :
            Nat) : α)))
          (((SplitIntoWords text).filter (fun w => !IsStopWord s w)).count w) 0)
      else none) ∧
    tfInverted (AddDocumentFl fl s id text status ratings).1 w id =
      tfForward (AddDocumentFl fl s id text status ratings).1 id w := by
  obtain ⟨-, hfind, words, hsp, hst⟩ := AddDocumentFl_ok fl s id text status ratings hok
  have hwords : words = (SplitIntoWords text).filter (fun w => !IsStopWord s w) := by
    have h := split_result s text
    rw [hsp] at h
    by_cases hex : ∃ w ∈ SplitIntoWords text, IsValidWord w = false
    · rw [if_pos hex] at h
      exact Except.noConfusion h
    · rw [if_neg hex] at h
      exact Except.ok.inj h
  have hnew : id ∉ StdMap.keys s.document_to_word_freqs_ := by
    intro hmem
    have := (hinv.ids_docs id).1 (hinv.fwd_ids id hmem)
    exact (StdMap.find_eq_none_iff _ _).1 hfind this
  have hfwd0 : tfForward (SplitIntoWordsNoStopAndAddWords s text).1 id w = none := by
    unfold tfForward
    rw [(split_fields s text).2.2.1, (StdMap.find_eq_none_iff _ _).2 hnew]
    rfl
  refine ⟨?_, (Inv_AddDocumentFl fl s id text status ratings hinv).mirror w id⟩
  have hfold := tfForward_foldlFl fl id (fl (1 / fl (words.length : α))) words
    (SplitIntoWordsNoStopAndAddWords s text).1 w id
  have heq : tfForward (AddDocumentFl fl s id text status ratings).1 id w =
      tfForward (words.foldl (AddDocument.stepFl fl id (fl (1 / fl (words.length : α))))
        (SplitIntoWordsNoStopAndAddWords s text).1) id w := by
    rw [hst]
    rfl
  rw [heq, hfold, hfwd0, ← hwords]
  by_cases hw : w ∈ words
  · simp [hw]
  · simp [hw]

end SearchServer

/-! ## Rounded sums -/

theorem roundHalfEven_pos (q : ℚ) (hq : 1 ≤ q) : 0 < roundHalfEven q := by
  have hn : (1 : ℤ) ≤ ⌊q⌋ := Int.le_floor.2 (by simpa using hq)
  unfold roundHalfEven
  simp only
  split_ifs <;> omega

/-- The rounding of `double` keeps a positive value positive. -/
theorem roundBinary64_pos (x : ℚ) (hx : 0 < x) : 0 < roundBinary64 x := by
  unfold roundBinary64
  rw [if_neg (ne_of_gt hx), if_pos hx]
  unfold roundPositive
  simp only
  have h2 : (0 : ℚ) < 2 ^ (Int.log 2 x - 52) := zpow_pos (by norm_num) _
  have hlog : ((2 : ℕ) : ℚ) ^ Int.log 2 x ≤ x := Int.zpow_log_le_self (by norm_num) hx
  have hq : (1 : ℚ) ≤ x / 2 ^ (Int.log 2 x - 52) := by
    rw [le_div_iff₀ h2, one_mul]
    refine le_trans ?_ hlog
    have : ((2 : ℕ) : ℚ) = 2 := by norm_num
    rw [this]
    exact zpow_le_zpow_right₀ (by norm_num) (by omega)
  have hr := roundHalfEven_pos _ hq
  have hr' : (0 : ℚ) < (roundHalfEven (x / 2 ^ (Int.log 2 x - 52)) : ℚ) := by
    exact_mod_cast hr
  exact mul_pos hr' h2

namespace SearchServer

variable {α : Type} [LinearOrderedField α]

theorem addTimes_exact (fl : α → α) (hfl : ∀ x, fl x = x) (inv : α) (k : Nat) (x : α) :
    addTimes fl inv k x = x + (k : α) * inv := by
  induction k generalizing x with
  | zero => simp [addTimes]
  | succ k ih =>
    rw [addTimes, ih, hfl]
    push_cast
    ring

theorem addTimes_pos_of_pos (fl : α → α) (hfl : ∀ x, 0 < x → 0 < fl x) (inv : α)
    (hinv : 0 < inv) (k : Nat) (x : α) (hx : 0 < x) : 0 < addTimes fl inv k x := by
  induction k generalizing x with
  | zero => exact hx
  | succ k ih =>
    rw [addTimes]
    exact ih _ (hfl _ (add_pos hx hinv))

theorem addTimes_pos (fl : α → α) (hfl : ∀ x, 0 < x → 0 < fl x) (inv : α)
    (hinv : 0 < inv) (k : Nat) (hk : 0 < k) : 0 < addTimes fl inv k 0 := by
  obtain ⟨j, rfl⟩ := Nat.exists_eq_succ_of_ne_zero (Nat.pos_iff_ne_zero.1 hk)
  rw [addTimes]
  exact addTimes_pos_of_pos fl hfl inv hinv j _ (hfl _ (by rw [zero_add]; exact hinv))

/-! ## Positive term frequencies in rounded arithmetic -/

theorem PosInv_AddDocumentFl (fl : α → α) (hfl : ∀ x, 0 < x → 0 < fl x) (s : SearchServer α)
    (hinv : Inv s) (id : Int) (text : StringView) (status : DocumentStatus)
    (ratings : List Int) (h : PosInv s) :
    PosInv (AddDocumentFl fl s id text status ratings).1 := by
  by_cases hok : (AddDocumentFl fl s id text status ratings).2 = .ok ()
  · have hinv' := Inv_AddDocumentFl fl s id text status ratings hinv
    intro d ws hws p hp
    by_cases hd : d = id
    · subst hd
      have htf := (AddDocumentFl_tf fl s hinv d text status ratings hok p.1).1
      unfold tfForward at htf
      rw [hws] at htf
      simp only [Option.some_bind] at htf
      rw [StdMap.find_of_mem ws (hinv'.fwd_entry_nodup d ws hws) p.1 p.2 hp] at htf
      by_cases hw : p.1 ∈ (SplitIntoWords text).filter (fun w => !IsStopWord s w)
      · rw [if_pos hw] at htf
        rw [Option.some.inj htf]
        have hlen : 0 < ((SplitIntoWords text).filter (fun w => !IsStopWord s w)).length :=
          List.length_pos_of_mem hw
        apply addTimes_pos fl hfl
        · apply hfl
          apply one_div_pos.2
          apply hfl
          exact Nat.cast_pos.2 hlen
        · exact List.count_pos_iff.2 hw
      · rw [if_neg hw] at htf
        exact Option.noConfusion htf
    · obtain ⟨-, -, words, -, hst⟩ := AddDocumentFl_ok fl s id text status ratings hok
      rw [hst] at hws
      simp only at hws
      rw [find_forward_foldlFl_ne fl id _ words _ d hd, (split_fields s text).2.2.1] at hws
      exact h d ws hws p hp
  · obtain ⟨-, -, h3, -, -⟩ := AddDocumentFl_error fl s id text status ratings hok
    unfold PosInv
    rw [h3]
    exact h

theorem PosInv_RemoveDocument (s : SearchServer α) (id : Int) (h : PosInv s) :
    PosInv (RemoveDocument s id).1 := by
  by_cases hid : id ∈ s.document_ids_
  · obtain ⟨-, -, -, -, -, hfwd, -⟩ := RemoveDocument_ok s id hid
    intro d ws hws
    rw [hfwd d] at hws
    by_cases hd : d = id
    · rw [if_pos hd] at hws
      exact Option.noConfusion hws
    · rw [if_neg hd] at hws
      exact h d ws hws
  · have hst : (RemoveDocument s id).1 = s := by
      unfold RemoveDocument
      rw [if_pos hid]
    rw [hst]
    exact h

theorem PosInv_create (stop_words : List StringView) (s : SearchServer α)
    (h : create stop_words = .ok s) : PosInv s := by
  unfold create at h
  by_cases hv : ¬ (MakeUniqueNonEmptyStrings stop_words).all IsValidWord
  · simp [hv] at h
  · simp only [hv, if_false, Except.ok.injEq] at h
    subst h
    intro d ws hws
    simp [StdMap.find] at hws

theorem ReachableFl.posInv {fl : α → α} (hfl : ∀ x, 0 < x → 0 < fl x) {s : SearchServer α}
    (h : ReachableFl fl s) : PosInv s := by
  induction h with
  | init stop_words s h => exact PosInv_create stop_words s h
  | add s id text status ratings hr ih =>
    exact PosInv_AddDocumentFl fl hfl s hr.invFl id text status ratings ih
  | remove s id _ ih => exact PosInv_RemoveDocument s id ih

end SearchServer

namespace SearchServer

variable {α : Type} [LinearOrderedField α]

/-! ## Term frequencies recorded by `AddDocument` -/

theorem tfInverted_foldl (id : Int) (inv : α) (words : List StringView) (s : SearchServer α)
    (w : StringView) (d : Int) :
    tfInverted (words.foldl (AddDocument.step id inv) s) w d =
      if w ∈ words ∧ d = id then
        some ((tfInverted s w id).getD 0 + (words.count w : α) * inv)
      else tfInverted s w d := by
  induction words generalizing s with
  | nil => simp
  | cons x t ih =>
    rw [List.foldl_cons, ih, tfInverted_step, tfInverted_step]
    by_cases hd : d = id
    · subst hd
      by_cases hx : w = x
      · subst hx
        by_cases ht : w ∈ t
        · simp [ht, List.count_cons_self]
          ring
        · simp [ht, List.count_eq_zero_of_not_mem ht]
      · have hx' : x ≠ w := fun e => hx e.symm
        by_cases ht : w ∈ t
        · simp [ht, hx, List.count_cons_of_ne hx']
        · simp [ht, hx]
    · simp [hd]

/-- The frequencies stored for the new document after a successful `AddDocument`. -/
theorem AddDocument_tf (s : SearchServer α) (hinv : Inv s) (id : Int) (text : StringView)
    (status : DocumentStatus) (ratings : List Int)
    (hok : (AddDocument s id text status ratings).2 = .ok ()) (w : StringView) :
    tfForward (AddDocument s id text status ratings).1 id w =
      (if w ∈ (SplitIntoWords text).filter (fun w => !IsStopWord s w) then
        some ((((SplitIntoWords text).filter (fun w => !IsStopWord s w)).count w : α) *
          (1 / ((((SplitIntoWords text).filter (fun w => !IsStopWord s w)).length : Nat) : α)))
      else none) ∧
    tfInverted (AddDocument s id text status ratings).1 w id =
      tfForward (AddDocument s id text status ratings).1 id w := by
  obtain ⟨-, hfind, words, hsp, hst⟩ := AddDocument_ok s id text status ratings hok
  have hwords : words = (SplitIntoWords text).filter (fun w => !IsStopWord s w) := by
    have h := split_result s text
    rw [hsp] at h
    by_cases hex : ∃ w ∈ SplitIntoWords text, IsValidWord w = false
    · rw [if_pos hex] at h
      exact Except.noConfusion h
    · rw [if_neg hex] at h
      exact Except.ok.inj h
  have hnew : id ∉ StdMap.keys s.document_to_word_freqs_ := by
    intro hmem
    have := (hinv.ids_docs id).1 (hinv.fwd_ids id hmem)
    exact (StdMap.find_eq_none_iff _ _).1 hfind this
  have hfwd0 : tfForward (SplitIntoWordsNoStopAndAddWords s text).1 id w = none := by
    unfold tfForward
    rw [(split_fields s text).2.2.1, (StdMap.find_eq_none_iff _ _).2 hnew]
    rfl
  refine ⟨?_, (Inv_AddDocument s id text status ratings hinv).mirror w id⟩
  have hfold := tfForward_foldl id (1 / (words.length : α)) words
    (SplitIntoWordsNoStopAndAddWords s text).1 w id
  have heq : tfForward (AddDocument s id text status ratings).1 id w =
      tfForward (words.foldl (AddDocument.step id (1 / (words.length : α)))
        (SplitIntoWordsNoStopAndAddWords s text).1) id w := by
    rw [hst]
    rfl
  rw [heq, hfold, hfwd0, ← hwords]
  by_cases hw : w ∈ words
  · simp [hw]
  · simp [hw]

/-- The states reachable in exact arithmetic are the states reachable with a rounding that
changes no value. -/
theorem Reachable.rounded {s : SearchServer α} (h : Reachable s) :
    ReachableFl (fun x => x) s := by
  induction h with
  | init stop_words s h => exact ReachableFl.init stop_words s h
  | add s id text status ratings _ ih =>
    rw [← AddDocumentFl_id]
    exact ReachableFl.add s id text status ratings ih
  | remove s id _ ih => exact ReachableFl.remove s id ih

theorem reachableFl_emptyServer (fl : α → α) : ReachableFl fl (emptyServer α) :=
  ReachableFl.init [] _ rfl

theorem addDocumentFl_big_dog :
    (AddDocumentFl roundBinary64 (emptyServer ℚ) 7 "big dog big".toList .ACTUAL [5]).2 =
      .ok () := by
  rw [AddDocumentFl_result, AddDocument_result]
  rfl

theorem addDocumentFl_big_dog_exact :
    (AddDocumentFl (fun x => x) (catServer ℚ) 7 "big dog big".toList .ACTUAL [5]).2 =
      .ok () := by
  rw [AddDocumentFl_result, AddDocument_result]
  rfl

/-- C8, counterexample: in the arithmetic of `double`, the document "a a a b b b b b b b" added
to an empty server has 3 occurrences of `a` among 10 tokens, and `GetWordFrequencies` maps `a`
to `1351079888211149 / 2^52` (printed `0.30000000000000004`), the result of adding the rounded
`1.0 / 10` three times.  This is neither 3/10 nor the `double` nearest to 3/10, which is
`5404319552844595 / 2^54` (printed `0.3`). -/
theorem C8_term_frequency_counterexample :
    ((SplitIntoWords "a a a b b b b b b b".toList).filter
      (fun w => !IsStopWord (emptyServer ℚ) w)).count "a".toList = 3 ∧
    ((SplitIntoWords "a a a b b b b b b b".toList).filter
      (fun w => !IsStopWord (emptyServer ℚ) w)).length = 10 ∧
    StdMap.find (GetWordFrequencies (AddDocumentFl roundBinary64 (emptyServer ℚ) 1
        "a a a b b b b b b b".toList .ACTUAL [1]).1 1) "a".toList =
      some (1351079888211149 / 4503599627370496) ∧
    (1351079888211149 / 4503599627370496 : ℚ) ≠ 3 / 10 ∧
    roundBinary64 (3 / 10) = 5404319552844595 / 18014398509481984 ∧
    (1351079888211149 / 4503599627370496 : ℚ) ≠ roundBinary64 (3 / 10) := by
  refine ⟨by decide, by decide, by decide!, by decide!, by decide!, by decide!⟩

/-- C8, amended: after a successful `AddDocument(id, text, ...)` on a reachable state, in
arithmetic where `fl` rounds every operation on a `double`, the keys of
`GetWordFrequencies(id)` are exactly the distinct tokens of `text` that are not stop words,
each key once; every such term is mapped to the value left by adding the rounded
`1.0 / (number of non-stop tokens)` once per occurrence of the term, starting from 0, and the
inverted entry of the term maps `id` to the same value.  Over exact rationals (a rounding that
changes no value) this value is the number of occurrences divided by the number of non-stop
tokens. -/
theorem C8_AddDocument_term_frequencies_rounded (fl : α → α) (s : SearchServer α)
    (hs : ReachableFl fl s) (id : Int) (text : StringView) (status : DocumentStatus)
    (ratings : List Int) (hok : (AddDocumentFl fl s id text status ratings).2 = .ok ()) :
    (∀ w, w ∈ StdMap.keys (GetWordFrequencies (AddDocumentFl fl s id text status ratings).1 id) ↔
      w ∈ (SplitIntoWords text).filter (fun w => !IsStopWord s w)) ∧
    (StdMap.keys (GetWordFrequencies (AddDocumentFl fl s id text status ratings).1 id)).Nodup ∧
    (∀ w ∈ (SplitIntoWords text).filter (fun w => !IsStopWord s w),
      StdMap.find (GetWordFrequencies (AddDocumentFl fl s id text status ratings).1 id) w =
        some (addTimes fl
          (fl (1 / fl ((((SplitIntoWords text).filter (fun w => !IsStopWord s w)).length :
            Nat) : α)))
          (((SplitIntoWords text).filter (fun w => !IsStopWord s w)).count w) 0) ∧
      ∃ docs, StdMap.find (AddDocumentFl fl s id text status ratings).1.word_to_document_freqs_
          w = some docs ∧
        StdMap.find docs id =
          some (addTimes fl
            (fl (1 / fl ((((SplitIntoWords text).filter (fun w => !IsStopWord s w)).length :
              Nat) : α)))
            (((SplitIntoWords text).filter (fun w => !IsStopWord s w)).count w) 0)) ∧
    ((∀ x, fl x = x) → ∀ w ∈ (SplitIntoWords text).filter (fun w => !IsStopWord s w),
      StdMap.find (GetWordFrequencies (AddDocumentFl fl s id text status ratings).1 id) w =
        some ((((SplitIntoWords text).filter (fun w => !IsStopWord s w)).count w : α) /
          ((((SplitIntoWords text).filter (fun w => !IsStopWord s w)).length : Nat) : α))) := by
  have hinv := hs.invFl
  have hinv' := Inv_AddDocumentFl fl s id text status ratings hinv
  have hfind : ∀ w ∈ (SplitIntoWords text).filter (fun w => !IsStopWord s w),
      StdMap.find (GetWordFrequencies (AddDocumentFl fl s id text status ratings).1 id) w =
        some (addTimes fl
          (fl (1 / fl ((((SplitIntoWords text).filter (fun w => !IsStopWord s w)).length :
            Nat) : α)))
          (((SplitIntoWords text).filter (fun w => !IsStopWord s w)).count w) 0) := by
    intro w hw
    have h1 := (AddDocumentFl_tf fl s hinv id text status ratings hok w).1
    rw [if_pos hw] at h1
    rw [← tfForward_eq_find]
    exact h1
  refine ⟨?_, ?_, ?_, ?_⟩
  · intro w
    have h := (AddDocumentFl_tf fl s hinv id text status ratings hok w).1
    rw [← StdMap.find_isSome_iff, ← tfForward_eq_find, h]
    by_cases hw : w ∈ (SplitIntoWords text).filter (fun w => !IsStopWord s w)
    · simp only [hw, if_true, Option.isSome_some]
    · simp only [hw, if_false, Option.isSome_none, Bool.false_eq_true]
  · unfold GetWordFrequencies
    cases hf : StdMap.find (AddDocumentFl fl s id text status ratings).1.document_to_word_freqs_
        id with
    | none => simp [StdMap.keys]
    | some ws => exact hinv'.fwd_entry_nodup id ws hf
  · intro w hw
    refine ⟨hfind w hw, ?_⟩
    have h2 := (AddDocumentFl_tf fl s hinv id text status ratings hok w).2
    rw [tfForward_eq_find, hfind w hw] at h2
    unfold tfInverted at h2
    cases hf : StdMap.find (AddDocumentFl fl s id text status ratings).1.word_to_document_freqs_
        w with
    | none =>
      rw [hf] at h2
      exact Option.noConfusion h2
    | some docs =>
      rw [hf] at h2
      exact ⟨docs, rfl, h2⟩
  · intro hfl w hw
    rw [hfind w hw, addTimes_exact fl hfl, hfl, hfl, zero_add, mul_one_div]

/-- C8, witness: the document "big dog big" added to an empty server in the arithmetic of
`double`, where `big` is mapped to `6004799503160661 / 2^53` (two additions of the rounded
`1.0 / 3`) and `dog` to `6004799503160661 / 2^54`; and the same document added in exact
arithmetic to the server holding "cat in the city", where `big` is mapped to 2/3. -/
theorem C8_AddDocument_term_frequencies_rounded_witness :
    (ReachableFl roundBinary64 (emptyServer ℚ) ∧
      (AddDocumentFl roundBinary64 (emptyServer ℚ) 7 "big dog big".toList .ACTUAL [5]).2 =
        .ok () ∧
      GetWordFrequencies
          (AddDocumentFl roundBinary64 (emptyServer ℚ) 7 "big dog big".toList .ACTUAL [5]).1 7 =
        [("big".toList, 6004799503160661 / 9007199254740992),
         ("dog".toList, 6004799503160661 / 18014398509481984)] ∧
      (∀ w ∈ (SplitIntoWords "big dog big".toList).filter
          (fun w => !IsStopWord (emptyServer ℚ) w),
        StdMap.find (GetWordFrequencies (AddDocumentFl roundBinary64 (emptyServer ℚ) 7
            "big dog big".toList .ACTUAL [5]).1 7) w =
          some (addTimes roundBinary64
            (roundBinary64 (1 / roundBinary64
              ((((SplitIntoWords "big dog big".toList).filter
                (fun w => !IsStopWord (emptyServer ℚ) w)).length : Nat) : ℚ)))
            (((SplitIntoWords "big dog big".toList).filter
              (fun w => !IsStopWord (emptyServer ℚ) w)).count w) 0) ∧
        ∃ docs, StdMap.find (AddDocumentFl roundBinary64 (emptyServer ℚ) 7
            "big dog big".toList .ACTUAL [5]).1.word_to_document_freqs_ w = some docs ∧
          StdMap.find docs 7 =
            some (addTimes roundBinary64
              (roundBinary64 (1 / roundBinary64
                ((((SplitIntoWords "big dog big".toList).filter
                  (fun w => !IsStopWord (emptyServer ℚ) w)).length : Nat) : ℚ)))
              (((SplitIntoWords "big dog big".toList).filter
                (fun w => !IsStopWord (emptyServer ℚ) w)).count w) 0))) ∧
    (ReachableFl (fun x => x) (catServer ℚ) ∧
      (AddDocumentFl (fun x => x) (catServer ℚ) 7 "big dog big".toList .ACTUAL [5]).2 =
        .ok () ∧
      ∀ w ∈ (SplitIntoWords "big dog big".toList).filter
          (fun w => !IsStopWord (catServer ℚ) w),
        StdMap.find (GetWordFrequencies (AddDocumentFl (fun x => x) (catServer ℚ) 7
            "big dog big".toList .ACTUAL [5]).1 7) w =
          some ((((SplitIntoWords "big dog big".toList).filter
              (fun w => !IsStopWord (catServer ℚ) w)).count w : ℚ) /
            ((((SplitIntoWords "big dog big".toList).filter
              (fun w => !IsStopWord (catServer ℚ) w)).length : Nat) : ℚ))) :=
  ⟨⟨reachableFl_emptyServer roundBinary64, addDocumentFl_big_dog, by decide!,
      (C8_AddDocument_term_frequencies_rounded roundBinary64 (emptyServer ℚ)
        (reachableFl_emptyServer roundBinary64) 7 "big dog big".toList .ACTUAL [5]
        addDocumentFl_big_dog).2.2.1⟩,
    ⟨(reachable_catServer ℚ).rounded, addDocumentFl_big_dog_exact,
      (C8_AddDocument_term_frequencies_rounded (fun x => x) (catServer ℚ)
        (reachable_catServer ℚ).rounded 7 "big dog big".toList .ACTUAL [5]
        addDocumentFl_big_dog_exact).2.2.2 (fun _ => rfl)⟩⟩

end SearchServer

/-! ## `ComputeAverageRating` -/

theorem wrapInt32_of_range (x : Int) (h1 : -2147483648 ≤ x) (h2 : x < 2147483648) :
    wrapInt32 x = x := by
  unfold wrapInt32
  omega

theorem wrapInt32_add_wrapInt32 (x y : Int) : wrapInt32 (wrapInt32 x + y) = wrapInt32 (x + y) := by
  unfold wrapInt32
  omega

theorem foldl_wrapInt32 (ratings : List Int) (acc : Int) :
    ratings.foldl (fun rating_sum rating => wrapInt32 (rating_sum + rating)) (wrapInt32 acc) =
      wrapInt32 (acc + ratings.sum) := by
  induction ratings generalizing acc with
  | nil => simp
  | cons x t ih =>
    rw [List.foldl_cons, wrapInt32_add_wrapInt32, ih, List.sum_cons, add_assoc]

theorem tdiv_range (a b : Int) (hb : 0 < b) (h1 : -2147483648 ≤ a) (h2 : a < 2147483648) :
    -2147483648 ≤ Int.tdiv a b ∧ Int.tdiv a b < 2147483648 := by
  rcases le_or_lt 0 a with ha | ha
  · rw [Int.tdiv_eq_ediv ha (le_of_lt hb)]
    have h3 := Int.ediv_le_self b ha
    have h4 := Int.ediv_nonneg ha (le_of_lt hb)
    omega
  · have hna : 0 ≤ -a := by omega
    have e : Int.tdiv a b = -(Int.tdiv (-a) b) := by
      rw [Int.neg_tdiv, neg_neg]
    rw [e, Int.tdiv_eq_ediv hna (le_of_lt hb)]
    have h3 := Int.ediv_le_self b hna
    have h4 := Int.ediv_nonneg hna (le_of_lt hb)
    omega

namespace SearchServer

variable {α : Type} [LinearOrderedField α]

theorem ComputeAverageRating_of_range (ratings : List Int) (hne : ratings ≠ [])
    (hlen : (ratings.length : Int) < 2147483648)
    (h1 : -2147483648 ≤ ratings.sum) (h2 : ratings.sum < 2147483648) :
    ComputeAverageRating ratings = Int.tdiv ratings.sum (ratings.length : Int) := by
  unfold ComputeAverageRating
  have hemp : ratings.isEmpty = false := by
    cases ratings with
    | nil => exact absurd rfl hne
    | cons x t => rfl
  have hpos : (0 : Int) < (ratings.length : Int) := by
    cases ratings with
    | nil => exact absurd rfl hne
    | cons x t => simp only [List.length_cons]; omega
  have hfold := foldl_wrapInt32 ratings 0
  have h0 : wrapInt32 0 = 0 := by decide
  rw [h0, zero_add, wrapInt32_of_range _ h1 h2] at hfold
  simp only [hemp, Bool.false_eq_true, if_false]
  rw [hfold, wrapInt32_of_range _ (by omega) hlen]
  obtain ⟨h3, h4⟩ := tdiv_range ratings.sum ratings.length hpos h1 h2
  exact wrapInt32_of_range _ h3 h4

/-- The metadata stored by a successful `AddDocument`. -/
theorem AddDocument_metadata (s : SearchServer α) (id : Int) (text : StringView)
    (status : DocumentStatus) (ratings : List Int)
    (hok : (AddDocument s id text status ratings).2 = .ok ()) :
    StdMap.find (AddDocument s id text status ratings).1.documents_ id =
      some ⟨ComputeAverageRating ratings, status⟩ := by
  obtain ⟨-, hfind, words, -, hst⟩ := AddDocument_ok s id text status ratings hok
  rw [hst]
  simp only [StdMap.emplace, StdMap.find_update, if_true, hfind, Option.getD_none, id_eq]

/-- C9, counterexample: for the ratings `{2147483647, 1}` the computed rating is
`-1073741824`, while the integer mean of the ratings is `1073741824`. -/
theorem C9_average_rating_counterexample :
    ComputeAverageRating [2147483647, 1] = -1073741824 ∧
    Int.tdiv ([2147483647, 1] : List Int).sum 2 = 1073741824 := by
  decide

theorem addDocument_rated :
    (AddDocument (catServer ℚ) 7 "big dog big".toList .ACTUAL [-1, -2]).2 = .ok () := by
  rw [AddDocument_result]
  rfl

/-- C9, amended: the rating stored by a successful `AddDocument` is 0 when the rating list
is empty; when the list is not empty, has fewer than `2^31` entries and the sum of the
ratings lies in the range of `int`, it is the sum of the ratings divided by their count,
truncated toward zero (so `{1, 3, 2}` gives 2 and `{-1, -2}` gives -1). -/
theorem C9_average_rating_in_int_range (s : SearchServer α) (id : Int) (text : StringView)
    (status : DocumentStatus) (ratings : List Int)
    (hok : (AddDocument s id text status ratings).2 = .ok ())
    (hlen : (ratings.length : Int) < 2147483648)
    (h1 : -2147483648 ≤ ratings.sum) (h2 : ratings.sum < 2147483648) :
    (∃ data, StdMap.find (AddDocument s id text status ratings).1.documents_ id = some data ∧
      data.rating = (if ratings = [] then 0 else Int.tdiv ratings.sum (ratings.length : Int))) ∧
    ComputeAverageRating [1, 3, 2] = 2 ∧ ComputeAverageRating [-1, -2] = -1 ∧
    ComputeAverageRating [] = 0 := by
  refine ⟨⟨_, AddDocument_metadata s id text status ratings hok, ?_⟩, by decide, by decide,
    by decide⟩
  by_cases hne : ratings = []
  · subst hne
    rfl
  · rw [if_neg hne]
    exact ComputeAverageRating_of_range ratings hne hlen h1 h2

/-- C9, witness: the document "big dog big" with the ratings `{-1, -2}`. -/
theorem C9_average_rating_in_int_range_witness :
    (AddDocument (catServer ℚ) 7 "big dog big".toList .ACTUAL [-1, -2]).2 = .ok () ∧
    (([-1, -2] : List Int).length : Int) < 2147483648 ∧
    -2147483648 ≤ ([-1, -2] : List Int).sum ∧ ([-1, -2] : List Int).sum < 2147483648 ∧
    (∃ data, StdMap.find
        (AddDocument (catServer ℚ) 7 "big dog big".toList .ACTUAL [-1, -2]).1.documents_ 7 =
          some data ∧
      data.rating = (if ([-1, -2] : List Int) = [] then 0
        else Int.tdiv ([-1, -2] : List Int).sum (([-1, -2] : List Int).length : Int))) ∧
    ComputeAverageRating [1, 3, 2] = 2 ∧ ComputeAverageRating [-1, -2] = -1 ∧
    ComputeAverageRating [] = 0 :=
  ⟨addDocument_rated, by decide, by decide, by decide,
    C9_average_rating_in_int_range (catServer ℚ) 7 "big dog big".toList .ACTUAL [-1, -2]
      addDocument_rated (by decide) (by decide) (by decide)⟩

/-! ## `RemoveDocument`: failure -/

/-- C10: `RemoveDocument(id)` fails if and only if `id` is not present in the index, and
when it fails the whole state of the server is unchanged. -/
theorem C10_RemoveDocument_fails_iff (s : SearchServer α) (id : Int) :
    ((∃ e, (RemoveDocument s id).2 = .error e) ↔ id ∉ documentIds s) ∧
    (id ∉ documentIds s → (RemoveDocument s id).1 = s) := by
  refine ⟨⟨?_, ?_⟩, ?_⟩
  · rintro ⟨e, he⟩ hmem
    rw [(RemoveDocument_ok s id hmem).1] at he
    exact Except.noConfusion he
  · intro h
    exact ⟨.invalid_argument, by rw [RemoveDocument_error s id h]⟩
  · intro h
    rw [RemoveDocument_error s id h]

end SearchServer

namespace SearchServer

variable {α : Type} [LinearOrderedField α]

/-! ## `RemoveDocument`: success -/

theorem erase_erase {K V : Type} [LinearOrder K] (m : StdMap K V) (k : K) :
    StdMap.erase (StdMap.erase m k) k = StdMap.erase m k := by
  unfold StdMap.erase
  rw [List.filter_filter]
  simp

/-- The inverted entries after the loop of `RemoveDocument`. -/
theorem find_inverted_remove_foldl (id : Int) (dw : List (StringView × α))
    (inverted : StdMap StringView (StdMap Int α)) (w : StringView) :
    StdMap.find (dw.foldl (fun inverted word =>
        StdMap.update inverted word.1 [] (fun docs => StdMap.erase docs id)) inverted) w =
      if w ∈ StdMap.keys dw then some (StdMap.erase ((StdMap.find inverted w).getD []) id)
      else StdMap.find inverted w := by
  induction dw generalizing inverted with
  | nil => simp [StdMap.keys]
  | cons p t ih =>
    rw [List.foldl_cons, ih]
    simp only [StdMap.find_update, StdMap.keys, List.map_cons, List.mem_cons]
    by_cases hw : w = p.1
    · subst hw
      by_cases ht : p.1 ∈ List.map Prod.fst t
      · simp [ht, erase_erase]
      · simp [ht]
    · by_cases ht : w ∈ List.map Prod.fst t
      · simp [ht, hw]
      · simp [ht, hw]

theorem RemoveDocument_inverted (s : SearchServer α) (hinv : Inv s) (id : Int)
    (h : id ∈ s.document_ids_) (w : StringView) :
    StdMap.find (RemoveDocument s id).1.word_to_document_freqs_ w =
      (StdMap.find s.word_to_document_freqs_ w).map (fun docs => StdMap.erase docs id) := by
  have hstate : (RemoveDocument s id).1.word_to_document_freqs_ =
      (GetWordFrequencies s id).foldl (fun inverted word =>
        StdMap.update inverted word.1 [] (fun docs => StdMap.erase docs id))
        s.word_to_document_freqs_ := by
    unfold RemoveDocument GetWordFrequencies
    simp only [h, not_true_eq_false, if_false, StdMap.find_update, if_true]
    cases StdMap.find s.document_to_word_freqs_ id <;> rfl
  rw [hstate, find_inverted_remove_foldl]
  have hm := hinv.mirror w id
  rw [tfForward_eq_find] at hm
  by_cases hw : w ∈ StdMap.keys (GetWordFrequencies s id)
  · rw [if_pos hw]
    have hsome := (StdMap.find_isSome_iff _ _).2 hw
    rw [← hm] at hsome
    unfold tfInverted at hsome
    cases hf : StdMap.find s.word_to_document_freqs_ w with
    | none => simp [hf] at hsome
    | some docs => rfl
  · rw [if_neg hw]
    have hnone := (StdMap.find_eq_none_iff _ _).2 hw
    rw [← hm] at hnone
    unfold tfInverted at hnone
    cases hf : StdMap.find s.word_to_document_freqs_ w with
    | none => rfl
    | some docs =>
      rw [hf] at hnone
      simp only [Option.some_bind] at hnone
      simp only [Option.map_some', Option.some.injEq]
      exact (StdMap.erase_of_not_mem docs id ((StdMap.find_eq_none_iff _ _).1 hnone)).symm

/-- C11: in every reachable index state that contains `id`, `RemoveDocument(id)` succeeds,
and afterwards `GetWordFrequencies(id)` is empty, the id sequence does not contain `id`
and keeps every other id, `GetDocumentCount` has decreased by one, no inverted entry of any
term references `id`, every inverted entry is the former one with `id` erased, and the
inverted and forward term frequencies of every other document are unchanged. -/
theorem C11_RemoveDocument_removes (s : SearchServer α) (hs : Reachable s) (id : Int)
    (hid : id ∈ documentIds s) :
    (RemoveDocument s id).2 = .ok () ∧
    GetWordFrequencies (RemoveDocument s id).1 id = [] ∧
    id ∉ documentIds (RemoveDocument s id).1 ∧
    (∀ d, d ≠ id → (d ∈ documentIds (RemoveDocument s id).1 ↔ d ∈ documentIds s)) ∧
    GetDocumentCount (RemoveDocument s id).1 + 1 = GetDocumentCount s ∧
    (∀ w docs, StdMap.find (RemoveDocument s id).1.word_to_document_freqs_ w = some docs →
      id ∉ StdMap.keys docs) ∧
    (∀ w, StdMap.find (RemoveDocument s id).1.word_to_document_freqs_ w =
      (StdMap.find s.word_to_document_freqs_ w).map (fun docs => StdMap.erase docs id)) ∧
    (∀ w d, d ≠ id → tfInverted (RemoveDocument s id).1 w d = tfInverted s w d) ∧
    (∀ d, d ≠ id →
      GetWordFrequencies (RemoveDocument s id).1 d = GetWordFrequencies s d) := by
  have hinv := hs.inv
  obtain ⟨hok, -, -, hdocs, hids, hfwd, htf⟩ := RemoveDocument_ok s id hid
  have hinvd := RemoveDocument_inverted s hinv id hid
  refine ⟨hok, ?_, ?_, ?_, ?_, ?_, hinvd, ?_, ?_⟩
  · unfold GetWordFrequencies
    rw [hfwd id, if_pos rfl]
  · unfold documentIds
    rw [hids, StdSet.mem_erase]
    exact fun h => h.1 rfl
  · intro d hd
    unfold documentIds
    rw [hids, StdSet.mem_erase]
    exact ⟨fun h => h.2, fun h => ⟨hd, h⟩⟩
  · unfold GetDocumentCount
    rw [hdocs]
    exact StdMap.length_erase _ _ hinv.docs_nodup ((hinv.ids_docs id).1 hid)
  · intro w docs hdocs'
    rw [hinvd w] at hdocs'
    cases hf : StdMap.find s.word_to_document_freqs_ w with
    | none =>
      rw [hf] at hdocs'
      exact Option.noConfusion hdocs'
    | some docs₀ =>
      rw [hf] at hdocs'
      simp only [Option.map_some', Option.some.injEq] at hdocs'
      rw [← hdocs', StdMap.mem_keys_erase]
      exact fun h => h.1 rfl
  · intro w d hd
    rw [htf w d, if_neg (fun h => hd h.1)]
  · intro d hd
    unfold GetWordFrequencies
    rw [hfwd d, if_neg hd]

/-- C11, witness: the removal of the document 42 from the server that holds it. -/
theorem C11_RemoveDocument_removes_witness :
    (42 : Int) ∈ documentIds (catServer ℚ) ∧
    (RemoveDocument (catServer ℚ) 42).2 = .ok () ∧
    GetWordFrequencies (RemoveDocument (catServer ℚ) 42).1 42 = [] ∧
    (42 : Int) ∉ documentIds (RemoveDocument (catServer ℚ) 42).1 ∧
    (∀ d, d ≠ 42 → (d ∈ documentIds (RemoveDocument (catServer ℚ) 42).1 ↔
      d ∈ documentIds (catServer ℚ))) ∧
    GetDocumentCount (RemoveDocument (catServer ℚ) 42).1 + 1 = GetDocumentCount (catServer ℚ) ∧
    (∀ w docs, StdMap.find (RemoveDocument (catServer ℚ) 42).1.word_to_document_freqs_ w =
      some docs → (42 : Int) ∉ StdMap.keys docs) ∧
    (∀ w, StdMap.find (RemoveDocument (catServer ℚ) 42).1.word_to_document_freqs_ w =
      (StdMap.find (catServer ℚ).word_to_document_freqs_ w).map
        (fun docs => StdMap.erase docs 42)) ∧
    (∀ w d, d ≠ 42 → tfInverted (RemoveDocument (catServer ℚ) 42).1 w d =
      tfInverted (catServer ℚ) w d) ∧
    (∀ d, d ≠ 42 →
      GetWordFrequencies (RemoveDocument (catServer ℚ) 42).1 d =
        GetWordFrequencies (catServer ℚ) d) :=
  ⟨by decide, C11_RemoveDocument_removes (catServer ℚ) (reachable_catServer ℚ) 42 (by decide)⟩

end SearchServer

/-! ## Key order of the containers -/

namespace StdMap

variable {K V : Type} [LinearOrder K]

theorem mem_keys_insertSorted (k : K) (v : V) (m : StdMap K V) (x : K) :
    x ∈ keys (insertSorted k v m) ↔ x = k ∨ x ∈ keys m := by
  have h := (insertSorted_perm k v m).map Prod.fst
  unfold keys
  rw [h.mem_iff]
  simp

theorem sorted_insertSorted (k : K) (v : V) (m : StdMap K V) (hm : (keys m).Sorted (· < ·))
    (hk : k ∉ keys m) : (keys (insertSorted k v m)).Sorted (· < ·) := by
  induction m with
  | nil => simp [insertSorted, keys]
  | cons p t ih =>
    obtain ⟨k', v'⟩ := p
    have hm' : (k' :: keys t).Sorted (· < ·) := hm
    rw [List.sorted_cons] at hm'
    have hne : k ≠ k' := fun h => hk (by simp [keys, h])
    have hkt : k ∉ keys t := fun h => hk (by
      simp only [keys, List.map_cons, List.mem_cons]
      exact Or.inr h)
    unfold insertSorted
    by_cases hlt : k < k'
    · rw [if_pos hlt]
      show (k :: k' :: keys t).Sorted (· < ·)
      refine List.sorted_cons.2 ⟨?_, hm⟩
      intro x hx
      rcases List.mem_cons.1 hx with rfl | hx
      · exact hlt
      · exact lt_trans hlt (hm'.1 x hx)
    · rw [if_neg hlt]
      show (k' :: keys (insertSorted k v t)).Sorted (· < ·)
      refine List.sorted_cons.2 ⟨?_, ih hm'.2 hkt⟩
      intro x hx
      rcases (mem_keys_insertSorted k v t x).1 hx with rfl | hx
      · exact lt_of_le_of_ne (not_lt.1 hlt) (Ne.symm hne)
      · exact hm'.1 x hx

theorem sorted_update (m : StdMap K V) (k : K) (d : V) (f : V → V)
    (hm : (keys m).Sorted (· < ·)) : (keys (update m k d f)).Sorted (· < ·) := by
  unfold update
  cases h : find m k with
  | some v =>
    show (keys (mapAt k f m)).Sorted (· < ·)
    rw [keys_mapAt]
    exact hm
  | none => exact sorted_insertSorted k (f d) m hm ((find_eq_none_iff m k).1 h)

theorem sorted_erase (m : StdMap K V) (k : K) (hm : (keys m).Sorted (· < ·)) :
    (keys (erase m k)).Sorted (· < ·) := by
  have hs : (keys (erase m k)).Sublist (keys m) := by
    unfold keys erase
    exact (List.filter_sublist m).map Prod.fst
  exact hm.sublist hs

theorem nodup_of_sorted (m : StdMap K V) (hm : (keys m).Sorted (· < ·)) : (keys m).Nodup :=
  hm.imp (fun h => ne_of_lt h)

end StdMap

namespace StdSet

variable {K : Type} [LinearOrder K]

theorem set_mem_insertSorted (k : K) (s : StdSet K) (x : K) :
    x ∈ insertSorted k s ↔ x = k ∨ x ∈ s := by
  rw [(set_insertSorted_perm k s).mem_iff]
  simp

theorem set_sorted_insertSorted (k : K) (s : StdSet K) (hs : s.Sorted (· < ·)) (hk : k ∉ s) :
    (insertSorted k s).Sorted (· < ·) := by
  induction s with
  | nil => simp [insertSorted]
  | cons k' t ih =>
    rw [List.sorted_cons] at hs
    have hne : k ≠ k' := fun h => hk (by simp [h])
    have hkt : k ∉ t := fun h => hk (List.mem_cons_of_mem _ h)
    unfold insertSorted
    by_cases hlt : k < k'
    · rw [if_pos hlt]
      refine List.sorted_cons.2 ⟨?_, List.sorted_cons.2 hs⟩
      intro x hx
      rcases List.mem_cons.1 hx with rfl | hx
      · exact hlt
      · exact lt_trans hlt (hs.1 x hx)
    · rw [if_neg hlt]
      refine List.sorted_cons.2 ⟨?_, ih hs.2 hkt⟩
      intro x hx
      rcases (set_mem_insertSorted k t x).1 hx with rfl | hx
      · exact lt_of_le_of_ne (not_lt.1 hlt) (Ne.symm hne)
      · exact hs.1 x hx

theorem sorted_insert (s : StdSet K) (k : K) (hs : s.Sorted (· < ·)) :
    (insert s k).Sorted (· < ·) := by
  unfold insert
  by_cases h : k ∈ s
  · rw [if_pos h]
    exact hs
  · rw [if_neg h]
    exact set_sorted_insertSorted k s hs h

theorem set_sorted_erase (s : StdSet K) (k : K) (hs : s.Sorted (· < ·)) :
    (erase s k).Sorted (· < ·) :=
  hs.sublist (List.filter_sublist s)

end StdSet

/-- Two strictly ascending lists with the same members are equal. -/
theorem sorted_ext {K : Type} [LinearOrder K] (l₁ l₂ : List K) (h₁ : l₁.Sorted (· < ·))
    (h₂ : l₂.Sorted (· < ·)) (h : ∀ x, x ∈ l₁ ↔ x ∈ l₂) : l₁ = l₂ := by
  have hp : l₁.Perm l₂ :=
    (List.perm_ext_iff_of_nodup (h₁.imp (fun h => ne_of_lt h)) (h₂.imp (fun h => ne_of_lt h))).2 h
  exact List.eq_of_perm_of_sorted hp h₁ h₂

/-! ## `MakeUniqueNonEmptyStrings` -/

theorem MakeUniqueNonEmptyStrings.foldl_spec (strings : List StringView) (acc : StdSet StringView)
    (hacc : acc.Sorted (· < ·)) :
    (strings.foldl (fun non_empty_strings str =>
      if str ≠ [] then StdSet.insert non_empty_strings str else non_empty_strings) acc).Sorted
        (· < ·) ∧
    ∀ w, w ∈ strings.foldl (fun non_empty_strings str =>
      if str ≠ [] then StdSet.insert non_empty_strings str else non_empty_strings) acc ↔
      w ∈ acc ∨ (w ∈ strings ∧ w ≠ []) := by
  induction strings generalizing acc with
  | nil => exact ⟨hacc, fun w => by simp⟩
  | cons str t ih =>
    rw [List.foldl_cons]
    by_cases hstr : str ≠ []
    · rw [if_pos hstr]
      obtain ⟨h1, h2⟩ := ih (StdSet.insert acc str) (StdSet.sorted_insert acc str hacc)
      refine ⟨h1, fun w => ?_⟩
      rw [h2 w, StdSet.mem_insert, List.mem_cons]
      constructor
      · rintro (( rfl | h) | ⟨h, hne⟩)
        · exact Or.inr ⟨Or.inl rfl, hstr⟩
        · exact Or.inl h
        · exact Or.inr ⟨Or.inr h, hne⟩
      · rintro (h | ⟨rfl | h, hne⟩)
        · exact Or.inl (Or.inr h)
        · exact Or.inl (Or.inl rfl)
        · exact Or.inr ⟨h, hne⟩
    · rw [if_neg hstr]
      obtain ⟨h1, h2⟩ := ih acc hacc
      refine ⟨h1, fun w => ?_⟩
      rw [h2 w, List.mem_cons]
      have hstr' : str = [] := not_not.1 hstr
      constructor
      · rintro (h | ⟨h, hne⟩)
        · exact Or.inl h
        · exact Or.inr ⟨Or.inr h, hne⟩
      · rintro (h | ⟨rfl | h, hne⟩)
        · exact Or.inl h
        · exact absurd hstr' hne
        · exact Or.inr ⟨h, hne⟩

theorem MakeUniqueNonEmptyStrings.sorted_result (strings : List StringView) :
    (MakeUniqueNonEmptyStrings strings).Sorted (· < ·) :=
  (MakeUniqueNonEmptyStrings.foldl_spec strings [] List.sorted_nil).1

theorem MakeUniqueNonEmptyStrings.mem_result (strings : List StringView) (w : StringView) :
    w ∈ MakeUniqueNonEmptyStrings strings ↔ w ∈ strings ∧ w ≠ [] := by
  unfold MakeUniqueNonEmptyStrings
  rw [(MakeUniqueNonEmptyStrings.foldl_spec strings [] List.sorted_nil).2 w]
  simp

namespace SearchServer

variable {α : Type} [LinearOrderedField α]

/-! ## The constructor -/

theorem all_IsValidWord_iff (l : List StringView) :
    l.all IsValidWord = true ↔ ¬ ∃ w ∈ l, ∃ c ∈ w, c.toNat < 32 := by
  rw [List.all_eq_true]
  constructor
  · rintro h ⟨w, hw, hc⟩
    have h1 := h w hw
    rw [(IsValidWord_eq_false_iff w).2 hc] at h1
    exact Bool.noConfusion h1
  · intro h w hw
    by_contra hv
    rw [Bool.not_eq_true] at hv
    exact h ⟨w, hw, (IsValidWord_eq_false_iff w).1 hv⟩

theorem create_eq (stop_words : List StringView) :
    (create stop_words : Except Exception (SearchServer α)) =
      if ∃ w ∈ stop_words, w ≠ [] ∧ ∃ c ∈ w, c.toNat < 32 then .error .invalid_argument
      else .ok ⟨MakeUniqueNonEmptyStrings stop_words, [], [], [], [], []⟩ := by
  have hiff : (MakeUniqueNonEmptyStrings stop_words).all IsValidWord = true ↔
      ¬ ∃ w ∈ stop_words, w ≠ [] ∧ ∃ c ∈ w, c.toNat < 32 := by
    rw [all_IsValidWord_iff]
    constructor
    · rintro h ⟨w, hw, hne, hc⟩
      exact h ⟨w, (MakeUniqueNonEmptyStrings.mem_result stop_words w).2 ⟨hw, hne⟩, hc⟩
    · rintro h ⟨w, hw, hc⟩
      obtain ⟨h1, h2⟩ := (MakeUniqueNonEmptyStrings.mem_result stop_words w).1 hw
      exact h ⟨w, h1, h2, hc⟩
  unfold create
  by_cases hb : ∃ w ∈ stop_words, w ≠ [] ∧ ∃ c ∈ w, c.toNat < 32
  · rw [if_pos hb, if_pos (fun h => (hiff.1 h) hb)]
  · rw [if_neg hb, if_neg (not_not.2 (hiff.2 hb))]

/-- C18: the construction of the engine from a container of stop words fails if and only if
some supplied non-empty string contains a character with code below the space character;
when it succeeds, the stop-word set of the engine holds exactly the non-empty supplied
strings, each once (in ascending order), so every member is non-empty and free of control
characters, and the index is empty. -/
theorem C18_constructor_stop_words (stop_words : List StringView) :
    ((∃ e, (create stop_words : Except Exception (SearchServer α)) = .error e) ↔
      ∃ w ∈ stop_words, w ≠ [] ∧ ∃ c ∈ w, c.toNat < 32) ∧
    ((¬ ∃ w ∈ stop_words, w ≠ [] ∧ ∃ c ∈ w, c.toNat < 32) ↔
      ∃ s : SearchServer α, create stop_words = .ok s ∧
        (∀ w, w ∈ s.stop_words_ ↔ (w ∈ stop_words ∧ w ≠ [])) ∧
        s.stop_words_.Nodup ∧ s.stop_words_.Sorted (· < ·) ∧
        (∀ w ∈ s.stop_words_, w ≠ [] ∧ ∀ c ∈ w, 32 ≤ c.toNat) ∧
        documentIds s = [] ∧ GetDocumentCount s = 0) := by
  rw [create_eq]
  by_cases hb : ∃ w ∈ stop_words, w ≠ [] ∧ ∃ c ∈ w, c.toNat < 32
  · rw [if_pos hb]
    refine ⟨⟨fun _ => hb, fun _ => ⟨_, rfl⟩⟩, ⟨fun h => absurd hb h, ?_⟩⟩
    rintro ⟨s, hs, -⟩
    exact Except.noConfusion hs
  · rw [if_neg hb]
    refine ⟨⟨?_, fun h => absurd h hb⟩, ⟨fun _ => ?_, fun _ => hb⟩⟩
    · rintro ⟨e, he⟩
      exact Except.noConfusion he
    · refine ⟨_, rfl, MakeUniqueNonEmptyStrings.mem_result stop_words, ?_,
        MakeUniqueNonEmptyStrings.sorted_result stop_words, ?_, rfl, rfl⟩
      · exact (MakeUniqueNonEmptyStrings.sorted_result stop_words).imp (fun h => ne_of_lt h)
      · intro w hw
        obtain ⟨h1, h2⟩ := (MakeUniqueNonEmptyStrings.mem_result stop_words w).1 hw
        refine ⟨h2, fun c hc => ?_⟩
        by_contra hlt
        exact hb ⟨w, h1, h2, c, hc, not_le.1 hlt⟩

end SearchServer

/-! ## `SplitIntoWords` returns the maximal runs of non-space characters -/

theorem SplitIntoWords.foldl_runs (text : StringView) (rest pre : List Char) (st : SplitState)
    (htext : text = pre ++ rest) (hi : st.i = pre.length)
    (hb : st.word_begin = true → (pre = [] ∨ pre.getLast? = some ' '))
    (hw : st.word_begin = false →
      ∃ pre0 cur, pre = pre0 ++ cur ∧ pre0.length = st.offset ∧ cur ≠ [] ∧
        (∀ c ∈ cur, c ≠ ' ')) :
    (if text ≠ [] ∧ text.getLast? ≠ some ' ' then
      (rest.foldl (SplitIntoWords.step text) st).words ++
        [substr text (rest.foldl (SplitIntoWords.step text) st).offset
          ((rest.foldl (SplitIntoWords.step text) st).i -
            (rest.foldl (SplitIntoWords.step text) st).offset)]
    else (rest.foldl (SplitIntoWords.step text) st).words) =
    st.words ++ nonSpaceRuns
      (if st.word_begin = true then [] else pre.drop st.offset) rest := by
  induction rest generalizing pre st with
  | nil =>
    simp only [List.append_nil] at htext
    subst htext
    simp only [List.foldl_nil]
    cases hwb : st.word_begin with
    | true =>
      have h := hb hwb
      have hc : ¬ (text ≠ [] ∧ text.getLast? ≠ some ' ') := by
        rintro ⟨h1, h2⟩
        rcases h with h | h
        · exact h1 h
        · exact h2 h
      rw [if_neg hc]
      simp [nonSpaceRuns]
    | false =>
      obtain ⟨pre0, cur, h1, h2, h3, h4⟩ := hw hwb
      have hlast : text.getLast? = cur.getLast? := by
        rw [h1, List.getLast?_append_of_ne_nil _ h3]
      have hc : text ≠ [] ∧ text.getLast? ≠ some ' ' := by
        refine ⟨by rw [h1]; simp [h3], ?_⟩
        rw [hlast]
        intro h
        exact h4 ' ' (List.mem_of_getLast?_eq_some h) rfl
      rw [if_pos hc]
      have hseg : substr text st.offset (st.i - st.offset) = cur := by
        have := substr_segment pre0 cur []
        rw [List.append_nil] at this
        rw [h1, ← h2, hi, h1]
        exact this
      have hdrop : List.drop st.offset text = cur := by
        rw [h1, ← h2, List.drop_left]
      rw [hseg]
      simp [nonSpaceRuns, hdrop, h3]
  | cons x rest ih =>
    rw [List.foldl_cons]
    have htext' : text = (pre ++ [x]) ++ rest := by simp [htext]
    have hstep := ih (pre ++ [x]) (SplitIntoWords.step text st x) htext'
    cases hwb : st.word_begin with
    | true =>
      by_cases hx : x = ' '
      · have hs : SplitIntoWords.step text st x = { st with i := st.i + 1 } := by
          unfold SplitIntoWords.step
          simp [hx, hwb]
        rw [hs] at hstep ⊢
        rw [hstep (by simp [hi]) (fun _ => Or.inr (by simp [hx]))
          (fun h => by simp [hwb] at h)]
        simp [hwb, nonSpaceRuns, hx]
      · have hs : SplitIntoWords.step text st x =
            { st with offset := st.i, word_begin := false, i := st.i + 1 } := by
          unfold SplitIntoWords.step
          simp [hx, hwb]
        rw [hs] at hstep ⊢
        rw [hstep (by simp [hi]) (fun h => by simp at h)
          (fun _ => ⟨pre, [x], rfl, hi.symm, by simp, by simpa using hx⟩)]
        simp [nonSpaceRuns, hx, hi]
    | false =>
      obtain ⟨pre0, cur, h1, h2, h3, h4⟩ := hw hwb
      have hdrop : List.drop st.offset pre = cur := by
        rw [h1, ← h2, List.drop_left]
      by_cases hx : x = ' '
      · have hs : SplitIntoWords.step text st x =
            { st with words := st.words ++ [substr text st.offset (st.i - st.offset)],
                      word_begin := true, i := st.i + 1 } := by
          unfold SplitIntoWords.step
          simp [hx, hwb]
        have hseg : substr text st.offset (st.i - st.offset) = cur := by
          have := substr_segment pre0 cur (x :: rest)
          rw [htext, ← h2, hi, h1]
          exact this
        rw [hs] at hstep ⊢
        rw [hstep (by simp [hi]) (fun _ => Or.inr (by simp [hx])) (fun h => by simp at h)]
        simp [nonSpaceRuns, hx, hdrop, h3, hseg]
      · have hs : SplitIntoWords.step text st x = { st with i := st.i + 1 } := by
          unfold SplitIntoWords.step
          simp [hx, hwb]
        rw [hs] at hstep ⊢
        rw [hstep (by simp [hi]) (fun h => by simp [hwb] at h)
          (fun _ => ⟨pre0, cur ++ [x], by simp [h1], h2, by simp, by
            intro c hc
            rcases List.mem_append.1 hc with hc | hc
            · exact h4 c hc
            · rw [List.mem_singleton] at hc
              rw [hc]
              exact hx⟩)]
        have hdrop' : List.drop st.offset (pre ++ [x]) = cur ++ [x] := by
          rw [h1, ← h2, List.append_assoc, List.drop_left]
        simp [nonSpaceRuns, hx, hwb, hdrop, hdrop']

theorem SplitIntoWords_eq_nonSpaceRuns (text : StringView) :
    SplitIntoWords text = nonSpaceRuns [] text := by
  have h := SplitIntoWords.foldl_runs text text [] ⟨[], 0, 0, true⟩ rfl rfl
    (fun _ => Or.inl rfl) (fun h => by simp at h)
  unfold SplitIntoWords
  simpa using h

theorem IsSplit.cons_space {text : List Char} {ws : List (List Char)} (h : IsSplit text ws) :
    IsSplit (' ' :: text) ws := by
  cases h with
  | nil s hs =>
    refine IsSplit.nil _ ?_
    intro c hc
    rcases List.mem_cons.1 hc with rfl | hc
    · rfl
    · exact hs c hc
  | cons s w rest ws hs hne hw hrest h =>
    have := IsSplit.cons (' ' :: s) w rest ws (by
      intro c hc
      rcases List.mem_cons.1 hc with rfl | hc
      · rfl
      · exact hs c hc) hne hw hrest h
    simpa using this

theorem nonSpaceRuns_spec (text : List Char) :
    ∀ cur : List Char, (∀ c ∈ cur, c ≠ ' ') →
      (cur = [] → IsSplit text (nonSpaceRuns [] text)) ∧
      (cur ≠ [] → ∃ w rest, text = w ++ rest ∧ (∀ c ∈ w, c ≠ ' ') ∧
        (rest = [] ∨ rest.head? = some ' ') ∧
        nonSpaceRuns cur text = (cur ++ w) :: nonSpaceRuns [] rest ∧
        IsSplit rest (nonSpaceRuns [] rest)) := by
  induction text with
  | nil =>
    intro cur _
    refine ⟨fun _ => ?_, fun hne => ?_⟩
    · exact IsSplit.nil [] (by simp)
    · refine ⟨[], [], rfl, by simp, Or.inl rfl, ?_, IsSplit.nil [] (by simp)⟩
      simp [nonSpaceRuns, hne]
  | cons x t ih =>
    intro cur hcur
    by_cases hx : x = ' '
    · subst hx
      have h0 : IsSplit (' ' :: t) (nonSpaceRuns [] (' ' :: t)) := by
        have := ((ih [] (by simp)).1 rfl).cons_space
        simpa [nonSpaceRuns] using this
      refine ⟨fun _ => h0, fun hne => ?_⟩
      refine ⟨[], ' ' :: t, rfl, by simp, Or.inr rfl, ?_, h0⟩
      simp [nonSpaceRuns, hne]
    · have hsingle : ∀ c ∈ [x], c ≠ ' ' := by
        intro c hc
        rw [List.mem_singleton] at hc
        rw [hc]
        exact hx
      refine ⟨fun _ => ?_, fun hne => ?_⟩
      · obtain ⟨w, rest, h1, h2, h3, h4, h5⟩ := (ih [x] hsingle).2 (by simp)
        have h6 : nonSpaceRuns [] (x :: t) = (x :: w) :: nonSpaceRuns [] rest := by
          simpa [nonSpaceRuns, hx] using h4
        rw [h6]
        have := IsSplit.cons [] (x :: w) rest (nonSpaceRuns [] rest) (by simp) (by simp)
          (by
            intro c hc
            rcases List.mem_cons.1 hc with rfl | hc
            · exact hx
            · exact h2 c hc) h3 h5
        simpa [h1] using this
      · have hcur' : ∀ c ∈ cur ++ [x], c ≠ ' ' := by
          intro c hc
          rcases List.mem_append.1 hc with hc | hc
          · exact hcur c hc
          · exact hsingle c hc
        obtain ⟨w, rest, h1, h2, h3, h4, h5⟩ := (ih (cur ++ [x]) hcur').2 (by simp)
        refine ⟨x :: w, rest, by simp [h1], ?_, h3, ?_, h5⟩
        · intro c hc
          rcases List.mem_cons.1 hc with rfl | hc
          · exact hx
          · exact h2 c hc
        · simpa [nonSpaceRuns, hx] using h4

theorem SplitIntoWords_isSplit (text : StringView) : IsSplit text (SplitIntoWords text) := by
  rw [SplitIntoWords_eq_nonSpaceRuns]
  exact ((nonSpaceRuns_spec text) [] (by simp)).1 rfl

theorem IsSplit.slices {text : List Char} {ws : List (List Char)} (h : IsSplit text ws) :
    (∀ w ∈ ws, w ≠ [] ∧ ∀ c ∈ w, c ≠ ' ') ∧
    ws.flatten = text.filter (fun c => !decide (c = ' ')) ∧
    (ws = [] ↔ ∀ c ∈ text, c = ' ') := by
  induction h with
  | nil s hs =>
    refine ⟨by simp, ?_, by simpa using hs⟩
    symm
    rw [List.flatten_nil, List.filter_eq_nil_iff]
    intro c hc
    simp [hs c hc]
  | cons s w rest ws hs hne hw hrest h ih =>
    obtain ⟨ih1, ih2, -⟩ := ih
    refine ⟨?_, ?_, ?_⟩
    · intro v hv
      rcases List.mem_cons.1 hv with rfl | hv
      · exact ⟨hne, hw⟩
      · exact ih1 v hv
    · have h1 : s.filter (fun c => !decide (c = ' ')) = [] := by
        rw [List.filter_eq_nil_iff]
        intro c hc
        simp [hs c hc]
      have h2 : w.filter (fun c => !decide (c = ' ')) = w := by
        rw [List.filter_eq_self]
        intro c hc
        simp [hw c hc]
      rw [List.flatten_cons, List.filter_append, List.filter_append, h1, h2, ih2]
      rfl
    · constructor
      · intro h0
        exact List.noConfusion h0
      · intro hall
        obtain ⟨c, hc⟩ := List.exists_mem_of_ne_nil w hne
        exact absurd (hall c (by simp [hc])) (hw c hc)

/-- The runs of a text are determined by the relation `IsSplit`. -/
theorem IsSplit.unique {text : List Char} {ws : List (List Char)} (h : IsSplit text ws) :
    ws = nonSpaceRuns [] text := by
  induction h with
  | nil s hs =>
    induction s with
    | nil => rfl
    | cons c t ih =>
      have hc : c = ' ' := hs c (by simp)
      have := ih (fun c hc => hs c (List.mem_cons_of_mem _ hc))
      simpa [nonSpaceRuns, hc] using this
  | cons s w rest ws hs hne hw hrest h ih =>
    have hrun : ∀ (w cur : List Char), (∀ c ∈ w, c ≠ ' ') → cur ++ w ≠ [] →
        nonSpaceRuns cur (w ++ rest) = (cur ++ w) :: nonSpaceRuns [] rest := by
      intro w
      induction w with
      | nil =>
        intro cur _ hcur
        rw [List.append_nil] at hcur
        rcases hrest with hr | hr
        · subst hr
          simp [nonSpaceRuns, hcur]
        · cases rest with
          | nil => simp [nonSpaceRuns, hcur]
          | cons r rest' =>
            simp only [List.head?_cons, Option.some.injEq] at hr
            subst hr
            simp [nonSpaceRuns, hcur]
      | cons x w ihw =>
        intro cur hw' _
        have hx : x ≠ ' ' := hw' x (by simp)
        have := ihw (cur ++ [x]) (fun c hc => hw' c (List.mem_cons_of_mem _ hc)) (by simp)
        simpa [nonSpaceRuns, hx] using this
    have hspaces : ∀ s : List Char, (∀ c ∈ s, c = ' ') →
        nonSpaceRuns [] (s ++ w ++ rest) = nonSpaceRuns [] (w ++ rest) := by
      intro s
      induction s with
      | nil => intro _; simp
      | cons c t iht =>
        intro hs'
        have hc : c = ' ' := hs' c (by simp)
        have := iht (fun c hc => hs' c (List.mem_cons_of_mem _ hc))
        simpa [nonSpaceRuns, hc] using this
    rw [hspaces s hs, hrun w [] hw (by simpa using hne), ← ih]
    rfl

/-- C16: for every text, `SplitIntoWords` returns, in order of appearance, exactly the
maximal runs of non-space characters of the text (relation `IsSplit`, which determines the
list); every returned slice is non-empty and holds no space, the concatenation of the slices
is the text with all spaces deleted, the result is empty exactly when the text is empty or
consists only of spaces, and `" asd   asd   "` and `"asd asd"` give the same list. -/
theorem C16_SplitIntoWords_maximal_runs (text : StringView) :
    IsSplit text (SplitIntoWords text) ∧
    (∀ ws, IsSplit text ws → ws = SplitIntoWords text) ∧
    (∀ w ∈ SplitIntoWords text, w ≠ [] ∧ ∀ c ∈ w, c ≠ ' ') ∧
    (SplitIntoWords text).flatten = text.filter (fun c => !decide (c = ' ')) ∧
    (SplitIntoWords text = [] ↔ ∀ c ∈ text, c = ' ') ∧
    SplitIntoWords " asd   asd   ".toList = SplitIntoWords "asd asd".toList ∧
    SplitIntoWords "asd asd".toList = ["asd".toList, "asd".toList] := by
  have h := SplitIntoWords_isSplit text
  obtain ⟨h1, h2, h3⟩ := h.slices
  refine ⟨h, ?_, h1, h2, h3, by decide, by decide⟩
  intro ws hws
  rw [hws.unique, SplitIntoWords_eq_nonSpaceRuns]

namespace SearchServer

variable {α : Type} [LinearOrderedField α]

/-! ## `ParseQueryWord` and `ParseQuery` -/

theorem substr_one (text : StringView) : substr text 1 (text.length - 1) = text.tail := by
  unfold substr
  rw [List.drop_one, List.take_of_length_le]
  simp

theorem IsValidWord_eq_true_iff (w : StringView) :
    IsValidWord w = true ↔ ¬ ∃ c ∈ w, c.toNat < 32 := by
  rw [← IsValidWord_eq_false_iff, Bool.not_eq_false]

/-- The result of `ParseQueryWord` on a non-empty token. -/
theorem ParseQueryWord_eq (s : SearchServer α) (t : StringView) (ht : t ≠ []) :
    ParseQueryWord s t =
      if invalidQueryToken t then .error .invalid_argument
      else .ok ⟨if t.head? = some '-' then t.tail else t, decide (t.head? = some '-'),
        IsStopWord s (if t.head? = some '-' then t.tail else t)⟩ := by
  unfold ParseQueryWord
  rw [if_neg ht]
  simp only [substr_one]
  cases t with
  | nil => exact absurd rfl ht
  | cons c r =>
    by_cases hc : c = '-'
    · subst hc
      have hinv : invalidQueryToken ('-' :: r) ↔
          (r = [] ∨ r.head? = some '-' ∨ ¬ IsValidWord r = true) := by
        unfold invalidQueryToken
        rw [IsValidWord_eq_true_iff, not_not]
        cases r with
        | nil => simp
        | cons d r' =>
          simp only [List.cons.injEq, true_and, List.take_succ_cons, List.take_zero,
            List.head?_cons, Option.some.injEq, List.mem_cons, exists_eq_or_imp, and_true,
            false_or, reduceCtorEq]
          have h45 : ¬ ('-' : Char).toNat < 32 := by decide
          simp [h45]
      by_cases hi : invalidQueryToken ('-' :: r)
      · rw [if_pos hi]
        have := hinv.1 hi
        simp only [List.head?_cons, decide_True, if_true, List.tail_cons]
        rw [if_pos this]
      · rw [if_neg hi]
        have := fun h => hi (hinv.2 h)
        simp only [List.head?_cons, decide_True, if_true, List.tail_cons]
        rw [if_neg this]
    · have hh : ¬ ((c :: r).head? = some '-') := by simpa using hc
      have hinv : invalidQueryToken (c :: r) ↔
          (c :: r = [] ∨ (c :: r).head? = some '-' ∨ ¬ IsValidWord (c :: r) = true) := by
        unfold invalidQueryToken
        rw [IsValidWord_eq_true_iff, not_not]
        simp [hc]
      simp only [hh, decide_False, if_false, Bool.false_eq_true]
      by_cases hi : invalidQueryToken (c :: r)
      · rw [if_pos hi, if_pos]
        simpa [hc] using hinv.1 hi
      · rw [if_neg hi, if_neg]
        have := fun h => hi (hinv.2 h)
        simpa [hc] using this

theorem ParseQuery.transform_eq (s : SearchServer α) (ts : List StringView)
    (hts : ∀ t ∈ ts, t ≠ []) :
    ParseQuery.transform s ts =
      if ∃ t ∈ ts, invalidQueryToken t then .error .terminate
      else .ok (ts.map (fun t => ⟨if t.head? = some '-' then t.tail else t,
        decide (t.head? = some '-'),
        IsStopWord s (if t.head? = some '-' then t.tail else t)⟩)) := by
  induction ts with
  | nil => simp [ParseQuery.transform]
  | cons t ts ih =>
    have ih' := ih (fun u hu => hts u (List.mem_cons_of_mem _ hu))
    unfold ParseQuery.transform
    rw [ParseQueryWord_eq s t (hts t (by simp)), ih']
    by_cases h1 : invalidQueryToken t
    · have h3 : ∃ u ∈ t :: ts, invalidQueryToken u := ⟨t, by simp, h1⟩
      rw [if_pos h1, if_pos h3]
    · rw [if_neg h1]
      by_cases h2 : ∃ u ∈ ts, invalidQueryToken u
      · have h3 : ∃ u ∈ t :: ts, invalidQueryToken u := by
          obtain ⟨u, hu, hi⟩ := h2
          exact ⟨u, List.mem_cons_of_mem _ hu, hi⟩
        rw [if_pos h2, if_pos h3]
      · have h3 : ¬ ∃ u ∈ t :: ts, invalidQueryToken u := by
          rintro ⟨u, hu, hi⟩
          rcases List.mem_cons.1 hu with rfl | hu
          · exact h1 hi
          · exact h2 ⟨u, hu, hi⟩
        rw [if_neg h2, if_neg h3]
        rfl

theorem ParseQuery_step_mem_one (q : Query) (qw : QueryWord) (w : StringView) :
    (w ∈ (ParseQuery.step q qw).plus_words ↔
      w ∈ q.plus_words ∨ (qw.is_stop = false ∧ qw.is_minus = false ∧ w = qw.data)) ∧
    (w ∈ (ParseQuery.step q qw).minus_words ↔
      w ∈ q.minus_words ∨ (qw.is_stop = false ∧ qw.is_minus = true ∧ w = qw.data)) := by
  unfold ParseQuery.step
  cases hs : qw.is_stop <;> cases hm : qw.is_minus <;>
    simp [StdSet.mem_insert, or_comm]

theorem ParseQuery_step_mem (qs : List QueryWord) (q : Query) (w : StringView) :
    (w ∈ (qs.foldl ParseQuery.step q).plus_words ↔
      w ∈ q.plus_words ∨
        ∃ qw ∈ qs, qw.is_stop = false ∧ qw.is_minus = false ∧ w = qw.data) ∧
    (w ∈ (qs.foldl ParseQuery.step q).minus_words ↔
      w ∈ q.minus_words ∨
        ∃ qw ∈ qs, qw.is_stop = false ∧ qw.is_minus = true ∧ w = qw.data) := by
  induction qs generalizing q with
  | nil => simp
  | cons qw qs ih =>
    rw [List.foldl_cons]
    obtain ⟨ih1, ih2⟩ := ih (ParseQuery.step q qw)
    obtain ⟨h1, h2⟩ := ParseQuery_step_mem_one q qw w
    rw [ih1, ih2, h1, h2]
    constructor <;> simp only [List.mem_cons, exists_eq_or_imp, or_assoc]

theorem ParseQuery_step_sorted (qs : List QueryWord) (q : Query)
    (hq : q.plus_words.Sorted (· < ·) ∧ q.minus_words.Sorted (· < ·)) :
    (qs.foldl ParseQuery.step q).plus_words.Sorted (· < ·) ∧
      (qs.foldl ParseQuery.step q).minus_words.Sorted (· < ·) := by
  induction qs generalizing q with
  | nil => exact hq
  | cons qw qs ih =>
    rw [List.foldl_cons]
    apply ih
    unfold ParseQuery.step
    cases hs : qw.is_stop <;> cases hm : qw.is_minus
    · exact ⟨StdSet.sorted_insert _ _ hq.1, hq.2⟩
    · exact ⟨hq.1, StdSet.sorted_insert _ _ hq.2⟩
    · exact hq
    · exact hq

/-- The result of `ParseQuery`, by cases on the tokens of the raw query. -/
theorem ParseQuery_eq (s : SearchServer α) (raw : StringView) :
    ParseQuery s raw =
      if ∃ t ∈ SplitIntoWords raw, invalidQueryToken t then .error .terminate
      else .ok (((SplitIntoWords raw).map (fun t =>
        (⟨if t.head? = some '-' then t.tail else t, decide (t.head? = some '-'),
          IsStopWord s (if t.head? = some '-' then t.tail else t)⟩ : QueryWord))).foldl
            ParseQuery.step ⟨[], []⟩) := by
  have hne : ∀ t ∈ SplitIntoWords raw, t ≠ [] :=
    fun t ht => ((SplitIntoWords_isSplit raw).slices.1 t ht).1
  unfold ParseQuery
  rw [ParseQuery.transform_eq s _ hne]
  by_cases h : ∃ t ∈ SplitIntoWords raw, invalidQueryToken t
  · rw [if_pos h, if_pos h]
  · rw [if_neg h, if_neg h]

/-- C12: code bug.  For every server and every raw query, `ParseQuery` returns a query if
and only if no token of the raw query is exactly `-`, begins with `--`, or contains a
character with code below the space character.  With such a token the call does not fail with
an exception the caller could catch: `ParseQueryWord` throws `invalid_argument` for the token,
but inside `std::transform(policy, ...)`, so the process is terminated, and no call of
`ParseQuery` ends with `invalid_argument`.  On the query `cat --x`, `ParseQueryWord` fails
with `invalid_argument` on the token `--x`, while `ParseQuery` and `FindTopDocuments` end the
process. -/
theorem C12_ParseQuery_invalid_token_terminates (s : SearchServer α) (raw : StringView) :
    ((∃ q, ParseQuery s raw = .ok q) ↔
      ¬ ∃ t ∈ SplitIntoWords raw,
        t = ['-'] ∨ t.take 2 = ['-', '-'] ∨ ∃ c ∈ t, c.toNat < 32) ∧
    (ParseQuery s raw = .error .terminate ↔
      ∃ t ∈ SplitIntoWords raw,
        t = ['-'] ∨ t.take 2 = ['-', '-'] ∨ ∃ c ∈ t, c.toNat < 32) ∧
    ParseQuery s raw ≠ .error .invalid_argument ∧
    (∀ t ∈ SplitIntoWords raw,
      (t = ['-'] ∨ t.take 2 = ['-', '-'] ∨ ∃ c ∈ t, c.toNat < 32) →
        ParseQueryWord s t = .error .invalid_argument) ∧
    SplitIntoWords "cat --x".toList = ["cat".toList, "--x".toList] ∧
    ParseQueryWord s "--x".toList = .error .invalid_argument ∧
    ParseQuery s "cat --x".toList = .error .terminate ∧
    (∀ (ln : α → α) (policy : Policy) (document_predicate : DocumentPredicate),
      FindTopDocuments ln s policy "cat --x".toList document_predicate =
        .error .terminate) := by
  have hne : ∀ t ∈ SplitIntoWords raw, t ≠ [] :=
    fun t ht => ((SplitIntoWords_isSplit raw).slices.1 t ht).1
  have hword : ParseQueryWord s "--x".toList = .error .invalid_argument := by
    rw [ParseQueryWord_eq s _ (by decide), if_pos]
    exact Or.inr (Or.inl rfl)
  have hsplit : SplitIntoWords "cat --x".toList = ["cat".toList, "--x".toList] := by
    decide
  have hquery : ParseQuery s "cat --x".toList = .error .terminate := by
    rw [ParseQuery_eq, if_pos]
    rw [hsplit]
    exact ⟨"--x".toList, by simp, Or.inr (Or.inl rfl)⟩
  refine ⟨?_, ?_, ?_, ?_, hsplit, hword, hquery, ?_⟩
  · rw [ParseQuery_eq]
    by_cases h : ∃ t ∈ SplitIntoWords raw, invalidQueryToken t
    · rw [if_pos h]
      refine ⟨?_, fun hn => absurd h hn⟩
      rintro ⟨q, hq⟩
      exact Except.noConfusion hq
    · rw [if_neg h]
      exact ⟨fun _ => h, fun _ => ⟨_, rfl⟩⟩
  · rw [ParseQuery_eq]
    by_cases h : ∃ t ∈ SplitIntoWords raw, invalidQueryToken t
    · rw [if_pos h]
      exact ⟨fun _ => h, fun _ => rfl⟩
    · rw [if_neg h]
      refine ⟨?_, fun hn => absurd hn h⟩
      intro he
      exact Except.noConfusion he
  · rw [ParseQuery_eq]
    by_cases h : ∃ t ∈ SplitIntoWords raw, invalidQueryToken t
    · rw [if_pos h]
      intro he
      exact Exception.noConfusion (Except.error.inj he)
    · rw [if_neg h]
      intro he
      exact Except.noConfusion he
  · intro t ht hbad
    have hinv : invalidQueryToken t := hbad
    rw [ParseQueryWord_eq s t (hne t ht), if_pos hinv]
  · intro ln policy document_predicate
    unfold FindTopDocuments
    rw [hquery]

theorem IsStopWord_eq_false_iff (s : SearchServer α) (w : StringView) :
    IsStopWord s w = false ↔ w ∉ s.stop_words_ := by
  unfold IsStopWord StdSet.count
  by_cases h : w ∈ s.stop_words_ <;> simp [h]

/-- C13: for every server and raw query on which `ParseQuery` succeeds, the plus set holds
exactly the tokens that do not begin with `-` and are not stop words, and the minus set
exactly the remainders `w` of the tokens `-w` whose remainder is not a stop word; no stop word
is a member of either set, and each set holds every member once (in ascending order). -/
theorem C13_ParseQuery_plus_minus_sets (s : SearchServer α) (raw : StringView) (q : Query)
    (h : ParseQuery s raw = .ok q) :
    (∀ w, w ∈ q.plus_words ↔
      (w ∈ SplitIntoWords raw ∧ w.head? ≠ some '-' ∧ IsStopWord s w = false)) ∧
    (∀ w, w ∈ q.minus_words ↔
      (('-' :: w) ∈ SplitIntoWords raw ∧ IsStopWord s w = false)) ∧
    (∀ w ∈ q.plus_words, w ∉ s.stop_words_) ∧
    (∀ w ∈ q.minus_words, w ∉ s.stop_words_) ∧
    q.plus_words.Nodup ∧ q.minus_words.Nodup ∧
    q.plus_words.Sorted (· < ·) ∧ q.minus_words.Sorted (· < ·) := by
  rw [ParseQuery_eq] at h
  by_cases hbad : ∃ t ∈ SplitIntoWords raw, invalidQueryToken t
  · rw [if_pos hbad] at h
    exact Except.noConfusion h
  rw [if_neg hbad] at h
  have hq := (Except.ok.inj h).symm
  have hne : ∀ t ∈ SplitIntoWords raw, t ≠ [] :=
    fun t ht => ((SplitIntoWords_isSplit raw).slices.1 t ht).1
  have hplus : ∀ w, w ∈ q.plus_words ↔
      (w ∈ SplitIntoWords raw ∧ w.head? ≠ some '-' ∧ IsStopWord s w = false) := by
    intro w
    rw [hq, (ParseQuery_step_mem _ ⟨[], []⟩ w).1]
    simp only [List.not_mem_nil, false_or, List.mem_map, exists_exists_and_eq_and,
      decide_eq_false_iff_not]
    constructor
    · rintro ⟨t, ht, h1, h2, h3⟩
      rw [if_neg h2] at h1 h3
      subst h3
      exact ⟨ht, h2, h1⟩
    · rintro ⟨ht, h2, h1⟩
      refine ⟨w, ht, ?_, h2, ?_⟩
      · rw [if_neg h2]
        exact h1
      · rw [if_neg h2]
  have hminus : ∀ w, w ∈ q.minus_words ↔
      (('-' :: w) ∈ SplitIntoWords raw ∧ IsStopWord s w = false) := by
    intro w
    rw [hq, (ParseQuery_step_mem _ ⟨[], []⟩ w).2]
    simp only [List.not_mem_nil, false_or, List.mem_map, exists_exists_and_eq_and,
      decide_eq_true_eq]
    constructor
    · rintro ⟨t, ht, h1, h2, h3⟩
      rw [if_pos h2] at h1 h3
      cases t with
      | nil => exact absurd rfl (hne [] ht)
      | cons c r =>
        simp only [List.head?_cons, Option.some.injEq] at h2
        subst h2
        simp only [List.tail_cons] at h1 h3
        subst h3
        exact ⟨ht, h1⟩
    · rintro ⟨ht, h1⟩
      exact ⟨'-' :: w, ht, by simpa using h1, rfl, by simp⟩
  have hsorted := ParseQuery_step_sorted
    ((SplitIntoWords raw).map (fun t =>
      (⟨if t.head? = some '-' then t.tail else t, decide (t.head? = some '-'),
        IsStopWord s (if t.head? = some '-' then t.tail else t)⟩ : QueryWord)))
    ⟨[], []⟩ ⟨List.sorted_nil, List.sorted_nil⟩
  rw [← hq] at hsorted
  refine ⟨hplus, hminus, ?_, ?_, hsorted.1.imp (fun h => ne_of_lt h),
    hsorted.2.imp (fun h => ne_of_lt h), hsorted.1, hsorted.2⟩
  · intro w hw
    exact (IsStopWord_eq_false_iff s w).1 ((hplus w).1 hw).2.2
  · intro w hw
    exact (IsStopWord_eq_false_iff s w).1 ((hminus w).1 hw).2

/-- C13, witness: with the stop words `in` and `the`, the query `cat in -the -dog cat` has
the plus set `{cat}` and the minus set `{dog}`. -/
theorem C13_ParseQuery_plus_minus_sets_witness :
    ParseQuery (stopWordServer ℚ) "cat in -the -dog cat".toList =
      .ok ⟨["cat".toList], ["dog".toList]⟩ ∧
    (∀ w, w ∈ ["cat".toList] ↔
      (w ∈ SplitIntoWords "cat in -the -dog cat".toList ∧ w.head? ≠ some '-' ∧
        IsStopWord (stopWordServer ℚ) w = false)) ∧
    (∀ w, w ∈ ["dog".toList] ↔
      (('-' :: w) ∈ SplitIntoWords "cat in -the -dog cat".toList ∧
        IsStopWord (stopWordServer ℚ) w = false)) ∧
    (∀ w ∈ ["cat".toList], w ∉ (stopWordServer ℚ).stop_words_) ∧
    (∀ w ∈ ["dog".toList], w ∉ (stopWordServer ℚ).stop_words_) ∧
    ["cat".toList].Nodup ∧ ["dog".toList].Nodup ∧
    ["cat".toList].Sorted (· < ·) ∧ ["dog".toList].Sorted (· < ·) :=
  ⟨rfl, C13_ParseQuery_plus_minus_sets (stopWordServer ℚ) "cat in -the -dog cat".toList
    ⟨["cat".toList], ["dog".toList]⟩ rfl⟩

end SearchServer

namespace SearchServer

variable {α : Type} [LinearOrderedField α]

/-! ## The overloads of `FindTopDocuments` -/

/-- In a state that satisfies the invariant, `FindTopDocuments` returns whenever the query
parses, and every returned document satisfies the predicate at its stored status and
rating. -/
theorem FindTopDocuments_predAt (ln : α → α) (s : SearchServer α) (h : Inv s) (policy : Policy)
    (raw_query : StringView) (pred : DocumentPredicate) :
    ((∃ q, ParseQuery s raw_query = .ok q) →
      ∃ docs, FindTopDocuments ln s policy raw_query pred = .ok docs) ∧
    ∀ docs, FindTopDocuments ln s policy raw_query pred = .ok docs →
      ∀ doc ∈ docs, predAt s pred doc.id = true := by
  constructor
  · rintro ⟨q, hq⟩
    obtain ⟨all, hall, -⟩ := FindAllDocuments_spec ln s h policy q pred
    exact ⟨_, FindTopDocuments_eq ln s policy raw_query pred q all hq hall⟩
  · intro docs hdocs doc hdoc
    cases hq : ParseQuery s raw_query with
    | error e =>
      unfold FindTopDocuments at hdocs
      rw [hq] at hdocs
      exact Except.noConfusion hdocs
    | ok q =>
      obtain ⟨all, hall, -, hmem⟩ := FindAllDocuments_spec ln s h policy q pred
      rw [FindTopDocuments_eq ln s policy raw_query pred q all hq hall] at hdocs
      have hd : doc ∈ all := by
        rw [← Except.ok.inj hdocs] at hdoc
        exact mem_rank all doc hdoc
      have hrel := ((hmem doc).1 hd).1
      have hsome : (relevanceOf ln s pred q doc.id).isSome = true := by
        rw [hrel]
        rfl
      exact ((relevanceOf_isSome ln s pred q doc.id).1 hsome).2.1

/-- C17: in every reachable index state, for every raw query, policy and status,
`FindTopDocuments(raw_query, status)` is the predicate form with the predicate
`document_status == status`, `FindTopDocuments(raw_query)` is
`FindTopDocuments(raw_query, ACTUAL)` (also with a policy argument), the call returns when
the query parses, and every document it returns is stored with the status `status`. -/
theorem C17_FindTopDocuments_status (ln : α → α) (s : SearchServer α) (hs : Reachable s)
    (policy : Policy) (raw_query : StringView) (status : DocumentStatus) :
    FindTopDocumentsStatus ln s raw_query status =
      FindTopDocumentsPredicate ln s raw_query
        (fun _ document_status _ => decide (document_status = status)) ∧
    FindTopDocumentsPolicyStatus ln s policy raw_query status =
      FindTopDocuments ln s policy raw_query
        (fun _ document_status _ => decide (document_status = status)) ∧
    FindTopDocumentsQuery ln s raw_query = FindTopDocumentsStatus ln s raw_query .ACTUAL ∧
    FindTopDocumentsPolicy ln s policy raw_query =
      FindTopDocumentsPolicyStatus ln s policy raw_query .ACTUAL ∧
    ((∃ q, ParseQuery s raw_query = .ok q) →
      ∃ docs, FindTopDocumentsPolicyStatus ln s policy raw_query status = .ok docs) ∧
    (∀ docs, FindTopDocumentsPolicyStatus ln s policy raw_query status = .ok docs →
      ∀ doc ∈ docs, ∃ data, StdMap.find s.documents_ doc.id = some data ∧
        data.status = status) ∧
    (∀ docs, FindTopDocumentsStatus ln s raw_query status = .ok docs →
      ∀ doc ∈ docs, ∃ data, StdMap.find s.documents_ doc.id = some data ∧
        data.status = status) := by
  have key : ∀ policy docs, FindTopDocumentsPolicyStatus ln s policy raw_query status = .ok docs →
      ∀ doc ∈ docs, ∃ data, StdMap.find s.documents_ doc.id = some data ∧
        data.status = status := by
    intro policy docs hdocs doc hdoc
    have hp := (FindTopDocuments_predAt ln s hs.inv policy raw_query
      (fun _ document_status _ => decide (document_status = status))).2 docs hdocs doc hdoc
    unfold predAt at hp
    cases hf : StdMap.find s.documents_ doc.id with
    | none =>
      rw [hf] at hp
      exact Bool.noConfusion hp
    | some data =>
      rw [hf] at hp
      exact ⟨data, rfl, of_decide_eq_true hp⟩
  exact ⟨rfl, rfl, rfl, rfl,
    (FindTopDocuments_predAt ln s hs.inv policy raw_query
      (fun _ document_status _ => decide (document_status = status))).1,
    key policy, key .seq⟩

/-- C17, witness: the query "cat" with the status `ACTUAL` at the server that holds the
document 42, "cat in the city". -/
theorem C17_FindTopDocuments_status_witness :
    Reachable (catServer ℚ) ∧
    (∃ docs, FindTopDocumentsPolicyStatus (fun x => x) (catServer ℚ) Policy.seq "cat".toList
      DocumentStatus.ACTUAL = .ok docs) ∧
    FindTopDocumentsQuery (fun x => x) (catServer ℚ) "cat".toList =
      FindTopDocumentsStatus (fun x => x) (catServer ℚ) "cat".toList .ACTUAL ∧
    (∀ docs, FindTopDocumentsStatus (fun x => x) (catServer ℚ) "cat".toList
        DocumentStatus.ACTUAL = .ok docs →
      ∀ doc ∈ docs, ∃ data, StdMap.find (catServer ℚ).documents_ doc.id = some data ∧
        data.status = DocumentStatus.ACTUAL) :=
  have h := C17_FindTopDocuments_status (fun x => x) (catServer ℚ) (reachable_catServer ℚ)
    Policy.seq "cat".toList DocumentStatus.ACTUAL
  ⟨reachable_catServer ℚ, h.2.2.2.2.1 ⟨_, parseQuery_cat⟩, h.2.2.1, h.2.2.2.2.2.2⟩

end SearchServer

namespace RequestQueue

variable {α : Type} [LinearOrderedField α]

/-! ## The window of `RequestQueue` -/

/-- One recorded request, for a queue whose window is not over capacity and whose counter is
the number of `true` flags of the window. -/
theorem AddFindRequest_step (q : RequestQueue) (found_documents : List (Document α))
    (hlen : q.requests_.length ≤ 1440)
    (hcount : q.no_result_request_count_ = q.requests_.count true) :
    (AddFindRequest q found_documents).requests_ =
      (q.requests_ ++ [found_documents.isEmpty]).drop (q.requests_.length + 1 - 1440) ∧
    (AddFindRequest q found_documents).no_result_request_count_ =
      (AddFindRequest q found_documents).requests_.count true := by
  have hc : q.requests_.count true ≤ q.requests_.length := List.count_le_length _ _
  unfold AddFindRequest sec_in_day_
  cases hb : found_documents.isEmpty with
  | true =>
    simp only [if_true, List.length_append, List.length_singleton]
    by_cases hfull : q.requests_.length + 1 > 1440
    · have hl : q.requests_.length = 1440 := by omega
      rw [if_pos hfull]
      have hd : q.requests_.length + 1 - 1440 = 1 := by omega
      rw [hd, List.drop_one]
      refine ⟨rfl, ?_⟩
      cases hreq : q.requests_ with
      | nil => rw [hreq] at hl; simp at hl
      | cons b t =>
        rw [hreq] at hcount hc hl
        rw [List.length_cons] at hl
        cases b with
        | true =>
          simp only [List.cons_append, List.head?_cons, if_true, List.tail_cons,
            List.count_append, List.count_singleton_self]
          simp only [List.count_cons_self, List.length_cons] at hcount hc
          rw [hcount]
          omega
        | false =>
          simp only [List.cons_append, List.head?_cons, Option.some.injEq,
            Bool.false_eq_true, if_false, List.tail_cons, List.count_append,
            List.count_singleton_self]
          simp only [List.count_cons_of_ne (by decide : true ≠ false), List.length_cons]
            at hcount hc
          rw [hcount]
          omega
    · rw [if_neg hfull]
      have hd : q.requests_.length + 1 - 1440 = 0 := by omega
      rw [hd, List.drop_zero]
      refine ⟨rfl, ?_⟩
      simp only [List.count_append, List.count_singleton_self]
      rw [hcount]
      omega
  | false =>
    simp only [Bool.false_eq_true, if_false, List.length_append, List.length_singleton]
    by_cases hfull : q.requests_.length + 1 > 1440
    · have hl : q.requests_.length = 1440 := by omega
      rw [if_pos hfull]
      have hd : q.requests_.length + 1 - 1440 = 1 := by omega
      rw [hd, List.drop_one]
      refine ⟨rfl, ?_⟩
      cases hreq : q.requests_ with
      | nil => rw [hreq] at hl; simp at hl
      | cons b t =>
        rw [hreq] at hcount hc hl
        rw [List.length_cons] at hl
        cases b with
        | true =>
          simp only [List.cons_append, List.head?_cons, if_true, List.tail_cons,
            List.count_append]
          simp only [List.count_cons_self, List.length_cons] at hcount hc
          rw [hcount]
          have h0 : List.count true [false] = 0 := by decide
          rw [h0]
          omega
        | false =>
          simp only [List.cons_append, List.head?_cons, Option.some.injEq,
            Bool.false_eq_true, if_false, List.tail_cons, List.count_append]
          simp only [List.count_cons_of_ne (by decide : true ≠ false)] at hcount
          have h0 : List.count true [false] = 0 := by decide
          rw [hcount, h0]
          omega
    · rw [if_neg hfull]
      have hd : q.requests_.length + 1 - 1440 = 0 := by omega
      rw [hd, List.drop_zero]
      refine ⟨rfl, ?_⟩
      have h0 : List.count true [false] = 0 := by decide
      simp only [List.count_append, h0]
      rw [hcount]
      omega

/-- The queue after a sequence of recorded requests. -/
theorem AddFindRequest_foldl (results : List (List (Document α))) :
    (results.foldl AddFindRequest create).requests_ =
      (results.map (fun r => r.isEmpty)).drop (results.length - 1440) ∧
    (results.foldl AddFindRequest create).no_result_request_count_ =
      (results.foldl AddFindRequest create).requests_.count true := by
  induction results using List.reverseRecOn with
  | nil => exact ⟨by simp [create], by simp [create]⟩
  | append_singleton init r ih =>
    obtain ⟨ih1, ih2⟩ := ih
    have hlen : (init.foldl AddFindRequest create).requests_.length ≤ 1440 := by
      rw [ih1, List.length_drop, List.length_map]
      omega
    obtain ⟨h1, h2⟩ := AddFindRequest_step (init.foldl AddFindRequest create) r hlen ih2
    rw [List.foldl_append, List.foldl_cons, List.foldl_nil]
    refine ⟨?_, h2⟩
    rw [h1, ih1, List.length_drop, List.length_map, List.map_append, List.length_append,
      List.map_cons, List.map_nil, List.length_singleton]
    have hle : init.length - 1440 ≤ (init.map (fun r => r.isEmpty)).length := by
      rw [List.length_map]
      omega
    have hidx : init.length - 1440 + (init.length - (init.length - 1440) + 1 - 1440) =
        init.length + 1 - 1440 := by omega
    rw [← List.drop_append_of_le_length hle, List.drop_drop, hidx]

theorem AddFindRequestPredicate_eq (ln : α → α) (search_server_ : SearchServer α)
    (q : RequestQueue) (raw_query : StringView) (document_predicate : DocumentPredicate) :
    AddFindRequestPredicate ln search_server_ q raw_query document_predicate =
      match SearchServer.FindTopDocuments ln search_server_ .seq raw_query document_predicate with
      | .error e => (q, .error e)
      | .ok found_documents => (AddFindRequest q found_documents, .ok found_documents) := rfl

/-- C19: after every sequence of `n` recorded search requests (the results
`found_documents` of the searches, in order), the window of `RequestQueue` holds the flags of
the most recent `min n 1440` requests, so at most 1440 flags, and `GetNoResultRequests` is the
number of requests with an empty result among these most recent `min n 1440` requests. -/
theorem C19_RequestQueue_window (results : List (List (Document α))) :
    (results.foldl RequestQueue.AddFindRequest RequestQueue.create).requests_ =
      (results.map (fun r => r.isEmpty)).drop (results.length - 1440) ∧
    (results.foldl RequestQueue.AddFindRequest RequestQueue.create).requests_.length =
      min results.length 1440 ∧
    (results.foldl RequestQueue.AddFindRequest RequestQueue.create).requests_.length ≤ 1440 ∧
    RequestQueue.GetNoResultRequests
        (results.foldl RequestQueue.AddFindRequest RequestQueue.create) =
      (((results.drop (results.length - min results.length 1440)).filter
        (fun r => r.isEmpty)).length : Int) := by
  obtain ⟨h1, h2⟩ := AddFindRequest_foldl results
  have hlen : (results.foldl RequestQueue.AddFindRequest RequestQueue.create).requests_.length =
      min results.length 1440 := by
    rw [h1, List.length_drop, List.length_map]
    omega
  refine ⟨h1, hlen, by rw [hlen]; exact min_le_right _ _, ?_⟩
  have hsub : results.length - min results.length 1440 = results.length - 1440 := by omega
  have hcnt : (results.foldl RequestQueue.AddFindRequest
      RequestQueue.create).no_result_request_count_ =
      ((results.drop (results.length - 1440)).filter (fun r => r.isEmpty)).length := by
    rw [h2, h1, ← List.map_drop, List.count_eq_countP, List.countP_map,
      List.countP_eq_length_filter]
    refine congrArg List.length (List.filter_congr ?_)
    intro r _
    simp
  have hbound : ((results.drop (results.length - 1440)).filter
      (fun r => r.isEmpty)).length ≤ 1440 := by
    refine le_trans (List.length_filter_le _ _) ?_
    rw [List.length_drop]
    omega
  rw [hsub]
  generalize ((results.drop (results.length - 1440)).filter (fun r => r.isEmpty)).length = k
    at hcnt hbound
  unfold RequestQueue.GetNoResultRequests wrapInt32
  rw [hcnt]
  omega

end RequestQueue

namespace SearchServer

variable {α : Type} [LinearOrderedField α]

/-! ## The order invariant -/

theorem KeyOrder_of_fields (s t : SearchServer α) (h : KeyOrder s)
    (h2 : t.document_to_word_freqs_ = s.document_to_word_freqs_)
    (h4 : t.document_ids_ = s.document_ids_) : KeyOrder t := by
  obtain ⟨a1, a2, a3, a4⟩ := h
  constructor
  · rw [h4]; exact a1
  · rw [h2]; exact a2
  · rw [h2]; exact a3
  · rw [h2]; exact a4

theorem KeyOrder_step (id : Int) (inv : α) (s : SearchServer α) (word : StringView)
    (hword : word ≠ [] ∧ ∀ c ∈ word, c ≠ ' ') (h : KeyOrder s) :
    KeyOrder (AddDocument.step id inv s word) := by
  have hentry : ∀ d ws, StdMap.find (AddDocument.step id inv s word).document_to_word_freqs_ d =
      some ws → (d = id ∧ ws = StdMap.update ((StdMap.find s.document_to_word_freqs_ id).getD [])
        word 0 (fun x => x + inv)) ∨ StdMap.find s.document_to_word_freqs_ d = some ws := by
    intro d ws hws
    simp only [AddDocument.step, StdMap.find_update] at hws
    by_cases hd : d = id
    · rw [if_pos hd] at hws
      exact Or.inl ⟨hd, (Option.some.inj hws).symm⟩
    · rw [if_neg hd] at hws
      exact Or.inr hws
  have hold : (StdMap.keys ((StdMap.find s.document_to_word_freqs_ id).getD [])).Sorted (· < ·) ∧
      ∀ w ∈ StdMap.keys ((StdMap.find s.document_to_word_freqs_ id).getD []),
        w ≠ [] ∧ ∀ c ∈ w, c ≠ ' ' := by
    cases hf : StdMap.find s.document_to_word_freqs_ id with
    | none => simp [StdMap.keys]
    | some ws₀ => exact ⟨h.fwd_entry_sorted id ws₀ hf, h.fwd_word id ws₀ hf⟩
  constructor
  · exact h.ids_sorted
  · intro d ws hws
    rcases hentry d ws hws with ⟨-, rfl⟩ | hws
    · exact StdMap.sorted_update _ _ _ _ hold.1
    · exact h.fwd_entry_sorted d ws hws
  · intro d ws hws
    rcases hentry d ws hws with ⟨-, rfl⟩ | hws
    · intro hnil
      have hmem : word ∈ StdMap.keys (StdMap.update
          ((StdMap.find s.document_to_word_freqs_ id).getD []) word 0 (fun x => x + inv)) :=
        (StdMap.mem_keys_update _ _ _ _ _).2 (Or.inl rfl)
      rw [hnil] at hmem
      simp [StdMap.keys] at hmem
    · exact h.fwd_entry_ne d ws hws
  · intro d ws hws
    rcases hentry d ws hws with ⟨-, rfl⟩ | hws
    · intro w hw
      rcases (StdMap.mem_keys_update _ _ _ _ _).1 hw with rfl | hw
      · exact hword
      · exact hold.2 w hw
    · exact h.fwd_word d ws hws

theorem KeyOrder_foldl (id : Int) (inv : α) (words : List StringView) (s : SearchServer α)
    (hwords : ∀ word ∈ words, word ≠ [] ∧ ∀ c ∈ word, c ≠ ' ') (h : KeyOrder s) :
    KeyOrder (words.foldl (AddDocument.step id inv) s) := by
  induction words generalizing s with
  | nil => exact h
  | cons w t ih =>
    exact ih _ (fun word hw => hwords word (List.mem_cons_of_mem _ hw))
      (KeyOrder_step id inv s w (hwords w (by simp)) h)

theorem KeyOrder_AddDocument (s : SearchServer α) (id : Int) (text : StringView)
    (status : DocumentStatus) (ratings : List Int) (h : KeyOrder s) :
    KeyOrder (AddDocument s id text status ratings).1 := by
  by_cases hok : (AddDocument s id text status ratings).2 = .ok ()
  · obtain ⟨-, -, words, hsp, hst⟩ := AddDocument_ok s id text status ratings hok
    have hwords : ∀ word ∈ words, word ≠ [] ∧ ∀ c ∈ word, c ≠ ' ' := by
      have hres := split_result s text
      rw [hsp] at hres
      by_cases hex : ∃ w ∈ SplitIntoWords text, IsValidWord w = false
      · rw [if_pos hex] at hres
        exact Except.noConfusion hres
      · rw [if_neg hex] at hres
        intro word hword
        rw [Except.ok.inj hres] at hword
        exact (SplitIntoWords_isSplit text).slices.1 word (List.mem_of_mem_filter hword)
    have hs1 := split_fields s text
    have h1 : KeyOrder (SplitIntoWordsNoStopAndAddWords s text).1 :=
      KeyOrder_of_fields s _ h hs1.2.2.1 hs1.2.2.2.2
    have h2 := KeyOrder_foldl id (1 / (words.length : α)) words _ hwords h1
    rw [hst]
    exact ⟨StdSet.sorted_insert _ _ h.ids_sorted, h2.fwd_entry_sorted, h2.fwd_entry_ne,
      h2.fwd_word⟩
  · obtain ⟨-, -, h3, -, h5⟩ := AddDocument_error s id text status ratings hok
    exact KeyOrder_of_fields s _ h h3 h5

theorem KeyOrder_RemoveDocument (s : SearchServer α) (id : Int) (h : KeyOrder s) :
    KeyOrder (RemoveDocument s id).1 := by
  by_cases hid : id ∈ s.document_ids_
  · obtain ⟨-, -, -, -, hids, hfwd, -⟩ := RemoveDocument_ok s id hid
    have hentry : ∀ d ws, StdMap.find (RemoveDocument s id).1.document_to_word_freqs_ d =
        some ws → StdMap.find s.document_to_word_freqs_ d = some ws := by
      intro d ws hws
      rw [hfwd d] at hws
      by_cases hd : d = id
      · rw [if_pos hd] at hws
        exact Option.noConfusion hws
      · rw [if_neg hd] at hws
        exact hws
    constructor
    · rw [hids]
      exact StdSet.set_sorted_erase _ _ h.ids_sorted
    · exact fun d ws hws => h.fwd_entry_sorted d ws (hentry d ws hws)
    · exact fun d ws hws => h.fwd_entry_ne d ws (hentry d ws hws)
    · exact fun d ws hws => h.fwd_word d ws (hentry d ws hws)
  · have hst : (RemoveDocument s id).1 = s := by
      unfold RemoveDocument
      rw [if_pos hid]
    rw [hst]
    exact h

theorem KeyOrder_create (stop_words : List StringView) (s : SearchServer α)
    (h : create stop_words = .ok s) : KeyOrder s := by
  unfold create at h
  by_cases hv : ¬ (MakeUniqueNonEmptyStrings stop_words).all IsValidWord
  · simp [hv] at h
  · simp only [hv, if_false, Except.ok.injEq] at h
    subst h
    constructor <;> simp [StdMap.find]

theorem Reachable.keyOrder {s : SearchServer α} (h : Reachable s) : KeyOrder s := by
  induction h with
  | init stop_words s h => exact KeyOrder_create stop_words s h
  | add s id text status ratings _ ih => exact KeyOrder_AddDocument s id text status ratings ih
  | remove s id _ ih => exact KeyOrder_RemoveDocument s id ih

end SearchServer

namespace SearchServer

variable {α : Type} [LinearOrderedField α]

/-! ## `MatchDocument` -/

theorem count_ne_zero_iff (l : StdSet StringView) (w : StringView) :
    StdSet.count l w ≠ 0 ↔ w ∈ l := by
  unfold StdSet.count
  by_cases h : w ∈ l <;> simp [h]

/-- The `copy_if` of `MatchDocument` from a state whose counter is the number of copied
elements. -/
theorem copyStep_foldl (query : Query) (l : List (StringView × α)) (st : MatchState α)
    (hst : st.count = st.copied.length) :
    (st.no_minus_word = false → l.foldl (MatchDocument.copyStep query) st = st) ∧
    (st.no_minus_word = true →
      ((∃ p ∈ l, p.1 ∈ query.minus_words) →
        (l.foldl (MatchDocument.copyStep query) st).no_minus_word = false) ∧
      ((¬ ∃ p ∈ l, p.1 ∈ query.minus_words) →
        l.foldl (MatchDocument.copyStep query) st =
          ⟨true, st.count + (l.filter (fun p => decide (p.1 ∈ query.plus_words))).length,
            st.copied ++ l.filter (fun p => decide (p.1 ∈ query.plus_words))⟩)) := by
  induction l generalizing st with
  | nil =>
    refine ⟨fun _ => rfl, fun h => ⟨?_, fun _ => ?_⟩⟩
    · rintro ⟨p, hp, -⟩
      exact absurd hp (List.not_mem_nil p)
    · simp only [List.foldl_nil, List.filter_nil, List.length_nil, Nat.add_zero,
        List.append_nil]
      rw [← h]
  | cons x t ih =>
    rw [List.foldl_cons]
    constructor
    · intro h
      have hx : MatchDocument.copyStep query st x = st := by
        unfold MatchDocument.copyStep
        simp [h]
      rw [hx]
      exact (ih st hst).1 h
    · intro h
      by_cases hplus : x.1 ∈ query.plus_words
      · have hx : MatchDocument.copyStep query st x =
            ⟨decide (StdSet.count query.minus_words x.1 = 0), st.count + 1,
              st.copied ++ [x]⟩ := by
          unfold MatchDocument.copyStep
          simp [h, (count_ne_zero_iff query.plus_words x.1).2 hplus]
        have hst' : (MatchDocument.copyStep query st x).count =
            (MatchDocument.copyStep query st x).copied.length := by
          rw [hx]
          simp [hst]
        obtain ⟨ih1, ih2⟩ := ih _ hst'
        by_cases hminus : x.1 ∈ query.minus_words
        · have hnm : (MatchDocument.copyStep query st x).no_minus_word = false := by
            rw [hx]
            simpa using (count_ne_zero_iff query.minus_words x.1).2 hminus
          refine ⟨fun _ => ?_, fun hn => absurd ⟨x, by simp, hminus⟩ hn⟩
          rw [ih1 hnm]
          exact hnm
        · have hnm : (MatchDocument.copyStep query st x).no_minus_word = true := by
            rw [hx]
            have := (count_ne_zero_iff query.minus_words x.1).not.2 hminus
            simpa using this
          obtain ⟨ih3, ih4⟩ := ih2 hnm
          constructor
          · rintro ⟨p, hp, hpm⟩
            rcases List.mem_cons.1 hp with rfl | hp
            · exact absurd hpm hminus
            · exact ih3 ⟨p, hp, hpm⟩
          · intro hn
            rw [ih4 (fun ⟨p, hp, hpm⟩ => hn ⟨p, List.mem_cons_of_mem _ hp, hpm⟩), hx]
            simp [hplus, Nat.add_assoc, Nat.add_comm]
      · have hx : MatchDocument.copyStep query st x =
            ⟨decide (StdSet.count query.minus_words x.1 = 0), st.count, st.copied⟩ := by
          unfold MatchDocument.copyStep
          have := (count_ne_zero_iff query.plus_words x.1).not.2 hplus
          simp [h, not_not.1 this]
        have hst' : (MatchDocument.copyStep query st x).count =
            (MatchDocument.copyStep query st x).copied.length := by
          rw [hx]
          exact hst
        obtain ⟨ih1, ih2⟩ := ih _ hst'
        by_cases hminus : x.1 ∈ query.minus_words
        · have hnm : (MatchDocument.copyStep query st x).no_minus_word = false := by
            rw [hx]
            simpa using (count_ne_zero_iff query.minus_words x.1).2 hminus
          refine ⟨fun _ => ?_, fun hn => absurd ⟨x, by simp, hminus⟩ hn⟩
          rw [ih1 hnm]
          exact hnm
        · have hnm : (MatchDocument.copyStep query st x).no_minus_word = true := by
            rw [hx]
            have := (count_ne_zero_iff query.minus_words x.1).not.2 hminus
            simpa using this
          obtain ⟨ih3, ih4⟩ := ih2 hnm
          constructor
          · rintro ⟨p, hp, hpm⟩
            rcases List.mem_cons.1 hp with rfl | hp
            · exact absurd hpm hminus
            · exact ih3 ⟨p, hp, hpm⟩
          · intro hn
            rw [ih4 (fun ⟨p, hp, hpm⟩ => hn ⟨p, List.mem_cons_of_mem _ hp, hpm⟩), hx]
            simp [hplus]

/-- The value of `MatchDocument` once the id check, the parse and the two `at` lookups have
succeeded. -/
theorem MatchDocument_eq (s : SearchServer α) (raw_query : StringView) (id : Int)
    (query : Query) (word_freqs : StdMap StringView α) (data : DocumentData)
    (hid : id ∈ s.document_ids_) (hq : ParseQuery s raw_query = .ok query)
    (hf : StdMap.find s.document_to_word_freqs_ id = some word_freqs)
    (hd : StdMap.find s.documents_ id = some data) :
    MatchDocument s raw_query id =
      .ok (if ∃ w ∈ StdMap.keys word_freqs, w ∈ query.minus_words then []
        else (StdMap.keys word_freqs).filter (fun w => decide (w ∈ query.plus_words)),
        data.status) := by
  have hfold := (copyStep_foldl query word_freqs (⟨true, 0, []⟩ : MatchState α) rfl).2 rfl
  unfold MatchDocument
  rw [if_neg (not_not.2 hid), hq]
  simp only [StdMap.atKey, hf, hd]
  by_cases hm : ∃ p ∈ word_freqs, p.1 ∈ query.minus_words
  · have hm' : ∃ w ∈ StdMap.keys word_freqs, w ∈ query.minus_words := by
      obtain ⟨p, hp, hpm⟩ := hm
      exact ⟨p.1, List.mem_map_of_mem _ hp, hpm⟩
    rw [if_pos hm', hfold.1 hm]
    simp [resize]
  · have hm' : ¬ ∃ w ∈ StdMap.keys word_freqs, w ∈ query.minus_words := by
      rintro ⟨w, hw, hwm⟩
      obtain ⟨p, hp, rfl⟩ := List.mem_map.1 hw
      exact hm ⟨p, hp, hwm⟩
    rw [if_neg hm', hfold.2 hm]
    simp only [Bool.not_true, Bool.false_eq_true, if_false, Nat.zero_add, List.nil_append,
      resize, List.length_append, List.length_replicate]
    rw [List.take_left, Nat.sub_eq_zero_of_le (Nat.le_add_right _ _)]
    simp only [List.replicate_zero, List.append_nil, StdMap.keys, List.filter_map]
    rfl

/-- C14: in every reachable index state, for every present document id with at least one
indexed term and every raw query that parses, `MatchDocument` (sequenced policy) returns the
stored status of the document together with a list of terms: the empty list when a minus term
of the query occurs in the document; otherwise a list whose members are exactly the plus
terms of the query that occur in the document, each once, in ascending lexicographic order.
For the document "cat in the city" the query "my cat loves the city" gives the 3 terms
`cat`, `city`, `the`, and the query "my cat loves -the city" gives none. -/
theorem C14_MatchDocument_terms (s : SearchServer α) (hs : Reachable s)
    (raw_query : StringView) (query : Query) (id : Int) (hid : id ∈ documentIds s)
    (hterm : GetWordFrequencies s id ≠ []) (hq : ParseQuery s raw_query = .ok query) :
    (∃ words data, MatchDocument s raw_query id = .ok (words, data.status) ∧
      StdMap.find s.documents_ id = some data ∧
      ((∃ w ∈ query.minus_words, occursIn s w id) → words = []) ∧
      ((¬ ∃ w ∈ query.minus_words, occursIn s w id) →
        (∀ w, w ∈ words ↔ (w ∈ query.plus_words ∧ occursIn s w id)) ∧
        words.Nodup ∧ words.Sorted (· < ·))) ∧
    MatchDocument (catServer ℚ) "my cat loves the city".toList 42 =
      .ok (["cat".toList, "city".toList, "the".toList], DocumentStatus.ACTUAL) ∧
    MatchDocument (catServer ℚ) "my cat loves -the city".toList 42 =
      .ok ([], DocumentStatus.ACTUAL) := by
  refine ⟨?_, rfl, rfl⟩
  have hinv := hs.inv
  have hord := hs.keyOrder
  have hid' : id ∈ s.document_ids_ := hid
  obtain ⟨word_freqs, hf⟩ : ∃ word_freqs,
      StdMap.find s.document_to_word_freqs_ id = some word_freqs := by
    cases hf : StdMap.find s.document_to_word_freqs_ id with
    | none =>
      exfalso
      apply hterm
      unfold GetWordFrequencies
      rw [hf]
    | some word_freqs => exact ⟨word_freqs, rfl⟩
  obtain ⟨data, hd⟩ : ∃ data, StdMap.find s.documents_ id = some data := by
    have hk := (hinv.ids_docs id).1 hid'
    have := (StdMap.find_isSome_iff s.documents_ id).2 hk
    exact Option.isSome_iff_exists.1 this
  have hget : GetWordFrequencies s id = word_freqs := by
    unfold GetWordFrequencies
    rw [hf]
  have hocc : ∀ w, occursIn s w id ↔ w ∈ StdMap.keys word_freqs := by
    intro w
    unfold occursIn
    rw [hget]
  have hsorted := hord.fwd_entry_sorted id word_freqs hf
  rw [MatchDocument_eq s raw_query id query word_freqs data hid' hq hf hd]
  refine ⟨_, data, rfl, hd, ?_, ?_⟩
  · rintro ⟨w, hw, hwo⟩
    rw [if_pos ⟨w, (hocc w).1 hwo, hw⟩]
  · intro hn
    have hn' : ¬ ∃ w ∈ StdMap.keys word_freqs, w ∈ query.minus_words := by
      rintro ⟨w, hw, hwm⟩
      exact hn ⟨w, hwm, (hocc w).2 hw⟩
    rw [if_neg hn']
    refine ⟨fun w => ?_, ?_, ?_⟩
    · rw [List.mem_filter, hocc w, decide_eq_true_eq, and_comm]
    · exact (StdMap.nodup_of_sorted word_freqs hsorted).sublist (List.filter_sublist _)
    · exact hsorted.sublist (List.filter_sublist _)

theorem parseQuery_my_cat :
    ParseQuery (catServer ℚ) "my cat loves the city".toList =
      .ok ⟨["cat".toList, "city".toList, "loves".toList, "my".toList, "the".toList], []⟩ := by
  rfl

/-- C14, witness: the document 42, "cat in the city", and the query
"my cat loves the city". -/
theorem C14_MatchDocument_terms_witness :
    Reachable (catServer ℚ) ∧ (42 : Int) ∈ documentIds (catServer ℚ) ∧
    GetWordFrequencies (catServer ℚ) 42 ≠ [] ∧
    ParseQuery (catServer ℚ) "my cat loves the city".toList =
      .ok ⟨["cat".toList, "city".toList, "loves".toList, "my".toList, "the".toList], []⟩ ∧
    (∃ words data, MatchDocument (catServer ℚ) "my cat loves the city".toList 42 =
        .ok (words, data.status) ∧
      StdMap.find (catServer ℚ).documents_ 42 = some data ∧
      ((∃ w ∈ ([] : List StringView), occursIn (catServer ℚ) w 42) → words = []) ∧
      ((¬ ∃ w ∈ ([] : List StringView), occursIn (catServer ℚ) w 42) →
        (∀ w, w ∈ words ↔
          (w ∈ ["cat".toList, "city".toList, "loves".toList, "my".toList, "the".toList] ∧
            occursIn (catServer ℚ) w 42)) ∧
        words.Nodup ∧ words.Sorted (· < ·))) ∧
    MatchDocument (catServer ℚ) "my cat loves the city".toList 42 =
      .ok (["cat".toList, "city".toList, "the".toList], DocumentStatus.ACTUAL) ∧
    MatchDocument (catServer ℚ) "my cat loves -the city".toList 42 =
      .ok ([], DocumentStatus.ACTUAL) :=
  ⟨reachable_catServer ℚ, by decide, by decide, parseQuery_my_cat,
    C14_MatchDocument_terms (catServer ℚ) (reachable_catServer ℚ)
      "my cat loves the city".toList _ 42 (by decide) (by decide) parseQuery_my_cat⟩

/-- In a reachable state and for a query that parses, `MatchDocument` throws exactly when
the id is absent or the document has no indexed term. -/
theorem MatchDocument_error_iff (s : SearchServer α) (hs : Reachable s)
    (raw_query : StringView) (query : Query) (id : Int)
    (hq : ParseQuery s raw_query = .ok query) :
    (∃ e, MatchDocument s raw_query id = .error e) ↔
      (id ∉ documentIds s ∨ GetWordFrequencies s id = []) := by
  by_cases hid : id ∈ s.document_ids_
  · cases hf : StdMap.find s.document_to_word_freqs_ id with
    | none =>
      have hget : GetWordFrequencies s id = [] := by
        unfold GetWordFrequencies
        rw [hf]
      refine ⟨fun _ => Or.inr hget, fun _ => ⟨.out_of_range, ?_⟩⟩
      unfold MatchDocument
      rw [if_neg (not_not.2 hid), hq]
      simp only [StdMap.atKey, hf]
    | some word_freqs =>
      have hget : GetWordFrequencies s id = word_freqs := by
        unfold GetWordFrequencies
        rw [hf]
      obtain ⟨data, hd⟩ : ∃ data, StdMap.find s.documents_ id = some data :=
        Option.isSome_iff_exists.1
          ((StdMap.find_isSome_iff s.documents_ id).2 ((hs.inv.ids_docs id).1 hid))
      rw [MatchDocument_eq s raw_query id query word_freqs data hid hq hf hd, hget]
      constructor
      · rintro ⟨e, he⟩
        exact Except.noConfusion he
      · rintro (h | h)
        · exact absurd hid h
        · exact absurd h (hs.keyOrder.fwd_entry_ne id word_freqs hf)
  · refine ⟨fun _ => Or.inl hid, fun _ => ⟨.invalid_argument, ?_⟩⟩
    unfold MatchDocument
    rw [if_pos hid]

/-- C15, failing input: a document added with an empty text, or with a text of stop words
only, is present in the index and has no forward entry; `MatchDocument` on its id with the
valid query "cat" leaves through `map::at` with `out_of_range`, while `GetWordFrequencies`
on the same id returns the empty map. -/
theorem C15_MatchDocument_throws_for_document_without_terms :
    (AddDocument (emptyServer ℚ) 1 [] DocumentStatus.ACTUAL []).2 = .ok () ∧
    (1 : Int) ∈ documentIds (AddDocument (emptyServer ℚ) 1 [] DocumentStatus.ACTUAL []).1 ∧
    ParseQuery (AddDocument (emptyServer ℚ) 1 [] DocumentStatus.ACTUAL []).1 "cat".toList =
      .ok ⟨["cat".toList], []⟩ ∧
    MatchDocument (AddDocument (emptyServer ℚ) 1 [] DocumentStatus.ACTUAL []).1
      "cat".toList 1 = .error Exception.out_of_range ∧
    GetWordFrequencies (AddDocument (emptyServer ℚ) 1 [] DocumentStatus.ACTUAL []).1 1 = [] ∧
    (AddDocument (stopWordServer ℚ) 1 "in the".toList DocumentStatus.ACTUAL []).2 = .ok () ∧
    (1 : Int) ∈ documentIds
      (AddDocument (stopWordServer ℚ) 1 "in the".toList DocumentStatus.ACTUAL []).1 ∧
    MatchDocument (AddDocument (stopWordServer ℚ) 1 "in the".toList DocumentStatus.ACTUAL []).1
      "cat".toList 1 = .error Exception.out_of_range :=
  ⟨rfl, by decide, rfl, rfl, rfl, rfl, by decide, rfl⟩

end SearchServer

/-! ## `RemoveDuplicates` -/

namespace RemoveDuplicates

variable {α : Type} [LinearOrderedField α]

theorem query_foldl (word_freqs : StdMap StringView α) (acc : List Char) :
    word_freqs.foldl (fun query p => query ++ (p.1 ++ [' '])) acc =
      acc ++ ((StdMap.keys word_freqs).map (fun w => w ++ [' '])).flatten := by
  induction word_freqs generalizing acc with
  | nil => simp [StdMap.keys]
  | cons p t ih =>
    rw [List.foldl_cons, ih]
    simp [StdMap.keys, List.append_assoc]

theorem query_eq (word_freqs : StdMap StringView α) :
    query word_freqs = ((StdMap.keys word_freqs).map (fun w => w ++ [' '])).flatten := by
  unfold query
  rw [query_foldl]
  rfl

/-- A word without a space, followed by a space, is determined by the text it starts. -/
theorem append_space_inj (w₁ w₂ r₁ r₂ : List Char) (h₁ : ∀ c ∈ w₁, c ≠ ' ')
    (h₂ : ∀ c ∈ w₂, c ≠ ' ') (h : w₁ ++ ' ' :: r₁ = w₂ ++ ' ' :: r₂) :
    w₁ = w₂ ∧ r₁ = r₂ := by
  induction w₁ generalizing w₂ with
  | nil =>
    cases w₂ with
    | nil => exact ⟨rfl, by simpa using h⟩
    | cons c t =>
      simp only [List.nil_append, List.cons_append, List.cons.injEq] at h
      exact absurd h.1.symm (h₂ c (by simp))
  | cons c t ih =>
    cases w₂ with
    | nil =>
      simp only [List.nil_append, List.cons_append, List.cons.injEq] at h
      exact absurd h.1 (h₁ c (by simp))
    | cons c' t' =>
      simp only [List.cons_append, List.cons.injEq] at h
      obtain ⟨e1, e2⟩ := ih t' (fun x hx => h₁ x (List.mem_cons_of_mem _ hx))
        (fun x hx => h₂ x (List.mem_cons_of_mem _ hx)) h.2
      exact ⟨by rw [h.1, e1], e2⟩

/-- The signature string determines the list of terms. -/
theorem signature_inj (k₁ k₂ : List StringView) (h₁ : ∀ w ∈ k₁, ∀ c ∈ w, c ≠ ' ')
    (h₂ : ∀ w ∈ k₂, ∀ c ∈ w, c ≠ ' ')
    (h : (k₁.map (fun w => w ++ [' '])).flatten = (k₂.map (fun w => w ++ [' '])).flatten) :
    k₁ = k₂ := by
  induction k₁ generalizing k₂ with
  | nil =>
    cases k₂ with
    | nil => rfl
    | cons w t =>
      simp at h
  | cons w t ih =>
    cases k₂ with
    | nil =>
      simp at h
    | cons w' t' =>
      have h' : w ++ ' ' :: (t.map (fun w => w ++ [' '])).flatten =
          w' ++ ' ' :: (t'.map (fun w => w ++ [' '])).flatten := by
        simpa using h
      obtain ⟨e1, e2⟩ := append_space_inj w w' _ _ (h₁ w (by simp)) (h₂ w' (by simp)) h'
      rw [e1, ih t' (fun x hx => h₁ x (List.mem_cons_of_mem _ hx))
        (fun x hx => h₂ x (List.mem_cons_of_mem _ hx)) e2]

/-- The set `duplicates` after the first loop of `RemoveDuplicates` over ids in ascending
order: the ids whose signature string is the signature of a smaller id. -/
theorem scan_foldl (s : SearchServer α) (l pre : List Int) (st : DuplicatesState)
    (hlt : ∀ x ∈ pre, ∀ y ∈ l, x < y) (hl : l.Sorted (· < ·))
    (hfound : ∀ q, q ∈ st.found_words ↔
      ∃ d' ∈ pre, query (SearchServer.GetWordFrequencies s d') = q)
    (hd : ∀ d, d ∈ st.duplicates ↔ (d ∈ pre ∧ ∃ d' ∈ pre, d' < d ∧
      query (SearchServer.GetWordFrequencies s d') =
        query (SearchServer.GetWordFrequencies s d)))
    (hs : st.duplicates.Sorted (· < ·)) :
    (∀ d, d ∈ (l.foldl (scan s) st).duplicates ↔ (d ∈ pre ++ l ∧ ∃ d' ∈ pre ++ l, d' < d ∧
      query (SearchServer.GetWordFrequencies s d') =
        query (SearchServer.GetWordFrequencies s d))) ∧
    (l.foldl (scan s) st).duplicates.Sorted (· < ·) := by
  induction l generalizing pre st with
  | nil => simpa using ⟨hd, hs⟩
  | cons x t ih =>
    rw [List.foldl_cons]
    have hl' := List.sorted_cons.1 hl
    have hpre : ∀ d ∈ pre, d < x := fun d hd' => hlt d hd' x (by simp)
    have hlt' : ∀ a ∈ pre ++ [x], ∀ y ∈ t, a < y := by
      intro a ha y hy
      rcases List.mem_append.1 ha with ha | ha
      · exact hlt a ha y (List.mem_cons_of_mem _ hy)
      · rw [List.mem_singleton] at ha
        rw [ha]
        exact hl'.1 y hy
    have happ : pre ++ x :: t = (pre ++ [x]) ++ t := by simp
    rw [happ]
    by_cases hx : query (SearchServer.GetWordFrequencies s x) ∈ st.found_words
    · have hstep : scan s st x =
          { st with duplicates := StdSet.insert st.duplicates x } := by
        unfold scan
        simp only
        rw [if_pos]
        unfold StdSet.count
        rw [if_pos hx]
        decide
      rw [hstep]
      obtain ⟨d₀, hd₀, hq₀⟩ := (hfound _).1 hx
      apply ih (pre ++ [x]) _ hlt' hl'.2
      · intro q
        simp only [hfound q, List.mem_append, List.mem_singleton]
        constructor
        · rintro ⟨d', hd', hq⟩
          exact ⟨d', Or.inl hd', hq⟩
        · rintro ⟨d', hd' | rfl, hq⟩
          · exact ⟨d', hd', hq⟩
          · exact ⟨d₀, hd₀, hq₀.trans hq⟩
      · intro d
        simp only [StdSet.mem_insert, hd d, List.mem_append, List.mem_singleton]
        constructor
        · rintro (rfl | ⟨h1, d', h2, h3, h4⟩)
          · exact ⟨Or.inr rfl, d₀, Or.inl hd₀, hpre d₀ hd₀, hq₀⟩
          · exact ⟨Or.inl h1, d', Or.inl h2, h3, h4⟩
        · rintro ⟨h1 | rfl, d', h2 | rfl, h3, h4⟩
          · exact Or.inr ⟨h1, d', h2, h3, h4⟩
          · exact absurd (hpre d h1) (not_lt.2 (le_of_lt h3))
          · exact Or.inl rfl
          · exact Or.inl rfl
      · exact StdSet.sorted_insert _ _ hs
    · have hstep : scan s st x =
          ⟨st.duplicates, StdSet.insert st.found_words
            (query (SearchServer.GetWordFrequencies s x))⟩ := by
        unfold scan
        simp only
        rw [if_neg]
        unfold StdSet.count
        rw [if_neg hx]
        decide
      rw [hstep]
      apply ih (pre ++ [x]) _ hlt' hl'.2
      · intro q
        simp only [StdSet.mem_insert, hfound q, List.mem_append, List.mem_singleton]
        constructor
        · rintro (rfl | ⟨d', hd', hq⟩)
          · exact ⟨x, Or.inr rfl, rfl⟩
          · exact ⟨d', Or.inl hd', hq⟩
        · rintro ⟨d', hd' | rfl, hq⟩
          · exact Or.inr ⟨d', hd', hq⟩
          · exact Or.inl hq.symm
      · intro d
        simp only [hd d, List.mem_append, List.mem_singleton]
        constructor
        · rintro ⟨h1, d', h2, h3, h4⟩
          exact ⟨Or.inl h1, d', Or.inl h2, h3, h4⟩
        · rintro ⟨h1 | rfl, d', h2 | rfl, h3, h4⟩
          · exact ⟨h1, d', h2, h3, h4⟩
          · exact absurd (hpre d h1) (not_lt.2 (le_of_lt h3))
          · exact absurd ((hfound _).2 ⟨d', h2, h4⟩) hx
          · exact absurd h3 (lt_irrefl _)
      · exact hs

/-- The second loop of `RemoveDuplicates` over distinct ids of the index. -/
theorem removeStep_foldl (l : List Int) (s : SearchServer α) (hs : SearchServer.Reachable s)
    (hl : l.Nodup) (hmem : ∀ d ∈ l, d ∈ s.document_ids_) :
    (l.foldl removeStep (s, .ok ())).2 = .ok () ∧
    SearchServer.Reachable (l.foldl removeStep (s, .ok ())).1 ∧
    (l.foldl removeStep (s, .ok ())).1.stop_words_ = s.stop_words_ ∧
    (∀ d, d ∈ (l.foldl removeStep (s, .ok ())).1.document_ids_ ↔
      (d ∈ s.document_ids_ ∧ d ∉ l)) ∧
    (∀ d, StdMap.find (l.foldl removeStep (s, .ok ())).1.document_to_word_freqs_ d =
      if d ∈ l then none else StdMap.find s.document_to_word_freqs_ d) ∧
    (∀ d, StdMap.find (l.foldl removeStep (s, .ok ())).1.documents_ d =
      if d ∈ l then none else StdMap.find s.documents_ d) ∧
    (∀ w d, d ∉ l → SearchServer.tfInverted (l.foldl removeStep (s, .ok ())).1 w d =
      SearchServer.tfInverted s w d) := by
  induction l generalizing s with
  | nil => simpa using hs
  | cons x t ih =>
    have hx : x ∈ s.document_ids_ := hmem x (by simp)
    obtain ⟨hok, hstop, -, hdocs, hids, hfwd, htf⟩ := SearchServer.RemoveDocument_ok s x hx
    have hstep : removeStep (s, .ok ()) x = ((SearchServer.RemoveDocument s x).1, .ok ()) := by
      unfold removeStep
      simp only
      rw [← hok]
    rw [List.foldl_cons, hstep]
    have hnd := List.nodup_cons.1 hl
    obtain ⟨h1, h2, h3, h4, h5, h6, h7⟩ := ih (SearchServer.RemoveDocument s x).1
      (SearchServer.Reachable.remove s x hs) hnd.2 (by
        intro d hd
        rw [hids, StdSet.mem_erase]
        exact ⟨fun e => hnd.1 (e ▸ hd), hmem d (List.mem_cons_of_mem _ hd)⟩)
    refine ⟨h1, h2, h3.trans hstop, ?_, ?_, ?_, ?_⟩
    · intro d
      rw [h4 d, hids, StdSet.mem_erase, List.mem_cons, not_or]
      constructor
      · rintro ⟨⟨a, b⟩, c⟩
        exact ⟨b, a, c⟩
      · rintro ⟨b, a, c⟩
        exact ⟨⟨a, b⟩, c⟩
    · intro d
      rw [h5 d, hfwd d]
      by_cases hdt : d ∈ t
      · rw [if_pos hdt, if_pos (List.mem_cons_of_mem _ hdt)]
      · rw [if_neg hdt]
        by_cases hdx : d = x
        · rw [if_pos hdx, if_pos (by rw [hdx]; simp)]
        · rw [if_neg hdx, if_neg (by simp [hdx, hdt])]
    · intro d
      rw [h6 d, hdocs, StdMap.find_erase]
      by_cases hdt : d ∈ t
      · rw [if_pos hdt, if_pos (List.mem_cons_of_mem _ hdt)]
      · rw [if_neg hdt]
        by_cases hdx : d = x
        · rw [if_pos hdx, if_pos (by rw [hdx]; simp)]
        · rw [if_neg hdx, if_neg (by simp [hdx, hdt])]
    · intro w d hd
      rw [List.mem_cons, not_or] at hd
      rw [h7 w d hd.2, htf w d, if_neg (fun h => hd.1 h.1)]

end RemoveDuplicates

namespace SearchServer

variable {α : Type} [LinearOrderedField α]

theorem terms_of_reachable (s : SearchServer α) (hs : Reachable s) (d : Int) :
    (StdMap.keys (GetWordFrequencies s d)).Sorted (· < ·) ∧
    ∀ w ∈ StdMap.keys (GetWordFrequencies s d), ∀ c ∈ w, c ≠ ' ' := by
  unfold GetWordFrequencies
  cases hf : StdMap.find s.document_to_word_freqs_ d with
  | none => simp [StdMap.keys]
  | some ws =>
    exact ⟨hs.keyOrder.fwd_entry_sorted d ws hf,
      fun w hw => (hs.keyOrder.fwd_word d ws hf w hw).2⟩

/-- In a reachable state two documents have the same signature string exactly when they
have the same set of indexed terms. -/
theorem query_eq_iff_sameTerms (s : SearchServer α) (hs : Reachable s) (d d' : Int) :
    RemoveDuplicates.query (GetWordFrequencies s d) =
      RemoveDuplicates.query (GetWordFrequencies s d') ↔ sameTerms s d d' := by
  obtain ⟨h1, h2⟩ := terms_of_reachable s hs d
  obtain ⟨h3, h4⟩ := terms_of_reachable s hs d'
  rw [RemoveDuplicates.query_eq, RemoveDuplicates.query_eq]
  constructor
  · intro h w
    unfold occursIn
    rw [RemoveDuplicates.signature_inj _ _ h2 h4 h]
  · intro h
    have : StdMap.keys (GetWordFrequencies s d) = StdMap.keys (GetWordFrequencies s d') :=
      sorted_ext _ _ h1 h3 h
    rw [this]

theorem exists_least_of_mem (l : List Int) (P : Int → Prop) (h : ∃ x ∈ l, P x) :
    ∃ m ∈ l, P m ∧ ∀ y ∈ l, P y → m ≤ y := by
  induction l with
  | nil =>
    obtain ⟨x, hx, -⟩ := h
    exact absurd hx (List.not_mem_nil x)
  | cons a t ih =>
    by_cases ht : ∃ x ∈ t, P x
    · obtain ⟨m, hm, hP, hmin⟩ := ih ht
      by_cases ha : P a ∧ a ≤ m
      · refine ⟨a, by simp, ha.1, fun y hy hPy => ?_⟩
        rcases List.mem_cons.1 hy with rfl | hy
        · exact le_refl _
        · exact le_trans ha.2 (hmin y hy hPy)
      · refine ⟨m, List.mem_cons_of_mem _ hm, hP, fun y hy hPy => ?_⟩
        rcases List.mem_cons.1 hy with rfl | hy
        · exact le_of_lt (not_le.1 (fun hle => ha ⟨hPy, hle⟩))
        · exact hmin y hy hPy
    · obtain ⟨x, hx, hPx⟩ := h
      rcases List.mem_cons.1 hx with rfl | hx
      · refine ⟨x, by simp, hPx, fun y hy hPy => ?_⟩
        rcases List.mem_cons.1 hy with rfl | hy
        · exact le_refl _
        · exact absurd ⟨y, hy, hPy⟩ ht
      · exact absurd ⟨x, hx, hPx⟩ ht

/-- The set `duplicates` that the first loop of `RemoveDuplicates` builds in a reachable
state. -/
theorem duplicates_spec (s : SearchServer α) (hs : Reachable s) :
    (∀ d, d ∈ ((documentIds s).foldl (RemoveDuplicates.scan s) ⟨[], []⟩).duplicates ↔
      isDuplicate s d) ∧
    ((documentIds s).foldl (RemoveDuplicates.scan s) ⟨[], []⟩).duplicates.Sorted (· < ·) := by
  obtain ⟨h1, h2⟩ := RemoveDuplicates.scan_foldl s (documentIds s) [] ⟨[], []⟩
    (fun x hx => absurd hx (List.not_mem_nil x)) hs.keyOrder.ids_sorted
    (fun q => by simp) (fun d => by simp) List.sorted_nil
  refine ⟨fun d => ?_, h2⟩
  rw [h1 d]
  unfold isDuplicate
  simp only [List.nil_append]
  constructor
  · rintro ⟨hd, d', hd', hlt, hq⟩
    exact ⟨hd, d', hd', hlt, (query_eq_iff_sameTerms s hs d' d).1 hq⟩
  · rintro ⟨hd, d', hd', hlt, hq⟩
    exact ⟨hd, d', hd', hlt, (query_eq_iff_sameTerms s hs d' d).2 hq⟩

/-- C20: in every reachable index state `RemoveDuplicates` returns, and it removes exactly
the document ids whose set of indexed terms (frequencies ignored) is the term set of a
document with a smaller id: the remaining ids are the ids that are no such duplicate; a
removed id has no word frequencies and no metadata left; every other document keeps its
word frequencies, its metadata and its inverted term frequencies; no two remaining
documents have equal term sets; and for every document of the index the smallest id with
the same term set remains. -/
theorem C20_RemoveDuplicates_keeps_smallest {α : Type} [LinearOrderedField α]
    (s : SearchServer α) (hs : Reachable s) :
    (RemoveDuplicates s).2 = .ok () ∧
    Reachable (RemoveDuplicates s).1 ∧
    (RemoveDuplicates s).1.stop_words_ = s.stop_words_ ∧
    (∀ d, d ∈ documentIds (RemoveDuplicates s).1 ↔
      (d ∈ documentIds s ∧ ¬ isDuplicate s d)) ∧
    (∀ d, isDuplicate s d →
      GetWordFrequencies (RemoveDuplicates s).1 d = [] ∧
      StdMap.find (RemoveDuplicates s).1.documents_ d = none) ∧
    (∀ d, ¬ isDuplicate s d →
      GetWordFrequencies (RemoveDuplicates s).1 d = GetWordFrequencies s d ∧
      StdMap.find (RemoveDuplicates s).1.documents_ d = StdMap.find s.documents_ d ∧
      ∀ w, tfInverted (RemoveDuplicates s).1 w d = tfInverted s w d) ∧
    (∀ d ∈ documentIds (RemoveDuplicates s).1, ∀ d' ∈ documentIds (RemoveDuplicates s).1,
      sameTerms (RemoveDuplicates s).1 d d' → d = d') ∧
    (∀ d ∈ documentIds s, ∃ d' ∈ documentIds (RemoveDuplicates s).1,
      d' ≤ d ∧ sameTerms s d' d ∧ ∀ d'' ∈ documentIds s, sameTerms s d'' d → d' ≤ d'') := by
  obtain ⟨hdup, hsorted⟩ := duplicates_spec s hs
  have hnd : ((documentIds s).foldl (RemoveDuplicates.scan s) ⟨[], []⟩).duplicates.Nodup :=
    hsorted.imp (fun h => ne_of_lt h)
  obtain ⟨h1, h2, h3, h4, h5, h6, h7⟩ := RemoveDuplicates.removeStep_foldl _ s hs hnd
    (fun d hd => ((hdup d).1 hd).1)
  have hunfold : RemoveDuplicates s =
      (((documentIds s).foldl (RemoveDuplicates.scan s) ⟨[], []⟩).duplicates).foldl
        RemoveDuplicates.removeStep (s, .ok ()) := rfl
  rw [← hunfold] at h1 h2 h3 h4 h5 h6 h7
  have hids : ∀ d, d ∈ documentIds (RemoveDuplicates s).1 ↔
      (d ∈ documentIds s ∧ ¬ isDuplicate s d) := by
    intro d
    unfold documentIds
    rw [h4 d, hdup d]
  have hkeep : ∀ d, ¬ isDuplicate s d →
      GetWordFrequencies (RemoveDuplicates s).1 d = GetWordFrequencies s d := by
    intro d hd
    unfold GetWordFrequencies
    rw [h5 d, if_neg (fun h => hd ((hdup d).1 h))]
  have hsame : ∀ d d', ¬ isDuplicate s d → ¬ isDuplicate s d' →
      (sameTerms (RemoveDuplicates s).1 d d' ↔ sameTerms s d d') := by
    intro d d' hd hd'
    unfold sameTerms occursIn
    rw [hkeep d hd, hkeep d' hd']
  refine ⟨h1, h2, h3, hids, ?_, ?_, ?_, ?_⟩
  · intro d hd
    constructor
    · unfold GetWordFrequencies
      rw [h5 d, if_pos ((hdup d).2 hd)]
    · rw [h6 d, if_pos ((hdup d).2 hd)]
  · intro d hd
    refine ⟨hkeep d hd, ?_, fun w => h7 w d (fun h => hd ((hdup d).1 h))⟩
    rw [h6 d, if_neg (fun h => hd ((hdup d).1 h))]
  · intro d hd d' hd' hst
    obtain ⟨hd1, hd2⟩ := (hids d).1 hd
    obtain ⟨hd1', hd2'⟩ := (hids d').1 hd'
    have hst' := (hsame d d' hd2 hd2').1 hst
    rcases lt_trichotomy d d' with hlt | heq | hgt
    · exact absurd ⟨hd1', d, hd1, hlt, hst'⟩ hd2'
    · exact heq
    · exact absurd ⟨hd1, d', hd1', hgt, fun w => (hst' w).symm⟩ hd2
  · intro d hd
    obtain ⟨m, hm, hPm, hmin⟩ := exists_least_of_mem (documentIds s)
      (fun x => sameTerms s x d) ⟨d, hd, fun _ => Iff.rfl⟩
    refine ⟨m, (hids m).2 ⟨hm, ?_⟩, hmin d hd (fun _ => Iff.rfl), hPm, hmin⟩
    rintro ⟨-, d', hd', hlt, hst⟩
    have : sameTerms s d' d := fun w => (hst w).trans (hPm w)
    exact absurd (hmin d' hd' this) (not_le.2 hlt)

/-- C20, witness: in the server that holds the documents 1 and 240, both "cat",
`RemoveDuplicates` removes the document 240 and keeps the document 1. -/
theorem C20_RemoveDuplicates_keeps_smallest_witness :
    Reachable (tieServer ℚ) ∧
    (RemoveDuplicates (tieServer ℚ)).2 = .ok () ∧
    (∀ d, d ∈ documentIds (RemoveDuplicates (tieServer ℚ)).1 ↔
      (d ∈ documentIds (tieServer ℚ) ∧ ¬ isDuplicate (tieServer ℚ) d)) ∧
    (∀ d ∈ documentIds (RemoveDuplicates (tieServer ℚ)).1,
      ∀ d' ∈ documentIds (RemoveDuplicates (tieServer ℚ)).1,
        sameTerms (RemoveDuplicates (tieServer ℚ)).1 d d' → d = d') ∧
    documentIds (tieServer ℚ) = [1, 240] ∧
    documentIds (RemoveDuplicates (tieServer ℚ)).1 = [1] :=
  have h := C20_RemoveDuplicates_keeps_smallest (tieServer ℚ) (reachable_tieServer ℚ)
  ⟨reachable_tieServer ℚ, h.1, h.2.2.2.1, h.2.2.2.2.2.2.1,
    by rw [tieServer_eq]; rfl, by rw [tieServer_eq]; rfl⟩

end SearchServer

namespace SearchServer

variable {α : Type} [LinearOrderedField α]

/-! ## The forward and inverted indexes mirror each other -/

theorem tfInverted_eq_some_iff (s : SearchServer α) (h : Inv s) (w : StringView) (d : Int)
    (f : α) :
    tfInverted s w d = some f ↔
      ∃ docs, StdMap.find s.word_to_document_freqs_ w = some docs ∧ (d, f) ∈ docs := by
  unfold tfInverted
  cases hf : StdMap.find s.word_to_document_freqs_ w with
  | none => simp
  | some docs =>
    simp only [Option.some_bind, Option.some.injEq, exists_eq_left']
    exact StdMap.find_iff_mem docs (h.inv_entry_nodup w docs hf) d f

theorem tfForward_eq_some_iff (s : SearchServer α) (h : Inv s) (d : Int) (w : StringView)
    (f : α) :
    tfForward s d w = some f ↔
      ∃ ws, StdMap.find s.document_to_word_freqs_ d = some ws ∧ (w, f) ∈ ws := by
  unfold tfForward
  cases hf : StdMap.find s.document_to_word_freqs_ d with
  | none => simp
  | some ws =>
    simp only [Option.some_bind, Option.some.injEq, exists_eq_left']
    exact StdMap.find_iff_mem ws (h.fwd_entry_nodup d ws hf) w f

/-- C22: in every state reachable by construction and any sequence of `AddDocument` and
`RemoveDocument` calls, the forward and inverted indexes mirror each other: the pair
`(doc, freq)` is in the inverted entry of `term` if and only if the pair `(term, freq)`, with
the identical frequency, is in the forward entry of `doc`; the lookups of the two indexes
agree, and no entry repeats a key. -/
theorem C22_forward_inverted_mirror (s : SearchServer α) (hs : Reachable s) (w : StringView)
    (d : Int) (f : α) :
    ((∃ docs, StdMap.find s.word_to_document_freqs_ w = some docs ∧ (d, f) ∈ docs) ↔
      (∃ ws, StdMap.find s.document_to_word_freqs_ d = some ws ∧ (w, f) ∈ ws)) ∧
    tfInverted s w d = tfForward s d w ∧
    (∀ docs, StdMap.find s.word_to_document_freqs_ w = some docs → (StdMap.keys docs).Nodup) ∧
    (∀ ws, StdMap.find s.document_to_word_freqs_ d = some ws → (StdMap.keys ws).Nodup) := by
  have h := hs.inv
  refine ⟨?_, h.mirror w d, h.inv_entry_nodup w, h.fwd_entry_nodup d⟩
  rw [← tfInverted_eq_some_iff s h, ← tfForward_eq_some_iff s h, h.mirror w d]

/-- C22, witness: the term `cat` of the document 42, "cat in the city", with the
frequency 1/4. -/
theorem C22_forward_inverted_mirror_witness :
    Reachable (catServer ℚ) ∧
    ((∃ docs, StdMap.find (catServer ℚ).word_to_document_freqs_ "cat".toList = some docs ∧
        ((42 : Int), (1 / 4 : ℚ)) ∈ docs) ↔
      (∃ ws, StdMap.find (catServer ℚ).document_to_word_freqs_ 42 = some ws ∧
        ("cat".toList, (1 / 4 : ℚ)) ∈ ws)) ∧
    tfInverted (catServer ℚ) "cat".toList 42 = tfForward (catServer ℚ) 42 "cat".toList :=
  have h := C22_forward_inverted_mirror (catServer ℚ) (reachable_catServer ℚ) "cat".toList 42
    (1 / 4)
  ⟨reachable_catServer ℚ, h.1, h.2.1⟩

end SearchServer

namespace SearchServer

variable {α : Type} [LinearOrderedField α]

/-! ## Stop words are not indexed -/

/-- A property of terms that holds for the words of a document and for the keys of both
indexes is kept by the loop of `AddDocument`. -/
theorem step_keys_foldl (P : StringView → Prop) (id : Int) (inv : α) (words : List StringView)
    (s : SearchServer α) (hwords : ∀ w ∈ words, P w)
    (hinv : ∀ w ∈ StdMap.keys s.word_to_document_freqs_, P w)
    (hfwd : ∀ d ws, StdMap.find s.document_to_word_freqs_ d = some ws →
      ∀ w ∈ StdMap.keys ws, P w) :
    (∀ w ∈ StdMap.keys (words.foldl (AddDocument.step id inv) s).word_to_document_freqs_, P w) ∧
    (∀ d ws, StdMap.find (words.foldl (AddDocument.step id inv) s).document_to_word_freqs_ d =
      some ws → ∀ w ∈ StdMap.keys ws, P w) := by
  induction words generalizing s with
  | nil => exact ⟨hinv, hfwd⟩
  | cons x t ih =>
    rw [List.foldl_cons]
    apply ih _ (fun w hw => hwords w (List.mem_cons_of_mem _ hw))
    · intro w hw
      simp only [AddDocument.step] at hw
      rcases (StdMap.mem_keys_update _ _ _ _ _).1 hw with rfl | hw
      · exact hwords w (by simp)
      · exact hinv w hw
    · intro d ws hws w hw
      simp only [AddDocument.step, StdMap.find_update] at hws
      by_cases hd : d = id
      · rw [if_pos hd] at hws
        rw [← Option.some.inj hws] at hw
        rcases (StdMap.mem_keys_update _ _ _ _ _).1 hw with rfl | hw
        · exact hwords w (by simp)
        · cases hf : StdMap.find s.document_to_word_freqs_ id with
          | none =>
            rw [hf] at hw
            simp [StdMap.keys] at hw
          | some ws₀ =>
            rw [hf] at hw
            exact hfwd id ws₀ hf w hw
      · rw [if_neg hd] at hws
        exact hfwd d ws hws w hw

theorem StopInv_AddDocument (s : SearchServer α) (id : Int) (text : StringView)
    (status : DocumentStatus) (ratings : List Int) (h : StopInv s) :
    StopInv (AddDocument s id text status ratings).1 ∧
    (AddDocument s id text status ratings).1.stop_words_ = s.stop_words_ := by
  by_cases hok : (AddDocument s id text status ratings).2 = .ok ()
  · obtain ⟨-, -, words, hsp, hst⟩ := AddDocument_ok s id text status ratings hok
    have hwords : ∀ w ∈ words, w ∉ s.stop_words_ := by
      have hres := split_result s text
      rw [hsp] at hres
      by_cases hex : ∃ w ∈ SplitIntoWords text, IsValidWord w = false
      · rw [if_pos hex] at hres
        exact Except.noConfusion hres
      · rw [if_neg hex] at hres
        intro w hw
        rw [Except.ok.inj hres] at hw
        have := (List.mem_filter.1 hw).2
        simp only [Bool.not_eq_true', IsStopWord_eq_false_iff] at this
        exact this
    have hs1 := split_fields s text
    have hstop := (foldl_step_fields id (1 / (words.length : α)) words
      (SplitIntoWordsNoStopAndAddWords s text).1).1
    have hkeys := step_keys_foldl (fun w => w ∉ s.stop_words_) id (1 / (words.length : α))
      words (SplitIntoWordsNoStopAndAddWords s text).1 hwords
      (by rw [hs1.2.1]; exact h.inv_keys) (by rw [hs1.2.2.1]; exact h.fwd_words)
    rw [hst]
    have hsw : (words.foldl (AddDocument.step id (1 / (words.length : α)))
        (SplitIntoWordsNoStopAndAddWords s text).1).stop_words_ = s.stop_words_ := by
      rw [hstop, hs1.1]
    refine ⟨⟨?_, ?_⟩, hsw⟩
    · intro w hw
      simp only [hsw]
      exact hkeys.1 w hw
    · intro d ws hws w hw
      simp only [hsw]
      exact hkeys.2 d ws hws w hw
  · obtain ⟨h1, h2, h3, -, -⟩ := AddDocument_error s id text status ratings hok
    refine ⟨⟨?_, ?_⟩, h1⟩
    · rw [h1, h2]
      exact h.inv_keys
    · rw [h1, h3]
      exact h.fwd_words

theorem StopInv_RemoveDocument (s : SearchServer α) (id : Int) (h : StopInv s) :
    StopInv (RemoveDocument s id).1 ∧ (RemoveDocument s id).1.stop_words_ = s.stop_words_ := by
  by_cases hid : id ∈ s.document_ids_
  · obtain ⟨-, hstop, -, -, -, hfwd, -⟩ := RemoveDocument_ok s id hid
    refine ⟨⟨?_, ?_⟩, hstop⟩
    · intro w hw
      rw [hstop]
      have hsome := (StdMap.find_isSome_iff _ _).2 hw
      have hstate : (RemoveDocument s id).1.word_to_document_freqs_ =
          (GetWordFrequencies s id).foldl (fun inverted word =>
            StdMap.update inverted word.1 [] (fun docs => StdMap.erase docs id))
            s.word_to_document_freqs_ := by
        unfold RemoveDocument GetWordFrequencies
        simp only [hid, not_true_eq_false, if_false, StdMap.find_update, if_true]
        cases StdMap.find s.document_to_word_freqs_ id <;> rfl
      rw [hstate, find_inverted_remove_foldl] at hsome
      by_cases hk : w ∈ StdMap.keys (GetWordFrequencies s id)
      · unfold GetWordFrequencies at hk
        cases hf : StdMap.find s.document_to_word_freqs_ id with
        | none =>
          rw [hf] at hk
          simp [StdMap.keys] at hk
        | some ws =>
          rw [hf] at hk
          exact h.fwd_words id ws hf w hk
      · rw [if_neg hk] at hsome
        exact h.inv_keys w ((StdMap.find_isSome_iff _ _).1 hsome)
    · intro d ws hws w hw
      rw [hstop]
      rw [hfwd d] at hws
      by_cases hd : d = id
      · rw [if_pos hd] at hws
        exact Option.noConfusion hws
      · rw [if_neg hd] at hws
        exact h.fwd_words d ws hws w hw
  · have hst : (RemoveDocument s id).1 = s := by
      unfold RemoveDocument
      rw [if_pos hid]
    rw [hst]
    exact ⟨h, rfl⟩

theorem StopInv_create (stop_words : List StringView) (s : SearchServer α)
    (h : create stop_words = .ok s) : StopInv s := by
  unfold create at h
  by_cases hv : ¬ (MakeUniqueNonEmptyStrings stop_words).all IsValidWord
  · simp [hv] at h
  · simp only [hv, if_false, Except.ok.injEq] at h
    subst h
    constructor <;> simp [StdMap.find, StdMap.keys]

theorem Reachable.stopInv {s : SearchServer α} (h : Reachable s) : StopInv s := by
  induction h with
  | init stop_words s h => exact StopInv_create stop_words s h
  | add s id text status ratings _ ih => exact (StopInv_AddDocument s id text status ratings ih).1
  | remove s id _ ih => exact (StopInv_RemoveDocument s id ih).1

set_option maxRecDepth 100000 in
/-- C24: in every reachable index state no stop word of the server is a key of the inverted
index or a term of the forward entry of a document.  With the stop words `in` and `the`,
the document "cat in the city" is indexed with the terms `cat` and `city` only and the query
"in" finds nothing; with no stop words, the query "in" finds the document. -/
theorem C24_stop_words_not_indexed (s : SearchServer α) (hs : Reachable s) :
    (∀ w ∈ s.stop_words_, w ∉ StdMap.keys s.word_to_document_freqs_) ∧
    (∀ w ∈ s.stop_words_, ∀ d, w ∉ StdMap.keys (GetWordFrequencies s d)) ∧
    (∀ w ∈ s.stop_words_, ∀ d, tfInverted s w d = none ∧ tfForward s d w = none) ∧
    StdMap.keys (GetWordFrequencies
      (AddDocument (stopWordServer ℚ) 42 "cat in the city".toList .ACTUAL [1, 2, 3]).1 42) =
        ["cat".toList, "city".toList] ∧
    StdMap.keys (AddDocument (stopWordServer ℚ) 42 "cat in the city".toList .ACTUAL
      [1, 2, 3]).1.word_to_document_freqs_ = ["cat".toList, "city".toList] ∧
    FindTopDocuments (fun x => x)
      (AddDocument (stopWordServer ℚ) 42 "cat in the city".toList .ACTUAL [1, 2, 3]).1
      Policy.seq "in".toList (statusIs .ACTUAL) = .ok [] ∧
    (∃ relevance rating, FindTopDocuments (fun x => x) (catServer ℚ) Policy.seq "in".toList
      (statusIs .ACTUAL) = .ok [⟨42, relevance, rating⟩]) := by
  have h := hs.stopInv
  have hfwd : ∀ w ∈ s.stop_words_, ∀ d, w ∉ StdMap.keys (GetWordFrequencies s d) := by
    intro w hw d hk
    unfold GetWordFrequencies at hk
    cases hf : StdMap.find s.document_to_word_freqs_ d with
    | none =>
      rw [hf] at hk
      simp [StdMap.keys] at hk
    | some ws =>
      rw [hf] at hk
      exact h.fwd_words d ws hf w hk hw
  refine ⟨fun w hw hk => h.inv_keys w hk hw, hfwd, ?_, rfl, rfl, rfl, ⟨_, _, rfl⟩⟩
  intro w hw d
  have h2 : tfForward s d w = none := by
    rw [tfForward_eq_find]
    exact (StdMap.find_eq_none_iff _ _).2 (hfwd w hw d)
  exact ⟨by rw [hs.inv.mirror w d, h2], h2⟩

/-- C24, witness: the server with the stop words `in` and `the` after the document
"cat in the city" was added. -/
theorem C24_stop_words_not_indexed_witness :
    Reachable (AddDocument (stopWordServer ℚ) 42 "cat in the city".toList .ACTUAL
      [1, 2, 3]).1 ∧
    (∀ w ∈ (AddDocument (stopWordServer ℚ) 42 "cat in the city".toList .ACTUAL
        [1, 2, 3]).1.stop_words_,
      w ∉ StdMap.keys (AddDocument (stopWordServer ℚ) 42 "cat in the city".toList .ACTUAL
        [1, 2, 3]).1.word_to_document_freqs_) ∧
    (AddDocument (stopWordServer ℚ) 42 "cat in the city".toList .ACTUAL
      [1, 2, 3]).1.stop_words_ = ["in".toList, "the".toList] :=
  ⟨Reachable.add _ _ _ _ _ (Reachable.init ["in".toList, "the".toList] _ rfl),
    (C24_stop_words_not_indexed _
      (Reachable.add _ _ _ _ _ (Reachable.init ["in".toList, "the".toList] _ rfl))).1, rfl⟩

end SearchServer

namespace SearchServer

variable {α : Type} [LinearOrderedField α]

/-! ## Term frequencies of a document add up to 1 -/

theorem find_forward_foldl_ne (id : Int) (inv : α) (words : List StringView)
    (s : SearchServer α) (d : Int) (hd : d ≠ id) :
    StdMap.find (words.foldl (AddDocument.step id inv) s).document_to_word_freqs_ d =
      StdMap.find s.document_to_word_freqs_ d := by
  induction words generalizing s with
  | nil => rfl
  | cons x t ih =>
    rw [List.foldl_cons, ih]
    simp only [AddDocument.step, StdMap.find_update, if_neg hd]

theorem count_beq_inst (w : StringView) (l : List StringView) :
    @List.count StringView List.instBEq w l =
      @List.count StringView instBEqOfDecidableEq w l := by
  induction l with
  | nil => rfl
  | cons x t ih =>
    rw [@List.count_cons StringView List.instBEq, @List.count_cons StringView
      instBEqOfDecidableEq, ih]
    by_cases h : x = w
    · subst h
      simp
    · have h1 : @BEq.beq StringView List.instBEq x w = false := by
        rw [beq_eq_false_iff_ne]
        exact h
      have h2 : @BEq.beq StringView instBEqOfDecidableEq x w = false :=
        decide_eq_false h
      rw [h1, h2]

/-- The sum of the counts of the members of a duplicate-free list that has the same
members as `words` is the length of `words`. -/
theorem sum_count_of_nodup (keys words : List StringView) (hk : keys.Nodup)
    (hmem : ∀ w, w ∈ keys ↔ w ∈ words) :
    (keys.map (fun w => words.count w)).sum = words.length := by
  have hp : keys.Perm words.dedup :=
    (List.perm_ext_iff_of_nodup hk (List.nodup_dedup words)).2
      (fun w => by rw [hmem w, List.mem_dedup])
  rw [(hp.map (fun w => words.count w)).sum_eq]
  have h := List.sum_map_count_dedup_eq_length words
  have hfun : (fun w => @List.count StringView List.instBEq w words) =
      (fun w => @List.count StringView instBEqOfDecidableEq w words) :=
    funext (fun w => count_beq_inst w words)
  rw [hfun]
  exact h

/-- A forward entry whose lookups are `count / length` over a non-empty word list. -/
theorem entry_freqs (ws : StdMap StringView α) (words : List StringView)
    (hk : (StdMap.keys ws).Nodup)
    (hfind : ∀ w, StdMap.find ws w =
      if w ∈ words then some ((words.count w : α) * (1 / ((words.length : Nat) : α))) else none)
    (hne : ws ≠ []) :
    (ws.map Prod.snd).sum = 1 ∧ ∀ p ∈ ws, 0 < p.2 ∧ p.2 ≤ 1 := by
  have hval : ∀ p ∈ ws, p.1 ∈ words ∧
      p.2 = (words.count p.1 : α) * (1 / ((words.length : Nat) : α)) := by
    intro p hp
    have h1 := StdMap.find_of_mem ws hk p.1 p.2 hp
    rw [hfind p.1] at h1
    by_cases hw : p.1 ∈ words
    · rw [if_pos hw] at h1
      exact ⟨hw, (Option.some.inj h1).symm⟩
    · rw [if_neg hw] at h1
      exact Option.noConfusion h1
  have hlen : 0 < words.length := by
    obtain ⟨p, hp⟩ := List.exists_mem_of_ne_nil ws hne
    exact List.length_pos_of_mem (hval p hp).1
  have hlen' : (0 : α) < ((words.length : Nat) : α) := Nat.cast_pos.2 hlen
  constructor
  · have hmap : ws.map Prod.snd = (StdMap.keys ws).map
        (fun w => (words.count w : α) * (1 / ((words.length : Nat) : α))) := by
      unfold StdMap.keys
      rw [List.map_map]
      exact List.map_congr_left (fun p hp => (hval p hp).2)
    have hmem : ∀ w, w ∈ StdMap.keys ws ↔ w ∈ words := by
      intro w
      rw [← StdMap.find_isSome_iff, hfind w]
      by_cases hw : w ∈ words <;> simp [hw]
    have hsum := sum_count_of_nodup (StdMap.keys ws) words hk hmem
    have hcast : ((StdMap.keys ws).map (fun w => (words.count w : α))).sum =
        ((words.length : Nat) : α) := by
      rw [← hsum, Nat.cast_list_sum, List.map_map]
      rfl
    rw [hmap, List.sum_map_mul_right, hcast]
    field_simp
  · intro p hp
    obtain ⟨hw, hv⟩ := hval p hp
    have hc : 0 < words.count p.1 := List.count_pos_iff.2 hw
    have hc' : (0 : α) < (words.count p.1 : α) := Nat.cast_pos.2 hc
    have hle : (words.count p.1 : α) ≤ ((words.length : Nat) : α) :=
      Nat.cast_le.2 (List.count_le_length _ _)
    rw [hv]
    constructor
    · positivity
    · rw [mul_one_div, div_le_one hlen']
      exact hle

theorem FreqInv_AddDocument (s : SearchServer α) (hs : Reachable s) (id : Int)
    (text : StringView) (status : DocumentStatus) (ratings : List Int) (h : FreqInv s) :
    FreqInv (AddDocument s id text status ratings).1 := by
  by_cases hok : (AddDocument s id text status ratings).2 = .ok ()
  · have hinv' : Inv (AddDocument s id text status ratings).1 :=
      (Reachable.add s id text status ratings hs).inv
    have hord' : KeyOrder (AddDocument s id text status ratings).1 :=
      (Reachable.add s id text status ratings hs).keyOrder
    have hcase : ∀ d ws,
        StdMap.find (AddDocument s id text status ratings).1.document_to_word_freqs_ d =
          some ws → (ws.map Prod.snd).sum = 1 ∧ ∀ p ∈ ws, 0 < p.2 ∧ p.2 ≤ 1 := by
      intro d ws hws
      by_cases hd : d = id
      · subst hd
        apply entry_freqs ws ((SplitIntoWords text).filter (fun w => !IsStopWord s w))
          (hinv'.fwd_entry_nodup d ws hws) _ (hord'.fwd_entry_ne d ws hws)
        intro w
        have htf := (AddDocument_tf s hs.inv d text status ratings hok w).1
        unfold tfForward at htf
        rw [hws] at htf
        exact htf
      · obtain ⟨-, -, words, -, hst⟩ := AddDocument_ok s id text status ratings hok
        rw [hst] at hws
        simp only at hws
        rw [find_forward_foldl_ne id _ words _ d hd, (split_fields s text).2.2.1] at hws
        exact ⟨h.fwd_sum d ws hws, h.fwd_pos d ws hws⟩
    exact ⟨fun d ws hws => (hcase d ws hws).1, fun d ws hws => (hcase d ws hws).2⟩
  · obtain ⟨-, -, h3, -, -⟩ := AddDocument_error s id text status ratings hok
    constructor
    · rw [h3]
      exact h.fwd_sum
    · rw [h3]
      exact h.fwd_pos

theorem FreqInv_RemoveDocument (s : SearchServer α) (id : Int) (h : FreqInv s) :
    FreqInv (RemoveDocument s id).1 := by
  by_cases hid : id ∈ s.document_ids_
  · obtain ⟨-, -, -, -, -, hfwd, -⟩ := RemoveDocument_ok s id hid
    have hentry : ∀ d ws, StdMap.find (RemoveDocument s id).1.document_to_word_freqs_ d =
        some ws → StdMap.find s.document_to_word_freqs_ d = some ws := by
      intro d ws hws
      rw [hfwd d] at hws
      by_cases hd : d = id
      · rw [if_pos hd] at hws
        exact Option.noConfusion hws
      · rw [if_neg hd] at hws
        exact hws
    exact ⟨fun d ws hws => h.fwd_sum d ws (hentry d ws hws),
      fun d ws hws => h.fwd_pos d ws (hentry d ws hws)⟩
  · have hst : (RemoveDocument s id).1 = s := by
      unfold RemoveDocument
      rw [if_pos hid]
    rw [hst]
    exact h

theorem FreqInv_create (stop_words : List StringView) (s : SearchServer α)
    (h : create stop_words = .ok s) : FreqInv s := by
  unfold create at h
  by_cases hv : ¬ (MakeUniqueNonEmptyStrings stop_words).all IsValidWord
  · simp [hv] at h
  · simp only [hv, if_false, Except.ok.injEq] at h
    subst h
    constructor <;> simp [StdMap.find]

theorem Reachable.freqInv {s : SearchServer α} (h : Reachable s) : FreqInv s := by
  induction h with
  | init stop_words s h => exact FreqInv_create stop_words s h
  | add s id text status ratings hr ih => exact FreqInv_AddDocument s hr id text status ratings ih
  | remove s id _ ih => exact FreqInv_RemoveDocument s id ih

/-- In a reachable state the forward entry of a document with an indexed term adds up to 1,
and the frequency of every term of the document lies in `(0, 1]`. -/
theorem termFreq_bounds (s : SearchServer α) (hs : Reachable s) (d : Int)
    (hterm : GetWordFrequencies s d ≠ []) :
    ((GetWordFrequencies s d).map Prod.snd).sum = 1 ∧
    (∀ w, w ∈ StdMap.keys (GetWordFrequencies s d) →
      0 < termFreq s d w ∧ termFreq s d w ≤ 1) := by
  have h := hs.freqInv
  cases hf : StdMap.find s.document_to_word_freqs_ d with
  | none =>
    exfalso
    apply hterm
    unfold GetWordFrequencies
    rw [hf]
  | some ws =>
    have hget : GetWordFrequencies s d = ws := by
      unfold GetWordFrequencies
      rw [hf]
    rw [hget]
    refine ⟨h.fwd_sum d ws hf, ?_⟩
    intro w hw
    unfold termFreq
    rw [hget]
    obtain ⟨p, hp, rfl⟩ := List.mem_map.1 hw
    rw [StdMap.find_of_mem ws (hs.inv.fwd_entry_nodup d ws hf) p.1 p.2 hp]
    exact h.fwd_pos d ws hf p hp

/-- C25, counterexample: in the arithmetic of `double`, the document "a a a a a a a a a" added
to an empty server has the single term `a`, whose frequency is the result of adding the
rounded `1.0 / 9` nine times: `4503599627370497 / 2^52`, which is `1 + 2^-52` and exceeds
1. -/
theorem C25_term_frequency_counterexample :
    ReachableFl roundBinary64 (AddDocumentFl roundBinary64 (emptyServer ℚ) 1
      "a a a a a a a a a".toList .ACTUAL [1]).1 ∧
    GetWordFrequencies (AddDocumentFl roundBinary64 (emptyServer ℚ) 1
        "a a a a a a a a a".toList .ACTUAL [1]).1 1 =
      [("a".toList, 4503599627370497 / 4503599627370496)] ∧
    (4503599627370497 / 4503599627370496 : ℚ) = 1 + 1 / 2 ^ 52 ∧
    ¬ (∀ p ∈ GetWordFrequencies (AddDocumentFl roundBinary64 (emptyServer ℚ) 1
        "a a a a a a a a a".toList .ACTUAL [1]).1 1, 0 < p.2 ∧ p.2 ≤ 1) := by
  refine ⟨ReachableFl.add _ _ _ _ _ (reachableFl_emptyServer roundBinary64), by decide!,
    by norm_num, by decide!⟩

/-- C25, amended: in every reachable index state, for every document id that has at least one
indexed term (such an id is in the index), every term frequency of its forward entry is
positive, also in arithmetic where `fl` rounds every operation on a `double` (for a rounding
that keeps positive values positive); over exact rationals (a rounding that changes no
value) the term frequencies of the entry add up to 1 and every term frequency is at most
1. -/
theorem C25_term_frequencies_positive_and_exact_sum (fl : α → α)
    (hfl : ∀ x, 0 < x → 0 < fl x) (s : SearchServer α) (hs : ReachableFl fl s) (d : Int)
    (hterm : GetWordFrequencies s d ≠ []) :
    d ∈ documentIds s ∧
    (∀ p ∈ GetWordFrequencies s d, 0 < p.2) ∧
    (∀ w, w ∈ StdMap.keys (GetWordFrequencies s d) → 0 < termFreq s d w) ∧
    ((∀ x, fl x = x) →
      ((GetWordFrequencies s d).map Prod.snd).sum = 1 ∧
      (∀ p ∈ GetWordFrequencies s d, p.2 ≤ 1) ∧
      (∀ w, w ∈ StdMap.keys (GetWordFrequencies s d) → termFreq s d w ≤ 1)) := by
  have hpos := hs.posInv hfl
  have hinv := hs.invFl
  cases hf : StdMap.find s.document_to_word_freqs_ d with
  | none =>
    exfalso
    apply hterm
    unfold GetWordFrequencies
    rw [hf]
  | some ws =>
    have hget : GetWordFrequencies s d = ws := by
      unfold GetWordFrequencies
      rw [hf]
    have hval : ∀ w, w ∈ StdMap.keys ws → ∃ p ∈ ws, termFreq s d w = p.2 := by
      intro w hw
      unfold termFreq
      rw [hget]
      obtain ⟨p, hp, rfl⟩ := List.mem_map.1 hw
      rw [StdMap.find_of_mem ws (hinv.fwd_entry_nodup d ws hf) p.1 p.2 hp]
      exact ⟨p, hp, rfl⟩
    rw [hget]
    refine ⟨hinv.fwd_ids d ((StdMap.find_isSome_iff _ _).1 (by rw [hf]; rfl)),
      hpos d ws hf, ?_, ?_⟩
    · intro w hw
      obtain ⟨p, hp, he⟩ := hval w hw
      rw [he]
      exact hpos d ws hf p hp
    · intro hexact
      have h := (hs.exact hexact).freqInv
      refine ⟨h.fwd_sum d ws hf, fun p hp => (h.fwd_pos d ws hf p hp).2, ?_⟩
      intro w hw
      obtain ⟨p, hp, he⟩ := hval w hw
      rw [he]
      exact (h.fwd_pos d ws hf p hp).2

/-- C25, witness: the document of nine tokens `a` in the arithmetic of `double`, whose one
frequency is positive; and the document 42, "cat in the city", in exact arithmetic, whose
four terms have the frequency 1/4 each. -/
theorem C25_term_frequencies_positive_and_exact_sum_witness :
    ((∀ x : ℚ, 0 < x → 0 < roundBinary64 x) ∧
      ReachableFl roundBinary64 (AddDocumentFl roundBinary64 (emptyServer ℚ) 1
        "a a a a a a a a a".toList .ACTUAL [1]).1 ∧
      GetWordFrequencies (AddDocumentFl roundBinary64 (emptyServer ℚ) 1
        "a a a a a a a a a".toList .ACTUAL [1]).1 1 ≠ [] ∧
      (1 : Int) ∈ documentIds (AddDocumentFl roundBinary64 (emptyServer ℚ) 1
        "a a a a a a a a a".toList .ACTUAL [1]).1 ∧
      ∀ p ∈ GetWordFrequencies (AddDocumentFl roundBinary64 (emptyServer ℚ) 1
        "a a a a a a a a a".toList .ACTUAL [1]).1 1, 0 < p.2) ∧
    (ReachableFl (fun x => x) (catServer ℚ) ∧
      GetWordFrequencies (catServer ℚ) 42 ≠ [] ∧
      (StdMap.keys (GetWordFrequencies (catServer ℚ) 42)).length = 4 ∧
      ((GetWordFrequencies (catServer ℚ) 42).map Prod.snd).sum = 1 ∧
      (∀ p ∈ GetWordFrequencies (catServer ℚ) 42, p.2 ≤ 1) ∧
      (∀ w, w ∈ StdMap.keys (GetWordFrequencies (catServer ℚ) 42) →
        termFreq (catServer ℚ) 42 w ≤ 1)) :=
  ⟨⟨roundBinary64_pos,
      ReachableFl.add _ _ _ _ _ (reachableFl_emptyServer roundBinary64), by decide!,
      (C25_term_frequencies_positive_and_exact_sum roundBinary64 roundBinary64_pos _
        (ReachableFl.add _ 1 "a a a a a a a a a".toList .ACTUAL [1]
          (reachableFl_emptyServer roundBinary64)) 1 (by decide!)).1,
      (C25_term_frequencies_positive_and_exact_sum roundBinary64 roundBinary64_pos _
        (ReachableFl.add _ 1 "a a a a a a a a a".toList .ACTUAL [1]
          (reachableFl_emptyServer roundBinary64)) 1 (by decide!)).2.1⟩,
    ⟨(reachable_catServer ℚ).rounded, by decide, by decide,
      (C25_term_frequencies_positive_and_exact_sum (fun x => x) (fun _ h => h) (catServer ℚ)
        (reachable_catServer ℚ).rounded 42 (by decide)).2.2.2 (fun _ => rfl)⟩⟩

end SearchServer

namespace SearchServer

variable {α : Type} [LinearOrderedField α]

/-! ## Relevance is not negative -/

theorem Inv.length_ids {s : SearchServer α} (h : Inv s) :
    s.document_ids_.length = GetDocumentCount s := by
  have hp : s.document_ids_.Perm (StdMap.keys s.documents_) :=
    (List.perm_ext_iff_of_nodup h.ids_nodup h.docs_nodup).2 h.ids_docs
  unfold GetDocumentCount
  rw [hp.length_eq]
  simp [StdMap.keys]

/-- A term that occurs in a document is contained in at least one and at most all of the
documents of the index. -/
theorem documentFreq_bounds (s : SearchServer α) (h : Inv s) (w : StringView) (d : Int)
    (ho : occursIn s w d) :
    1 ≤ documentFreq s w ∧ documentFreq s w ≤ GetDocumentCount s := by
  unfold documentFreq
  constructor
  · apply List.length_pos_of_mem (a := d)
    rw [List.mem_filter]
    exact ⟨occursIn_mem_ids h w d ho, decide_eq_true ho⟩
  · rw [← h.length_ids]
    exact List.length_filter_le _ _

theorem tfIdfSum_nonneg (ln : α → α) (hln : ∀ x, 1 ≤ x → 0 ≤ ln x) (s : SearchServer α)
    (hs : Reachable s) (plus_words : List StringView) (d : Int) :
    0 ≤ tfIdfSum ln s plus_words d := by
  unfold tfIdfSum
  apply List.sum_nonneg
  intro x hx
  obtain ⟨w, hw, rfl⟩ := List.mem_map.1 hx
  have ho : occursIn s w d := of_decide_eq_true (List.mem_filter.1 hw).2
  obtain ⟨h1, h2⟩ := documentFreq_bounds s hs.inv w d ho
  have hterm : GetWordFrequencies s d ≠ [] := by
    intro hnil
    unfold occursIn at ho
    rw [hnil] at ho
    simp [StdMap.keys] at ho
  have htf := ((termFreq_bounds s hs d hterm).2 w ho).1
  have hpos : (0 : α) < (documentFreq s w : α) := Nat.cast_pos.2 h1
  have hge : (1 : α) ≤ (GetDocumentCount s : α) / (documentFreq s w : α) := by
    rw [one_le_div hpos]
    exact Nat.cast_le.2 h2
  exact mul_nonneg (le_of_lt htf) (hln _ hge)

/-- With a logarithm that is not negative from 1 on, every document that
`FindAllDocuments` or `FindTopDocuments` returns in a reachable state has a relevance that
is not negative. -/
theorem relevance_nonneg (ln : α → α) (hln : ∀ x, 1 ≤ x → 0 ≤ ln x) (s : SearchServer α)
    (hs : Reachable s) (policy : Policy) (query : Query) (raw_query : StringView)
    (pred : DocumentPredicate) :
    (∃ docs, FindAllDocuments ln s policy query pred = .ok docs ∧
      ∀ doc ∈ docs, 0 ≤ doc.relevance) ∧
    (∀ docs, FindTopDocuments ln s policy raw_query pred = .ok docs →
      ∀ doc ∈ docs, 0 ≤ doc.relevance) := by
  have hall : ∀ q : Query, ∃ docs, FindAllDocuments ln s policy q pred = .ok docs ∧
      ∀ doc ∈ docs, 0 ≤ doc.relevance := by
    intro q
    obtain ⟨res, hres, -, hmem⟩ := FindAllDocuments_spec ln s hs.inv policy q pred
    refine ⟨res, hres, fun doc hdoc => ?_⟩
    have hrel := ((hmem doc).1 hdoc).1
    rw [hs.inv.relevanceOf_eq_tfIdfSum ln pred q doc.id doc.relevance hrel]
    exact tfIdfSum_nonneg ln hln s hs q.plus_words doc.id
  refine ⟨hall query, ?_⟩
  intro docs hdocs doc hdoc
  cases hq : ParseQuery s raw_query with
  | error e =>
    unfold FindTopDocuments at hdocs
    rw [hq] at hdocs
    exact Except.noConfusion hdocs
  | ok q =>
    obtain ⟨res, hres, hnn⟩ := hall q
    rw [FindTopDocuments_eq ln s policy raw_query pred q res hq hres] at hdocs
    rw [← Except.ok.inj hdocs] at hdoc
    exact hnn doc (mem_rank res doc hdoc)

/-- C23: over the real numbers with the natural logarithm, in every reachable index state and
for every policy, query and predicate, `FindAllDocuments` returns and every document it
returns, and every document that `FindTopDocuments` returns, has a relevance `>= 0`: a term
that occurs in a document is contained in at least one and at most all documents of the
index, so its inverse document frequency is `>= 0`, and its term frequency is `> 0`. -/
theorem C23_relevance_nonneg (s : SearchServer ℝ) (hs : Reachable s) (policy : Policy)
    (query : Query) (raw_query : StringView) (pred : DocumentPredicate) :
    (∃ docs, FindAllDocuments Real.log s policy query pred = .ok docs ∧
      ∀ doc ∈ docs, 0 ≤ doc.relevance) ∧
    (∀ docs, FindTopDocuments Real.log s policy raw_query pred = .ok docs →
      ∀ doc ∈ docs, 0 ≤ doc.relevance) ∧
    (∀ w d, occursIn s w d →
      1 ≤ documentFreq s w ∧ documentFreq s w ≤ GetDocumentCount s ∧
      0 ≤ Real.log ((GetDocumentCount s : ℝ) / (documentFreq s w : ℝ)) ∧
      0 < termFreq s d w) := by
  obtain ⟨h1, h2⟩ := relevance_nonneg Real.log (fun x hx => Real.log_nonneg hx) s hs policy
    query raw_query pred
  refine ⟨h1, h2, ?_⟩
  intro w d ho
  obtain ⟨b1, b2⟩ := documentFreq_bounds s hs.inv w d ho
  have hterm : GetWordFrequencies s d ≠ [] := by
    intro hnil
    unfold occursIn at ho
    rw [hnil] at ho
    simp [StdMap.keys] at ho
  refine ⟨b1, b2, ?_, ((termFreq_bounds s hs d hterm).2 w ho).1⟩
  apply Real.log_nonneg
  have hpos : (0 : ℝ) < (documentFreq s w : ℝ) := Nat.cast_pos.2 b1
  rw [one_le_div hpos]
  exact Nat.cast_le.2 b2

/-- C23, witness: the query with the plus word `cat` at the server that holds the document
42, "cat in the city". -/
theorem C23_relevance_nonneg_witness :
    Reachable (catServer ℝ) ∧
    (∃ docs, FindAllDocuments Real.log (catServer ℝ) Policy.seq ⟨["cat".toList], []⟩
        (statusIs .ACTUAL) = .ok docs ∧ ∀ doc ∈ docs, 0 ≤ doc.relevance) ∧
    (∀ docs, FindTopDocuments Real.log (catServer ℝ) Policy.seq "cat".toList
        (statusIs .ACTUAL) = .ok docs → ∀ doc ∈ docs, 0 ≤ doc.relevance) :=
  have h := C23_relevance_nonneg (catServer ℝ) (reachable_catServer ℝ) Policy.seq
    ⟨["cat".toList], []⟩ "cat".toList (statusIs .ACTUAL)
  ⟨reachable_catServer ℝ, h.1, h.2.1⟩

end SearchServer

namespace SearchServer

variable {α : Type} [LinearOrderedField α]

/-! ## The divisor of `ComputeWordInverseDocumentFreq` -/

/-- The calls of `ComputeWordInverseDocumentFreq` are made for the plus words that are keys of
the inverted index, and the divisor of a call is zero exactly when the inverted entry of
the word is empty. -/
theorem mem_idfCalls (s : SearchServer α) (query : Query) (word : StringView) (n : Nat) :
    (word, n) ∈ FindAllDocuments.idfCalls s query ↔
      (word ∈ query.plus_words ∧
        ∃ docs, StdMap.find s.word_to_document_freqs_ word = some docs ∧ docs.length = n) := by
  unfold FindAllDocuments.idfCalls
  rw [List.mem_filterMap]
  constructor
  · rintro ⟨w, hw, h⟩
    cases hf : StdMap.find s.word_to_document_freqs_ w with
    | none =>
      rw [hf] at h
      exact Option.noConfusion h
    | some docs =>
      rw [hf] at h
      simp only [Option.some.injEq, Prod.mk.injEq] at h
      obtain ⟨rfl, rfl⟩ := h
      exact ⟨hw, docs, hf, rfl⟩
  · rintro ⟨hw, docs, hf, rfl⟩
    exact ⟨word, hw, by rw [hf]⟩

set_option maxRecDepth 100000 in
/-- C21, failing input: after `AddDocument(1, "cat")` and `RemoveDocument(1)` the inverted
index keeps the key `cat` with an empty entry; the query "cat" passes the guard of
`FindAllDocuments`, which calls `ComputeWordInverseDocumentFreq("cat")` with the divisor
`word_to_document_freqs_.at("cat").size() = 0`.  The same happens with a second document
left in the index (document count 1, divisor 0).  The search itself returns no document. -/
theorem C21_idf_evaluated_with_zero_divisor :
    Reachable (RemoveDocument (AddDocument (emptyServer ℚ) 1 "cat".toList .ACTUAL [1]).1 1).1 ∧
    (AddDocument (emptyServer ℚ) 1 "cat".toList .ACTUAL [1]).2 = .ok () ∧
    (RemoveDocument (AddDocument (emptyServer ℚ) 1 "cat".toList .ACTUAL [1]).1 1).2 = .ok () ∧
    ParseQuery (RemoveDocument (AddDocument (emptyServer ℚ) 1 "cat".toList .ACTUAL [1]).1 1).1
      "cat".toList = .ok ⟨["cat".toList], []⟩ ∧
    StdMap.find (RemoveDocument (AddDocument (emptyServer ℚ) 1 "cat".toList .ACTUAL
      [1]).1 1).1.word_to_document_freqs_ "cat".toList = some [] ∧
    FindAllDocuments.idfCalls
      (RemoveDocument (AddDocument (emptyServer ℚ) 1 "cat".toList .ACTUAL [1]).1 1).1
      ⟨["cat".toList], []⟩ = [("cat".toList, 0)] ∧
    GetDocumentCount
      (RemoveDocument (AddDocument (emptyServer ℚ) 1 "cat".toList .ACTUAL [1]).1 1).1 = 0 ∧
    FindTopDocuments (fun x => x)
      (RemoveDocument (AddDocument (emptyServer ℚ) 1 "cat".toList .ACTUAL [1]).1 1).1
      Policy.seq "cat".toList (statusIs .ACTUAL) = .ok [] ∧
    FindAllDocuments.idfCalls
      (RemoveDocument (AddDocument (AddDocument (emptyServer ℚ) 1 "cat".toList .ACTUAL [1]).1
        2 "dog".toList .ACTUAL [1]).1 1).1
      ⟨["cat".toList], []⟩ = [("cat".toList, 0)] ∧
    GetDocumentCount
      (RemoveDocument (AddDocument (AddDocument (emptyServer ℚ) 1 "cat".toList .ACTUAL [1]).1
        2 "dog".toList .ACTUAL [1]).1 1).1 = 1 :=
  ⟨Reachable.remove _ _ (Reachable.add _ _ _ _ _ (reachable_emptyServer ℚ)),
    rfl, rfl, rfl, rfl, rfl, rfl, rfl, rfl, rfl⟩

end SearchServer

namespace BasicIterator

variable {β : Type}

/-! ## The flattening iterator -/

theorem get?_append_cons {γ : Type} (pre : List γ) (c : γ) (post : List γ) :
    (pre ++ c :: post).get? pre.length = some c := by
  rw [List.get?_eq_getElem?, List.getElem?_append_right (Nat.le_refl _), Nat.sub_self,
    List.getElem?_cons_zero]

/-- The loop of `SetInternalItBegin`, started at the position `pre.length` of
`outer = pre ++ post` with enough fuel, ends with the elements of `post` to visit. -/
theorem setLoop_remaining (outer post : List (List β)) :
    ∀ (pre : List (List β)) (int : Option (Nat × Nat)) (fuel : Nat),
      outer = pre ++ post → post.length < fuel →
      ∃ it, SetInternalItBegin.loop outer fuel ⟨pre.length, outer.length, int⟩ = some it ∧
        Remaining outer it post.flatten := by
  induction post with
  | nil =>
    intro pre int fuel houter hfuel
    have hlen : pre.length = outer.length := by rw [houter, List.append_nil]
    refine ⟨⟨pre.length, outer.length, int⟩, ?_, rfl, Or.inl ⟨rfl, hlen⟩⟩
    cases fuel with
    | zero => exact absurd hfuel (Nat.lt_irrefl 0)
    | succ fuel =>
      unfold SetInternalItBegin.loop
      simp [hlen]
  | cons c0 post1 ih =>
    intro pre int fuel houter hfuel
    have hne : pre.length ≠ outer.length := by
      rw [houter, List.length_append, List.length_cons]
      omega
    have hget : outer.get? pre.length = some c0 := by
      rw [houter]
      exact get?_append_cons pre c0 post1
    cases fuel with
    | zero => exact absurd hfuel (Nat.not_lt_zero _)
    | succ fuel =>
      unfold SetInternalItBegin.loop
      simp only [ne_eq, hne, not_false_eq_true, if_true, hget]
      cases c0 with
      | nil =>
        simp only [List.length_nil, if_true]
        have houter' : outer = (pre ++ [[]]) ++ post1 := by simp [houter]
        have := ih (pre ++ [[]]) (some (pre.length, 0)) fuel houter'
          (by simp only [List.length_cons] at hfuel; omega)
        simpa using this
      | cons x cpost =>
        have hneq : ¬ ((pre.length, 0) : Nat × Nat) = (pre.length, (x :: cpost).length) := by
          simp
        rw [if_neg hneq]
        refine ⟨_, rfl, rfl, Or.inr ⟨pre, [], x, cpost, post1, ?_, rfl, rfl, ?_⟩⟩
        · simpa using houter
        · simp

theorem beginOf_remaining (outer : List (List β)) :
    ∃ first, beginOf outer = some first ∧ Remaining outer first outer.flatten := by
  have := setLoop_remaining outer outer [] none (outer.length + 1) rfl (Nat.lt_succ_self _)
  simpa [beginOf, create, SetInternalItBegin] using this

theorem endOf_eq (outer : List (List β)) :
    endOf outer = some ⟨outer.length, outer.length, none⟩ := by
  unfold endOf create SetInternalItBegin SetInternalItBegin.loop
  simp

/-- At the end position the iterator compares equal to `end()`. -/
theorem eq_of_remaining_nil (outer : List (List β)) (it : BasicIterator)
    (h : Remaining outer it []) : eq it ⟨outer.length, outer.length, none⟩ = true := by
  obtain ⟨hend, h | ⟨pre, cpre, x, cpost, post, -, -, -, hrest⟩⟩ := h
  · unfold eq
    simp [hend, h.2]
  · exact List.noConfusion hrest

/-- At an element the iterator differs from `end()`, `operator*` gives the element, and
`operator++` moves to the position of the following elements. -/
theorem step_of_remaining (outer : List (List β)) (it : BasicIterator) (x : β) (rest : List β)
    (h : Remaining outer it (x :: rest)) :
    eq it ⟨outer.length, outer.length, none⟩ = false ∧ deref outer it = some x ∧
    ∃ next, Plus outer it = some next ∧ Remaining outer next rest := by
  obtain ⟨e, en, int⟩ := it
  obtain ⟨hend, h | ⟨pre, cpre, y, cpost, post, houter, hext, hint, hrest⟩⟩ := h
  · exact List.noConfusion h.1
  simp only at hend hext hint
  subst hend hext hint
  simp only [List.cons_append, List.cons.injEq] at hrest
  obtain ⟨rfl, rfl⟩ := hrest
  have hne : pre.length ≠ outer.length := by
    rw [houter, List.length_append, List.length_cons]
    omega
  have hget : outer.get? pre.length = some (cpre ++ x :: cpost) := by
    rw [houter]
    exact get?_append_cons pre _ post
  refine ⟨?_, ?_, ?_⟩
  · unfold eq
    simp [hne]
  · unfold deref
    simp only [hget]
    exact get?_append_cons cpre x cpost
  · unfold Plus
    simp only [hget, List.length_append, List.length_cons]
    have hlt : ¬ (cpre.length + (cpost.length + 1) ≤ cpre.length) := by omega
    rw [if_neg hlt]
    cases cpost with
    | nil =>
      simp only [List.length_nil, Nat.zero_add, if_true]
      have houter' : outer = (pre ++ [cpre ++ [x]]) ++ post := by simp [houter]
      have := setLoop_remaining outer post (pre ++ [cpre ++ [x]])
        (some (pre.length, cpre.length + 1)) (outer.length + 1) houter'
        (by rw [houter]; simp only [List.length_append, List.length_cons]; omega)
      simpa [SetInternalItBegin] using this
    | cons x' cpost' =>
      have hneq : ¬ ((pre.length, cpre.length + 1) : Nat × Nat) =
          (pre.length, cpre.length + ((x' :: cpost').length + 1)) := by
        simp
      rw [if_neg hneq]
      refine ⟨_, rfl, rfl, Or.inr ⟨pre, cpre ++ [x], x', cpost', post, ?_, rfl, ?_, ?_⟩⟩
      · simpa using houter
      · simp
      · simp

/-- The traversal from a position to `end()` with enough fuel collects the remaining
elements. -/
theorem collect_of_remaining (outer : List (List β)) (rest : List β) :
    ∀ (it : BasicIterator) (acc : List β) (fuel : Nat), Remaining outer it rest →
      rest.length < fuel →
      collect outer fuel it ⟨outer.length, outer.length, none⟩ acc = some (acc ++ rest) := by
  induction rest with
  | nil =>
    intro it acc fuel h hfuel
    cases fuel with
    | zero => exact absurd hfuel (Nat.lt_irrefl 0)
    | succ fuel =>
      unfold collect ne
      rw [eq_of_remaining_nil outer it h]
      simp
  | cons x rest ih =>
    intro it acc fuel h hfuel
    cases fuel with
    | zero => exact absurd hfuel (Nat.not_lt_zero _)
    | succ fuel =>
      obtain ⟨h1, h2, next, h3, h4⟩ := step_of_remaining outer it x rest h
      unfold collect ne
      rw [h1]
      simp only [Bool.not_false, if_true, h2, h3]
      rw [ih next (acc ++ [x]) fuel h4 (by simp only [List.length_cons] at hfuel; omega)]
      simp

/-- With more fuel than elements, the traversal `begin() .. end()` yields the
concatenation of the containers. -/
theorem elements_eq_flatten (outer : List (List β)) (fuel : Nat)
    (hfuel : outer.flatten.length < fuel) : elements outer fuel = some outer.flatten := by
  obtain ⟨first, hfirst, hrem⟩ := beginOf_remaining outer
  unfold elements
  rw [hfirst, endOf_eq]
  have := collect_of_remaining outer outer.flatten first [] fuel hrem hfuel
  simpa using this

/-- C27: for every finite sequence `outer` of containers (any of them may be empty, all of
them may be, and the sequence itself may be empty), the iterators `begin()` and `end()` are
constructed without an undefined operation, and the traversal from `begin()` until the
iterator compares equal to `end()` ends after as many steps as there are elements and
yields exactly the concatenation of the containers in order; since the traversal returns a
result, no `operator*` and no `operator++` of it is applied at the end of an inner
container. -/
theorem C27_BasicIterator_concatenation (outer : List (List β)) :
    ∃ first last, beginOf outer = some first ∧ endOf outer = some last ∧
      (∀ fuel, outer.flatten.length < fuel →
        collect outer fuel first last [] = some outer.flatten) ∧
      (∀ fuel, outer.flatten.length < fuel → elements outer fuel = some outer.flatten) ∧
      elements ([] : List (List Nat)) 1 = some [] ∧
      elements ([[], []] : List (List Nat)) 1 = some [] ∧
      elements ([[], [1, 2], [], [3], []] : List (List Nat)) 4 = some [1, 2, 3] := by
  obtain ⟨first, hfirst, hrem⟩ := beginOf_remaining outer
  have hcollect : ∀ fuel, outer.flatten.length < fuel →
      collect outer fuel first ⟨outer.length, outer.length, none⟩ [] = some outer.flatten := by
    intro fuel hfuel
    have := collect_of_remaining outer outer.flatten first [] fuel hrem hfuel
    simpa using this
  exact ⟨first, ⟨outer.length, outer.length, none⟩, hfirst, endOf_eq outer, hcollect,
    elements_eq_flatten outer, by decide, by decide, by decide⟩

end BasicIterator

/-! ## The sharded accumulator refines one ordinary map -/

namespace StdMap

variable {V : Type}

theorem find_insert_range (shard result : StdMap Int V) (k : Int) :
    find (shard.foldl (fun result p => emplace result p.1 p.2) result) k =
      (find result k).or (find shard k) := by
  induction shard generalizing result with
  | nil =>
    rw [List.foldl_nil, find_nil]
    cases find result k <;> rfl
  | cons p t ih =>
    obtain ⟨pk, pv⟩ := p
    rw [List.foldl_cons, ih]
    simp only [emplace, find_update, find_cons]
    by_cases hk : k = pk
    · subst hk
      cases find result k <;> simp
    · simp [hk]

theorem sorted_insert_range (shard result : StdMap Int V)
    (h : (keys result).Sorted (· < ·)) :
    (keys (shard.foldl (fun result p => emplace result p.1 p.2) result)).Sorted (· < ·) := by
  induction shard generalizing result with
  | nil => exact h
  | cons p t ih =>
    rw [List.foldl_cons]
    exact ih _ (sorted_update _ _ _ _ h)

/-- Two maps in ascending key order with the same lookups are equal. -/
theorem ext_of_sorted (m₁ m₂ : StdMap Int V) (h₁ : (keys m₁).Sorted (· < ·))
    (h₂ : (keys m₂).Sorted (· < ·)) (h : ∀ k, find m₁ k = find m₂ k) : m₁ = m₂ := by
  classical
  have n₁ := nodup_of_sorted m₁ h₁
  have n₂ := nodup_of_sorted m₂ h₂
  have hperm : m₁.Perm m₂ := by
    rw [List.perm_ext_iff_of_nodup (List.Nodup.of_map Prod.fst n₁)
      (List.Nodup.of_map Prod.fst n₂)]
    rintro ⟨k, v⟩
    rw [← find_iff_mem m₁ n₁, ← find_iff_mem m₂ n₂, h k]
  haveI : IsAntisymm (Int × V) (fun a b => a.1 < b.1) :=
    ⟨fun a b hab hba => absurd hab (lt_asymm hba)⟩
  have s₁ : m₁.Sorted (fun a b => a.1 < b.1) := List.pairwise_map.1 h₁
  have s₂ : m₂.Sorted (fun a b => a.1 < b.1) := List.pairwise_map.1 h₂
  exact List.eq_of_perm_of_sorted hperm s₁ s₂

end StdMap

namespace ConcurrentMap

variable {V : Type}

theorem find_toList (cm : ConcurrentMap V) (h : WF cm) (k : Int) :
    StdMap.find (toList cm) k = get cm k := by
  have hnd := nodup_keys_toList cm h
  cases hg : get cm k with
  | none =>
    cases hf : StdMap.find (toList cm) k with
    | none => rfl
    | some v =>
      have := (mem_toList_iff cm h k v).1 (StdMap.mem_of_find _ _ _ hf)
      rw [hg] at this
      exact Option.noConfusion this
  | some v =>
    exact StdMap.find_of_mem _ hnd k v ((mem_toList_iff cm h k v).2 hg)

theorem BuildOrdinaryMap_eq (cm : ConcurrentMap V) :
    BuildOrdinaryMap cm =
      (toList cm).foldl (fun result p => StdMap.emplace result p.1 p.2) [] := by
  unfold BuildOrdinaryMap toList
  rw [List.foldl_flatten]

theorem find_BuildOrdinaryMap (cm : ConcurrentMap V) (h : WF cm) (k : Int) :
    StdMap.find (BuildOrdinaryMap cm) k = get cm k := by
  rw [BuildOrdinaryMap_eq, StdMap.find_insert_range, find_toList cm h]
  rfl

theorem sorted_BuildOrdinaryMap (cm : ConcurrentMap V) :
    (StdMap.keys (BuildOrdinaryMap cm)).Sorted (· < ·) := by
  rw [BuildOrdinaryMap_eq]
  exact StdMap.sorted_insert_range _ _ List.sorted_nil

variable [Zero V] [Add V]

/-- The refinement relation between the sharded map and the ordinary map is kept by every
operation. -/
theorem applyOp_refines (ops : List (MapOp V)) (cm : ConcurrentMap V) (m : StdMap Int V)
    (hwf : WF cm) (hget : ∀ k, get cm k = StdMap.find m k)
    (hsorted : (StdMap.keys m).Sorted (· < ·)) :
    WF (ops.foldl applyOp cm) ∧
    (∀ k, get (ops.foldl applyOp cm) k = StdMap.find (ops.foldl StdMap.applyOp m) k) ∧
    (StdMap.keys (ops.foldl StdMap.applyOp m)).Sorted (· < ·) ∧
    (ops.foldl applyOp cm).maps_.length = cm.maps_.length := by
  induction ops generalizing cm m with
  | nil => exact ⟨hwf, hget, hsorted, rfl⟩
  | cons op t ih =>
    rw [List.foldl_cons, List.foldl_cons]
    cases op with
    | accumulate key value =>
      obtain ⟨h1, h2, h3, h4⟩ := ih (applyOp cm (.accumulate key value))
        (StdMap.applyOp m (.accumulate key value))
        (WF_access cm hwf key 0 _)
        (fun k => by
          simp only [applyOp, StdMap.applyOp]
          rw [get_access cm hwf.1, StdMap.find_update, hget key, hget k])
        (StdMap.sorted_update _ _ _ _ hsorted)
      refine ⟨h1, h2, h3, ?_⟩
      rw [h4]
      simp [applyOp, access, length_modifyNth]
    | erase key =>
      obtain ⟨h1, h2, h3, h4⟩ := ih (applyOp cm (.erase key)) (StdMap.applyOp m (.erase key))
        (WF_erase cm hwf key)
        (fun k => by
          simp only [applyOp, StdMap.applyOp]
          rw [get_erase cm hwf.1, StdMap.find_erase, hget k])
        (StdMap.sorted_erase _ _ hsorted)
      refine ⟨h1, h2, h3, ?_⟩
      rw [h4]
      simp [applyOp, erase, length_modifyNth]

/-- C26, counterexample: with 3 shards the key `-1` is held by the shard 0, because the
index is computed from the key converted to `uint64_t`; `-1 mod 3` is 2 (and `-1 % 3` is
`-1` in the arithmetic of `int`). -/
theorem C26_shard_index_counterexample :
    index (create 3 : ConcurrentMap Int) (-1) = 0 ∧
    (-1 : Int) % 3 = 2 ∧ Int.tmod (-1) 3 = -1 ∧
    (applyOp (create 3 : ConcurrentMap Int) (.accumulate (-1) 1)).maps_ =
      [[(-1, 1)], [], []] ∧
    ¬ (∀ key : Int, ((index (create 3 : ConcurrentMap Int) key : Nat) : Int) = key % 3) := by
  refine ⟨by decide, by decide, by decide, by decide, ?_⟩
  intro h
  exact absurd (h (-1)) (by decide)

/-- C26 (amended): for every shard count `N >= 1` and every sequence of accumulate and erase
operations applied one after another to a `ConcurrentMap` with `N` shards,
`BuildOrdinaryMap` is exactly the ordinary map obtained by applying the same operations to an
empty `std::map` (an absent key is created with the value 0), and the flat iteration
`begin() .. end()` yields exactly the pairs of that map, each once; every key is held by
exactly one shard, the shard with the index `(key converted to uint64_t) mod N`, which is
`key mod N` for a key that is not negative. -/
theorem C26_ConcurrentMap_refines_map (N : Nat) (hN : 0 < N) (ops : List (MapOp V)) :
    BuildOrdinaryMap (ops.foldl applyOp (create N)) = ops.foldl StdMap.applyOp [] ∧
    (toList (ops.foldl applyOp (create N))).Perm (ops.foldl StdMap.applyOp []) ∧
    (∀ fuel, (toList (ops.foldl applyOp (create N))).length < fuel →
      BasicIterator.elements (ops.foldl applyOp (create N)).maps_ fuel =
        some (toList (ops.foldl applyOp (create N)))) ∧
    (StdMap.keys (toList (ops.foldl applyOp (create N)))).Nodup ∧
    (∀ i shard, (ops.foldl applyOp (create N)).maps_[i]? = some shard →
      ∀ k ∈ StdMap.keys shard, i = index (ops.foldl applyOp (create N)) k) ∧
    (∀ k v, (k, v) ∈ ops.foldl StdMap.applyOp [] ↔
      ∃ shard, (ops.foldl applyOp (create N)).maps_[
        index (ops.foldl applyOp (create N)) k]? = some shard ∧ (k, v) ∈ shard) ∧
    (ops.foldl applyOp (create N)).maps_.length = N ∧
    (∀ k, index (ops.foldl applyOp (create N)) k = (k % 18446744073709551616).toNat % N) ∧
    (∀ k : Int, 0 ≤ k → k < 18446744073709551616 →
      ((index (ops.foldl applyOp (create N)) k : Nat) : Int) = k % (N : Int)) := by
  classical
  obtain ⟨hwf, hget, hsorted, hlen⟩ := applyOp_refines ops (create N) []
    (WF_create N hN) (fun k => by rw [get_create]; rfl) List.sorted_nil
  have hlenN : (ops.foldl applyOp (create N)).maps_.length = N := by
    rw [hlen]
    simp [create]
  have hnd := StdMap.nodup_of_sorted _ hsorted
  have hidx : ∀ k, index (ops.foldl applyOp (create N)) k =
      (k % 18446744073709551616).toNat % N := by
    intro k
    unfold index
    rw [hlenN]
  refine ⟨?_, ?_, ?_, nodup_keys_toList _ hwf, ?_, ?_, hlenN, hidx, ?_⟩
  · apply StdMap.ext_of_sorted _ _ (sorted_BuildOrdinaryMap _) hsorted
    intro k
    rw [find_BuildOrdinaryMap _ hwf, hget]
  · rw [List.perm_ext_iff_of_nodup (List.Nodup.of_map Prod.fst (nodup_keys_toList _ hwf))
      (List.Nodup.of_map Prod.fst hnd)]
    rintro ⟨k, v⟩
    rw [mem_toList_iff _ hwf, hget, StdMap.find_iff_mem _ hnd]
  · intro fuel hfuel
    exact BasicIterator.elements_eq_flatten _ fuel hfuel
  · intro i shard hshard k hk
    exact ((hwf.2 i shard hshard).2 k hk).symm
  · intro k v
    rw [← StdMap.find_iff_mem _ hnd, ← hget]
    unfold get
    cases hs : (ops.foldl applyOp (create N)).maps_[
        index (ops.foldl applyOp (create N)) k]? with
    | none => simp
    | some shard =>
      simp only [Option.some_bind, Option.some.injEq, exists_eq_left']
      exact StdMap.find_iff_mem shard (hwf.2 _ shard hs).1 k v
  · intro k h0 _
    rw [hidx k, Int.emod_eq_of_lt h0 (by assumption), Int.natCast_mod, Int.toNat_of_nonneg h0]

/-- C26 (amended), witness: three shards and the operations `m[5] += 2`, `m[-1] += 1`,
`m[5] += 3`, `m[7] += 4`, `m.erase(7)`, which leave the map `{-1: 1, 5: 5}`. -/
theorem C26_ConcurrentMap_refines_map_witness :
    0 < 3 ∧
    ([MapOp.accumulate 5 2, .accumulate (-1) 1, .accumulate 5 3, .accumulate 7 4,
      .erase 7] : List (MapOp Int)).foldl StdMap.applyOp [] = [(-1, 1), (5, 5)] ∧
    BuildOrdinaryMap (([MapOp.accumulate 5 2, .accumulate (-1) 1, .accumulate 5 3,
      .accumulate 7 4, .erase 7] : List (MapOp Int)).foldl applyOp (create 3)) =
      ([MapOp.accumulate 5 2, .accumulate (-1) 1, .accumulate 5 3, .accumulate 7 4,
        .erase 7] : List (MapOp Int)).foldl StdMap.applyOp [] ∧
    (toList (([MapOp.accumulate 5 2, .accumulate (-1) 1, .accumulate 5 3,
      .accumulate 7 4, .erase 7] : List (MapOp Int)).foldl applyOp (create 3))).Perm
      (([MapOp.accumulate 5 2, .accumulate (-1) 1, .accumulate 5 3, .accumulate 7 4,
        .erase 7] : List (MapOp Int)).foldl StdMap.applyOp []) :=
  have h := C26_ConcurrentMap_refines_map 3 (by decide)
    ([MapOp.accumulate 5 2, .accumulate (-1) 1, .accumulate 5 3, .accumulate 7 4,
      .erase 7] : List (MapOp Int))
  ⟨by decide, by decide, h.1, h.2.1⟩

end ConcurrentMap

/-! ## `AddDocument` followed by `RemoveDocument` -/

namespace StdMap

variable {K V : Type} [LinearOrder K]

theorem erase_insertSorted (m : StdMap K V) (k : K) (v : V) :
    erase (insertSorted k v m) k = erase m k := by
  induction m with
  | nil => simp [insertSorted, erase]
  | cons p t ih =>
    obtain ⟨k', v'⟩ := p
    unfold insertSorted
    by_cases hlt : k < k'
    · rw [if_pos hlt]
      simp [erase]
    · rw [if_neg hlt]
      have : erase ((k', v') :: insertSorted k v t) k =
          (if k' = k then [] else [(k', v')]) ++ erase (insertSorted k v t) k := by
        unfold erase
        by_cases h : k' = k <;> simp [List.filter_cons, h]
      rw [this, ih]
      unfold erase
      by_cases h : k' = k <;> simp [List.filter_cons, h]

theorem erase_mapAt (m : StdMap K V) (k : K) (f : V → V) :
    erase (mapAt k f m) k = erase m k := by
  induction m with
  | nil => rfl
  | cons p t ih =>
    obtain ⟨k', v'⟩ := p
    unfold mapAt
    by_cases h : k = k'
    · rw [if_pos h]
      subst h
      simp [erase, List.filter_cons]
    · rw [if_neg h]
      have h' : ¬ k' = k := fun e => h e.symm
      unfold erase at ih ⊢
      simp only [List.filter_cons, h', decide_False, Bool.not_false, if_true]
      rw [ih]

/-- Erasing a key undoes an update of the key. -/
theorem erase_update (m : StdMap K V) (k : K) (d : V) (f : V → V) :
    erase (update m k d f) k = erase m k := by
  unfold update
  cases find m k with
  | none => exact erase_insertSorted m k (f d)
  | some v => exact erase_mapAt m k f

end StdMap

namespace StdSet

variable {K : Type} [LinearOrder K]

theorem erase_insert (s : StdSet K) (k : K) (h : k ∉ s) : erase (insert s k) k = s := by
  unfold insert
  rw [if_neg h]
  induction s with
  | nil => simp [insertSorted, erase]
  | cons x t ih =>
    have hx : ¬ x = k := fun e => h (by simp [e])
    have ht : k ∉ t := fun e => h (List.mem_cons_of_mem _ e)
    unfold insertSorted
    by_cases hlt : k < x
    · rw [if_pos hlt]
      unfold erase
      simp only [List.filter_cons, decide_True, Bool.not_true, Bool.false_eq_true, if_false,
        hx, decide_False, Bool.not_false, if_true, List.cons.injEq, true_and]
      rw [List.filter_eq_self]
      intro y hy
      have : ¬ y = k := fun e => ht (e ▸ hy)
      simp [this]
    · rw [if_neg hlt]
      unfold erase at ih ⊢
      simp only [List.filter_cons, hx, decide_False, Bool.not_false, if_true]
      rw [ih ht]

end StdSet

namespace SearchServer

variable {α : Type} [LinearOrderedField α]

/-- The inverted entries after the loop of `AddDocument`, with the new id erased again. -/
theorem erase_inverted_foldl (id : Int) (inv : α) (words : List StringView)
    (s : SearchServer α) (w : StringView) :
    (StdMap.find (words.foldl (AddDocument.step id inv) s).word_to_document_freqs_ w).map
        (fun docs => StdMap.erase docs id) =
      if w ∈ words then
        some (StdMap.erase ((StdMap.find s.word_to_document_freqs_ w).getD []) id)
      else (StdMap.find s.word_to_document_freqs_ w).map (fun docs => StdMap.erase docs id) := by
  induction words generalizing s with
  | nil => simp
  | cons x t ih =>
    rw [List.foldl_cons, ih]
    simp only [AddDocument.step, StdMap.find_update, List.mem_cons]
    by_cases hx : w = x
    · subst hx
      simp only [if_true, Option.getD_some, StdMap.erase_update, true_or, Option.map_some']
      by_cases ht : w ∈ t <;> simp [ht]
    · simp only [hx, if_false, false_or]

/-- The inner loop of `FindAllDocuments` reads the metadata table only. -/
theorem scoreDocs_congr (s s' : SearchServer α) (hdocs : s'.documents_ = s.documents_)
    (pred : DocumentPredicate) (idf : α) (docs : List (Int × α)) (acc : ConcurrentMap α) :
    FindAllDocuments.scoreDocs s' pred idf docs acc =
      FindAllDocuments.scoreDocs s pred idf docs acc := by
  induction docs generalizing acc with
  | nil => rfl
  | cons p t ih =>
    obtain ⟨d, tf⟩ := p
    unfold FindAllDocuments.scoreDocs
    rw [hdocs]
    cases StdMap.atKey s.documents_ d with
    | error e => rfl
    | ok data =>
      simp only
      rw [ih, ih]

theorem plusWord_congr (ln : α → α) (s s' : SearchServer α)
    (hdocs : s'.documents_ = s.documents_)
    (hinv : ∀ w, StdMap.find s'.word_to_document_freqs_ w =
        StdMap.find s.word_to_document_freqs_ w ∨
      (StdMap.find s.word_to_document_freqs_ w = none ∧
        StdMap.find s'.word_to_document_freqs_ w = some []))
    (pred : DocumentPredicate) (acc : ConcurrentMap α) (w : StringView) :
    FindAllDocuments.plusWord ln s' pred acc w = FindAllDocuments.plusWord ln s pred acc w := by
  unfold FindAllDocuments.plusWord ComputeWordInverseDocumentFreq StdMap.atKey GetDocumentCount
  rcases hinv w with h | ⟨h1, h2⟩
  · rw [h, hdocs]
    cases StdMap.find s.word_to_document_freqs_ w with
    | none => rfl
    | some docs =>
      simp only
      exact scoreDocs_congr s s' hdocs pred _ docs acc
  · rw [h1, h2]
    rfl

theorem plusWords_congr (ln : α → α) (s s' : SearchServer α)
    (hdocs : s'.documents_ = s.documents_)
    (hinv : ∀ w, StdMap.find s'.word_to_document_freqs_ w =
        StdMap.find s.word_to_document_freqs_ w ∨
      (StdMap.find s.word_to_document_freqs_ w = none ∧
        StdMap.find s'.word_to_document_freqs_ w = some []))
    (pred : DocumentPredicate) (ws : List StringView) (acc : ConcurrentMap α) :
    FindAllDocuments.plusWords ln s' pred ws acc =
      FindAllDocuments.plusWords ln s pred ws acc := by
  induction ws generalizing acc with
  | nil => rfl
  | cons w t ih =>
    unfold FindAllDocuments.plusWords
    rw [plusWord_congr ln s s' hdocs hinv pred acc w]
    cases FindAllDocuments.plusWord ln s pred acc w with
    | error e => rfl
    | ok acc1 => exact ih acc1

theorem minusWord_congr (s s' : SearchServer α)
    (hinv : ∀ w, StdMap.find s'.word_to_document_freqs_ w =
        StdMap.find s.word_to_document_freqs_ w ∨
      (StdMap.find s.word_to_document_freqs_ w = none ∧
        StdMap.find s'.word_to_document_freqs_ w = some []))
    (acc : ConcurrentMap α) (w : StringView) :
    FindAllDocuments.minusWord s' acc w = FindAllDocuments.minusWord s acc w := by
  unfold FindAllDocuments.minusWord
  rcases hinv w with h | ⟨h1, h2⟩
  · rw [h]
  · rw [h1, h2]
    rfl

theorem drain_congr (s s' : SearchServer α) (hdocs : s'.documents_ = s.documents_)
    (l : List (Int × α)) : FindAllDocuments.drain s' l = FindAllDocuments.drain s l := by
  induction l with
  | nil => rfl
  | cons p t ih =>
    obtain ⟨d, r⟩ := p
    unfold FindAllDocuments.drain
    rw [hdocs, ih]

theorem FindAllDocuments_congr (ln : α → α) (s s' : SearchServer α)
    (hdocs : s'.documents_ = s.documents_)
    (hinv : ∀ w, StdMap.find s'.word_to_document_freqs_ w =
        StdMap.find s.word_to_document_freqs_ w ∨
      (StdMap.find s.word_to_document_freqs_ w = none ∧
        StdMap.find s'.word_to_document_freqs_ w = some []))
    (policy : Policy) (q : Query) (pred : DocumentPredicate) :
    FindAllDocuments ln s' policy q pred = FindAllDocuments ln s policy q pred := by
  unfold FindAllDocuments FindAllDocumentsWith
  rw [plusWords_congr ln s s' hdocs hinv pred]
  cases FindAllDocuments.plusWords ln s pred q.plus_words
      (ConcurrentMap.create (bucketCount policy)) with
  | error e => rfl
  | ok acc =>
    simp only
    have hm : FindAllDocuments.minusWord s' = FindAllDocuments.minusWord s :=
      funext (fun acc => funext (fun w => minusWord_congr s s' hinv acc w))
    rw [hm, drain_congr s s' hdocs]

theorem ParseQuery_congr (s s' : SearchServer α) (hstop : s'.stop_words_ = s.stop_words_)
    (raw : StringView) : ParseQuery s' raw = ParseQuery s raw := by
  have hfun : IsStopWord s' = IsStopWord s := by
    funext w
    unfold IsStopWord
    rw [hstop]
  rw [ParseQuery_eq, ParseQuery_eq, hfun]

/-- The state after a successful `AddDocument(id, ...)` on a state without `id`, followed by
`RemoveDocument(id)`, compared with the state before. -/
theorem add_remove_state (s : SearchServer α) (hs : Reachable s) (id : Int)
    (text : StringView) (status : DocumentStatus) (ratings : List Int)
    (hok : (AddDocument s id text status ratings).2 = .ok ()) :
    (RemoveDocument (AddDocument s id text status ratings).1 id).2 = .ok () ∧
    (RemoveDocument (AddDocument s id text status ratings).1 id).1.stop_words_ =
      s.stop_words_ ∧
    (RemoveDocument (AddDocument s id text status ratings).1 id).1.documents_ =
      s.documents_ ∧
    (RemoveDocument (AddDocument s id text status ratings).1 id).1.document_ids_ =
      s.document_ids_ ∧
    (∀ d, StdMap.find
        (RemoveDocument (AddDocument s id text status ratings).1 id).1.document_to_word_freqs_ d =
      StdMap.find s.document_to_word_freqs_ d) ∧
    (∀ w, StdMap.find
        (RemoveDocument (AddDocument s id text status ratings).1 id).1.word_to_document_freqs_ w =
        StdMap.find s.word_to_document_freqs_ w ∨
      (StdMap.find s.word_to_document_freqs_ w = none ∧
        StdMap.find (RemoveDocument (AddDocument s id text status ratings).1
          id).1.word_to_document_freqs_ w = some [])) := by
  have hinv := hs.inv
  have hinv1 : Inv (AddDocument s id text status ratings).1 :=
    (Reachable.add s id text status ratings hs).inv
  obtain ⟨-, hfind, words, -, hst⟩ := AddDocument_ok s id text status ratings hok
  have hnk : id ∉ StdMap.keys s.documents_ := (StdMap.find_eq_none_iff _ _).1 hfind
  have hnid : id ∉ s.document_ids_ := fun h => hnk ((hinv.ids_docs id).1 h)
  have hsf := split_fields s text
  have hff := foldl_step_fields id (1 / (words.length : α)) words
    (SplitIntoWordsNoStopAndAddWords s text).1
  have hstop1 : (AddDocument s id text status ratings).1.stop_words_ = s.stop_words_ := by
    rw [hst]
    exact hff.1.trans hsf.1
  have hdocs1 : (AddDocument s id text status ratings).1.documents_ =
      StdMap.emplace s.documents_ id ⟨ComputeAverageRating ratings, status⟩ := by
    rw [hst]
  have hids1 : (AddDocument s id text status ratings).1.document_ids_ =
      StdSet.insert s.document_ids_ id := by
    rw [hst]
  have hfwd1 : ∀ d, d ≠ id →
      StdMap.find (AddDocument s id text status ratings).1.document_to_word_freqs_ d =
        StdMap.find s.document_to_word_freqs_ d := by
    intro d hd
    rw [hst]
    simp only
    rw [find_forward_foldl_ne id _ words _ d hd, hsf.2.2.1]
  have hinv1' : ∀ w,
      (StdMap.find (AddDocument s id text status ratings).1.word_to_document_freqs_ w).map
        (fun docs => StdMap.erase docs id) =
      if w ∈ words then
        some (StdMap.erase ((StdMap.find s.word_to_document_freqs_ w).getD []) id)
      else (StdMap.find s.word_to_document_freqs_ w).map (fun docs => StdMap.erase docs id) := by
    intro w
    rw [hst]
    simp only
    rw [erase_inverted_foldl, hsf.2.1]
  have hmem1 : id ∈ (AddDocument s id text status ratings).1.document_ids_ := by
    rw [hids1, StdSet.mem_insert]
    exact Or.inl rfl
  obtain ⟨rok, rstop, -, rdocs, rids, rfwd, -⟩ :=
    RemoveDocument_ok (AddDocument s id text status ratings).1 id hmem1
  have rinv := RemoveDocument_inverted (AddDocument s id text status ratings).1 hinv1 id hmem1
  have hfwdnone : StdMap.find s.document_to_word_freqs_ id = none := by
    rw [StdMap.find_eq_none_iff]
    exact fun h => hnid (hinv.fwd_ids id h)
  have hentry : ∀ w docs, StdMap.find s.word_to_document_freqs_ w = some docs →
      StdMap.erase docs id = docs := by
    intro w docs hdocs
    apply StdMap.erase_of_not_mem
    rw [← StdMap.find_eq_none_iff]
    have hm := hinv.mirror w id
    unfold tfInverted tfForward at hm
    rw [hdocs, hfwdnone] at hm
    exact hm
  refine ⟨rok, rstop.trans hstop1, ?_, ?_, ?_, ?_⟩
  · rw [rdocs, hdocs1]
    unfold StdMap.emplace
    rw [StdMap.erase_update, StdMap.erase_of_not_mem _ _ hnk]
  · rw [rids, hids1]
    exact StdSet.erase_insert _ _ hnid
  · intro d
    rw [rfwd d]
    by_cases hd : d = id
    · rw [if_pos hd, hd, hfwdnone]
    · rw [if_neg hd, hfwd1 d hd]
  · intro w
    rw [rinv w, hinv1' w]
    cases hf : StdMap.find s.word_to_document_freqs_ w with
    | none =>
      by_cases hw : w ∈ words
      · rw [if_pos hw]
        exact Or.inr ⟨rfl, rfl⟩
      · rw [if_neg hw]
        exact Or.inl rfl
    | some docs =>
      have he := hentry w docs hf
      by_cases hw : w ∈ words
      · rw [if_pos hw]
        simp only [Option.getD_some, he]
        exact Or.inl trivial
      · rw [if_neg hw]
        simp only [Option.map_some', he]
        exact Or.inl trivial

/-- C28: for every reachable index state `s`, every id that is not negative and not in
`s`, and every document text without control characters, `AddDocument(id, ...)` succeeds,
the following `RemoveDocument(id)` succeeds, and the state after both is observationally
equal to `s`: `GetDocumentCount`, the id sequence, `GetWordFrequencies` of every id, and the
results of `FindAllDocuments` and `FindTopDocuments` for every logarithm, policy, query and
predicate are the same as in `s`.  Internally the inverted index may keep empty entries for
the terms of the removed document. -/
theorem C28_add_remove_observationally_equal (s : SearchServer α) (hs : Reachable s)
    (id : Int) (text : StringView) (status : DocumentStatus) (ratings : List Int)
    (hid : id ∉ documentIds s) (hnonneg : 0 ≤ id)
    (hvalid : ∀ w ∈ SplitIntoWords text, ∀ c ∈ w, 32 ≤ c.toNat) :
    (AddDocument s id text status ratings).2 = .ok () ∧
    (RemoveDocument (AddDocument s id text status ratings).1 id).2 = .ok () ∧
    GetDocumentCount (RemoveDocument (AddDocument s id text status ratings).1 id).1 =
      GetDocumentCount s ∧
    documentIds (RemoveDocument (AddDocument s id text status ratings).1 id).1 =
      documentIds s ∧
    (∀ d, GetWordFrequencies (RemoveDocument (AddDocument s id text status ratings).1 id).1 d =
      GetWordFrequencies s d) ∧
    (∀ (ln : α → α) policy query pred,
      FindAllDocuments ln (RemoveDocument (AddDocument s id text status ratings).1 id).1
        policy query pred = FindAllDocuments ln s policy query pred) ∧
    (∀ (ln : α → α) policy raw_query pred,
      FindTopDocuments ln (RemoveDocument (AddDocument s id text status ratings).1 id).1
        policy raw_query pred = FindTopDocuments ln s policy raw_query pred) ∧
    (∀ w, StdMap.find
        (RemoveDocument (AddDocument s id text status ratings).1 id).1.word_to_document_freqs_ w =
        StdMap.find s.word_to_document_freqs_ w ∨
      (StdMap.find s.word_to_document_freqs_ w = none ∧
        StdMap.find (RemoveDocument (AddDocument s id text status ratings).1
          id).1.word_to_document_freqs_ w = some [])) := by
  have hok : (AddDocument s id text status ratings).2 = .ok () := by
    rw [AddDocument_result]
    have h1 : ¬ (id < 0 ∨ StdMap.count s.documents_ id > 0) := by
      rintro (h | h)
      · exact absurd hnonneg (not_le.2 h)
      · exact hid ((hs.inv.ids_docs id).2 ((count_pos_iff _ _).1 h))
    have h2 : ¬ ∃ w ∈ SplitIntoWords text, IsValidWord w = false := by
      rintro ⟨w, hw, hv⟩
      obtain ⟨c, hc, hlt⟩ := (IsValidWord_eq_false_iff w).1 hv
      exact absurd (hvalid w hw c hc) (not_le.2 hlt)
    rw [if_neg h1, if_neg h2]
  obtain ⟨rok, rstop, rdocs, rids, rfwd, rinv⟩ :=
    add_remove_state s hs id text status ratings hok
  have hall : ∀ (ln : α → α) policy query pred,
      FindAllDocuments ln (RemoveDocument (AddDocument s id text status ratings).1 id).1
        policy query pred = FindAllDocuments ln s policy query pred :=
    fun ln policy query pred => FindAllDocuments_congr ln s _ rdocs rinv policy query pred
  refine ⟨hok, rok, ?_, rids, ?_, hall, ?_, rinv⟩
  · unfold GetDocumentCount
    rw [rdocs]
  · intro d
    unfold GetWordFrequencies
    rw [rfwd d]
  · intro ln policy raw_query pred
    unfold FindTopDocuments
    rw [ParseQuery_congr s _ rstop raw_query]
    cases ParseQuery s raw_query with
    | error e => rfl
    | ok query =>
      simp only
      rw [hall ln policy query pred]

set_option maxRecDepth 100000 in
/-- C28, witness: the document 7, "dog in the fog", added to and removed from the server
that holds the document 42, "cat in the city"; the inverted index keeps the empty entries
of `dog` and `fog`. -/
theorem C28_add_remove_observationally_equal_witness :
    Reachable (catServer ℚ) ∧ (7 : Int) ∉ documentIds (catServer ℚ) ∧ (0 : Int) ≤ 7 ∧
    (∀ w ∈ SplitIntoWords "dog in the fog".toList, ∀ c ∈ w, 32 ≤ c.toNat) ∧
    documentIds (RemoveDocument
      (AddDocument (catServer ℚ) 7 "dog in the fog".toList .ACTUAL [5]).1 7).1 =
      documentIds (catServer ℚ) ∧
    (∀ d, GetWordFrequencies (RemoveDocument
      (AddDocument (catServer ℚ) 7 "dog in the fog".toList .ACTUAL [5]).1 7).1 d =
      GetWordFrequencies (catServer ℚ) d) ∧
    (∀ (ln : ℚ → ℚ) policy raw_query pred,
      FindTopDocuments ln (RemoveDocument
        (AddDocument (catServer ℚ) 7 "dog in the fog".toList .ACTUAL [5]).1 7).1
        policy raw_query pred = FindTopDocuments ln (catServer ℚ) policy raw_query pred) ∧
    StdMap.keys (RemoveDocument
      (AddDocument (catServer ℚ) 7 "dog in the fog".toList .ACTUAL [5]).1
        7).1.word_to_document_freqs_ =
      ["cat".toList, "city".toList, "dog".toList, "fog".toList, "in".toList, "the".toList] ∧
    StdMap.keys (catServer ℚ).word_to_document_freqs_ =
      ["cat".toList, "city".toList, "in".toList, "the".toList] :=
  have h := C28_add_remove_observationally_equal (catServer ℚ) (reachable_catServer ℚ) 7
    "dog in the fog".toList .ACTUAL [5] (by decide) (by decide) (by decide)
  ⟨reachable_catServer ℚ, by decide, by decide, by decide, h.2.2.2.1, h.2.2.2.2.1,
    h.2.2.2.2.2.2.1, rfl, rfl⟩

end SearchServer
